import Mathlib

/-!
Forward N-prong secondary-vertex fitter (`FwdDCAFitterN.h`).

A shallow embedding of `o2::vertexing::FwdDCAFitterN<N>` and of its helper
structs `FwdTrackCovI` and `FwdTrackDeriv`.

Conventions of the embedding.

* `float` and `double` values are exact rationals (`ℚ`): rounding, overflow,
  infinities and NaN are outside the model of the values of a fit. Whether
  `FwdTrackCovI::set` throws is decided by a comparison of single-precision
  numbers; for it the conversions of the source are modelled beside the exact
  function (`toFloat`, `FwdTrackCovI.setFloat`, `processFloat`).
* C arrays (`std::array`, `xDCA[2]`, ...) are total functions of a `Nat` index;
  the bound of every loop of the source is kept, so only indices below the
  array size are ever written.
* A `for (int i = n; i--;)` loop is `forDown n body`: the body runs for
  `i = n-1, n-2, ..., 0` in this order.
* A member function that mutates the fitter takes the state and returns the new
  state; a `bool` result is paired with the state; `throw` is `Except.error`.
* In `process` the call that computes the crossing set (`mCrossings.set`) is
  commented out in the source, so the crossing set of a fit is whatever
  `mCrossings` holds when `process` is entered. The member is private and no
  member function fills it: a state with seeds describes the code of `process`
  and of the minimisers as written, and is not a state that a fitter object
  reaches (`Reachable`).
* Recursive loops carry a bound on the number of passes for the recursion only;
  the loop conditions are those of the source and the bounds supplied are proved
  to be never exhausted (`minimizeChi2Loop_fuel`, `minimizeChi2NoErrLoop_fuel`,
  `crossingLoop_fuel`).
-/

namespace o2.vertexing

/-! ## Numeric containers -/

/-- The source's `ROOT::Math::SVector<double, 3>`. -/
abbrev Vec3D := Fin 3 → ℚ

/-- The source's `ROOT::Math::SMatrix<double, 3, 3, MatRepStd<double, 3>>`. -/
abbrev MatStd3D := Matrix (Fin 3) (Fin 3) ℚ

/-- The source's `ROOT::Math::SMatrix<double, 3, 3, MatRepSym<double, 3>>`: only the lower
triangle is stored, in the order `XX, XY, YY, XZ, YZ, ZZ` of the source `enum`
(array offsets 0..5); element `(i, j)` and element `(j, i)` are the same cell. -/
structure MatSym3D where
  XX : ℚ
  XY : ℚ
  YY : ℚ
  XZ : ℚ
  YZ : ℚ
  ZZ : ℚ
deriving DecidableEq

/-- Element access `m(i, j)` of a symmetric matrix, as a full 3x3 matrix. -/
def MatSym3D.toStd (m : MatSym3D) : MatStd3D :=
  !![m.XX, m.XY, m.XZ;
     m.XY, m.YY, m.YZ;
     m.XZ, m.YZ, m.ZZ]

/-- The all-zero symmetric matrix (`memset(arrmat, 0, sizeof(mWeightInv))`, and
a default-constructed `SMatrix`). -/
def MatSym3D.zero : MatSym3D :=
  { XX := 0, XY := 0, YY := 0, XZ := 0, YZ := 0, ZZ := 0 }

/-- Determinant of a symmetric 3x3 matrix, expanded along the first row. -/
def MatSym3D.det (m : MatSym3D) : ℚ :=
  m.XX * (m.YY * m.ZZ - m.YZ * m.YZ) - m.XY * (m.XY * m.ZZ - m.YZ * m.XZ)
    + m.XZ * (m.XY * m.YZ - m.YY * m.XZ)

/-- Modelled from the spec: `SMatrix::Invert()` belongs to the ROOT library and
is not under src/. The spec says of it only that the summed 3x3 matrix is
inverted and that the inversion can fail. Here it fails (`none`, the `false`
result) exactly on a singular matrix and otherwise returns the exact inverse,
computed by cofactors; the inverse of a symmetric matrix is symmetric, so the
result is stored in the same packed layout. -/
def MatSym3D.Invert (m : MatSym3D) : Option MatSym3D :=
  if m.det = 0 then none
  else
    let d := 1 / m.det
    some { XX := (m.YY * m.ZZ - m.YZ * m.YZ) * d
           XY := (m.XZ * m.YZ - m.XY * m.ZZ) * d
           YY := (m.XX * m.ZZ - m.XZ * m.XZ) * d
           XZ := (m.XY * m.YZ - m.XZ * m.YY) * d
           YZ := (m.XY * m.XZ - m.XX * m.YZ) * d
           ZZ := (m.XX * m.YY - m.XY * m.XY) * d }

/-- The source's `for (int i = n; i--;) body(i)`: runs the body for `i = n-1` down to `0`. -/
def forDown {σ : Type} : Nat → (Nat → σ → σ) → σ → σ
  | 0, _, s => s
  | n + 1, body, s => forDown n body (body n s)

/-- The same loop with a body that may throw: the first failure ends the loop. -/
def forDownM {σ : Type} : Nat → (Nat → σ → Except String σ) → σ → Except String σ
  | 0, _, s => .ok s
  | n + 1, body, s =>
    match body n s with
    | .ok s' => forDownM n body s'
    | .error e => .error e

/-! ## The track capability (external) -/

/-- What the fitter reads from an `o2::track::TrackParCovFwd` through its
getters: position, planar covariance terms, the direction parameters used by
`FwdTrackDeriv::set`, momentum, charge and the packed 6x6 covariance. The class
itself is not under src/; propagation is a parameter of the model (`External`). -/
structure TrackParCovFwd where
  getX : ℚ
  getY : ℚ
  getZ : ℚ
  getSigma2X : ℚ
  getSigma2Y : ℚ
  getSigmaXY : ℚ
  getSnp : ℚ
  getTanl : ℚ
  getPxPyPzGlo : Fin 3 → ℚ
  getCharge : Int
  getCovXYZPxPyPzGlo : Fin 21 → ℚ

/-- The source's `using Track = o2::track::TrackParCovFwd`. -/
abbrev Track := TrackParCovFwd

/-! ## `FwdTrackCovI` -/

/-- Inverse covariance of the track point, augmented by a dummy Z error. -/
structure FwdTrackCovI where
  sxx : ℚ
  syy : ℚ
  sxy : ℚ
  szz : ℚ
deriving DecidableEq

/-- The source's `FwdTrackCovI::set(trc, zerrFactor)` in exact arithmetic: inverts
the planar covariance analytically, or throws when its determinant is not
positive. The source holds `cxx`, `cyy`, `cxy`, `czz`, `detXY` and the four
fields in `float`; `FwdTrackCovI.setFloat` is the same function with these
conversions, which decide whether a covariance near a singular one is
accepted. -/
def FwdTrackCovI.set (self : FwdTrackCovI) (trc : Track) (zerrFactor : ℚ) :
    Except String FwdTrackCovI :=
  let cxx := trc.getSigma2X
  let cyy := trc.getSigma2Y
  let cxy := trc.getSigmaXY
  let czz := cyy * zerrFactor
  let detXY := cxx * cyy - cxy * cxy
  if detXY > 0 then
    let detXYI := 1 / detXY
    .ok { self with
          sxx := cyy * detXYI
          syy := cxx * detXYI
          sxy := -cxy * detXYI
          szz := 1 / czz }
  else
    .error "invalid track covariance"

/-- The source's `FwdTrackDeriv`: derivatives (up to 2nd) of the track position over z. -/
structure FwdTrackDeriv where
  dxdz : ℚ
  dydz : ℚ
  d2xdz2 : ℚ
  d2ydz2 : ℚ
deriving DecidableEq

/-- The source's `o2::track::CrossInfo` (not under src/): the transverse crossing points of
the two reference trajectories, `nDCA` of them, stored in `xDCA[2]`, `yDCA[2]`. -/
structure CrossInfo where
  xDCA : Nat → ℚ
  yDCA : Nat → ℚ
  nDCA : Int

/-! ## Array helpers -/

/-- Assignment `a[i] = v`. -/
def upd {α : Type} (a : Nat → α) (i : Nat) (v : α) : Nat → α :=
  fun k => if k = i then v else a k

/-- Assignment `a[i][j] = v`. -/
def upd2 {α : Type} (a : Nat → Nat → α) (i j : Nat) (v : α) : Nat → Nat → α :=
  fun k l => if k = i ∧ l = j then v else a k l

/-- Assignment `v[c] = x` to one component of a 3-vector. -/
def Vec3D.setAt (v : Vec3D) (c : Fin 3) (x : ℚ) : Vec3D :=
  fun k => if k = c then x else v k

/-- The source's `MatSymND` (`MatRepSym<double, N>`): cell `(i, j)` and cell `(j, i)` are the
same storage; the model keeps the lower triangle, `j ≤ i`. Read access. -/
def symGet (m : Nat → Nat → ℚ) (i j : Nat) : ℚ :=
  if j ≤ i then m i j else m j i

/-- Write access `m[i][j] = v` to a symmetric matrix. -/
def symSet (m : Nat → Nat → ℚ) (i j : Nat) (v : ℚ) : Nat → Nat → ℚ :=
  if j ≤ i then upd2 m i j v else upd2 m j i v

/-- Modelled from the spec: `SMatrix::Invert()` of ROOT for the symmetric
`N x N` matrix of second derivatives (not under src/). As for the 3x3 case, it
fails (`none`) exactly on a singular matrix and otherwise returns the exact
inverse (adjugate over determinant), stored in the same symmetric layout. -/
def MatSymND.Invert (N : Nat) (m : Nat → Nat → ℚ) : Option (Nat → Nat → ℚ) :=
  let M : Matrix (Fin N) (Fin N) ℚ := Matrix.of (fun i j => symGet m i.val j.val)
  if M.det = 0 then none
  else
    some (fun i j =>
      if h : i < N ∧ j < N then (1 / M.det) * M.adjugate ⟨i, h.1⟩ ⟨j, h.2⟩ else m i j)

/-- Product `m * v` of a symmetric `N x N` matrix and an `N`-vector. -/
def MatSymND.mulVec (N : Nat) (m : Nat → Nat → ℚ) (v : Nat → ℚ) : Nat → ℚ :=
  fun i => ∑ j in Finset.range N, symGet m i j * v j

/-! ## The fitter state -/

/-- The data members of `FwdDCAFitterN<N>`; `MAXHYP = 2` hypothesis slots. -/
structure FwdDCAFitterN (N : Nat) where
  mDResidDx : Nat → Nat → Vec3D
  mD2ResidDx2 : Nat → Nat → Vec3D
  mDChi2Dz : Nat → ℚ
  mD2Chi2Dz2 : Nat → Nat → ℚ
  mCosDif : Nat → Nat → ℚ
  mSinDif : Nat → Nat → ℚ
  mOrigTrPtr : Nat → Track
  mCrossings : CrossInfo
  mTrcEInv : Nat → Nat → FwdTrackCovI
  mCandTr : Nat → Nat → Track
  mTrCFVT : Nat → Nat → MatStd3D
  mTrDer : Nat → Nat → FwdTrackDeriv
  mTrPos : Nat → Nat → Vec3D
  mTrRes : Nat → Nat → Vec3D
  mPCA : Nat → Vec3D
  mChi2 : Nat → ℚ
  mNIters : Nat → Int
  mTrPropDone : Nat → Bool
  mWeightInv : MatSym3D
  mOrder : Nat → Nat
  mCurHyp : Nat
  mCrossIDCur : Nat
  mCrossIDAlt : Int
  mAllowAltPreference : Bool
  mUseAbsDCA : Bool
  mPropagateToPCA : Bool
  mMaxIter : Int
  mBz : ℚ
  mMaxR2 : ℚ
  mMaxDXIni : ℚ
  mMinParamChange : ℚ
  mMinRelChi2Change : ℚ
  mMaxChi2 : ℚ
  mMaxDist2ToMergeSeeds : ℚ

/-! ## External collaborators -/

/-- Operations the fitter calls but that are not defined in the fitter source:
the track capability (`TrackFwd.h`), `std::sqrt`, the values of the locals that
`FwdcalcPCANoErr` reads before writing them, and the per-track z scan of
`findZatXY`, whose loop does not type-check as written (an array of references
and an undeclared `finalZ`): `findZscan trc X Y` gives the track as the scan
leaves it and the `finalZ` the scan yields for it. -/
structure External (N : Nat) where
  sqrt : ℚ → ℚ
  getCurvature : Track → ℚ → ℚ
  propagateToZlinear : Track → ℚ → Track
  propagateParamToZlinear : Track → ℚ → Track
  findZscan : Track → ℚ → ℚ → Track × ℚ
  indeterminateY : FwdDCAFitterN N → Nat → ℚ
  indeterminateZ : FwdDCAFitterN N → Nat → ℚ

/-- The source's `FwdTrackDeriv::set(trc, bz)` in exact arithmetic. The source
holds `snp`, `csp`, `crv2c`, `tgl`, `tglI` and the four derivatives in `float`;
for dyadic values of few digits the two agree. At `tgl = 0` the source divides
by zero (`tglI` is infinite), which is outside the number model: there
`1 / tgl` is 0 here. -/
def FwdTrackDeriv.set {N : Nat} (self : FwdTrackDeriv) (ext : External N) (trc : Track) (bz : ℚ) :
    FwdTrackDeriv :=
  let snp := trc.getSnp
  let csp := ext.sqrt ((1 - snp) * (1 + snp))
  let crv2c := ext.getCurvature trc bz
  let tgl := trc.getTanl
  let tglI := 1 / tgl
  { self with
    dxdz := csp * tglI
    dydz := snp * tglI
    d2xdz2 := crv2c * snp * tglI * tglI
    d2ydz2 := -crv2c * csp * tglI * tglI }

/-- How one pass through the body of the Newton loop of a minimiser ends: with
`return false`, with `break` (stop criterion met), or at its end, where the loop
condition is tested next. The last two carry the updated chi2. -/
inductive PassResult (N : Nat) where
  | returnFalse (s : FwdDCAFitterN N)
  | converged (chi2Upd : ℚ) (s : FwdDCAFitterN N)
  | next (chi2Upd : ℚ) (s : FwdDCAFitterN N)

/-- The fitter state at the end of a pass. -/
def PassResult.state {N : Nat} : PassResult N → FwdDCAFitterN N
  | .returnFalse s => s
  | .converged _ s => s
  | .next _ s => s

/-- The updated chi2 of a pass that computed one. -/
def PassResult.chi2 {N : Nat} : PassResult N → Option ℚ
  | .returnFalse _ => none
  | .converged c _ => some c
  | .next c _ => some c

namespace FwdDCAFitterN

variable {N : Nat}

/-- The source's `static constexpr int MAXHYP = 2`. -/
def MAXHYP : Nat := 2

/-- The source's `static constexpr float ZerrFactor = 5.`. -/
def ZerrFactor : ℚ := 5

/-- The source's `static constexpr double NInv = 1. / N`. -/
def NInv (N : Nat) : ℚ := 1 / (N : ℚ)

/-- The source's `getChi2AtPCACandidate(cand)`. -/
def getChi2AtPCACandidate (s : FwdDCAFitterN N) (cand : Nat) : ℚ :=
  s.mChi2 (s.mOrder cand)

/-- The source's `getPCACandidate(cand)`. -/
def getPCACandidate (s : FwdDCAFitterN N) (cand : Nat) : Vec3D :=
  s.mPCA (s.mOrder cand)

/-- The source's `getNIterations(cand)`. -/
def getNIterations (s : FwdDCAFitterN N) (cand : Nat) : Int :=
  s.mNIters (s.mOrder cand)

/-- The source's `getNCandidates()`. -/
def getNCandidates (s : FwdDCAFitterN N) : Nat :=
  s.mCurHyp

/-- The source's `setMaxR(r)`. -/
def setMaxR (s : FwdDCAFitterN N) (r : ℚ) : FwdDCAFitterN N :=
  { s with mMaxR2 := r * r }

/-- The source's `clear()`. -/
def clear (s : FwdDCAFitterN N) : FwdDCAFitterN N :=
  { s with mCurHyp := 0, mAllowAltPreference := true }

/-- The source's `setTrackPos(pnt, tr)`. -/
def setTrackPos (tr : Track) : Vec3D :=
  ![tr.getX, tr.getY, tr.getZ]

/-- The matrix `miei` that `FwdcalcPCACoefs` builds from the inverse covariance
of one prong (`Mi * Ei` with `Mi = I`). -/
def miei (tcov : FwdTrackCovI) : MatStd3D :=
  !![tcov.sxx, tcov.sxy, 0;
     tcov.sxy, tcov.syy, 0;
     0, 0, tcov.szz]

/-- The source's `FwdcalcInverseWeight()`: sums the inverse covariances of the prongs of the
current hypothesis in `mWeightInv` and inverts the sum in place. After a failed
inversion the content of `mWeightInv` is not read again before it is reset; the
model leaves the sum there. -/
def FwdcalcInverseWeight (s : FwdDCAFitterN N) : Bool × FwdDCAFitterN N :=
  let s1 := { s with mWeightInv := MatSym3D.zero }
  let s2 := forDown N (fun i (t : FwdDCAFitterN N) =>
    let tcov := t.mTrcEInv t.mCurHyp i
    { t with mWeightInv :=
        { XX := t.mWeightInv.XX + tcov.sxx
          XY := t.mWeightInv.XY + tcov.sxy
          XZ := t.mWeightInv.XZ + 0
          YY := t.mWeightInv.YY + tcov.syy
          YZ := t.mWeightInv.YZ + 0
          ZZ := t.mWeightInv.ZZ + tcov.szz } }) s1
  match s2.mWeightInv.Invert with
  | some m => (true, { s2 with mWeightInv := m })
  | none => (false, s2)

/-- The source's `FwdcalcPCACoefs()`: the coefficient matrices `Ti` of the decomposition
`V = sum Ti * Pi`. -/
def FwdcalcPCACoefs (s : FwdDCAFitterN N) : Bool × FwdDCAFitterN N :=
  let r := FwdcalcInverseWeight s
  if !r.1 then (false, r.2)
  else
    (true, forDown N (fun i (t : FwdDCAFitterN N) =>
      let tcov := t.mTrcEInv t.mCurHyp i
      { t with mTrCFVT := upd2 t.mTrCFVT t.mCurHyp i (t.mWeightInv.toStd * miei tcov) }) r.2)

/-- The source's `FwdcalcChi2()`: the current chi2 of the weighted mode. -/
def FwdcalcChi2 (s : FwdDCAFitterN N) : ℚ :=
  forDown N (fun i chi2 =>
    let res := s.mTrRes s.mCurHyp i
    let covI := s.mTrcEInv s.mCurHyp i
    chi2 + (res 0 * res 0 * covI.sxx + res 1 * res 1 * covI.syy + res 2 * res 2 * covI.szz
      + 2 * res 1 * res 2 * covI.sxy)) 0

/-- The source's `FwdcalcChi2NoErr()`: the current chi2 of the absolute-distance mode. -/
def FwdcalcChi2NoErr (s : FwdDCAFitterN N) : ℚ :=
  forDown N (fun i chi2 =>
    let res := s.mTrRes s.mCurHyp i
    chi2 + (res 0 * res 0 + res 1 * res 1 + res 2 * res 2)) 0

/-- The source's `ROOT::Math::Dot` of two 3-vectors. -/
def Dot (a b : Vec3D) : ℚ :=
  a 0 * b 0 + a 1 * b 1 + a 2 * b 2

/-- The source's `FwdcalcResidDerivatives()`: derivatives of residual `i` over the parameter
of track `j`, weighted mode. -/
def FwdcalcResidDerivatives (s : FwdDCAFitterN N) : FwdDCAFitterN N :=
  forDown N (fun i (si : FwdDCAFitterN N) =>
    forDown N (fun j (t : FwdDCAFitterN N) =>
      let matT := t.mTrCFVT t.mCurHyp j
      let trDx := t.mTrDer t.mCurHyp j
      let matMT : MatStd3D := matT
      let dr1 : Vec3D :=
        ![-(matMT 0 0 * trDx.dxdz + matMT 0 1 * trDx.dydz + matMT 0 2),
          -(matMT 1 0 * trDx.dxdz + matMT 1 1 * trDx.dydz + matMT 1 2),
          -(matMT 2 0 * trDx.dxdz + matMT 2 1 * trDx.dydz + matMT 2 2)]
      let dr2 : Vec3D :=
        ![-(matMT 0 1 * trDx.d2ydz2 + matMT 0 0 * trDx.d2xdz2),
          -(matMT 1 1 * trDx.d2ydz2 + matMT 1 0 * trDx.d2xdz2),
          -(matMT 2 1 * trDx.d2ydz2 + matMT 2 0 * trDx.d2xdz2)]
      let dr1f : Vec3D :=
        if i = j then ![dr1 0 + trDx.dxdz, dr1 1 + trDx.dydz, dr1 2 + 1] else dr1
      let dr2f : Vec3D :=
        if i = j then ![dr2 0 + trDx.d2xdz2, dr2 1 + trDx.d2ydz2, dr2 2] else dr2
      { t with
        mDResidDx := upd2 t.mDResidDx i j dr1f
        mD2ResidDx2 := upd2 t.mD2ResidDx2 i j dr2f }) si) s

/-- The source's `FwdcalcResidDerivativesNoErr()`: the same derivatives in the
absolute-distance mode. -/
def FwdcalcResidDerivativesNoErr (s : FwdDCAFitterN N) : FwdDCAFitterN N :=
  let NInv1 : ℚ := 1 - NInv N
  forDown N (fun i (si : FwdDCAFitterN N) =>
    let trDxi := si.mTrDer si.mCurHyp i
    let s1 : FwdDCAFitterN N :=
      { si with
        mDResidDx := upd2 si.mDResidDx i i ![NInv1 * trDxi.dxdz, NInv1 * trDxi.dydz, NInv1]
        mD2ResidDx2 := upd2 si.mD2ResidDx2 i i ![NInv1 * trDxi.d2xdz2, NInv1 * trDxi.d2ydz2, 0] }
    forDown i (fun j (t : FwdDCAFitterN N) =>
      let trDxj := t.mTrDer t.mCurHyp j
      let d1 := upd2 (upd2 t.mDResidDx i j ![-trDxj.dxdz * NInv N, -trDxj.dydz * NInv N, -1 * NInv N])
        j i ![-trDxi.dxdz * NInv N, -trDxi.dydz * NInv N, -1 * NInv N]
      let d2 := upd2 (upd2 t.mD2ResidDx2 i j ![-trDxj.d2xdz2 * NInv N, -trDxj.d2ydz2 * NInv N, 0])
        j i ![-trDxi.d2xdz2 * NInv N, -trDxi.d2ydz2 * NInv N, 0]
      { t with mDResidDx := d1, mD2ResidDx2 := d2 }) s1) s

/-- The source's `FwdcalcRMatrices()`. -/
def FwdcalcRMatrices (s : FwdDCAFitterN N) : FwdDCAFitterN N :=
  forDown N (fun i (si : FwdDCAFitterN N) =>
    forDown i (fun j (t : FwdDCAFitterN N) =>
      { t with
        mCosDif := symSet t.mCosDif i j (1 * NInv N)
        mSinDif := symSet t.mSinDif i j 0 }) si) s

/-- The first loop nest of `FwdcalcChi2Derivatives()`: the gradient `mDChi2Dz`
and the local array `covIDrDx` (second component of the result). -/
def FwdcalcChi2Derivatives1 (s : FwdDCAFitterN N) : FwdDCAFitterN N × (Nat → Nat → Vec3D) :=
  forDown N (fun i (p : FwdDCAFitterN N × (Nat → Nat → Vec3D)) =>
    let p0 : FwdDCAFitterN N × (Nat → Nat → Vec3D) :=
      ({ p.1 with mDChi2Dz := upd p.1.mDChi2Dz i 0 }, p.2)
    forDown N (fun j (q : FwdDCAFitterN N × (Nat → Nat → Vec3D)) =>
      let res := q.1.mTrRes q.1.mCurHyp j
      let covI := q.1.mTrcEInv q.1.mCurHyp j
      let dr1 := q.1.mDResidDx j i
      let cidr : Vec3D :=
        ![covI.sxx * dr1 0 + covI.sxy * dr1 1,
          covI.sxy * dr1 0 + covI.syy * dr1 1,
          covI.szz * dr1 2]
      ({ q.1 with mDChi2Dz := upd q.1.mDChi2Dz i (q.1.mDChi2Dz i + Dot res cidr) },
        upd2 q.2 i j cidr)) p0) (s, fun _ _ => 0)

/-- The source's `FwdcalcChi2Derivatives()`: first and second derivatives of the weighted
chi2 over the track parameters. -/
def FwdcalcChi2Derivatives (s : FwdDCAFitterN N) : FwdDCAFitterN N :=
  let p := FwdcalcChi2Derivatives1 s
  let covIDrDx := p.2
  forDown N (fun i (si : FwdDCAFitterN N) =>
    forDown (i + 1) (fun j (sj : FwdDCAFitterN N) =>
      let s0 : FwdDCAFitterN N := { sj with mD2Chi2Dz2 := symSet sj.mD2Chi2Dz2 i j 0 }
      forDown N (fun k (t : FwdDCAFitterN N) =>
        let dr1j := t.mDResidDx k j
        let cidrkj := covIDrDx i k
        let a := symGet t.mD2Chi2Dz2 i j + Dot dr1j cidrkj
        let b :=
          if k = j then
            let res := t.mTrRes t.mCurHyp k
            let covI := t.mTrcEInv t.mCurHyp k
            let dr2ij := t.mD2ResidDx2 k j
            a + (res 0 * (covI.sxx * dr2ij 0 + covI.sxy * dr2ij 1)
              + res 1 * (covI.sxy * dr2ij 0 + covI.syy * dr2ij 1)
              + res 2 * covI.szz * dr2ij 2)
          else a
        { t with mD2Chi2Dz2 := symSet t.mD2Chi2Dz2 i j b }) s0) si) p.1

/-- The source's `FwdcalcChi2DerivativesNoErr()`: first and second derivatives of the
absolute-distance chi2 over the track parameters. -/
def FwdcalcChi2DerivativesNoErr (s : FwdDCAFitterN N) : FwdDCAFitterN N :=
  forDown N (fun i (si : FwdDCAFitterN N) =>
    let s0 : FwdDCAFitterN N := { si with mDChi2Dz := upd si.mDChi2Dz i 0 }
    forDown N (fun j (sj : FwdDCAFitterN N) =>
      let res := sj.mTrRes sj.mCurHyp j
      let dr1 := sj.mDResidDx j i
      let s1 : FwdDCAFitterN N :=
        { sj with mDChi2Dz := upd sj.mDChi2Dz i (sj.mDChi2Dz i + Dot res dr1) }
      if i ≥ j then
        let c0 := Dot (s1.mTrRes s1.mCurHyp i) (s1.mD2ResidDx2 i j)
        let s2 : FwdDCAFitterN N := { s1 with mD2Chi2Dz2 := symSet s1.mD2Chi2Dz2 i j c0 }
        forDown N (fun k (t : FwdDCAFitterN N) =>
          let c := symGet t.mD2Chi2Dz2 i j + Dot (t.mDResidDx k i) (t.mDResidDx k j)
          { t with mD2Chi2Dz2 := symSet t.mD2Chi2Dz2 i j c }) s2
      else s1) s0) s

/-- The source's `FwdcalcPCA()`: the vertex `V = sum (Ti * Pi)`. -/
def FwdcalcPCA (s : FwdDCAFitterN N) : FwdDCAFitterN N :=
  let cur := s.mCurHyp
  let s1 : FwdDCAFitterN N :=
    { s with mPCA := upd s.mPCA cur (Matrix.mulVec (s.mTrCFVT cur (N - 1)) (s.mTrPos cur (N - 1))) }
  forDown (N - 1) (fun i (t : FwdDCAFitterN N) =>
    let v : Vec3D := t.mPCA t.mCurHyp + Matrix.mulVec (t.mTrCFVT t.mCurHyp i) (t.mTrPos t.mCurHyp i)
    { t with mPCA := upd t.mPCA t.mCurHyp v }) s1

/-- The source's `FwdcalcPCANoErr()`: the vertex of the absolute-distance mode. The locals
`y` and `z` of the loop body are read without having been written; their values
come from `ext.indeterminateY` and `ext.indeterminateZ`. -/
def FwdcalcPCANoErr (ext : External N) (s : FwdDCAFitterN N) : FwdDCAFitterN N :=
  let cur := s.mCurHyp
  let s1 : FwdDCAFitterN N :=
    { s with mPCA := upd s.mPCA cur (Vec3D.setAt (s.mPCA cur) 0 (s.mTrPos cur (N - 1) 2)) }
  let s2 := forDown (N - 1) (fun i (t : FwdDCAFitterN N) =>
    let y := ext.indeterminateY t i
    let z := ext.indeterminateZ t i
    let pca := t.mPCA t.mCurHyp
    let pca0 := Vec3D.setAt pca 0 (pca 0 + t.mTrPos t.mCurHyp i 0)
    let pca1 := Vec3D.setAt pca0 1 (pca0 1 + y)
    let pca2 := Vec3D.setAt pca1 2 (pca1 2 + z)
    { t with mPCA := upd t.mPCA t.mCurHyp pca2 }) s1
  let p := s2.mPCA s2.mCurHyp
  let p0 := Vec3D.setAt p 0 (p 0 * NInv N)
  let p1 := Vec3D.setAt p0 1 (p0 1 * NInv N)
  let p2 := Vec3D.setAt p1 2 (p1 2 * NInv N)
  { s2 with mPCA := upd s2.mPCA s2.mCurHyp p2 }

/-- The source's `FwdcalcTrackResiduals()`: `res = Pi - V`. -/
def FwdcalcTrackResiduals (s : FwdDCAFitterN N) : FwdDCAFitterN N :=
  forDown N (fun i (t : FwdDCAFitterN N) =>
    let vtxLoc : Vec3D := t.mPCA t.mCurHyp
    { t with mTrRes := upd2 t.mTrRes t.mCurHyp i (t.mTrPos t.mCurHyp i - vtxLoc) }) s

/-- The source's `calcTrackDerivatives()`. -/
def calcTrackDerivatives (ext : External N) (s : FwdDCAFitterN N) : FwdDCAFitterN N :=
  forDown N (fun i (t : FwdDCAFitterN N) =>
    let d := (t.mTrDer t.mCurHyp i).set ext (t.mCandTr t.mCurHyp i) t.mBz
    { t with mTrDer := upd2 t.mTrDer t.mCurHyp i d }) s

/-- The source's `FwdcorrectTracks(corrZ)`: moves every prong along its trajectory. -/
def FwdcorrectTracks (corrZ : Nat → ℚ) (s : FwdDCAFitterN N) : Bool × FwdDCAFitterN N :=
  (true, forDown N (fun i (t : FwdDCAFitterN N) =>
    let trDer := t.mTrDer t.mCurHyp i
    let dz2h := (1 / 2 : ℚ) * corrZ i * corrZ i
    let pos := t.mTrPos t.mCurHyp i
    let pos0 := Vec3D.setAt pos 0 (pos 0 - (trDer.dxdz * corrZ i - dz2h * trDer.d2xdz2))
    let pos1 := Vec3D.setAt pos0 1 (pos0 1 - (trDer.dydz * corrZ i - dz2h * trDer.d2ydz2))
    let pos2 := Vec3D.setAt pos1 2 (pos1 2 - corrZ i)
    { t with mTrPos := upd2 t.mTrPos t.mCurHyp i pos2 }) s)

/-- The source's `FwdpropagateTracksToVertex(icand)`. -/
def FwdpropagateTracksToVertex (ext : External N) (icand : Nat) (s : FwdDCAFitterN N) :
    Bool × FwdDCAFitterN N :=
  let ord := s.mOrder icand
  if s.mTrPropDone ord then (true, s)
  else
    let pca := s.mPCA ord
    let s1 := forDown N (fun i (t : FwdDCAFitterN N) =>
      let t1 : FwdDCAFitterN N :=
        if t.mUseAbsDCA then { t with mCandTr := upd2 t.mCandTr ord i (t.mOrigTrPtr i) } else t
      let z := pca 2
      { t1 with mCandTr := upd2 t1.mCandTr ord i (ext.propagateToZlinear (t1.mCandTr ord i) z) }) s
    (true, { s1 with mTrPropDone := upd s1.mTrPropDone ord true })

/-- The source's `findZatXY(icand)`: fetches the first two tracks into the current slot,
scans each of the two tracks `mCandTr[mOrder[icand]][0..1]` for the z closest
to the seed (the scan is `ext.findZscan`), and stores the mean of the two
`finalZ` in `mPCA[mCurHyp][2]`. -/
def findZatXY (ext : External N) (icand : Nat) (s : FwdDCAFitterN N) : FwdDCAFitterN N :=
  let X := s.mPCA s.mCurHyp 0
  let Y := s.mPCA s.mCurHyp 1
  let ord := s.mOrder icand
  let s1 : FwdDCAFitterN N := { s with mCandTr := upd2 s.mCandTr s.mCurHyp 0 (s.mOrigTrPtr 0) }
  let s2 : FwdDCAFitterN N := { s1 with mCandTr := upd2 s1.mCandTr s1.mCurHyp 1 (s1.mOrigTrPtr 1) }
  let r0 := ext.findZscan (s2.mCandTr ord 0) X Y
  let s3 : FwdDCAFitterN N := { s2 with mCandTr := upd2 s2.mCandTr ord 0 r0.1 }
  let r1 := ext.findZscan (s3.mCandTr ord 1) X Y
  let s4 : FwdDCAFitterN N := { s3 with mCandTr := upd2 s3.mCandTr ord 1 r1.1 }
  let zv : ℚ := (1 / 2 : ℚ) * (r0.2 + r1.2)
  { s4 with mPCA := upd s4.mPCA s4.mCurHyp (Vec3D.setAt (s4.mPCA s4.mCurHyp) 2 zv) }

/-- The source's `getAbsMax(v)`: the largest absolute component of `v`. -/
def getAbsMax (N : Nat) (v : Nat → ℚ) : ℚ :=
  forDown N (fun i mx =>
    let vai := |v i|
    if mx < vai then vai else mx) (-1)

/-- The source's `roughDXCut()`: rough cut on the X difference between the tracks at the
seed. The loop stops at the first pair beyond the cut (`accept = false; break`
and the `accept &&` guard of the outer loop). -/
def roughDXCut (s : FwdDCAFitterN N) : Bool :=
  forDown N (fun i (accept : Bool) =>
    if accept then
      forDown i (fun j (acc : Bool) =>
        if acc then
          if |(s.mCandTr s.mCurHyp i).getX - (s.mCandTr s.mCurHyp j).getX| > s.mMaxDXIni then false
          else true
        else acc) accept
    else accept) true

/-- The source's `closerToAlternative()`: is the current vertex closer to the alternative
seed than to the seed being tested. -/
def closerToAlternative (s : FwdDCAFitterN N) : Bool :=
  let dxCur := s.mPCA s.mCurHyp 0 - s.mCrossings.xDCA s.mCrossIDCur
  let dyCur := s.mPCA s.mCurHyp 1 - s.mCrossings.yDCA s.mCrossIDCur
  let dxAlt := s.mPCA s.mCurHyp 0 - s.mCrossings.xDCA s.mCrossIDAlt.toNat
  let dyAlt := s.mPCA s.mCurHyp 1 - s.mCrossings.yDCA s.mCrossIDAlt.toNat
  decide (dxCur * dxCur + dyCur * dyCur > dxAlt * dxAlt + dyAlt * dyAlt)

/-- The first loop of `minimizeChi2()`: fetch every prong, propagate it to the
seed z, cache its position and its inverse covariance (which may throw). -/
def minimizeChi2Prepare (ext : External N) (s : FwdDCAFitterN N) :
    Except String (FwdDCAFitterN N) :=
  forDownM N (fun i (t : FwdDCAFitterN N) =>
    let cur := t.mCurHyp
    let t1 : FwdDCAFitterN N := { t with mCandTr := upd2 t.mCandTr cur i (t.mOrigTrPtr i) }
    let z := t1.mPCA cur 2
    let t2 : FwdDCAFitterN N :=
      { t1 with mCandTr := upd2 t1.mCandTr cur i (ext.propagateToZlinear (t1.mCandTr cur i) z) }
    let t3 : FwdDCAFitterN N :=
      { t2 with mTrPos := upd2 t2.mTrPos cur i (setTrackPos (t2.mCandTr cur i)) }
    match (t3.mTrcEInv cur i).set (t3.mCandTr cur i) ZerrFactor with
    | .ok c => .ok { t3 with mTrcEInv := upd2 t3.mTrcEInv cur i c }
    | .error e => .error e) s

/-- One pass through the body of the `do { ... } while` loop of
`minimizeChi2()`, entered with the previous `chi2`. -/
def minimizeChi2Pass (ext : External N) (chi2 : ℚ) (s : FwdDCAFitterN N) : PassResult N :=
  let s1 := calcTrackDerivatives ext s
  let s2 := FwdcalcResidDerivatives s1
  let s3 := FwdcalcChi2Derivatives s2
  match MatSymND.Invert N s3.mD2Chi2Dz2 with
  | none => .returnFalse s3
  | some h =>
    let s4 : FwdDCAFitterN N := { s3 with mD2Chi2Dz2 := h }
    let dz := MatSymND.mulVec N s4.mD2Chi2Dz2 s4.mDChi2Dz
    let r5 := FwdcorrectTracks dz s4
    if !r5.1 then .returnFalse r5.2
    else
      let s6 := FwdcalcPCA r5.2
      if decide (s6.mCrossIDAlt ≥ 0) && closerToAlternative s6 then
        .returnFalse { s6 with mAllowAltPreference := false }
      else
        let s7 := FwdcalcTrackResiduals s6
        let chi2Upd := FwdcalcChi2 s7
        if getAbsMax N dz < s7.mMinParamChange ∨ chi2Upd > chi2 * s7.mMinRelChi2Change then
          .converged chi2Upd s7
        else .next chi2Upd s7

/-- The `do { ... } while (++mNIters[mCurHyp] < mMaxIter)` loop of
`minimizeChi2()`. The result is `none` when the body executes `return false`,
and `some chi2` with the last chi2 when the loop is left by `break` or by its
condition. The first argument bounds the number of passes for the recursion
only; the loop condition is the one of the source (`loopFuel` passes always
suffice, see `minimizeChi2Loop_fuel`). -/
def minimizeChi2Loop (ext : External N) : Nat → ℚ → FwdDCAFitterN N → Option ℚ × FwdDCAFitterN N
  | 0, _, s => (none, s)
  | fuel + 1, chi2, s =>
    match minimizeChi2Pass ext chi2 s with
    | .returnFalse s' => (none, s')
    | .converged c s' => (some c, s')
    | .next c s7 =>
      let s8 : FwdDCAFitterN N :=
        { s7 with mNIters := upd s7.mNIters s7.mCurHyp (s7.mNIters s7.mCurHyp + 1) }
      if s8.mNIters s8.mCurHyp < s8.mMaxIter then minimizeChi2Loop ext fuel c s8
      else (some c, s8)

/-- Number of passes that always suffices for the Newton loop: the counter
grows by one per pass and the loop stops once it reaches `mMaxIter`. -/
def loopFuel (s : FwdDCAFitterN N) : Nat :=
  (s.mMaxIter - s.mNIters s.mCurHyp).toNat + 1

/-- The source's `minimizeChi2()`: best weighted chi2 of the `N` tracks near the seed. -/
def minimizeChi2 (ext : External N) (s : FwdDCAFitterN N) :
    Except String (Bool × FwdDCAFitterN N) :=
  match minimizeChi2Prepare ext s with
  | .error e => .error e
  | .ok s1 =>
    if s1.mMaxDXIni > 0 ∧ roughDXCut s1 = false then .ok (false, s1)
    else
      let r := FwdcalcPCACoefs s1
      if !r.1 then .ok (false, r.2)
      else
        let s2 := FwdcalcPCA r.2
        let s3 := FwdcalcTrackResiduals s2
        let chi2 := FwdcalcChi2 s3
        match minimizeChi2Loop ext (loopFuel s3) chi2 s3 with
        | (none, s4) => .ok (false, s4)
        | (some c, s4) =>
          let s5 : FwdDCAFitterN N := { s4 with mChi2 := upd s4.mChi2 s4.mCurHyp (c * NInv N) }
          .ok (decide (s5.mChi2 s5.mCurHyp < s5.mMaxChi2), s5)

/-- The first loop of `minimizeChi2NoErr()`: fetch every prong, propagate its
parameters to the seed z and cache its position. -/
def minimizeChi2NoErrPrepare (ext : External N) (s : FwdDCAFitterN N) : FwdDCAFitterN N :=
  forDown N (fun i (t : FwdDCAFitterN N) =>
    let cur := t.mCurHyp
    let t1 : FwdDCAFitterN N := { t with mCandTr := upd2 t.mCandTr cur i (t.mOrigTrPtr i) }
    let z := t1.mPCA cur 2
    let t2 : FwdDCAFitterN N :=
      { t1 with mCandTr := upd2 t1.mCandTr cur i (ext.propagateParamToZlinear (t1.mCandTr cur i) z) }
    { t2 with mTrPos := upd2 t2.mTrPos cur i (setTrackPos (t2.mCandTr cur i)) }) s

/-- One pass through the body of the `do { ... } while` loop of
`minimizeChi2NoErr()`, entered with the previous `chi2`. -/
def minimizeChi2NoErrPass (ext : External N) (chi2 : ℚ) (s : FwdDCAFitterN N) : PassResult N :=
  let s1 := calcTrackDerivatives ext s
  let s2 := FwdcalcResidDerivativesNoErr s1
  let s3 := FwdcalcChi2DerivativesNoErr s2
  match MatSymND.Invert N s3.mD2Chi2Dz2 with
  | none => .returnFalse s3
  | some h =>
    let s4 : FwdDCAFitterN N := { s3 with mD2Chi2Dz2 := h }
    let dz := MatSymND.mulVec N s4.mD2Chi2Dz2 s4.mDChi2Dz
    let r5 := FwdcorrectTracks dz s4
    if !r5.1 then .returnFalse r5.2
    else
      let s6 := FwdcalcPCANoErr ext r5.2
      if decide (s6.mCrossIDAlt ≥ 0) && closerToAlternative s6 then
        .returnFalse { s6 with mAllowAltPreference := false }
      else
        let s7 := FwdcalcTrackResiduals s6
        let chi2Upd := FwdcalcChi2NoErr s7
        if getAbsMax N dz < s7.mMinParamChange ∨ chi2Upd > chi2 * s7.mMinRelChi2Change then
          .converged chi2Upd s7
        else .next chi2Upd s7

/-- The `do { ... } while` loop of `minimizeChi2NoErr()`; same conventions as
`minimizeChi2Loop`. -/
def minimizeChi2NoErrLoop (ext : External N) :
    Nat → ℚ → FwdDCAFitterN N → Option ℚ × FwdDCAFitterN N
  | 0, _, s => (none, s)
  | fuel + 1, chi2, s =>
    match minimizeChi2NoErrPass ext chi2 s with
    | .returnFalse s' => (none, s')
    | .converged c s' => (some c, s')
    | .next c s7 =>
      let s8 : FwdDCAFitterN N :=
        { s7 with mNIters := upd s7.mNIters s7.mCurHyp (s7.mNIters s7.mCurHyp + 1) }
      if s8.mNIters s8.mCurHyp < s8.mMaxIter then minimizeChi2NoErrLoop ext fuel c s8
      else (some c, s8)

/-- The source's `minimizeChi2NoErr()`: best absolute-distance chi2 of the `N` tracks near
the seed. -/
def minimizeChi2NoErr (ext : External N) (s : FwdDCAFitterN N) : Bool × FwdDCAFitterN N :=
  let s1 := minimizeChi2NoErrPrepare ext s
  if s1.mMaxDXIni > 0 ∧ roughDXCut s1 = false then (false, s1)
  else
    let s2 := FwdcalcPCANoErr ext s1
    let s3 := FwdcalcTrackResiduals s2
    let chi2 := FwdcalcChi2NoErr s3
    match minimizeChi2NoErrLoop ext (loopFuel s3) chi2 s3 with
    | (none, s4) => (false, s4)
    | (some c, s4) =>
      let s5 : FwdDCAFitterN N := { s4 with mChi2 := upd s4.mChi2 s4.mCurHyp (c * NInv N) }
      (decide (s5.mChi2 s5.mCurHyp < s5.mMaxChi2), s5)

/-- The source's `assign(0, args...)`: stores the addresses of the `N` input tracks. -/
def assign (args : Nat → Track) (s : FwdDCAFitterN N) : FwdDCAFitterN N :=
  { s with mOrigTrPtr := fun i => if i < N then args i else s.mOrigTrPtr i }

/-- The seed-merging block of `process`: two crossings closer than the
threshold are replaced by their mean. -/
def mergeSeeds (s : FwdDCAFitterN N) : FwdDCAFitterN N :=
  if s.mCrossings.nDCA = (MAXHYP : Int) then
    let x := s.mCrossings.xDCA
    let y := s.mCrossings.yDCA
    let dst2 := (x 0 - x 1) * (x 0 - x 1) + (y 0 - y 1) * (y 0 - y 1)
    if dst2 < s.mMaxDist2ToMergeSeeds then
      { s with mCrossings :=
          { nDCA := 1
            xDCA := upd x 0 ((1 / 2 : ℚ) * (x 0 + x 1))
            yDCA := upd y 0 ((1 / 2 : ℚ) * (y 0 + y 1)) } }
    else s
  else s

/-- The part of the body of the crossing loop of `process` that prepares the
current slot for the seed `ic`, up to and including `findZatXY(mCurHyp)`. -/
def seedCrossing (ext : External N) (ic : Nat) (s : FwdDCAFitterN N) : FwdDCAFitterN N :=
  let s1 : FwdDCAFitterN N := { s with mCrossIDCur := ic }
  let alt : Int := if s1.mCrossings.nDCA = 2 ∧ s1.mAllowAltPreference = true then 1 - (ic : Int) else -1
  let s2 : FwdDCAFitterN N := { s1 with mCrossIDAlt := alt }
  let s3 : FwdDCAFitterN N := { s2 with mNIters := upd s2.mNIters s2.mCurHyp 0 }
  let s4 : FwdDCAFitterN N := { s3 with mTrPropDone := upd s3.mTrPropDone s3.mCurHyp false }
  let s5 : FwdDCAFitterN N := { s4 with mChi2 := upd s4.mChi2 s4.mCurHyp (-1) }
  let p0 := Vec3D.setAt (s5.mPCA s5.mCurHyp) 0 (s5.mCrossings.xDCA ic)
  let s6 : FwdDCAFitterN N := { s5 with mPCA := upd s5.mPCA s5.mCurHyp p0 }
  let p1 := Vec3D.setAt (s6.mPCA s6.mCurHyp) 1 (s6.mCrossings.yDCA ic)
  let s7 : FwdDCAFitterN N := { s6 with mPCA := upd s6.mPCA s6.mCurHyp p1 }
  findZatXY ext s7.mCurHyp s7

/-- The part of the body of the crossing loop of `process` that follows the
minimiser: `r` is the result of the minimiser and the state it leaves. -/
def acceptCrossing (ext : External N) (r : Bool × FwdDCAFitterN N) : FwdDCAFitterN N :=
  if r.1 then
    let s1 : FwdDCAFitterN N := { r.2 with mOrder := upd r.2.mOrder r.2.mCurHyp r.2.mCurHyp }
    if s1.mPropagateToPCA then
      let p := FwdpropagateTracksToVertex ext s1.mCurHyp s1
      if !p.1 then p.2
      else { p.2 with mCurHyp := p.2.mCurHyp + 1 }
    else { s1 with mCurHyp := s1.mCurHyp + 1 }
  else r.2

/-- The body of the crossing loop of `process` for the seed `ic`. -/
def processCrossing (ext : External N) (ic : Nat) (s : FwdDCAFitterN N) :
    Except String (FwdDCAFitterN N) :=
  if s.mCrossings.xDCA ic * s.mCrossings.xDCA ic + s.mCrossings.yDCA ic * s.mCrossings.yDCA ic
      > s.mMaxR2 then
    .ok s
  else
    let s1 := seedCrossing ext ic s
    if s1.mUseAbsDCA then .ok (acceptCrossing ext (minimizeChi2NoErr ext s1))
    else
      match minimizeChi2 ext s1 with
      | .ok r => .ok (acceptCrossing ext r)
      | .error e => .error e

/-- The loop `for (int ic = 0; ic < mCrossings.nDCA; ic++)` of `process`, from
the index `ic` on. The first argument bounds the number of passes for the
recursion only; the loop condition is the one of the source. -/
def crossingLoop (ext : External N) : Nat → Nat → FwdDCAFitterN N → Except String (FwdDCAFitterN N)
  | 0, _, s => .ok s
  | fuel + 1, ic, s =>
    if (ic : Int) < s.mCrossings.nDCA then
      match processCrossing ext ic s with
      | .ok s1 => crossingLoop ext fuel (ic + 1) s1
      | .error e => .error e
    else .ok s

/-- The last loop nest of `process`: orders the live slots by chi2. -/
def orderCandidates (s : FwdDCAFitterN N) : FwdDCAFitterN N :=
  forDown s.mCurHyp (fun i (si : FwdDCAFitterN N) =>
    forDown i (fun j (t : FwdDCAFitterN N) =>
      if t.mChi2 (t.mOrder i) < t.mChi2 (t.mOrder j) then
        { t with mOrder := upd (upd t.mOrder i (t.mOrder j)) j (t.mOrder i) }
      else t) si) s

/-- The source's `process(args...)`: the main entry point; returns the number of candidates
(or the failure thrown by `FwdTrackCovI::set`) and the state it leaves. -/
def process (ext : External N) (args : Nat → Track) (s : FwdDCAFitterN N) :
    Except String (Nat × FwdDCAFitterN N) :=
  let s0 := assign args s
  let s1 := clear s0
  let s2 := if s1.mUseAbsDCA then FwdcalcRMatrices s1 else s1
  let s3 := mergeSeeds s2
  match crossingLoop ext s3.mCrossings.nDCA.toNat 0 s3 with
  | .error e => .error e
  | .ok s4 =>
    let s5 := orderCandidates s4
    .ok (s5.mCurHyp, s5)

end FwdDCAFitterN

/-! ## Concrete inputs used by the examples -/

/-- A track at `(x, y, z)` with planar covariance `cxx, cyy, cxy`; the other
observables are zero. -/
def trackAt (x y z cxx cyy cxy : ℚ) : Track :=
  { getX := x, getY := y, getZ := z
    getSigma2X := cxx, getSigma2Y := cyy, getSigmaXY := cxy
    getSnp := 0, getTanl := 0
    getPxPyPzGlo := fun _ => 0
    getCharge := 0
    getCovXYZPxPyPzGlo := fun _ => 0 }

/-- A default-constructed fitter: the member initialisers of the class; the
arrays without an initialiser are filled with zeros, and the crossing set is
empty. -/
def defaultFitter (N : Nat) : FwdDCAFitterN N :=
  { mDResidDx := fun _ _ _ => 0
    mD2ResidDx2 := fun _ _ _ => 0
    mDChi2Dz := fun _ => 0
    mD2Chi2Dz2 := fun _ _ => 0
    mCosDif := fun _ _ => 0
    mSinDif := fun _ _ => 0
    mOrigTrPtr := fun _ => trackAt 0 0 0 0 0 0
    mCrossings := { xDCA := fun _ => 0, yDCA := fun _ => 0, nDCA := 0 }
    mTrcEInv := fun _ _ => { sxx := 0, syy := 0, sxy := 0, szz := 0 }
    mCandTr := fun _ _ => trackAt 0 0 0 0 0 0
    mTrCFVT := fun _ _ => 0
    mTrDer := fun _ _ => { dxdz := 0, dydz := 0, d2xdz2 := 0, d2ydz2 := 0 }
    mTrPos := fun _ _ _ => 0
    mTrRes := fun _ _ _ => 0
    mPCA := fun _ _ => 0
    mChi2 := fun _ => 0
    mNIters := fun _ => 0
    mTrPropDone := fun _ => false
    mWeightInv := MatSym3D.zero
    mOrder := fun _ => 0
    mCurHyp := 0
    mCrossIDCur := 0
    mCrossIDAlt := -1
    mAllowAltPreference := true
    mUseAbsDCA := false
    mPropagateToPCA := true
    mMaxIter := 20
    mBz := 0
    mMaxR2 := 200 * 200
    mMaxDXIni := 4
    mMinParamChange := 1 / 1000
    mMinRelChi2Change := 9 / 10
    mMaxChi2 := 100
    mMaxDist2ToMergeSeeds := 1 }

/-- The inverse covariance that `FwdTrackCovI::set` produces for the planar
covariance `cxx = cyy = 1`, `cxy = 9/10` and the z-error factor 5. -/
def covI_1_1_09 : FwdTrackCovI :=
  { sxx := 100 / 19, syy := 100 / 19, sxy := -(90 / 19), szz := 1 / 5 }

/-- A two-prong state whose prongs both carry `covI_1_1_09` and whose residuals
are `(0, 1, 1)` and `(0, -1, -1)`. -/
def chi2NegativeState : FwdDCAFitterN 2 :=
  { defaultFitter 2 with
    mTrcEInv := fun _ _ => covI_1_1_09
    mTrRes := fun _ i => if i = 0 then ![0, 1, 1] else ![0, -1, -1] }

/-- Square root of a rational, exact on the squares of rationals. -/
def sqrtQ (q : ℚ) : ℚ :=
  (Nat.sqrt q.num.toNat : ℚ) / (Nat.sqrt q.den : ℚ)

/-- Straight-line propagation of a track to the plane `z`: the position moves
along the direction `(csp / tanl, snp / tanl, 1)`, the covariance is kept. -/
def propagateLinear (t : Track) (z : ℚ) : Track :=
  let n := (z - t.getZ) * (1 / t.getTanl)
  { t with
    getX := t.getX + n * sqrtQ ((1 - t.getSnp) * (1 + t.getSnp))
    getY := t.getY + n * t.getSnp
    getZ := z }

/-- A concrete set of collaborators: straight-line propagation, no curvature,
a z scan that leaves the track where it is and yields `finalZ = 0`, and zero
for the values read from unwritten locals. -/
def linearExt (N : Nat) : External N :=
  { sqrt := sqrtQ
    getCurvature := fun _ _ => 0
    propagateToZlinear := propagateLinear
    propagateParamToZlinear := propagateLinear
    findZscan := fun t _ _ => (t, 0)
    indeterminateY := fun _ _ => 0
    indeterminateZ := fun _ _ => 0 }

/-- A track at `(x, y, z)` with planar covariance `cxx, cyy, cxy` and direction
parameters `snp`, `tanl`. -/
def trackDir (x y z cxx cyy cxy snp tanl : ℚ) : Track :=
  { trackAt x y z cxx cyy cxy with getSnp := snp, getTanl := tanl }

/-- Two straight tracks with the covariance `cxx = cyy = 1`, `cxy = 9/10`, given
at `z = 0`: the first at `(0, 519/500)` with direction `(0, -19/500, 1)`, the
second at `(0, 0)` with direction `(19/75, 19/100, 1)`. -/
def chi2NegativeTracks : Nat → Track := fun i =>
  if i = 0 then trackDir 0 (519 / 500) 0 1 1 (9 / 10) (-1) (500 / 19)
  else trackDir 0 0 0 1 1 (9 / 10) (3 / 5) (60 / 19)

/-- A default-constructed two-prong fitter (weighted mode) whose crossing set
holds the single seed `(0, 1/2)`. -/
def chi2NegativeFitter : FwdDCAFitterN 2 :=
  { defaultFitter 2 with
    mCrossings := { xDCA := fun _ => 0, yDCA := fun _ => 1 / 2, nDCA := 1 } }

/-- Two straight tracks through `(0, 1, 0)` with unit covariance and the
directions `(1, 0, 1)` and `(4/5, 3/5, 1)`. -/
def twoSeedTracks : Nat → Track := fun i =>
  if i = 0 then trackDir 0 1 0 1 1 0 0 1
  else trackDir 0 1 0 1 1 0 (3 / 5) 1

/-- A two-prong fitter in the absolute-distance mode whose crossing set holds
the two seeds `(0, -5)` and `(0, 5)`. -/
def twoSeedFitter : FwdDCAFitterN 2 :=
  { defaultFitter 2 with
    mUseAbsDCA := true
    mCrossings := { xDCA := fun _ => 0, yDCA := fun i => if i = 0 then -5 else 5, nDCA := 2 } }

/-- A two-prong fitter whose crossing set holds the two seeds `(1, 2)` and
`(3/2, 2)`, at squared distance `1/4`, below the default merge threshold 1. -/
def closeSeedsFitter : FwdDCAFitterN 2 :=
  { defaultFitter 2 with
    mCrossings := { xDCA := fun i => if i = 0 then 1 else 3 / 2, yDCA := fun _ => 2, nDCA := 2 } }

/-- The augmented inverse covariance `E = [[sxx, sxy, 0], [sxy, syy, 0],
[0, 0, szz]]` of one prong. -/
def augmentedInvCov (c : FwdTrackCovI) : MatStd3D :=
  !![c.sxx, c.sxy, 0;
     c.sxy, c.syy, 0;
     0, 0, c.szz]

/-- The global weight matrix `W`: the sum of the augmented inverse covariances
of the `N` prongs of the current hypothesis. -/
def weightSum {N : Nat} (s : FwdDCAFitterN N) : MatStd3D :=
  ∑ j in Finset.range N, augmentedInvCov (s.mTrcEInv s.mCurHyp j)

/-- The observable outcome of a `process` call: the candidate count and, by
rank 0 and 1, the slot and its chi2; `none` when the call throws. -/
def processOutcome {N : Nat} (r : Except String (Nat × FwdDCAFitterN N)) :
    Option (Nat × Nat × Nat × ℚ × ℚ) :=
  match r with
  | .ok (c, s) =>
    some (c, s.mOrder 0, s.mOrder 1, FwdDCAFitterN.getChi2AtPCACandidate s 0,
      FwdDCAFitterN.getChi2AtPCACandidate s 1)
  | .error _ => none

/-- A planar covariance is positive definite: the quadratic form is positive on
every non-zero vector. -/
def PosDef2 (cxx cxy cyy : ℚ) : Prop :=
  ∀ a b : ℚ, (a ≠ 0 ∨ b ≠ 0) → 0 < cxx * a * a + 2 * cxy * a * b + cyy * b * b

/-- The members that steer `process` and that the numeric steps of a fit leave
alone: the live-slot count, the ranking, the crossing set, the acceptance
radius, the two mode switches and the chi2 stored in the slots other than the
current one. -/
def ctl {N : Nat} (s : FwdDCAFitterN N) :
    Nat × (Nat → Nat) × CrossInfo × ℚ × Bool × Bool × (Nat → ℚ) :=
  (s.mCurHyp, s.mOrder, s.mCrossings, s.mMaxR2, s.mUseAbsDCA, s.mPropagateToPCA,
    fun k => if k = s.mCurHyp then 0 else s.mChi2 k)

/-- The members that no numeric step of a fit writes: configuration, seeds,
ranking and the per-slot bookkeeping. (The numeric steps write the derivative
arrays, the weights and coefficients, and the working tracks, positions,
residuals and vertex.) -/
def cfg {N : Nat} (s : FwdDCAFitterN N) :
    (Nat × (Nat → Nat) × CrossInfo × ℚ × Bool × Bool × (Nat → ℚ))
    × ((Nat → Int) × Int × ℚ × ℚ × ℚ × ℚ × ℚ × ℚ)
    × (Nat × Int × (Nat → Bool) × (Nat → Track)) :=
  ((s.mCurHyp, s.mOrder, s.mCrossings, s.mMaxR2, s.mUseAbsDCA, s.mPropagateToPCA, s.mChi2),
    (s.mNIters, s.mMaxIter, s.mMinParamChange, s.mMinRelChi2Change, s.mMaxChi2, s.mMaxDXIni, s.mBz,
      s.mMaxDist2ToMergeSeeds),
    (s.mCrossIDCur, s.mCrossIDAlt, s.mTrPropDone, s.mOrigTrPtr))

/-- Number of seeds of a crossing set whose squared planar radius is at most
`maxR2`. -/
def nSeedsInRadius (cr : CrossInfo) (maxR2 : ℚ) : Nat :=
  ((Finset.range cr.nDCA.toNat).filter
    (fun ic => cr.xDCA ic * cr.xDCA ic + cr.yDCA ic * cr.yDCA ic ≤ maxR2)).card

/-! ## Vertex covariance and the propagation flag -/

/-- Sum of two symmetric matrices, cell by cell (`operator+=` of `SMatrix`). -/
def MatSym3D.add (a b : MatSym3D) : MatSym3D :=
  { XX := a.XX + b.XX, XY := a.XY + b.XY, YY := a.YY + b.YY
    XZ := a.XZ + b.XZ, YZ := a.YZ + b.YZ, ZZ := a.ZZ + b.ZZ }

/-- Modelled from the spec: `ROOT::Math::Similarity(U, M)` belongs to the ROOT
library and is not under src/. The spec calls it the similarity transform of a
covariance through a matrix; here it is `U * M * U^T`, whose lower triangle is
stored in the packed layout. -/
def Similarity (u : MatStd3D) (m : MatSym3D) : MatSym3D :=
  let p : MatStd3D := u * m.toStd * u.transpose
  { XX := p 0 0, XY := p 1 0, YY := p 1 1, XZ := p 2 0, YZ := p 2 1, ZZ := p 2 2 }

/-- A track whose planar covariance terms are those of `t` multiplied by `k`. -/
def inflate (k : ℚ) (t : Track) : Track :=
  { t with
    getSigma2X := k * t.getSigma2X
    getSigma2Y := k * t.getSigma2Y
    getSigmaXY := k * t.getSigmaXY }

namespace FwdDCAFitterN

variable {N : Nat}

/-- The source's `isPropagateTracksToVertexDone(cand)`. -/
def isPropagateTracksToVertexDone (s : FwdDCAFitterN N) (cand : Nat) : Bool :=
  s.mTrPropDone (s.mOrder cand)

/-- The source's `getTrackRotMatrix(i)`: a default-constructed (zero) matrix whose
diagonal is set to 1. -/
def getTrackRotMatrix (_s : FwdDCAFitterN N) (_i : Nat) : MatStd3D :=
  !![1, 0, 0;
     0, 1, 0;
     0, 0, 1]

/-- The source's `getTrackCovMatrix(i, cand)`: a default-constructed (zero) symmetric
matrix with `mat(0,0) = sigma2X`, `mat(1,1) = sigma2Y`, `mat(2,1) = sigmaXY`
and `mat(2,2) = sigma2Y * ZerrFactor`; cell `(2,1)` is the `YZ` cell. -/
def getTrackCovMatrix (s : FwdDCAFitterN N) (i cand : Nat) : MatSym3D :=
  let trc := s.mCandTr (s.mOrder cand) i
  { XX := trc.getSigma2X
    XY := 0
    YY := trc.getSigma2Y
    XZ := 0
    YZ := trc.getSigmaXY
    ZZ := trc.getSigma2Y * ZerrFactor }

/-- The source's `calcPCACovMatrix(cand)`: covariance matrix of the point of closest
approach. -/
def calcPCACovMatrix (s : FwdDCAFitterN N) (cand : Nat) : MatSym3D :=
  forDown N (fun i (covm : MatSym3D) =>
    covm.add (Similarity
      (if s.mUseAbsDCA then getTrackRotMatrix s i else s.mTrCFVT (s.mOrder cand) i)
      (getTrackCovMatrix s i cand))) MatSym3D.zero

end FwdDCAFitterN

/-- Two prongs at `(1, 2, 3)` and `(4, 5, 6)` in the slot 0 of a default-constructed
two-prong fitter. -/
def twoPointsState : FwdDCAFitterN 2 :=
  { defaultFitter 2 with
    mTrPos := fun _ i => if i = 0 then ![1, 2, 3] else ![4, 5, 6] }

/-- Two prongs of a weighted fit that both stand at `(1, 2, 3)` and both carry
the inverse covariance `covI_1_1_09`. -/
def exactIntersectionState : FwdDCAFitterN 2 :=
  { defaultFitter 2 with
    mTrcEInv := fun _ _ => covI_1_1_09
    mTrPos := fun _ _ => ![1, 2, 3] }

/-- The inverse covariance that `FwdTrackCovI::set` produces for the planar
covariance `cxx = cyy = 2`, `cxy = 9/5` and the z-error factor 5. -/
def covI_2_2_18 : FwdTrackCovI :=
  { sxx := 50 / 19, syy := 50 / 19, sxy := -(45 / 19), szz := 1 / 10 }

/-- The state `exactIntersectionState` with the inverse covariances of prongs
whose covariance is twice as large. -/
def inflatedState : FwdDCAFitterN 2 :=
  { exactIntersectionState with mTrcEInv := fun _ _ => covI_2_2_18 }

/-- Two prongs with the planar covariance `cxx = cyy = 1`, `cxy = 9/10`, their
inverse covariance `covI_1_1_09`, the residuals `(0, 1, 1)` and `(0, -1, -1)`,
and the coefficient matrices `1/2 * I`. -/
def covScaleState : FwdDCAFitterN 2 :=
  { chi2NegativeState with
    mCandTr := fun _ _ => trackAt 1 2 3 1 1 (9 / 10)
    mTrCFVT := fun _ _ => !![1 / 2, 0, 0; 0, 1 / 2, 0; 0, 0, 1 / 2] }

/-- The state `covScaleState` with the covariance of every prong doubled. -/
def covScaleStateInflated : FwdDCAFitterN 2 :=
  { covScaleState with
    mCandTr := fun _ _ => inflate 2 (trackAt 1 2 3 1 1 (9 / 10))
    mTrcEInv := fun _ _ => covI_2_2_18 }

/-! ## The Newton loop, by its parts

The two minimisers share their loop; the definitions below name its parts, for
both modes at once (`abs` is `mUseAbsDCA`: `true` selects `minimizeChi2NoErr()`,
`false` selects `minimizeChi2()`). `minimizePass_eq`, `minimizeLoop_succ` and
`minimizeOf_eq` relate them to the passes, loops and minimisers defined above. -/

/-- Did the pass get to the loop condition `++mNIters[mCurHyp] < mMaxIter`:
neither `return false` nor `break`. -/
def PassResult.isNext {N : Nat} : PassResult N → Bool
  | .next _ _ => true
  | _ => false

/-- The switch `mAllowAltPreference`. -/
def altPref {N : Nat} (s : FwdDCAFitterN N) : Bool :=
  s.mAllowAltPreference

namespace FwdDCAFitterN

variable {N : Nat}

/-- The derivative steps that open a pass of the Newton loop. -/
def passDerivatives (ext : External N) (abs : Bool) (s : FwdDCAFitterN N) : FwdDCAFitterN N :=
  if abs then FwdcalcChi2DerivativesNoErr (FwdcalcResidDerivativesNoErr (calcTrackDerivatives ext s))
  else FwdcalcChi2Derivatives (FwdcalcResidDerivatives (calcTrackDerivatives ext s))

/-- The Newton step of a pass, from the state the derivative steps leave:
`mD2Chi2Dz2.Invert()` in place, `dz = mD2Chi2Dz2 * mDChi2Dz`,
`FwdcorrectTracks(dz)`. The result is the correction `dz` and the state after
the correction, or `none` when the inversion fails. -/
def newtonStep (s3 : FwdDCAFitterN N) : Option ((Nat → ℚ) × FwdDCAFitterN N) :=
  match MatSymND.Invert N s3.mD2Chi2Dz2 with
  | none => none
  | some h =>
    let s4 : FwdDCAFitterN N := { s3 with mD2Chi2Dz2 := h }
    let dz := MatSymND.mulVec N s4.mD2Chi2Dz2 s4.mDChi2Dz
    some (dz, (FwdcorrectTracks dz s4).2)

/-- The vertex update of a pass: `FwdcalcPCANoErr()` or `FwdcalcPCA()`. -/
def passPCA (ext : External N) (abs : Bool) (s : FwdDCAFitterN N) : FwdDCAFitterN N :=
  if abs then FwdcalcPCANoErr ext s else FwdcalcPCA s

/-- The chi2 of a pass: `FwdcalcChi2NoErr()` or `FwdcalcChi2()`. -/
def passChi2 (abs : Bool) (s : FwdDCAFitterN N) : ℚ :=
  if abs then FwdcalcChi2NoErr s else FwdcalcChi2 s

/-- The test `mCrossIDAlt >= 0 && closerToAlternative()` of a pass. -/
def prefersAlternative (s : FwdDCAFitterN N) : Bool :=
  decide (s.mCrossIDAlt ≥ 0) && closerToAlternative s

/-- One pass of the Newton loop of the selected minimiser. -/
def minimizePass (ext : External N) (abs : Bool) (chi2 : ℚ) (s : FwdDCAFitterN N) :
    PassResult N :=
  if abs then minimizeChi2NoErrPass ext chi2 s else minimizeChi2Pass ext chi2 s

/-- The Newton loop of the selected minimiser. -/
def minimizeLoop (ext : External N) (abs : Bool) (fuel : Nat) (chi2 : ℚ) (s : FwdDCAFitterN N) :
    Option ℚ × FwdDCAFitterN N :=
  if abs then minimizeChi2NoErrLoop ext fuel chi2 s else minimizeChi2Loop ext fuel chi2 s

/-- The selected minimiser, as `process` calls it:
`mUseAbsDCA ? minimizeChi2NoErr() : minimizeChi2()`. -/
def minimizeOf (ext : External N) (abs : Bool) (s : FwdDCAFitterN N) :
    Except String (Bool × FwdDCAFitterN N) :=
  if abs then .ok (minimizeChi2NoErr ext s) else minimizeChi2 ext s

/-- The increment `++mNIters[mCurHyp]` of the loop condition. -/
def incrNIters (s : FwdDCAFitterN N) : FwdDCAFitterN N :=
  { s with mNIters := upd s.mNIters s.mCurHyp (s.mNIters s.mCurHyp + 1) }

/-- The passes that the Newton loop executes, in order, each with its result:
the loop goes on after a pass exactly when the pass gets to the loop condition
and the incremented counter is below `mMaxIter`. -/
def newtonPasses (ext : External N) (abs : Bool) :
    Nat → ℚ → FwdDCAFitterN N → List (PassResult N)
  | 0, _, _ => []
  | fuel + 1, chi2, s =>
    match minimizePass ext abs chi2 s with
    | .returnFalse s' => [.returnFalse s']
    | .converged c s' => [.converged c s']
    | .next c s7 =>
      .next c s7 ::
        (if (incrNIters s7).mNIters (incrNIters s7).mCurHyp < (incrNIters s7).mMaxIter then
          newtonPasses ext abs fuel c (incrNIters s7)
        else [])

/-- The part of the selected minimiser before the Newton loop: `(true, s3)` when
the loop is entered, with the state `s3`; `(false, s')` when the minimiser
returns false before the loop, leaving the state `s'`. -/
def loopEntry (ext : External N) (abs : Bool) (s : FwdDCAFitterN N) :
    Except String (Bool × FwdDCAFitterN N) :=
  if abs then
    let s1 := minimizeChi2NoErrPrepare ext s
    if s1.mMaxDXIni > 0 ∧ roughDXCut s1 = false then .ok (false, s1)
    else .ok (true, FwdcalcTrackResiduals (FwdcalcPCANoErr ext s1))
  else
    match minimizeChi2Prepare ext s with
    | .error e => .error e
    | .ok s1 =>
      if s1.mMaxDXIni > 0 ∧ roughDXCut s1 = false then .ok (false, s1)
      else
        let r := FwdcalcPCACoefs s1
        if !r.1 then .ok (false, r.2)
        else .ok (true, FwdcalcTrackResiduals (FwdcalcPCA r.2))

end FwdDCAFitterN

/-- The members that a whole call of a minimiser leaves alone: those of `cfg`
without the iteration counters and the stored chi2. -/
def cfgFit {N : Nat} (s : FwdDCAFitterN N) :
    (Nat × (Nat → Nat) × CrossInfo × ℚ × Bool × Bool)
    × (Int × ℚ × ℚ × ℚ) × (Nat × Int × (Nat → Bool)) :=
  ((s.mCurHyp, s.mOrder, s.mCrossings, s.mMaxR2, s.mUseAbsDCA, s.mPropagateToPCA),
    (s.mMaxIter, s.mMinParamChange, s.mMinRelChi2Change, s.mMaxChi2),
    (s.mCrossIDCur, s.mCrossIDAlt, s.mTrPropDone))

/-- The state of `twoSeedFitter` on `twoSeedTracks` in which `process` calls the
minimiser for the seed 0. -/
def newtonSeedState : FwdDCAFitterN 2 :=
  FwdDCAFitterN.seedCrossing (linearExt 2) 0
    (FwdDCAFitterN.FwdcalcRMatrices (FwdDCAFitterN.clear
      (FwdDCAFitterN.assign twoSeedTracks twoSeedFitter)))

/-- The state in which the minimiser enters its Newton loop for `newtonSeedState`. -/
def newtonEntryState : FwdDCAFitterN 2 :=
  FwdDCAFitterN.FwdcalcTrackResiduals (FwdDCAFitterN.FwdcalcPCANoErr (linearExt 2)
    (FwdDCAFitterN.minimizeChi2NoErrPrepare (linearExt 2) newtonSeedState))

/-- The state of `twoSeedFitter` on `twoSeedTracks` in which `process` enters its
crossing loop. -/
def newtonProcessState : FwdDCAFitterN 2 :=
  FwdDCAFitterN.FwdcalcRMatrices (FwdDCAFitterN.clear
    (FwdDCAFitterN.assign twoSeedTracks twoSeedFitter))

/-- The number of seeds, from the seed `ic` on, during whose treatment by the
crossing loop of `process` the switch `mAllowAltPreference` goes from true to
false; it follows the recursion of `crossingLoop`. -/
def nAltAbandoned {N : Nat} (ext : External N) : Nat → Nat → FwdDCAFitterN N → Nat
  | 0, _, _ => 0
  | fuel + 1, ic, s =>
    if (ic : Int) < s.mCrossings.nDCA then
      match FwdDCAFitterN.processCrossing ext ic s with
      | .ok s1 =>
        (if s.mAllowAltPreference && !s1.mAllowAltPreference then 1 else 0)
          + nAltAbandoned ext fuel (ic + 1) s1
      | .error _ => 0
    else 0

/-- A two-prong fitter in the absolute-distance mode whose crossing set holds
the two seeds `(0, 1)` and `(0, 3)`. -/
def altSeedFitter : FwdDCAFitterN 2 :=
  { defaultFitter 2 with
    mUseAbsDCA := true
    mCrossings := { xDCA := fun _ => 0, yDCA := fun i => if i = 0 then 1 else 3, nDCA := 2 } }

/-- The state of `altSeedFitter` on `twoSeedTracks` in which `process` enters its
crossing loop. -/
def altSeedProcessState : FwdDCAFitterN 2 :=
  FwdDCAFitterN.FwdcalcRMatrices (FwdDCAFitterN.clear
    (FwdDCAFitterN.assign twoSeedTracks altSeedFitter))

/-! ## Setters, track queries and the parent track -/

/-- The source's `for (int i = 0; i < n; i++) body(i)`: runs the body for `i = 0` up to
`n-1`. -/
def forUp {σ : Type} : Nat → (Nat → σ → σ) → σ → σ
  | 0, _, s => s
  | n + 1, body, s => body n (forUp n body s)

/-- The same loop with a body that may throw: the first failure ends the loop. -/
def forUpM {σ : Type} : Nat → (Nat → σ → Except String σ) → σ → Except String σ
  | 0, _, s => .ok s
  | n + 1, body, s =>
    match forUpM n body s with
    | .ok s' => body n s'
    | .error e => .error e

/-- Assignment `a[i] = v` to a `std::array<float, 21>`. -/
def upd21 (a : Fin 21 → ℚ) (i : Fin 21) (v : ℚ) : Fin 21 → ℚ :=
  fun k => if k = i then v else a k

/-- The arguments with which `createParentTrackPar` constructs the parent
`o2::track::TrackParFwd(vertex, pvecV, q, sectorAlpha)`; the class is not under
src/. -/
structure ParentTrackPar where
  vertex : Fin 3 → ℚ
  pvecV : Fin 3 → ℚ
  q : Int
  sectorAlpha : Bool

/-- The arguments with which `createParentTrackParCov` constructs the parent
`o2::track::TrackParCovFwd(getPCACandidatePos(cand), pvecV, covV, q,
sectorAlpha)`; the class is not under src/. -/
structure ParentTrackParCov where
  pos : Fin 3 → ℚ
  pvecV : Fin 3 → ℚ
  covV : Fin 21 → ℚ
  q : Int
  sectorAlpha : Bool

namespace FwdDCAFitterN

variable {N : Nat}

/-- The source's `setMaxIter(n)`. -/
def setMaxIter (s : FwdDCAFitterN N) (n : Int) : FwdDCAFitterN N :=
  { s with mMaxIter := if n > 2 then n else 2 }

/-- The source's `getMaxIter()`. -/
def getMaxIter (s : FwdDCAFitterN N) : Int :=
  s.mMaxIter

/-- The source's `setMinParamChange(x)`. -/
def setMinParamChange (s : FwdDCAFitterN N) (x : ℚ) : FwdDCAFitterN N :=
  { s with mMinParamChange := if x > 1 / 10000 then x else 1 / 10000 }

/-- The source's `getMinParamChange()`. -/
def getMinParamChange (s : FwdDCAFitterN N) : ℚ :=
  s.mMinParamChange

/-- The source's `setMinRelChi2Change(r)`. -/
def setMinRelChi2Change (s : FwdDCAFitterN N) (r : ℚ) : FwdDCAFitterN N :=
  { s with mMinRelChi2Change := if r > 1 / 10 then r else 999 }

/-- The source's `getTrack(i, cand)`: the prong `i` of the slot ranked `cand`, or the failure
"propagateTracksToVertex was not called yet". -/
def getTrack (s : FwdDCAFitterN N) (i cand : Nat) : Except String Track :=
  if !s.mTrPropDone (s.mOrder cand) then
    .error "propagateTracksToVertex was not called yet"
  else .ok (s.mCandTr (s.mOrder cand) i)

/-- The source's `getPCACandidatePos(cand)`. -/
def getPCACandidatePos (s : FwdDCAFitterN N) (cand : Nat) : Fin 3 → ℚ :=
  let vd := s.mPCA (s.mOrder cand)
  ![vd 0, vd 1, vd 2]

/-- The source's `calcPCACovMatrixFlat(cand)`. -/
def calcPCACovMatrixFlat (s : FwdDCAFitterN N) (cand : Nat) : Fin 6 → ℚ :=
  let m := (calcPCACovMatrix s cand).toStd
  ![m 0 0, m 1 0, m 1 1, m 2 0, m 2 1, m 2 2]

/-- The source's `MomInd[6] = {9, 13, 14, 18, 19, 20}` of `createParentTrackParCov`. -/
def MomInd (i : Nat) : Fin 21 :=
  if i = 0 then 9 else if i = 1 then 13 else if i = 2 then 14 else if i = 3 then 18
  else if i = 4 then 19 else 20

/-- The source's `createParentTrackPar(cand, sectorAlpha)`. -/
def createParentTrackPar (s : FwdDCAFitterN N) (cand : Nat) (sectorAlpha : Bool) :
    Except String ParentTrackPar :=
  match getTrack s 0 cand with
  | .error e => .error e
  | .ok _trP =>
    match getTrack s 1 cand with
    | .error e => .error e
    | .ok _trN =>
      let wvtx := getPCACandidate s cand
      let r := forUpM N (fun it (acc : (Fin 3 → ℚ) × Int) =>
        match getTrack s it cand with
        | .error e => .error e
        | .ok trc =>
          let pvecT := trc.getPxPyPzGlo
          let pvecV := forUp 3 (fun i (p : Fin 3 → ℚ) =>
            fun k => if k.val = i then p k + pvecT k else p k) acc.1
          .ok (pvecV, acc.2 + trc.getCharge)) (fun _ => 0, 0)
      match r with
      | .error e => .error e
      | .ok (pvecV, q) =>
        .ok { vertex := ![wvtx 0, wvtx 1, wvtx 2], pvecV := pvecV, q := q
              sectorAlpha := sectorAlpha }

/-- The source's `createParentTrackParCov(cand, sectorAlpha)`. -/
def createParentTrackParCov (s : FwdDCAFitterN N) (cand : Nat) (sectorAlpha : Bool) :
    Except String ParentTrackParCov :=
  match getTrack s 0 cand with
  | .error e => .error e
  | .ok _trP =>
    match getTrack s 1 cand with
    | .error e => .error e
    | .ok _trN =>
      let r := forUpM N (fun it (acc : (Fin 21 → ℚ) × (Fin 3 → ℚ) × Int) =>
        match getTrack s it cand with
        | .error e => .error e
        | .ok trc =>
          let pvecT := trc.getPxPyPzGlo
          let covT := trc.getCovXYZPxPyPzGlo
          let covV := forUp 6 (fun i (c : Fin 21 → ℚ) =>
            upd21 c (MomInd i) (c (MomInd i) + covT (MomInd i))) acc.1
          let pvecV := forUp 3 (fun i (p : Fin 3 → ℚ) =>
            fun k => if k.val = i then p k + pvecT k else p k) acc.2.1
          .ok (covV, pvecV, acc.2.2 + trc.getCharge)) (fun _ => 0, fun _ => 0, 0)
      match r with
      | .error e => .error e
      | .ok (covV, pvecV, q) =>
        let covVtxV := (calcPCACovMatrix s cand).toStd
        let c0 := upd21 covV 0 (covVtxV 0 0)
        let c1 := upd21 c0 1 (covVtxV 1 0)
        let c2 := upd21 c1 2 (covVtxV 1 1)
        let c3 := upd21 c2 3 (covVtxV 2 0)
        let c4 := upd21 c3 4 (covVtxV 2 1)
        let c5 := upd21 c4 5 (covVtxV 2 2)
        .ok { pos := getPCACandidatePos s cand, pvecV := pvecV, covV := c5, q := q
              sectorAlpha := sectorAlpha }

end FwdDCAFitterN

/-- Two straight tracks given at `z = 0`, at `(0, 201/100)` with direction
`(4/5, 3/5, 1)` and at `(0, 199/100)` with direction `(4/5, -3/5, 1)`. -/
def relChi2Tracks : Nat → Track := fun i =>
  if i = 0 then trackDir 0 (201 / 100) 0 1 1 0 (3 / 5) 1
  else trackDir 0 (199 / 100) 0 1 1 0 (-(3 / 5)) 1

/-- A two-prong fitter in the absolute-distance mode with the single seed
`(0, 4)`, after `setMinRelChi2Change(0)`, which stores the ratio 999. -/
def relChi2Fitter : FwdDCAFitterN 2 :=
  FwdDCAFitterN.setMinRelChi2Change
    { defaultFitter 2 with
      mUseAbsDCA := true
      mCrossings := { xDCA := fun _ => 0, yDCA := fun _ => 4, nDCA := 1 } } 0

/-- The state in which the minimiser enters its Newton loop for the seed of
`relChi2Fitter` on `relChi2Tracks`. -/
def relChi2EntryState : FwdDCAFitterN 2 :=
  FwdDCAFitterN.FwdcalcTrackResiduals (FwdDCAFitterN.FwdcalcPCANoErr (linearExt 2)
    (FwdDCAFitterN.minimizeChi2NoErrPrepare (linearExt 2)
      (FwdDCAFitterN.seedCrossing (linearExt 2) 0
        (FwdDCAFitterN.FwdcalcRMatrices (FwdDCAFitterN.clear
          (FwdDCAFitterN.assign relChi2Tracks relChi2Fitter))))))

/-- A track with the momentum `(px, py, pz)`, the charge `q` and the packed
covariance whose element `k` is `c * k`; the other observables are zero. -/
def momTrack (px py pz : ℚ) (q : Int) (c : ℚ) : Track :=
  { trackAt 0 0 0 0 0 0 with
    getPxPyPzGlo := ![px, py, pz]
    getCharge := q
    getCovXYZPxPyPzGlo := fun k => c * (k.val : ℚ) }

/-- A two-prong fitter whose slot 0 is propagated and holds the prongs
`momTrack 1 2 3 1 1` and `momTrack 4 5 6 (-1) 2` at the vertex `(7, 8, 9)`. -/
def parentDemoState : FwdDCAFitterN 2 :=
  { defaultFitter 2 with
    mTrPropDone := fun _ => true
    mPCA := fun _ => ![7, 8, 9]
    mCandTr := fun _ i => if i = 0 then momTrack 1 2 3 1 1 else momTrack 4 5 6 (-1) 2 }

namespace FwdDCAFitterN

variable {N : Nat}

/-- The state with which `process(args...)` enters its crossing loop: after
`assign`, `clear`, `FwdcalcRMatrices` (absolute-distance mode) and the merging of the
seeds. -/
def processEntry (args : Nat → Track) (s : FwdDCAFitterN N) : FwdDCAFitterN N :=
  mergeSeeds
    (if (clear (assign args s)).mUseAbsDCA then FwdcalcRMatrices (clear (assign args s))
      else clear (assign args s))

end FwdDCAFitterN

/-- The determinant `cxx * cyy - cxy^2` of the planar covariance of prong `i` as
`minimizeChi2` sees it in the state `s`: of the input track propagated to the z
of the vertex of the current slot. -/
def covDetAtVertex {N : Nat} (ext : External N) (s : FwdDCAFitterN N) (i : Nat) : ℚ :=
  let trc := ext.propagateToZlinear (s.mOrigTrPtr i) (s.mPCA s.mCurHyp 2)
  trc.getSigma2X * trc.getSigma2Y - trc.getSigmaXY * trc.getSigmaXY

/-- The tracks `twoSeedTracks` with the singular planar covariance
`cxx = cyy = cxy = 1`. -/
def badCovTracks : Nat → Track := fun i =>
  if i = 0 then trackDir 0 1 0 1 1 1 0 1
  else trackDir 0 1 0 1 1 1 (3 / 5) 1

/-- The fitter `twoSeedFitter` in the weighted mode. -/
def twoSeedWeightedFitter : FwdDCAFitterN 2 :=
  { twoSeedFitter with mUseAbsDCA := false }


/-- The fitter that a `process` call leaves behind; `s` when the call throws. -/
def stateAfter {N : Nat} (r : Except String (Nat × FwdDCAFitterN N)) (s : FwdDCAFitterN N) :
    FwdDCAFitterN N :=
  match r with
  | .ok (_, s') => s'
  | .error _ => s

/-- The collaborators of `linearExt`, with the curvature `bz * charge` of a
track. -/
def curvedExt (N : Nat) : External N :=
  { linearExt N with getCurvature := fun t bz => bz * (t.getCharge : ℚ) }

/-- Two tracks through the point `(0, 1, 0)` with `snp = 0`: the first neutral
with `tanl = 1`, direction `(1, 0, 1)`; the second of charge 1 with
`tanl = -1`, direction `(-1, 0, 1)`. All the values, and with them the
derivatives that `FwdTrackDeriv::set` stores in single precision, are small
dyadic numbers, which the floating-point operations of the code treat
exactly. -/
def chargedTracks : Nat → Track := fun i =>
  if i = 0 then { trackDir 0 1 0 1 1 0 0 1 with getCharge := 0 }
  else { trackDir 0 1 0 1 1 0 0 (-1) with getCharge := 1 }

/-- A two-prong fitter in the absolute-distance mode with the field `bz = 4`,
whose crossing set holds the two seeds `(0, 1)` and `(0, 3)`. -/
def singularSeedFitter : FwdDCAFitterN 2 :=
  { defaultFitter 2 with
    mUseAbsDCA := true
    mBz := 4
    mCrossings := { xDCA := fun _ => 0, yDCA := fun i => if i = 0 then 1 else 3, nDCA := 2 } }

/-- The fitter `singularSeedFitter` without its first seed: the crossing set
holds the seed `(0, 3)` only. -/
def remainingSeedFitter : FwdDCAFitterN 2 :=
  { singularSeedFitter with
    mCrossings := { xDCA := fun _ => 0, yDCA := fun _ => 3, nDCA := 1 } }

/-- The state in which the minimiser enters its Newton loop for the seed `ic`
of `singularSeedFitter` on `chargedTracks`. -/
def singularSeedEntryState (ic : Nat) : FwdDCAFitterN 2 :=
  FwdDCAFitterN.FwdcalcTrackResiduals (FwdDCAFitterN.FwdcalcPCANoErr (curvedExt 2)
    (FwdDCAFitterN.minimizeChi2NoErrPrepare (curvedExt 2)
      (FwdDCAFitterN.seedCrossing (curvedExt 2) ic
        (FwdDCAFitterN.processEntry chargedTracks singularSeedFitter))))
/-! ## Construction and the remaining getters and setters -/

namespace FwdDCAFitterN

variable {N : Nat}

/-- The source's constructor `FwdDCAFitterN(bz, useAbsDCA, prop2DCA)`: the member
initialisers of the class, with `mBz`, `mUseAbsDCA` and `mPropagateToPCA` taken
from the arguments. -/
def construct (N : Nat) (bz : ℚ) (useAbsDCA prop2DCA : Bool) : FwdDCAFitterN N :=
  { defaultFitter N with
    mBz := bz
    mUseAbsDCA := useAbsDCA
    mPropagateToPCA := prop2DCA }

/-- The source's `setUseAbsDCA(v)`. -/
def setUseAbsDCA (s : FwdDCAFitterN N) (v : Bool) : FwdDCAFitterN N :=
  { s with mUseAbsDCA := v }

/-- The source's `setMaxChi2(chi2)`. -/
def setMaxChi2 (s : FwdDCAFitterN N) (chi2 : ℚ) : FwdDCAFitterN N :=
  { s with mMaxChi2 := chi2 }

/-- The default argument of the source's `setMaxChi2(float chi2 = 999.)`. -/
def setMaxChi2Default : ℚ := 999

/-- The source's `getMaxR()`: `std::sqrt(mMaxR2)`, with the square root of the
collaborators. -/
def getMaxR (ext : External N) (s : FwdDCAFitterN N) : ℚ :=
  ext.sqrt s.mMaxR2

/-- The source's `getMaxDXIni()`. -/
def getMaxDXIni (s : FwdDCAFitterN N) : ℚ :=
  s.mMaxDXIni

/-- The source's `getMaxChi2()`. -/
def getMaxChi2 (s : FwdDCAFitterN N) : ℚ :=
  s.mMaxChi2

/-- The source's `getMaxDistance2ToMerge()`. -/
def getMaxDistance2ToMerge (s : FwdDCAFitterN N) : ℚ :=
  s.mMaxDist2ToMergeSeeds

/-- The source's `getUseAbsDCA()`. -/
def getUseAbsDCA (s : FwdDCAFitterN N) : Bool :=
  s.mUseAbsDCA

end FwdDCAFitterN

/-- The weighted chi2 in the words of the specification: the sum over the
prongs of `r_i^T * E_i * r_i` with the augmented inverse covariance `E_i`; to be
compared with the source's `FwdcalcChi2`. -/
def chi2QuadraticFormSpec {N : Nat} (s : FwdDCAFitterN N) : ℚ :=
  ∑ i in Finset.range N, Matrix.dotProduct (s.mTrRes s.mCurHyp i)
    (Matrix.mulVec (augmentedInvCov (s.mTrcEInv s.mCurHyp i)) (s.mTrRes s.mCurHyp i))

/-- Two straight tracks through `(0, 1, 0)` with the directions `(1, 0, 1)` and
`(4/5, 3/5, 1)`: the first with the planar covariance `cxx = cyy = 1`, `cxy = 0`,
the second with `cxx = cyy = -1`, `cxy = 0`, whose determinant is positive as
well. -/
def oppositeCovTracks : Nat → Track := fun i =>
  if i = 0 then trackDir 0 1 0 1 1 0 0 1 else trackDir 0 1 0 (-1) (-1) 0 (3 / 5) 1

/-- The state of `chi2NegativeFitter` (weighted mode, one seed) on
`oppositeCovTracks` in which `process` calls the minimiser for the seed 0. -/
def oppositeCovSeedState : FwdDCAFitterN 2 :=
  FwdDCAFitterN.seedCrossing (linearExt 2) 0
    (FwdDCAFitterN.processEntry oppositeCovTracks chi2NegativeFitter)

/-- A two-prong fitter whose slot 0 holds, for both prongs, a track with the
planar covariance `cxx = cyy = 1`, `cxy = 9/10`. -/
def correlatedCovState : FwdDCAFitterN 2 :=
  { defaultFitter 2 with mCandTr := fun _ _ => trackAt 0 0 0 1 1 (9 / 10) }

/-- A two-prong fitter in the absolute-distance mode whose crossing set holds
the single seed `(0, 2)`. -/
def zeroResidualFitter : FwdDCAFitterN 2 :=
  { defaultFitter 2 with
    mUseAbsDCA := true
    mCrossings := { xDCA := fun _ => 0, yDCA := fun _ => 2, nDCA := 1 } }

/-- The state in which the minimiser enters its Newton loop for the seed of
`zeroResidualFitter` on `twoSeedTracks`: both prongs are at `(0, 1, 0)`, which
is also the stored vertex, and both residuals are zero. -/
def zeroResidualEntryState : FwdDCAFitterN 2 :=
  FwdDCAFitterN.FwdcalcTrackResiduals (FwdDCAFitterN.FwdcalcPCANoErr (linearExt 2)
    (FwdDCAFitterN.minimizeChi2NoErrPrepare (linearExt 2)
      (FwdDCAFitterN.seedCrossing (linearExt 2) 0
        (FwdDCAFitterN.processEntry twoSeedTracks zeroResidualFitter))))


namespace FwdDCAFitterN

variable {N : Nat}

end FwdDCAFitterN

/-! ## Single and double precision

The values of the fit are modelled in exact arithmetic. Whether
`FwdTrackCovI::set` throws is decided by a comparison of single-precision
numbers, which exact arithmetic does not reproduce; for it the conversions of
the source are modelled. -/

/-- The power `2^e` of an integer exponent. -/
def pow2 (e : Int) : ℚ :=
  if 0 ≤ e then ((2 ^ e.toNat : Nat) : ℚ) else 1 / ((2 ^ (-e).toNat : Nat) : ℚ)

/-- The number of halvings that bring `n` below 2, at most `fuel` of them. -/
def log2Fuel : Nat → Nat → Nat
  | 0, _ => 0
  | fuel + 1, n => if 2 ≤ n then log2Fuel fuel (n / 2) + 1 else 0

/-- The binary logarithm of a natural number, rounded down (0 for 0). -/
def natLog2 (n : Nat) : Nat := log2Fuel n n

/-- The binary exponent of a positive rational `a`: the `e` with
`2^e ≤ a < 2^(e+1)`. -/
def binExponent (a : ℚ) : Int :=
  let e0 : Int := (natLog2 a.num.natAbs : Int) - (natLog2 a.den : Int)
  if pow2 e0 ≤ a then e0 else e0 - 1

/-- Rounding of an integer-plus-fraction `m` to the nearest integer, ties to
the even one. -/
def roundHalfEven (m : ℚ) : Int :=
  let f : Int := ⌊m⌋
  let d : ℚ := m - f
  if d < 1 / 2 then f
  else if 1 / 2 < d then f + 1
  else if f % 2 = 0 then f else f + 1

/-- Rounding of a rational to the nearest binary floating-point number with a
significand of `p` bits and the least exponent `emin` of a normal number, ties
to even (the IEEE 754 default); below `2^emin` the numbers are the subnormal
ones, with the spacing `2^(emin - p + 1)`. This is the finite result of the
rounding, before the test for overflow. -/
def roundBin (p : Nat) (emin : Int) (q : ℚ) : ℚ :=
  if q = 0 then 0
  else
    let a := |q|
    let u := pow2 (max (binExponent a) emin - (p : Int) + 1)
    let r := (roundHalfEven (a / u) : ℚ) * u
    if q < 0 then -r else r

/-- Rounding to `float` (IEEE 754 binary32: 24 significant bits, least normal
exponent -126), before the test for overflow. -/
def toFloat (q : ℚ) : ℚ := roundBin 24 (-126) q

/-- Rounding to `double` (IEEE 754 binary64: 53 significant bits, least normal
exponent -1022), before the test for overflow. -/
def toDouble (q : ℚ) : ℚ := roundBin 53 (-1022) q

/-- A value of the type `float`: a finite number, an infinity with its sign, or
NaN. The sign of a zero is not kept: no operation modelled here distinguishes
the two zeros. -/
inductive F32 where
  | fin (q : ℚ)
  | inf (negative : Bool)
  | nan
deriving DecidableEq

/-- Conversion of a finite number to `float`: the rounded number, or an
infinity when the rounded number is beyond the largest `float`
(`2^128 - 2^104`). -/
def narrow32 (q : ℚ) : F32 :=
  if pow2 128 ≤ |toFloat q| then .inf (decide (q < 0)) else .fin (toFloat q)

/-- The product of two `float`s. -/
def F32.mul : F32 → F32 → F32
  | .fin a, .fin b => narrow32 (a * b)
  | .fin a, .inf n => if a = 0 then .nan else .inf (xor n (decide (a < 0)))
  | .inf n, .fin b => if b = 0 then .nan else .inf (xor n (decide (b < 0)))
  | .inf n, .inf m => .inf (xor n m)
  | .nan, _ => .nan
  | _, .nan => .nan

/-- The difference of two `float`s. -/
def F32.sub : F32 → F32 → F32
  | .fin a, .fin b => narrow32 (a - b)
  | .fin _, .inf m => .inf (!m)
  | .inf n, .fin _ => .inf n
  | .inf n, .inf m => if n = m then .nan else .inf n
  | .nan, _ => .nan
  | _, .nan => .nan

/-- The comparison `x > 0.` of a `float`: false for NaN. -/
def F32.isPos : F32 → Bool
  | .fin a => decide (0 < a)
  | .inf n => !n
  | .nan => false

/-- The number that the model of the values of a fit takes for a `float`:
infinities and NaN, which are outside that model, are taken as 0. -/
def F32.val : F32 → ℚ
  | .fin a => a
  | .inf _ => 0
  | .nan => 0

/-- The `float detXY = cxx * cyy - cxy * cxy` of `FwdTrackCovI::set`: the
covariance terms, which the track holds as doubles, are narrowed to `float`,
and the two products and their difference are single-precision operations,
each rounded on its own (no fused multiply-add). -/
def floatDetXY (trc : Track) : F32 :=
  let cxx := narrow32 trc.getSigma2X
  let cyy := narrow32 trc.getSigma2Y
  let cxy := narrow32 trc.getSigmaXY
  F32.sub (F32.mul cxx cyy) (F32.mul cxy cxy)

/-- The source's `FwdTrackCovI::set(trc, zerrFactor)` with the precision of its
operations: `cxx`, `cyy`, `cxy`, `czz`, `detXY` and the four fields are `float`,
`detXYI = 1. / detXY` and the right-hand sides of the four assignments are
`double`. Throws when the comparison `detXY > 0.` of the single-precision
determinant fails. The test is modelled with the range of `float` (overflow
to an infinity, NaN, subnormal numbers); the values of the four fields are
modelled for finite numbers (`F32.val`, and no overflow in the last
conversions). -/
def FwdTrackCovI.setFloat (self : FwdTrackCovI) (trc : Track) (zerrFactor : ℚ) :
    Except String FwdTrackCovI :=
  let cxx := narrow32 trc.getSigma2X
  let cyy := narrow32 trc.getSigma2Y
  let cxy := narrow32 trc.getSigmaXY
  let czz := F32.mul cyy (narrow32 zerrFactor)
  let detXY := F32.sub (F32.mul cxx cyy) (F32.mul cxy cxy)
  if detXY.isPos then
    let detXYI := toDouble (1 / detXY.val)
    .ok { self with
          sxx := toFloat (toDouble (cyy.val * detXYI))
          syy := toFloat (toDouble (cxx.val * detXYI))
          sxy := toFloat (toDouble (-cxy.val * detXYI))
          szz := toFloat (toDouble (1 / czz.val)) }
  else
    .error "invalid track covariance"

/-- The double nearest to `0.99999999`. -/
def nearOne : ℚ := toDouble (99999999 / 100000000)

/-- A covariance with the terms `cxx = cyy = 1` and `cxy = 0.99999999`, whose
determinant is positive; the narrowing to `float` turns `cxy` into 1. -/
def nearSingularTrack : Track := trackAt 0 0 0 1 1 nearOne

/-- A covariance whose terms `cxx = 1 + 2^-23`, `cyy = 1 - 2^-24`, `cxy = 1` are
single-precision numbers and whose determinant `2^-24 - 2^-47` is positive;
the product `cxx * cyy` rounds to 1. -/
def roundedProductTrack : Track := trackAt 0 0 0 (1 + 1 / 2 ^ 23) (1 - 1 / 2 ^ 24) 1

/-- A covariance with the terms `cxx = 1 + 2^-23`, `cyy = 1` and
`cxy = 1 + 2^-24`, whose determinant `-2^-48` is negative; the narrowing to
`float` turns `cxy` into 1. -/
def narrowedDefiniteTrack : Track := trackAt 0 0 0 (1 + 1 / 2 ^ 23) 1 (1 + 1 / 2 ^ 24)

/-- A negative definite covariance with the terms `cxx = cyy = -1` and
`cxy = 0.99999999`; the narrowing to `float` turns `cxy` into 1. -/
def negativeDefiniteTrack : Track := trackAt 0 0 0 (-1) (-1) nearOne

/-- A covariance with the terms `cxx = cyy = 2^-75` and `cxy = 0`, whose
determinant `2^-150` is positive; the product `cxx * cyy` is below the least
positive `float` `2^-149` and rounds to 0. -/
def underflowTrack : Track := trackAt 0 0 0 (1 / 2 ^ 75) (1 / 2 ^ 75) 0

/-- A positive definite covariance with the terms `cxx = cyy = 2^65` and
`cxy = 2^64`; both products are beyond the largest `float`, and the difference
of the two infinities is NaN. -/
def overflowTrack : Track := trackAt 0 0 0 (2 ^ 65) (2 ^ 65) (2 ^ 64)

namespace FwdDCAFitterN

variable {N : Nat}

/-- The first loop of `minimizeChi2()` with `FwdTrackCovI::set` in single
precision: fetch every prong, propagate it to the seed z, cache its position
and its inverse covariance (which may throw). -/
def minimizeChi2PrepareFloat (ext : External N) (s : FwdDCAFitterN N) :
    Except String (FwdDCAFitterN N) :=
  forDownM N (fun i (t : FwdDCAFitterN N) =>
    let cur := t.mCurHyp
    let t1 : FwdDCAFitterN N := { t with mCandTr := upd2 t.mCandTr cur i (t.mOrigTrPtr i) }
    let z := t1.mPCA cur 2
    let t2 : FwdDCAFitterN N :=
      { t1 with mCandTr := upd2 t1.mCandTr cur i (ext.propagateToZlinear (t1.mCandTr cur i) z) }
    let t3 : FwdDCAFitterN N :=
      { t2 with mTrPos := upd2 t2.mTrPos cur i (setTrackPos (t2.mCandTr cur i)) }
    match (t3.mTrcEInv cur i).setFloat (t3.mCandTr cur i) ZerrFactor with
    | .ok c => .ok { t3 with mTrcEInv := upd2 t3.mTrcEInv cur i c }
    | .error e => .error e) s

/-- The source's `minimizeChi2()` with `FwdTrackCovI::set` in single precision;
the arithmetic of the fit itself is exact. -/
def minimizeChi2Float (ext : External N) (s : FwdDCAFitterN N) :
    Except String (Bool × FwdDCAFitterN N) :=
  match minimizeChi2PrepareFloat ext s with
  | .error e => .error e
  | .ok s1 =>
    if s1.mMaxDXIni > 0 ∧ roughDXCut s1 = false then .ok (false, s1)
    else
      let r := FwdcalcPCACoefs s1
      if !r.1 then .ok (false, r.2)
      else
        let s2 := FwdcalcPCA r.2
        let s3 := FwdcalcTrackResiduals s2
        let chi2 := FwdcalcChi2 s3
        match minimizeChi2Loop ext (loopFuel s3) chi2 s3 with
        | (none, s4) => .ok (false, s4)
        | (some c, s4) =>
          let s5 : FwdDCAFitterN N := { s4 with mChi2 := upd s4.mChi2 s4.mCurHyp (c * NInv N) }
          .ok (decide (s5.mChi2 s5.mCurHyp < s5.mMaxChi2), s5)

/-- The body of the crossing loop of `process` for the seed `ic`, with
`FwdTrackCovI::set` in single precision. -/
def processCrossingFloat (ext : External N) (ic : Nat) (s : FwdDCAFitterN N) :
    Except String (FwdDCAFitterN N) :=
  if s.mCrossings.xDCA ic * s.mCrossings.xDCA ic + s.mCrossings.yDCA ic * s.mCrossings.yDCA ic
      > s.mMaxR2 then
    .ok s
  else
    let s1 := seedCrossing ext ic s
    if s1.mUseAbsDCA then .ok (acceptCrossing ext (minimizeChi2NoErr ext s1))
    else
      match minimizeChi2Float ext s1 with
      | .ok r => .ok (acceptCrossing ext r)
      | .error e => .error e

/-- The loop `for (int ic = 0; ic < mCrossings.nDCA; ic++)` of `process`, from
the index `ic` on, with `FwdTrackCovI::set` in single precision. The first
argument bounds the number of passes for the recursion only; the loop
condition is the one of the source, and the bound that `processFloat` supplies
is never exhausted (`crossingLoopFloat_fuel`). -/
def crossingLoopFloat (ext : External N) :
    Nat → Nat → FwdDCAFitterN N → Except String (FwdDCAFitterN N)
  | 0, _, s => .ok s
  | fuel + 1, ic, s =>
    if (ic : Int) < s.mCrossings.nDCA then
      match processCrossingFloat ext ic s with
      | .ok s1 => crossingLoopFloat ext fuel (ic + 1) s1
      | .error e => .error e
    else .ok s

/-- The source's `process(args...)` with `FwdTrackCovI::set` in single precision:
returns the number of candidates (or the failure thrown by
`FwdTrackCovI::set`) and the state it leaves. -/
def processFloat (ext : External N) (args : Nat → Track) (s : FwdDCAFitterN N) :
    Except String (Nat × FwdDCAFitterN N) :=
  let s0 := assign args s
  let s1 := clear s0
  let s2 := if s1.mUseAbsDCA then FwdcalcRMatrices s1 else s1
  let s3 := mergeSeeds s2
  match crossingLoopFloat ext s3.mCrossings.nDCA.toNat 0 s3 with
  | .error e => .error e
  | .ok s4 =>
    let s5 := orderCandidates s4
    .ok (s5.mCurHyp, s5)

end FwdDCAFitterN

/-- The single-precision determinant that `FwdTrackCovI::set` computes for the
prong `i` as `minimizeChi2` sees it in the state `s`: for the input track
propagated to the z of the vertex of the current slot. -/
def floatDetAtVertex {N : Nat} (ext : External N) (s : FwdDCAFitterN N) (i : Nat) : F32 :=
  floatDetXY (ext.propagateToZlinear (s.mOrigTrPtr i) (s.mPCA s.mCurHyp 2))

/-- The tracks `twoSeedTracks` with the planar covariance of
`nearSingularTrack`: `cxx = cyy = 1`, `cxy = 0.99999999`. -/
def nearSingularTracks : Nat → Track := fun i =>
  if i = 0 then trackDir 0 1 0 1 1 nearOne 0 1
  else trackDir 0 1 0 1 1 nearOne (3 / 5) 1
/-! ## Theorems -/

/-- Sylvester criterion for the planar covariance: positive definite exactly
when the x variance and the determinant are positive. -/
theorem posDef2_iff (cxx cxy cyy : ℚ) :
    PosDef2 cxx cxy cyy ↔ 0 < cxx ∧ 0 < cxx * cyy - cxy * cxy := by
  constructor
  · intro h
    have h1 : 0 < cxx := by
      have := h 1 0 (Or.inl one_ne_zero)
      simpa using this
    refine ⟨h1, ?_⟩
    have h2 := h (-cxy) cxx (Or.inr (ne_of_gt h1))
    have h3 : cxx * -cxy * -cxy + 2 * cxy * -cxy * cxx + cyy * cxx * cxx
        = cxx * (cxx * cyy - cxy * cxy) := by ring
    rw [h3] at h2
    exact (mul_pos_iff_of_pos_left h1).mp h2
  · rintro ⟨h1, h2⟩ a b hab
    have key : cxx * (cxx * a * a + 2 * cxy * a * b + cyy * b * b)
        = (cxx * a + cxy * b) ^ 2 + (cxx * cyy - cxy * cxy) * b ^ 2 := by ring
    have hpos : 0 < (cxx * a + cxy * b) ^ 2 + (cxx * cyy - cxy * cxy) * b ^ 2 := by
      by_cases hb : b = 0
      · subst hb
        have ha : a ≠ 0 := by
          rcases hab with ha | hb
          · exact ha
          · exact absurd rfl hb
        have : 0 < (cxx * a) ^ 2 := by positivity
        simpa using this
      · have : 0 < (cxx * cyy - cxy * cxy) * b ^ 2 := by positivity
        have h0 : 0 ≤ (cxx * a + cxy * b) ^ 2 := sq_nonneg _
        linarith
    rw [← key] at hpos
    exact (mul_pos_iff_of_pos_left h1).mp hpos

/-- The two outcomes of `FwdTrackCovI::set`, by the sign of the planar
determinant. -/
theorem FwdTrackCovI_set_cases (self : FwdTrackCovI) (trc : Track) (zf : ℚ) :
    (0 < trc.getSigma2X * trc.getSigma2Y - trc.getSigmaXY * trc.getSigmaXY →
      self.set trc zf = .ok
        { sxx := trc.getSigma2Y * (1 / (trc.getSigma2X * trc.getSigma2Y - trc.getSigmaXY * trc.getSigmaXY))
          syy := trc.getSigma2X * (1 / (trc.getSigma2X * trc.getSigma2Y - trc.getSigmaXY * trc.getSigmaXY))
          sxy := -trc.getSigmaXY * (1 / (trc.getSigma2X * trc.getSigma2Y - trc.getSigmaXY * trc.getSigmaXY))
          szz := 1 / (trc.getSigma2Y * zf) })
    ∧ (trc.getSigma2X * trc.getSigma2Y - trc.getSigmaXY * trc.getSigmaXY ≤ 0 →
      self.set trc zf = .error "invalid track covariance") := by
  constructor
  · intro h
    simp [FwdTrackCovI.set, h]
  · intro h
    simp [FwdTrackCovI.set, not_lt.mpr h]

/-- C9: whenever `FwdTrackCovI::set` succeeds, `[[sxx, sxy], [sxy, syy]]` is the
exact inverse of the planar covariance `[[cxx, cxy], [cxy, cyy]]` (both products
are the identity) and, for a non-zero z-error factor,
`szz * (cyy * zerrFactor) = 1`. -/
theorem FwdTrackCovI_set_is_inverse (self c : FwdTrackCovI) (trc : Track) (zf : ℚ)
    (hset : self.set trc zf = .ok c) (hzf : zf ≠ 0) :
    !![c.sxx, c.sxy; c.sxy, c.syy]
        * !![trc.getSigma2X, trc.getSigmaXY; trc.getSigmaXY, trc.getSigma2Y] = 1
    ∧ !![trc.getSigma2X, trc.getSigmaXY; trc.getSigmaXY, trc.getSigma2Y]
        * !![c.sxx, c.sxy; c.sxy, c.syy] = 1
    ∧ c.szz * (trc.getSigma2Y * zf) = 1 := by
  obtain ⟨hok, herr⟩ := FwdTrackCovI_set_cases self trc zf
  have hdet : 0 < trc.getSigma2X * trc.getSigma2Y - trc.getSigmaXY * trc.getSigmaXY := by
    by_contra hn
    rw [herr (not_lt.mp hn)] at hset
    cases hset
  have hc := hok hdet
  rw [hset] at hc
  injection hc with hc
  subst hc
  have hd : trc.getSigma2X * trc.getSigma2Y - trc.getSigmaXY * trc.getSigmaXY ≠ 0 := ne_of_gt hdet
  have hy : trc.getSigma2Y ≠ 0 := by
    intro hy
    rw [hy] at hdet
    nlinarith [mul_self_nonneg trc.getSigmaXY]
  refine ⟨?_, ?_, ?_⟩
  · ext i j
    fin_cases i <;> fin_cases j <;> simp [Matrix.mul_apply, Fin.sum_univ_two] <;> field_simp <;> ring
  · ext i j
    fin_cases i <;> fin_cases j <;> simp [Matrix.mul_apply, Fin.sum_univ_two] <;> field_simp <;> ring
  · simp only []
    field_simp

/-- Witness of C9 on the covariance `cxx = cyy = 1`, `cxy = 9/10` with the
z-error factor of the fitter. -/
theorem FwdTrackCovI_set_is_inverse_witness :
    !![covI_1_1_09.sxx, covI_1_1_09.sxy; covI_1_1_09.sxy, covI_1_1_09.syy]
        * !![(1 : ℚ), 9 / 10; 9 / 10, 1] = 1
    ∧ !![(1 : ℚ), 9 / 10; 9 / 10, 1]
        * !![covI_1_1_09.sxx, covI_1_1_09.sxy; covI_1_1_09.sxy, covI_1_1_09.syy] = 1
    ∧ covI_1_1_09.szz * (1 * 5) = 1 :=
  FwdTrackCovI_set_is_inverse covI_1_1_09 covI_1_1_09 (trackAt 0 0 0 1 1 (9 / 10)) 5
    (by norm_num [FwdTrackCovI.set, trackAt, covI_1_1_09]) (by norm_num)

/-! ### Loops -/

/-- A quantity that every pass of a loop keeps is kept by the loop. -/
theorem forDown_preserves {σ α : Type} (f : σ → α) (body : Nat → σ → σ)
    (h : ∀ i t, f (body i t) = f t) : ∀ (n : Nat) (s : σ), f (forDown n body s) = f s := by
  intro n
  induction n with
  | zero => intro s; rfl
  | succ n ih => intro s; rw [forDown, ih, h]

/-- A property kept by every pass with an index below the bound is kept by the
loop. -/
theorem forDown_invariant_lt {σ : Type} (P : σ → Prop) (body : Nat → σ → σ) :
    ∀ (n : Nat) (s : σ), (∀ i t, i < n → P t → P (body i t)) → P s → P (forDown n body s) := by
  intro n
  induction n with
  | zero => intro s _ hs; exact hs
  | succ n ih =>
    intro s h hs
    rw [forDown]
    exact ih _ (fun i t hi => h i t (Nat.lt_succ_of_lt hi)) (h n s (Nat.lt_succ_self n) hs)

/-- An accumulating loop computes the sum of its terms. -/
theorem forDown_add (f : Nat → ℚ) : ∀ (n : Nat) (a : ℚ),
    forDown n (fun i acc => acc + f i) a = a + ∑ i in Finset.range n, f i := by
  intro n
  induction n with
  | zero => intro a; simp [forDown]
  | succ n ih =>
    intro a
    rw [forDown, ih, Finset.sum_range_succ]
    ring

/-! ### Chi-square of the two modes -/

/-- A returning `process` call behind an observed outcome. -/
theorem processOutcome_some {N : Nat} (r : Except String (Nat × FwdDCAFitterN N))
    (c o0 o1 : Nat) (x0 x1 : ℚ) (h : processOutcome r = some (c, o0, o1, x0, x1)) :
    ∃ s, r = .ok (c, s) ∧ s.mOrder 0 = o0 ∧ s.mOrder 1 = o1
      ∧ FwdDCAFitterN.getChi2AtPCACandidate s 0 = x0
      ∧ FwdDCAFitterN.getChi2AtPCACandidate s 1 = x1 := by
  cases r with
  | error e => simp [processOutcome] at h
  | ok p =>
    obtain ⟨c', s⟩ := p
    simp only [processOutcome, Option.some.injEq, Prod.mk.injEq] at h
    obtain ⟨h1, h2, h3, h4, h5⟩ := h
    subst h1
    exact ⟨s, rfl, h2, h3, h4, h5⟩

set_option maxRecDepth 100000 in
/-- C1 (code defect): the weighted chi2 can be negative for positive definite
covariances. On the two-prong state `chi2NegativeState`, whose inverse
covariances are the ones `FwdTrackCovI::set` produces from the positive
definite covariance `cxx = cyy = 1`, `cxy = 9/10` with `ZerrFactor`,
`FwdcalcChi2` returns `-762/95`; and `process` on the two straight tracks
`chi2NegativeTracks` (same covariance, one seed) returns one candidate whose
stored chi2 is `-381/380`. -/
theorem FwdcalcChi2_negative_on_posdef_input :
    PosDef2 1 (9 / 10) 1
    ∧ covI_1_1_09.set (trackAt 0 0 0 1 1 (9 / 10)) FwdDCAFitterN.ZerrFactor = .ok covI_1_1_09
    ∧ FwdDCAFitterN.FwdcalcChi2 chi2NegativeState = -(762 / 95)
    ∧ (∃ s, FwdDCAFitterN.process (linearExt 2) chi2NegativeTracks chi2NegativeFitter = .ok (1, s)
        ∧ FwdDCAFitterN.getChi2AtPCACandidate s 0 = -(381 / 380)) := by
  refine ⟨?_, ?_, ?_, ?_⟩
  · rw [posDef2_iff]; norm_num
  · norm_num [FwdTrackCovI.set, trackAt, covI_1_1_09, FwdDCAFitterN.ZerrFactor]
  · norm_num [FwdDCAFitterN.FwdcalcChi2, forDown, chi2NegativeState, defaultFitter, covI_1_1_09]
  · have h : processOutcome
        (FwdDCAFitterN.process (linearExt 2) chi2NegativeTracks chi2NegativeFitter)
        = some (1, 0, 0, -(381 / 380), -(381 / 380)) := by decide!
    obtain ⟨s, h1, _, _, h4, _⟩ := processOutcome_some _ _ _ _ _ _ h
    exact ⟨s, h1, h4⟩

theorem sq_sum3_eq_zero (a b c : ℚ) (h : a ^ 2 + b ^ 2 + c ^ 2 = 0) :
    a = 0 ∧ b = 0 ∧ c = 0 := by
  have ha := sq_nonneg a
  have hb := sq_nonneg b
  have hc := sq_nonneg c
  refine ⟨?_, ?_, ?_⟩
  · exact pow_eq_zero_iff (two_ne_zero) |>.mp (by linarith)
  · exact pow_eq_zero_iff (two_ne_zero) |>.mp (by linarith)
  · exact pow_eq_zero_iff (two_ne_zero) |>.mp (by linarith)

/-- The source's `FwdcalcChi2NoErr` is the sum of the squared norms of the residuals. -/
theorem FwdcalcChi2NoErr_eq_sum {N : Nat} (s : FwdDCAFitterN N) :
    FwdDCAFitterN.FwdcalcChi2NoErr s
      = ∑ i in Finset.range N, ((s.mTrRes s.mCurHyp i 0) ^ 2 + (s.mTrRes s.mCurHyp i 1) ^ 2
          + (s.mTrRes s.mCurHyp i 2) ^ 2) := by
  unfold FwdDCAFitterN.FwdcalcChi2NoErr
  rw [forDown_add, zero_add]
  refine Finset.sum_congr rfl (fun i _ => ?_)
  ring

/-- The source's `FwdcalcChi2NoErr` is never negative. -/
theorem FwdcalcChi2NoErr_nonneg_aux {N : Nat} (s : FwdDCAFitterN N) :
    0 ≤ FwdDCAFitterN.FwdcalcChi2NoErr s := by
  rw [FwdcalcChi2NoErr_eq_sum]
  exact Finset.sum_nonneg (fun i _ => by positivity)

/-! ### What the numeric steps leave alone -/

section Frame

open FwdDCAFitterN

variable {N : Nat}

/-- What `process` steers by is a part of `cfg`. -/
theorem ctl_of_cfg {s s' : FwdDCAFitterN N} (h : cfg s' = cfg s) : ctl s' = ctl s := by
  simp only [cfg, Prod.mk.injEq] at h
  obtain ⟨⟨h1, h2, h3, h4, h5, h6, h7⟩, _, _⟩ := h
  simp only [ctl, h1, h2, h3, h4, h5, h6, h7]

theorem cfg_FwdcalcInverseWeight (s : FwdDCAFitterN N) :
    cfg (FwdcalcInverseWeight s).2 = cfg s := by
  unfold FwdcalcInverseWeight
  have h := forDown_preserves (cfg (N := N)) (fun i (t : FwdDCAFitterN N) =>
    { t with mWeightInv :=
        { XX := t.mWeightInv.XX + (t.mTrcEInv t.mCurHyp i).sxx
          XY := t.mWeightInv.XY + (t.mTrcEInv t.mCurHyp i).sxy
          XZ := t.mWeightInv.XZ + 0
          YY := t.mWeightInv.YY + (t.mTrcEInv t.mCurHyp i).syy
          YZ := t.mWeightInv.YZ + 0
          ZZ := t.mWeightInv.ZZ + (t.mTrcEInv t.mCurHyp i).szz } }) (fun _ _ => rfl) N
    { s with mWeightInv := MatSym3D.zero }
  dsimp only
  split
  · exact h
  · exact h

theorem cfg_FwdcalcPCACoefs (s : FwdDCAFitterN N) :
    cfg (FwdcalcPCACoefs s).2 = cfg s := by
  unfold FwdcalcPCACoefs
  dsimp only
  split
  · exact cfg_FwdcalcInverseWeight s
  · refine (forDown_preserves cfg _ (fun i t => ?_) _ _).trans (cfg_FwdcalcInverseWeight s)
    rfl

theorem cfg_FwdcalcResidDerivatives (s : FwdDCAFitterN N) :
    cfg (FwdcalcResidDerivatives s) = cfg s := by
  unfold FwdcalcResidDerivatives
  refine forDown_preserves cfg _ (fun i t => ?_) _ _
  refine forDown_preserves cfg _ (fun j u => ?_) _ _
  rfl

theorem cfg_FwdcalcResidDerivativesNoErr (s : FwdDCAFitterN N) :
    cfg (FwdcalcResidDerivativesNoErr s) = cfg s := by
  unfold FwdcalcResidDerivativesNoErr
  refine forDown_preserves cfg _ (fun i t => ?_) _ _
  refine (forDown_preserves cfg _ (fun j u => ?_) _ _).trans ?_
  · rfl
  · rfl

theorem cfg_FwdcalcRMatrices (s : FwdDCAFitterN N) :
    cfg (FwdcalcRMatrices s) = cfg s := by
  unfold FwdcalcRMatrices
  refine forDown_preserves cfg _ (fun i t => ?_) _ _
  refine forDown_preserves cfg _ (fun j u => ?_) _ _
  rfl

theorem cfg_FwdcalcChi2Derivatives1 (s : FwdDCAFitterN N) :
    cfg (FwdcalcChi2Derivatives1 s).1 = cfg s := by
  unfold FwdcalcChi2Derivatives1
  refine forDown_preserves (fun p : FwdDCAFitterN N × (Nat → Nat → Vec3D) => cfg p.1) _
    (fun i t => ?_) _ _
  refine (forDown_preserves (fun p : FwdDCAFitterN N × (Nat → Nat → Vec3D) => cfg p.1) _
    (fun j u => ?_) _ _).trans ?_
  · rfl
  · rfl

theorem cfg_FwdcalcChi2Derivatives (s : FwdDCAFitterN N) :
    cfg (FwdcalcChi2Derivatives s) = cfg s := by
  unfold FwdcalcChi2Derivatives
  refine (forDown_preserves cfg _ (fun i t => ?_) _ _).trans (cfg_FwdcalcChi2Derivatives1 s)
  refine forDown_preserves cfg _ (fun j u => ?_) _ _
  refine (forDown_preserves cfg _ (fun k v => ?_) _ _).trans ?_
  · rfl
  · rfl

theorem cfg_FwdcalcChi2DerivativesNoErr (s : FwdDCAFitterN N) :
    cfg (FwdcalcChi2DerivativesNoErr s) = cfg s := by
  unfold FwdcalcChi2DerivativesNoErr
  refine forDown_preserves cfg _ (fun i t => ?_) _ _
  refine (forDown_preserves cfg _ (fun j u => ?_) _ _).trans ?_
  · dsimp only
    split
    · refine (forDown_preserves cfg _ (fun k v => ?_) _ _).trans ?_
      · rfl
      · rfl
    · rfl
  · rfl

theorem cfg_FwdcalcPCA (s : FwdDCAFitterN N) : cfg (FwdcalcPCA s) = cfg s := by
  unfold FwdcalcPCA
  refine (forDown_preserves cfg _ (fun i t => ?_) _ _).trans ?_
  · rfl
  · rfl

theorem cfg_FwdcalcPCANoErr (ext : External N) (s : FwdDCAFitterN N) :
    cfg (FwdcalcPCANoErr ext s) = cfg s := by
  unfold FwdcalcPCANoErr
  dsimp only
  refine Eq.trans (b := cfg (forDown (N - 1) _ _)) rfl ?_
  refine (forDown_preserves cfg _ (fun i t => ?_) _ _).trans ?_
  · rfl
  · rfl

theorem cfg_FwdcalcTrackResiduals (s : FwdDCAFitterN N) :
    cfg (FwdcalcTrackResiduals s) = cfg s := by
  unfold FwdcalcTrackResiduals
  refine forDown_preserves cfg _ (fun i t => ?_) _ _
  rfl

theorem cfg_calcTrackDerivatives (ext : External N) (s : FwdDCAFitterN N) :
    cfg (calcTrackDerivatives ext s) = cfg s := by
  unfold calcTrackDerivatives
  refine forDown_preserves cfg _ (fun i t => ?_) _ _
  rfl

theorem cfg_FwdcorrectTracks (corrZ : Nat → ℚ) (s : FwdDCAFitterN N) :
    cfg (FwdcorrectTracks corrZ s).2 = cfg s := by
  unfold FwdcorrectTracks
  refine forDown_preserves cfg _ (fun i t => ?_) _ _
  rfl

theorem ctl_FwdpropagateTracksToVertex (ext : External N) (icand : Nat) (s : FwdDCAFitterN N) :
    ctl (FwdpropagateTracksToVertex ext icand s).2 = ctl s := by
  unfold FwdpropagateTracksToVertex
  dsimp only
  split
  · rfl
  · refine Eq.trans (b := ctl (forDown N _ s)) rfl ?_
    refine forDown_preserves ctl _ (fun i t => ?_) _ _
    dsimp only
    split <;> rfl

/-- The source's `FwdpropagateTracksToVertex` has no failure path: it always returns true. -/
theorem FwdpropagateTracksToVertex_fst (ext : External N) (icand : Nat) (s : FwdDCAFitterN N) :
    (FwdpropagateTracksToVertex ext icand s).1 = true := by
  unfold FwdpropagateTracksToVertex
  dsimp only
  split <;> rfl

theorem cfg_findZatXY (ext : External N) (icand : Nat) (s : FwdDCAFitterN N) :
    cfg (findZatXY ext icand s) = cfg s := rfl

theorem forDownM_preserves {σ α : Type} (f : σ → α) (body : Nat → σ → Except String σ)
    (h : ∀ i t t', body i t = .ok t' → f t' = f t) :
    ∀ (n : Nat) (s s' : σ), forDownM n body s = .ok s' → f s' = f s := by
  intro n
  induction n with
  | zero =>
    intro s s' hs
    simp only [forDownM, Except.ok.injEq] at hs
    rw [hs]
  | succ n ih =>
    intro s s' hs
    rw [forDownM] at hs
    cases hb : body n s with
    | error e => rw [hb] at hs; cases hs
    | ok t =>
      rw [hb] at hs
      exact (ih t s' hs).trans (h n s t hb)

theorem cfg_minimizeChi2Prepare (ext : External N) (s s' : FwdDCAFitterN N)
    (h : minimizeChi2Prepare ext s = .ok s') : cfg s' = cfg s := by
  unfold minimizeChi2Prepare at h
  refine forDownM_preserves cfg _ (fun i t t' ht => ?_) _ _ _ h
  dsimp only at ht
  split at ht
  · injection ht with ht
    rw [← ht]
    rfl
  · cases ht

theorem cfg_minimizeChi2NoErrPrepare (ext : External N) (s : FwdDCAFitterN N) :
    cfg (minimizeChi2NoErrPrepare ext s) = cfg s := by
  unfold minimizeChi2NoErrPrepare
  refine forDown_preserves cfg _ (fun i t => ?_) _ _
  rfl

/-- A pass of the weighted Newton loop writes no member of `cfg`. -/
theorem cfg_minimizeChi2Pass (ext : External N) (chi2 : ℚ) (s : FwdDCAFitterN N) :
    cfg (minimizeChi2Pass ext chi2 s).state = cfg s := by
  have h3 : cfg (FwdcalcChi2Derivatives (FwdcalcResidDerivatives (calcTrackDerivatives ext s)))
      = cfg s := by
    rw [cfg_FwdcalcChi2Derivatives, cfg_FwdcalcResidDerivatives, cfg_calcTrackDerivatives]
  unfold minimizeChi2Pass
  dsimp only
  split
  · exact h3
  · split
    · change cfg (FwdcorrectTracks _ _).2 = _
      rw [cfg_FwdcorrectTracks]; exact h3
    · split
      · change cfg (FwdcalcPCA _) = _
        rw [cfg_FwdcalcPCA, cfg_FwdcorrectTracks]; exact h3
      · split
        · change cfg (FwdcalcTrackResiduals _) = _
          rw [cfg_FwdcalcTrackResiduals, cfg_FwdcalcPCA, cfg_FwdcorrectTracks]; exact h3
        · change cfg (FwdcalcTrackResiduals _) = _
          rw [cfg_FwdcalcTrackResiduals, cfg_FwdcalcPCA, cfg_FwdcorrectTracks]; exact h3

/-- A pass of the absolute-distance Newton loop writes no member of `cfg`. -/
theorem cfg_minimizeChi2NoErrPass (ext : External N) (chi2 : ℚ) (s : FwdDCAFitterN N) :
    cfg (minimizeChi2NoErrPass ext chi2 s).state = cfg s := by
  have h3 : cfg (FwdcalcChi2DerivativesNoErr
      (FwdcalcResidDerivativesNoErr (calcTrackDerivatives ext s))) = cfg s := by
    rw [cfg_FwdcalcChi2DerivativesNoErr, cfg_FwdcalcResidDerivativesNoErr,
      cfg_calcTrackDerivatives]
  unfold minimizeChi2NoErrPass
  dsimp only
  split
  · exact h3
  · split
    · change cfg (FwdcorrectTracks _ _).2 = _
      rw [cfg_FwdcorrectTracks]; exact h3
    · split
      · change cfg (FwdcalcPCANoErr ext _) = _
        rw [cfg_FwdcalcPCANoErr, cfg_FwdcorrectTracks]; exact h3
      · split
        · change cfg (FwdcalcTrackResiduals _) = _
          rw [cfg_FwdcalcTrackResiduals, cfg_FwdcalcPCANoErr, cfg_FwdcorrectTracks]; exact h3
        · change cfg (FwdcalcTrackResiduals _) = _
          rw [cfg_FwdcalcTrackResiduals, cfg_FwdcalcPCANoErr, cfg_FwdcorrectTracks]; exact h3

/-- The chi2 a pass of the absolute-distance loop computes is never negative. -/
theorem minimizeChi2NoErrPass_nonneg (ext : External N) (chi2 c : ℚ) (s : FwdDCAFitterN N)
    (h : (minimizeChi2NoErrPass ext chi2 s).chi2 = some c) : 0 ≤ c := by
  unfold minimizeChi2NoErrPass at h
  dsimp only at h
  split at h
  · cases h
  · split at h
    · cases h
    · split at h
      · cases h
      · split at h
        · injection h with h
          rw [← h]
          exact FwdcalcChi2NoErr_nonneg_aux _
        · injection h with h
          rw [← h]
          exact FwdcalcChi2NoErr_nonneg_aux _

/-- Incrementing the iteration counter of the current slot keeps `ctl`. -/
theorem ctl_incr_mNIters (s : FwdDCAFitterN N) :
    ctl ({ s with mNIters := upd s.mNIters s.mCurHyp (s.mNIters s.mCurHyp + 1) } : FwdDCAFitterN N)
      = ctl s := rfl

theorem ctl_minimizeChi2Loop (ext : External N) : ∀ (fuel : Nat) (chi2 : ℚ) (s : FwdDCAFitterN N),
    ctl (minimizeChi2Loop ext fuel chi2 s).2 = ctl s := by
  intro fuel
  induction fuel with
  | zero => intro chi2 s; rfl
  | succ n ih =>
    intro chi2 s
    have hp := ctl_of_cfg (cfg_minimizeChi2Pass ext chi2 s)
    rw [minimizeChi2Loop]
    cases hr : minimizeChi2Pass ext chi2 s with
    | returnFalse s' => rw [hr] at hp; exact hp
    | converged c s' => rw [hr] at hp; exact hp
    | next c s7 =>
      rw [hr] at hp
      dsimp only
      split
      · rw [ih]; exact hp
      · exact hp

theorem ctl_minimizeChi2NoErrLoop (ext : External N) :
    ∀ (fuel : Nat) (chi2 : ℚ) (s : FwdDCAFitterN N),
      ctl (minimizeChi2NoErrLoop ext fuel chi2 s).2 = ctl s := by
  intro fuel
  induction fuel with
  | zero => intro chi2 s; rfl
  | succ n ih =>
    intro chi2 s
    have hp := ctl_of_cfg (cfg_minimizeChi2NoErrPass ext chi2 s)
    rw [minimizeChi2NoErrLoop]
    cases hr : minimizeChi2NoErrPass ext chi2 s with
    | returnFalse s' => rw [hr] at hp; exact hp
    | converged c s' => rw [hr] at hp; exact hp
    | next c s7 =>
      rw [hr] at hp
      dsimp only
      split
      · rw [ih]; exact hp
      · exact hp

/-- The chi2 with which the Newton loop of the absolute-distance mode ends is
never negative. -/
theorem minimizeChi2NoErrLoop_nonneg (ext : External N) :
    ∀ (fuel : Nat) (chi2 : ℚ) (s : FwdDCAFitterN N) (c : ℚ),
      (minimizeChi2NoErrLoop ext fuel chi2 s).1 = some c → 0 ≤ c := by
  intro fuel
  induction fuel with
  | zero => intro chi2 s c h; cases h
  | succ n ih =>
    intro chi2 s c
    have hp := minimizeChi2NoErrPass_nonneg ext chi2
    rw [minimizeChi2NoErrLoop]
    cases hr : minimizeChi2NoErrPass ext chi2 s with
    | returnFalse s' => intro h; cases h
    | converged c' s' =>
      intro h
      injection h with h
      rw [← h]
      exact hp c' s (by rw [hr]; rfl)
    | next c' s7 =>
      dsimp only
      split
      · exact ih _ _ c
      · intro h
        injection h with h
        rw [← h]
        exact hp c' s (by rw [hr]; rfl)

/-- The fuel of the weighted Newton loop is never exhausted: with at least
`loopFuel s` passes allowed the loop returns the same result, so the branch
for zero fuel is not reached from `minimizeChi2`. -/
theorem minimizeChi2Loop_fuel (ext : External N) :
    ∀ (fuel fuel' : Nat) (chi2 : ℚ) (s : FwdDCAFitterN N),
      loopFuel s ≤ fuel → loopFuel s ≤ fuel' →
      minimizeChi2Loop ext fuel chi2 s = minimizeChi2Loop ext fuel' chi2 s := by
  intro fuel
  induction fuel with
  | zero => intro fuel' chi2 s h; unfold loopFuel at h; omega
  | succ n ih =>
    intro fuel' chi2 s h h'
    cases fuel' with
    | zero => unfold loopFuel at h'; omega
    | succ m =>
      have hp := cfg_minimizeChi2Pass ext chi2 s
      rw [minimizeChi2Loop, minimizeChi2Loop]
      cases hr : minimizeChi2Pass ext chi2 s with
      | returnFalse s' => rfl
      | converged c s' => rfl
      | next c s7 =>
        rw [hr] at hp
        simp only [cfg, PassResult.state, Prod.mk.injEq] at hp
        obtain ⟨⟨hcur, _⟩, ⟨hit, hmax, _⟩, _⟩ := hp
        dsimp only
        split
        · rename_i hlt
          simp only [upd, if_true] at hlt
          apply ih
          · unfold loopFuel at h ⊢
            simp only [upd, if_true]
            rw [hcur, hit, hmax] at *
            omega
          · unfold loopFuel at h' ⊢
            simp only [upd, if_true]
            rw [hcur, hit, hmax] at *
            omega
        · rfl

/-- The fuel of the absolute-distance Newton loop is never exhausted. -/
theorem minimizeChi2NoErrLoop_fuel (ext : External N) :
    ∀ (fuel fuel' : Nat) (chi2 : ℚ) (s : FwdDCAFitterN N),
      loopFuel s ≤ fuel → loopFuel s ≤ fuel' →
      minimizeChi2NoErrLoop ext fuel chi2 s = minimizeChi2NoErrLoop ext fuel' chi2 s := by
  intro fuel
  induction fuel with
  | zero => intro fuel' chi2 s h; unfold loopFuel at h; omega
  | succ n ih =>
    intro fuel' chi2 s h h'
    cases fuel' with
    | zero => unfold loopFuel at h'; omega
    | succ m =>
      have hp := cfg_minimizeChi2NoErrPass ext chi2 s
      rw [minimizeChi2NoErrLoop, minimizeChi2NoErrLoop]
      cases hr : minimizeChi2NoErrPass ext chi2 s with
      | returnFalse s' => rfl
      | converged c s' => rfl
      | next c s7 =>
        rw [hr] at hp
        simp only [cfg, PassResult.state, Prod.mk.injEq] at hp
        obtain ⟨⟨hcur, _⟩, ⟨hit, hmax, _⟩, _⟩ := hp
        dsimp only
        split
        · rename_i hlt
          simp only [upd, if_true] at hlt
          apply ih
          · unfold loopFuel at h ⊢
            simp only [upd, if_true]
            rw [hcur, hit, hmax] at *
            omega
          · unfold loopFuel at h' ⊢
            simp only [upd, if_true]
            rw [hcur, hit, hmax] at *
            omega
        · rfl

theorem NInv_nonneg (N : Nat) : 0 ≤ NInv N := by
  unfold NInv
  positivity

/-- What `minimizeChi2NoErr` leaves alone, and the sign of the chi2 it stores
when it accepts. -/
theorem minimizeChi2NoErr_spec (ext : External N) (s : FwdDCAFitterN N) :
    ctl (minimizeChi2NoErr ext s).2 = ctl s
    ∧ ((minimizeChi2NoErr ext s).1 = true →
        0 ≤ (minimizeChi2NoErr ext s).2.mChi2 (minimizeChi2NoErr ext s).2.mCurHyp) := by
  have h1 := ctl_of_cfg (cfg_minimizeChi2NoErrPrepare ext s)
  unfold minimizeChi2NoErr
  dsimp only
  split
  · exact ⟨h1, fun h => by cases h⟩
  · have h3 : ctl (FwdcalcTrackResiduals (FwdcalcPCANoErr ext (minimizeChi2NoErrPrepare ext s)))
        = ctl s := by
      rw [ctl_of_cfg (cfg_FwdcalcTrackResiduals _), ctl_of_cfg (cfg_FwdcalcPCANoErr ext _)]
      exact h1
    split
    · rename_i s4 hl
      have h4 := ctl_minimizeChi2NoErrLoop ext
        (loopFuel (FwdcalcTrackResiduals (FwdcalcPCANoErr ext (minimizeChi2NoErrPrepare ext s))))
        (FwdcalcChi2NoErr (FwdcalcTrackResiduals (FwdcalcPCANoErr ext (minimizeChi2NoErrPrepare ext s))))
        (FwdcalcTrackResiduals (FwdcalcPCANoErr ext (minimizeChi2NoErrPrepare ext s)))
      rw [hl] at h4
      exact ⟨h4.trans h3, fun h => by cases h⟩
    · rename_i c s4 hl
      have h4 := ctl_minimizeChi2NoErrLoop ext
        (loopFuel (FwdcalcTrackResiduals (FwdcalcPCANoErr ext (minimizeChi2NoErrPrepare ext s))))
        (FwdcalcChi2NoErr (FwdcalcTrackResiduals (FwdcalcPCANoErr ext (minimizeChi2NoErrPrepare ext s))))
        (FwdcalcTrackResiduals (FwdcalcPCANoErr ext (minimizeChi2NoErrPrepare ext s)))
      rw [hl] at h4
      have hc := minimizeChi2NoErrLoop_nonneg ext _ _ _ c (congrArg Prod.fst hl)
      have h5 : ctl s4 = ctl s := h4.trans h3
      refine ⟨?_, fun _ => ?_⟩
      · rw [← h5]
        simp only [ctl, Prod.mk.injEq, true_and]
        funext k
        by_cases hk : k = s4.mCurHyp <;> simp [upd, hk]
      · simp only [upd, if_true]
        exact mul_nonneg hc (NInv_nonneg N)

theorem ctl_minimizeChi2 (ext : External N) (s : FwdDCAFitterN N) (r : Bool × FwdDCAFitterN N)
    (h : minimizeChi2 ext s = .ok r) : ctl r.2 = ctl s := by
  unfold minimizeChi2 at h
  split at h
  · cases h
  · rename_i s1 hp
    have h1 := ctl_of_cfg (cfg_minimizeChi2Prepare ext s s1 hp)
    dsimp only at h
    split at h
    · injection h with h
      rw [← h]
      exact h1
    · have h2 : ctl (FwdcalcPCACoefs s1).2 = ctl s := (ctl_of_cfg (cfg_FwdcalcPCACoefs s1)).trans h1
      split at h
      · injection h with h
        rw [← h]
        exact h2
      · have h3 : ctl (FwdcalcTrackResiduals (FwdcalcPCA (FwdcalcPCACoefs s1).2)) = ctl s := by
          rw [ctl_of_cfg (cfg_FwdcalcTrackResiduals _), ctl_of_cfg (cfg_FwdcalcPCA _)]; exact h2
        have h4 := ctl_minimizeChi2Loop ext
          (loopFuel (FwdcalcTrackResiduals (FwdcalcPCA (FwdcalcPCACoefs s1).2)))
          (FwdcalcChi2 (FwdcalcTrackResiduals (FwdcalcPCA (FwdcalcPCACoefs s1).2)))
          (FwdcalcTrackResiduals (FwdcalcPCA (FwdcalcPCACoefs s1).2))
        split at h
        · rename_i s4 hl
          rw [hl] at h4
          injection h with h
          rw [← h]
          exact h4.trans h3
        · rename_i c s4 hl
          rw [hl] at h4
          injection h with h
          rw [← h, ← h3, ← h4]
          simp only [ctl, Prod.mk.injEq, true_and]
          funext k
          by_cases hk : k = s4.mCurHyp <;> simp [upd, hk]

theorem ctl_seedCrossing (ext : External N) (ic : Nat) (s : FwdDCAFitterN N) :
    ctl (seedCrossing ext ic s) = ctl s := by
  unfold seedCrossing
  dsimp only
  rw [ctl_of_cfg (cfg_findZatXY ext _ _)]
  simp only [ctl, Prod.mk.injEq, true_and]
  funext k
  by_cases hk : k = s.mCurHyp <;> simp [upd, hk]

/-- The parts of an equality of `ctl`. -/
theorem ctl_eq_parts {s s' : FwdDCAFitterN N} (h : ctl s' = ctl s) :
    s'.mCurHyp = s.mCurHyp ∧ s'.mOrder = s.mOrder ∧ s'.mCrossings = s.mCrossings
    ∧ s'.mMaxR2 = s.mMaxR2 ∧ s'.mUseAbsDCA = s.mUseAbsDCA
    ∧ s'.mPropagateToPCA = s.mPropagateToPCA
    ∧ ∀ k, k ≠ s.mCurHyp → s'.mChi2 k = s.mChi2 k := by
  simp only [ctl, Prod.mk.injEq] at h
  obtain ⟨h1, h2, h3, h4, h5, h6, h7⟩ := h
  refine ⟨h1, h2, h3, h4, h5, h6, fun k hk => ?_⟩
  have := congrFun h7 k
  rw [h1] at this
  simpa [hk] using this

theorem mChi2_FwdpropagateTracksToVertex (ext : External N) (icand : Nat) (s : FwdDCAFitterN N) :
    (FwdpropagateTracksToVertex ext icand s).2.mChi2 = s.mChi2 := by
  unfold FwdpropagateTracksToVertex
  dsimp only
  split
  · rfl
  · refine Eq.trans (b := (forDown N _ s).mChi2) rfl ?_
    refine forDown_preserves (fun t : FwdDCAFitterN N => t.mChi2) _ (fun i t => ?_) _ _
    dsimp only
    split <;> rfl

/-- Effect of the tail of the loop body of `process` on the steering members
when the minimiser accepted the seed. -/
theorem acceptCrossing_true (ext : External N) (r : Bool × FwdDCAFitterN N) (h : r.1 = true) :
    (acceptCrossing ext r).mCurHyp = r.2.mCurHyp + 1
    ∧ (acceptCrossing ext r).mOrder = upd r.2.mOrder r.2.mCurHyp r.2.mCurHyp
    ∧ (acceptCrossing ext r).mCrossings = r.2.mCrossings
    ∧ (acceptCrossing ext r).mMaxR2 = r.2.mMaxR2
    ∧ (acceptCrossing ext r).mUseAbsDCA = r.2.mUseAbsDCA
    ∧ (acceptCrossing ext r).mPropagateToPCA = r.2.mPropagateToPCA
    ∧ (acceptCrossing ext r).mChi2 = r.2.mChi2 := by
  unfold acceptCrossing
  rw [if_pos h]
  dsimp only
  split
  · rw [FwdpropagateTracksToVertex_fst]
    simp only [Bool.not_true, Bool.false_eq_true, if_false]
    have hc := ctl_eq_parts (ctl_FwdpropagateTracksToVertex ext r.2.mCurHyp
      { r.2 with mOrder := upd r.2.mOrder r.2.mCurHyp r.2.mCurHyp })
    have hm := mChi2_FwdpropagateTracksToVertex ext r.2.mCurHyp
      { r.2 with mOrder := upd r.2.mOrder r.2.mCurHyp r.2.mCurHyp }
    obtain ⟨h1, h2, h3, h4, h5, h6, _⟩ := hc
    exact ⟨by rw [h1], h2, h3, h4, h5, h6, hm⟩
  · exact ⟨rfl, rfl, rfl, rfl, rfl, rfl, rfl⟩

theorem acceptCrossing_false (ext : External N) (r : Bool × FwdDCAFitterN N) (h : r.1 = false) :
    acceptCrossing ext r = r.2 := by
  unfold acceptCrossing
  rw [h]
  rfl

/-- One pass of the crossing loop of `process`: either the live-slot count and
the ranking are unchanged, or the seed is inside the acceptance radius, the
current slot becomes live and is entered in the ranking. The chi2 of the other
slots is never touched. -/
theorem processCrossing_step (ext : External N) (ic : Nat) (s s' : FwdDCAFitterN N)
    (h : processCrossing ext ic s = .ok s') :
    s'.mCrossings = s.mCrossings ∧ s'.mMaxR2 = s.mMaxR2 ∧ s'.mUseAbsDCA = s.mUseAbsDCA
    ∧ s'.mPropagateToPCA = s.mPropagateToPCA
    ∧ (∀ k, k ≠ s.mCurHyp → s'.mChi2 k = s.mChi2 k)
    ∧ ((s'.mCurHyp = s.mCurHyp ∧ s'.mOrder = s.mOrder)
      ∨ (s.mCrossings.xDCA ic * s.mCrossings.xDCA ic + s.mCrossings.yDCA ic * s.mCrossings.yDCA ic
            ≤ s.mMaxR2
          ∧ s'.mCurHyp = s.mCurHyp + 1
          ∧ s'.mOrder = upd s.mOrder s.mCurHyp s.mCurHyp
          ∧ (s.mUseAbsDCA = true → 0 ≤ s'.mChi2 s.mCurHyp))) := by
  unfold processCrossing at h
  split at h
  · injection h with h
    subst h
    exact ⟨rfl, rfl, rfl, rfl, fun _ _ => rfl, Or.inl ⟨rfl, rfl⟩⟩
  · rename_i hrad
    have hrad' := not_lt.mp hrad
    obtain ⟨a1, a2, a3, a4, a5, a6, a7⟩ := ctl_eq_parts (ctl_seedCrossing ext ic s)
    dsimp only at h
    -- the common conclusion from a minimiser result `r` on the seeded state
    have key : ∀ r : Bool × FwdDCAFitterN N, ctl r.2 = ctl (seedCrossing ext ic s) →
        (r.1 = true → s.mUseAbsDCA = true → 0 ≤ r.2.mChi2 r.2.mCurHyp) →
        acceptCrossing ext r = s' →
        s'.mCrossings = s.mCrossings ∧ s'.mMaxR2 = s.mMaxR2 ∧ s'.mUseAbsDCA = s.mUseAbsDCA
        ∧ s'.mPropagateToPCA = s.mPropagateToPCA
        ∧ (∀ k, k ≠ s.mCurHyp → s'.mChi2 k = s.mChi2 k)
        ∧ ((s'.mCurHyp = s.mCurHyp ∧ s'.mOrder = s.mOrder)
          ∨ (s.mCrossings.xDCA ic * s.mCrossings.xDCA ic
                + s.mCrossings.yDCA ic * s.mCrossings.yDCA ic ≤ s.mMaxR2
              ∧ s'.mCurHyp = s.mCurHyp + 1
              ∧ s'.mOrder = upd s.mOrder s.mCurHyp s.mCurHyp
              ∧ (s.mUseAbsDCA = true → 0 ≤ s'.mChi2 s.mCurHyp))) := by
      intro r hr hpos hacc
      obtain ⟨b1, b2, b3, b4, b5, b6, b7⟩ := ctl_eq_parts hr
      cases hb : r.1 with
      | false =>
        rw [acceptCrossing_false ext r hb] at hacc
        subst hacc
        refine ⟨b3.trans a3, b4.trans a4, b5.trans a5, b6.trans a6, fun k hk => ?_,
          Or.inl ⟨b1.trans a1, b2.trans a2⟩⟩
        rw [b7 k (by rw [a1]; exact hk), a7 k hk]
      | true =>
        obtain ⟨c1, c2, c3, c4, c5, c6, c7⟩ := acceptCrossing_true ext r hb
        rw [hacc] at c1 c2 c3 c4 c5 c6 c7
        refine ⟨c3.trans (b3.trans a3), c4.trans (b4.trans a4), c5.trans (b5.trans a5),
          c6.trans (b6.trans a6), fun k hk => ?_, Or.inr ⟨hrad', ?_, ?_, ?_⟩⟩
        · rw [c7, b7 k (by rw [a1]; exact hk), a7 k hk]
        · rw [c1, b1, a1]
        · rw [c2, b2, a2, b1, a1]
        · intro hu
          have := hpos hb hu
          rw [c7, ← a1, ← b1]
          exact this
    split at h
    · rename_i habs
      injection h with h
      have hsp := minimizeChi2NoErr_spec ext (seedCrossing ext ic s)
      exact key _ hsp.1 (fun hb _ => hsp.2 hb) h
    · rename_i habs
      split at h
      · rename_i r hr
        injection h with h
        refine key r (ctl_minimizeChi2 ext _ r hr) (fun _ hu => ?_) h
        rw [a5] at habs
        exact absurd hu habs
      · cases h

theorem card_filter_Ico_succ (P : Nat → Prop) [DecidablePred P] (a n : Nat) :
    ((Finset.Ico a (a + (n + 1))).filter P).card
      = (if P a then 1 else 0) + ((Finset.Ico (a + 1) (a + 1 + n)).filter P).card := by
  have h : Finset.Ico a (a + (n + 1)) = insert a (Finset.Ico (a + 1) (a + 1 + n)) := by
    rw [show a + 1 + n = a + (n + 1) by omega]
    exact (Nat.Ico_insert_succ_left (by omega)).symm
  rw [h, Finset.filter_insert]
  split
  · rw [Finset.card_insert_of_not_mem (by simp)]
    omega
  · omega

/-- The crossing loop of `process`: what it keeps, the bound on the number of
slots it makes live, and the two invariants of the live slots. -/
theorem crossingLoop_inv (ext : External N) :
    ∀ (fuel ic : Nat) (s s' : FwdDCAFitterN N), crossingLoop ext fuel ic s = .ok s' →
      s'.mCrossings = s.mCrossings ∧ s'.mMaxR2 = s.mMaxR2 ∧ s'.mUseAbsDCA = s.mUseAbsDCA
      ∧ s'.mPropagateToPCA = s.mPropagateToPCA
      ∧ s'.mCurHyp ≤ s.mCurHyp + ((Finset.Ico ic (ic + fuel)).filter
          (fun j => s.mCrossings.xDCA j * s.mCrossings.xDCA j
            + s.mCrossings.yDCA j * s.mCrossings.yDCA j ≤ s.mMaxR2)).card
      ∧ ((∀ k < s.mCurHyp, s.mOrder k = k) → ∀ k < s'.mCurHyp, s'.mOrder k = k)
      ∧ (s.mUseAbsDCA = true → (∀ k < s.mCurHyp, 0 ≤ s.mChi2 k) →
          ∀ k < s'.mCurHyp, 0 ≤ s'.mChi2 k) := by
  intro fuel
  induction fuel with
  | zero =>
    intro ic s s' h
    simp only [crossingLoop, Except.ok.injEq] at h
    subst h
    exact ⟨rfl, rfl, rfl, rfl, Nat.le_add_right _ _, fun h => h, fun _ h => h⟩
  | succ n ih =>
    intro ic s s' h
    rw [crossingLoop] at h
    split at h
    · split at h
      · rename_i s1 hs1
        obtain ⟨a1, a2, a3, a4, a5, a6⟩ := processCrossing_step ext ic s s1 hs1
        obtain ⟨b1, b2, b3, b4, b5, b6, b7⟩ := ih (ic + 1) s1 s' h
        rw [a1, a2] at b5
        rw [card_filter_Ico_succ]
        refine ⟨b1.trans a1, b2.trans a2, b3.trans a3, b4.trans a4, ?_, ?_, ?_⟩
        · rcases a6 with ⟨c1, _⟩ | ⟨c0, c1, _, _⟩
          · rw [c1] at b5
            omega
          · rw [c1] at b5
            rw [if_pos c0]
            omega
        · intro hord
          apply b6
          rcases a6 with ⟨c1, c2⟩ | ⟨_, c1, c2, _⟩
          · rw [c1, c2]; exact hord
          · intro k hk
            rw [c2]
            rw [c1] at hk
            by_cases hks : k = s.mCurHyp
            · simp [upd, hks]
            · simp only [upd, hks, if_false]
              exact hord k (by omega)
        · intro hu hchi
          apply b7 (a3.trans hu)
          intro k hk
          rcases a6 with ⟨c1, _⟩ | ⟨_, c1, _, c3⟩
          · rw [c1] at hk
            rw [a5 k (by omega)]
            exact hchi k hk
          · rw [c1] at hk
            by_cases hks : k = s.mCurHyp
            · rw [hks]; exact c3 hu
            · rw [a5 k hks]
              exact hchi k (by omega)
      · cases h
    · injection h with h
      subst h
      exact ⟨rfl, rfl, rfl, rfl, Nat.le_add_right _ _, fun h => h, fun _ h => h⟩

/-- The crossing loop returns the state unchanged when no seed it visits lies
inside the acceptance radius. -/
theorem crossingLoop_all_outside (ext : External N) :
    ∀ (fuel ic : Nat) (s : FwdDCAFitterN N),
      (∀ j, ic ≤ j → (j : Int) < s.mCrossings.nDCA →
        s.mCrossings.xDCA j * s.mCrossings.xDCA j + s.mCrossings.yDCA j * s.mCrossings.yDCA j
          > s.mMaxR2) →
      crossingLoop ext fuel ic s = .ok s := by
  intro fuel
  induction fuel with
  | zero => intro ic s _; rfl
  | succ n ih =>
    intro ic s h
    rw [crossingLoop]
    split
    · rename_i hlt
      have hp : processCrossing ext ic s = .ok s := by
        unfold processCrossing
        rw [if_pos (h ic (Nat.le_refl _) hlt)]
      rw [hp]
      exact ih (ic + 1) s (fun j hj => h j (by omega))
    · rfl

/-- In the absolute-distance mode the crossing loop never throws. -/
theorem crossingLoop_abs_returns (ext : External N) :
    ∀ (fuel ic : Nat) (s : FwdDCAFitterN N), s.mUseAbsDCA = true →
      ∃ s', crossingLoop ext fuel ic s = .ok s' := by
  intro fuel
  induction fuel with
  | zero => intro ic s _; exact ⟨s, rfl⟩
  | succ n ih =>
    intro ic s hu
    rw [crossingLoop]
    split
    · have hp : ∃ s1, processCrossing ext ic s = .ok s1 := by
        unfold processCrossing
        split
        · exact ⟨s, rfl⟩
        · dsimp only
          have := (ctl_eq_parts (ctl_seedCrossing ext ic s)).2.2.2.2.1
          rw [this, hu]
          exact ⟨_, rfl⟩
      obtain ⟨s1, hs1⟩ := hp
      rw [hs1]
      exact ih (ic + 1) s1 ((processCrossing_step ext ic s s1 hs1).2.2.1.trans hu)
    · exact ⟨s, rfl⟩

/-- The fuel of the crossing loop is never exhausted: any number of passes that
covers the seeds still to visit gives the same result. -/
theorem crossingLoop_fuel (ext : External N) :
    ∀ (fuel fuel' ic : Nat) (s : FwdDCAFitterN N),
      s.mCrossings.nDCA.toNat - ic ≤ fuel → s.mCrossings.nDCA.toNat - ic ≤ fuel' →
      crossingLoop ext fuel ic s = crossingLoop ext fuel' ic s := by
  have stop : ∀ (m ic : Nat) (s : FwdDCAFitterN N), s.mCrossings.nDCA.toNat - ic ≤ 0 →
      crossingLoop ext m ic s = .ok s := by
    intro m ic s h
    cases m with
    | zero => rfl
    | succ m =>
      rw [crossingLoop, if_neg (by omega)]
  intro fuel
  induction fuel with
  | zero =>
    intro fuel' ic s h _
    rw [stop 0 ic s h, stop fuel' ic s h]
  | succ n ih =>
    intro fuel' ic s h h'
    cases fuel' with
    | zero => rw [stop (n + 1) ic s h', stop 0 ic s h']
    | succ m =>
      rw [crossingLoop, crossingLoop]
      split
      · cases hp : processCrossing ext ic s with
        | error e => rfl
        | ok s1 =>
          have hc := (processCrossing_step ext ic s s1 hp).1
          dsimp only
          exact ih m (ic + 1) s1 (by rw [hc]; omega) (by rw [hc]; omega)
      · rfl

/-- Everything but the ranking array. -/
theorem orderCandidates_frame (s : FwdDCAFitterN N) :
    (orderCandidates s).mCurHyp = s.mCurHyp ∧ (orderCandidates s).mChi2 = s.mChi2
    ∧ (orderCandidates s).mCrossings = s.mCrossings := by
  have h : (fun t : FwdDCAFitterN N => (t.mCurHyp, t.mChi2, t.mCrossings)) (orderCandidates s)
      = (fun t : FwdDCAFitterN N => (t.mCurHyp, t.mChi2, t.mCrossings)) s := by
    unfold orderCandidates
    refine forDown_preserves (fun t : FwdDCAFitterN N => (t.mCurHyp, t.mChi2, t.mCrossings)) _
      (fun i t => ?_) _ _
    refine forDown_preserves (fun t : FwdDCAFitterN N => (t.mCurHyp, t.mChi2, t.mCrossings)) _
      (fun j u => ?_) _ _
    dsimp only
    split <;> rfl
  simp only [Prod.mk.injEq] at h
  exact h

/-- The ordering loop only exchanges entries of the ranking below the live-slot
count, so the ranking keeps mapping the live ranks to live slots. -/
theorem orderCandidates_range (s : FwdDCAFitterN N)
    (h : ∀ k < s.mCurHyp, s.mOrder k < s.mCurHyp) :
    ∀ k < s.mCurHyp, (orderCandidates s).mOrder k < s.mCurHyp := by
  unfold orderCandidates
  refine forDown_invariant_lt (fun t : FwdDCAFitterN N => ∀ k < s.mCurHyp, t.mOrder k < s.mCurHyp)
    _ _ _ (fun i t hi ht => ?_) h
  refine forDown_invariant_lt (fun t : FwdDCAFitterN N => ∀ k < s.mCurHyp, t.mOrder k < s.mCurHyp)
    _ _ _ (fun j u hj hu => ?_) ht
  dsimp only
  split
  · intro k hk
    simp only [upd]
    split
    · exact hu i hi
    · split
      · exact hu j (by omega)
      · exact hu k hk
  · exact hu

theorem orderCandidates_le_one (s : FwdDCAFitterN N) (h : s.mCurHyp ≤ 1) :
    orderCandidates s = s := by
  unfold orderCandidates
  have : s.mCurHyp = 0 ∨ s.mCurHyp = 1 := by omega
  rcases this with h0 | h1
  · rw [h0]; rfl
  · rw [h1]; rfl

theorem orderCandidates_two (s : FwdDCAFitterN N) (h : s.mCurHyp = 2) :
    orderCandidates s =
      if s.mChi2 (s.mOrder 1) < s.mChi2 (s.mOrder 0) then
        { s with mOrder := upd (upd s.mOrder 1 (s.mOrder 0)) 0 (s.mOrder 1) }
      else s := by
  unfold orderCandidates
  conv_lhs => rw [h]
  rfl

theorem mMaxDist_FwdcalcRMatrices (s : FwdDCAFitterN N) :
    (FwdcalcRMatrices s).mMaxDist2ToMergeSeeds = s.mMaxDist2ToMergeSeeds := by
  unfold FwdcalcRMatrices
  refine forDown_preserves (fun t : FwdDCAFitterN N => t.mMaxDist2ToMergeSeeds) _ (fun i t => ?_) _ _
  refine forDown_preserves (fun t : FwdDCAFitterN N => t.mMaxDist2ToMergeSeeds) _ (fun j u => ?_) _ _
  rfl

/-- The seed-merging block reads only the crossing set and the threshold, and
writes only the crossing set. -/
theorem mergeSeeds_frame (s t : FwdDCAFitterN N) (hc : t.mCrossings = s.mCrossings)
    (hd : t.mMaxDist2ToMergeSeeds = s.mMaxDist2ToMergeSeeds) :
    (mergeSeeds t).mCrossings = (mergeSeeds s).mCrossings
    ∧ (mergeSeeds t).mCurHyp = t.mCurHyp ∧ (mergeSeeds t).mMaxR2 = t.mMaxR2
    ∧ (mergeSeeds t).mUseAbsDCA = t.mUseAbsDCA ∧ (mergeSeeds t).mOrder = t.mOrder
    ∧ (mergeSeeds t).mChi2 = t.mChi2 := by
  unfold mergeSeeds
  rw [hc, hd]
  dsimp only
  split
  · split
    · exact ⟨rfl, rfl, rfl, rfl, rfl, rfl⟩
    · exact ⟨hc, rfl, rfl, rfl, rfl, rfl⟩
  · exact ⟨hc, rfl, rfl, rfl, rfl, rfl⟩

/-- The state with which `process` enters its crossing loop. -/
theorem process_entry (args : Nat → Track) (s s3 : FwdDCAFitterN N)
    (h3 : s3 = mergeSeeds
      (if (clear (assign args s)).mUseAbsDCA then FwdcalcRMatrices (clear (assign args s))
        else clear (assign args s))) :
    s3.mCrossings = (mergeSeeds s).mCrossings ∧ s3.mCurHyp = 0 ∧ s3.mMaxR2 = s.mMaxR2
    ∧ s3.mUseAbsDCA = s.mUseAbsDCA := by
  subst h3
  have h2 : ∀ t : FwdDCAFitterN N, ctl t = ctl (clear (assign args s)) →
      t.mMaxDist2ToMergeSeeds = s.mMaxDist2ToMergeSeeds →
      (mergeSeeds t).mCrossings = (mergeSeeds s).mCrossings ∧ (mergeSeeds t).mCurHyp = 0
      ∧ (mergeSeeds t).mMaxR2 = s.mMaxR2 ∧ (mergeSeeds t).mUseAbsDCA = s.mUseAbsDCA := by
    intro t ht hd
    obtain ⟨a1, _, a3, a4, a5, _, _⟩ := ctl_eq_parts ht
    obtain ⟨b1, b2, b3, b4, _, _⟩ := mergeSeeds_frame s t a3 hd
    exact ⟨b1, b2.trans a1, b3.trans a4, b4.trans a5⟩
  split
  · exact h2 _ (ctl_of_cfg (cfg_FwdcalcRMatrices _)) (mMaxDist_FwdcalcRMatrices _)
  · exact h2 _ rfl rfl

/-- Unfolding of a returning `process` call: the crossing loop run from the
entry state, followed by the ordering loop. -/
theorem process_ok (ext : External N) (args : Nat → Track) (s s' : FwdDCAFitterN N) (c : Nat)
    (h : process ext args s = .ok (c, s')) :
    ∃ s3 s4 : FwdDCAFitterN N,
      s3.mCrossings = (mergeSeeds s).mCrossings ∧ s3.mCurHyp = 0 ∧ s3.mMaxR2 = s.mMaxR2
      ∧ s3.mUseAbsDCA = s.mUseAbsDCA
      ∧ crossingLoop ext s3.mCrossings.nDCA.toNat 0 s3 = .ok s4
      ∧ s' = orderCandidates s4 ∧ c = s4.mCurHyp := by
  unfold process at h
  dsimp only at h
  split at h
  · cases h
  · rename_i s4 hl
    obtain ⟨e1, e2, e3, e4⟩ := process_entry args s _ rfl
    refine ⟨_, s4, e1, e2, e3, e4, hl, ?_⟩
    simp only [Except.ok.injEq, Prod.mk.injEq] at h
    exact ⟨h.2.symm, by rw [← h.1]; exact (orderCandidates_frame s4).1⟩

/-- In the absolute-distance mode `process` always returns. -/
theorem process_abs_returns (ext : External N) (args : Nat → Track) (s : FwdDCAFitterN N)
    (hu : s.mUseAbsDCA = true) : ∃ c s', process ext args s = .ok (c, s') := by
  obtain ⟨_, _, _, e4⟩ := process_entry args s _ rfl
  obtain ⟨s4, h4⟩ := crossingLoop_abs_returns ext _ 0 _ (e4.trans hu)
  refine ⟨(orderCandidates s4).mCurHyp, orderCandidates s4, ?_⟩
  unfold process
  dsimp only
  rw [h4]

/-- After a returning `process` call in the absolute-distance mode every ranked
candidate has a non-negative chi2. -/
theorem process_abs_chi2_nonneg (ext : External N) (args : Nat → Track) (s s' : FwdDCAFitterN N)
    (c : Nat) (hu : s.mUseAbsDCA = true) (h : process ext args s = .ok (c, s')) :
    ∀ k < c, 0 ≤ getChi2AtPCACandidate s' k := by
  obtain ⟨s3, s4, _, e2, _, e4, hl, hs', hc⟩ := process_ok ext args s s' c h
  obtain ⟨_, _, _, _, _, i6, i7⟩ := crossingLoop_inv ext _ 0 s3 s4 hl
  have hord : ∀ k < s4.mCurHyp, s4.mOrder k = k := i6 (by rw [e2]; intro k hk; omega)
  have hchi : ∀ k < s4.mCurHyp, 0 ≤ s4.mChi2 k :=
    i7 (e4.trans hu) (by rw [e2]; intro k hk; omega)
  have hr := orderCandidates_range s4 (fun k hk => by rw [hord k hk]; exact hk)
  obtain ⟨_, f2, _⟩ := orderCandidates_frame s4
  intro k hk
  subst hs'
  unfold getChi2AtPCACandidate
  rw [f2]
  exact hchi _ (hr k (by omega))

end Frame

/-! ### The claims about `process` and the chi-square -/

set_option maxRecDepth 100000 in
/-- C2: `FwdcalcChi2NoErr` equals the sum of the squared Euclidean norms of the
residuals, hence is `>= 0`, and is 0 exactly when every residual is the zero
vector; the value `minimizeChi2NoErr` stores when it accepts (`chi2 * NInv`) is
`>= 0`, and in the absolute-distance mode `process` returns and every candidate
it ranks has a chi2 `>= 0`. -/
theorem FwdcalcChi2NoErr_nonneg {N : Nat} (ext : External N) (args : Nat → Track)
    (s : FwdDCAFitterN N) :
    FwdDCAFitterN.FwdcalcChi2NoErr s
        = ∑ i in Finset.range N, ((s.mTrRes s.mCurHyp i 0) ^ 2 + (s.mTrRes s.mCurHyp i 1) ^ 2
            + (s.mTrRes s.mCurHyp i 2) ^ 2)
    ∧ 0 ≤ FwdDCAFitterN.FwdcalcChi2NoErr s
    ∧ (FwdDCAFitterN.FwdcalcChi2NoErr s = 0 ↔ ∀ i < N, s.mTrRes s.mCurHyp i = 0)
    ∧ ((FwdDCAFitterN.minimizeChi2NoErr ext s).1 = true →
        0 ≤ (FwdDCAFitterN.minimizeChi2NoErr ext s).2.mChi2
              (FwdDCAFitterN.minimizeChi2NoErr ext s).2.mCurHyp)
    ∧ (s.mUseAbsDCA = true →
        ∃ c s', FwdDCAFitterN.process ext args s = .ok (c, s')
          ∧ ∀ k < c, 0 ≤ FwdDCAFitterN.getChi2AtPCACandidate s' k) := by
  refine ⟨FwdcalcChi2NoErr_eq_sum s, FwdcalcChi2NoErr_nonneg_aux s, ?_,
    (minimizeChi2NoErr_spec ext s).2, ?_⟩
  · rw [FwdcalcChi2NoErr_eq_sum, Finset.sum_eq_zero_iff_of_nonneg (fun i _ => by positivity)]
    constructor
    · intro h i hi
      have hz := h i (Finset.mem_range.mpr hi)
      obtain ⟨h0, h1, h2⟩ := sq_sum3_eq_zero _ _ _ hz
      funext j
      fin_cases j
      · exact h0
      · exact h1
      · exact h2
    · intro h i hi
      rw [h i (Finset.mem_range.mp hi)]
      simp
  · intro hu
    obtain ⟨c, s', h⟩ := process_abs_returns ext args s hu
    exact ⟨c, s', h, process_abs_chi2_nonneg ext args s s' c hu h⟩

set_option maxRecDepth 100000 in
/-- Witness of C2: the two-seed fit in the absolute-distance mode returns two
candidates with the chi2 values `1/16` and `81/16`. -/
theorem FwdcalcChi2NoErr_nonneg_witness :
    ∃ s, FwdDCAFitterN.process (linearExt 2) twoSeedTracks twoSeedFitter = .ok (2, s)
      ∧ FwdDCAFitterN.getChi2AtPCACandidate s 0 = 1 / 16
      ∧ FwdDCAFitterN.getChi2AtPCACandidate s 1 = 81 / 16
      ∧ ∀ k < 2, 0 ≤ FwdDCAFitterN.getChi2AtPCACandidate s k := by
  have h : processOutcome (FwdDCAFitterN.process (linearExt 2) twoSeedTracks twoSeedFitter)
      = some (2, 1, 0, 1 / 16, 81 / 16) := by decide!
  obtain ⟨s, h1, _, _, h4, h5⟩ := processOutcome_some _ _ _ _ _ _ h
  obtain ⟨c, s', h', hk⟩ :=
    (FwdcalcChi2NoErr_nonneg (linearExt 2) twoSeedTracks twoSeedFitter).2.2.2.2 rfl
  rw [h1] at h'
  simp only [Except.ok.injEq, Prod.mk.injEq] at h'
  obtain ⟨hc, hs⟩ := h'
  subst hc
  subst hs
  exact ⟨s, h1, h4, h5, hk⟩

/-- The seed-merging block never enlarges a crossing set of at most 2 seeds. -/
theorem mergeSeeds_nDCA_le {N : Nat} (s : FwdDCAFitterN N) (hn : s.mCrossings.nDCA ≤ 2) :
    (FwdDCAFitterN.mergeSeeds s).mCrossings.nDCA ≤ 2 := by
  unfold FwdDCAFitterN.mergeSeeds
  dsimp only
  split
  · split
    · show (1 : Int) ≤ 2
      decide
    · exact hn
  · exact hn

/-- The number of live slots after the crossing loop of a returning `process`
call, with the facts the ranking needs. -/
theorem process_live_slots {N : Nat} (ext : External N) (args : Nat → Track)
    (s s' : FwdDCAFitterN N) (c : Nat) (h : FwdDCAFitterN.process ext args s = .ok (c, s')) :
    ∃ s4 : FwdDCAFitterN N, s' = FwdDCAFitterN.orderCandidates s4 ∧ c = s4.mCurHyp
      ∧ s4.mCrossings = (FwdDCAFitterN.mergeSeeds s).mCrossings
      ∧ c ≤ nSeedsInRadius (FwdDCAFitterN.mergeSeeds s).mCrossings s.mMaxR2
      ∧ ∀ k < c, s4.mOrder k = k := by
  obtain ⟨s3, s4, e1, e2, e3, _, hl, hs', hc⟩ := process_ok ext args s s' c h
  obtain ⟨i1, _, _, _, i5, i6, _⟩ := crossingLoop_inv ext _ 0 s3 s4 hl
  refine ⟨s4, hs', hc, i1.trans e1, ?_, ?_⟩
  · rw [hc]
    rw [e2, e1, e3, Nat.zero_add, Nat.zero_add, Nat.Ico_zero_eq_range] at i5
    exact i5
  · rw [hc]
    exact i6 (by rw [e2]; intro k hk; omega)

theorem nSeedsInRadius_le (cr : CrossInfo) (maxR2 : ℚ) :
    nSeedsInRadius cr maxR2 ≤ cr.nDCA.toNat := by
  unfold nSeedsInRadius
  exact (Finset.card_filter_le _ _).trans (by simp)

/-- C3: after `process` returns a count `c` (crossing set of at most 2 seeds),
the first `c` entries of `mOrder` are a permutation of the live slots
`0..c-1`, the chi2 values are ascending by rank, and the ordering is stable:
with two candidates of equal chi2 the slot filled first keeps rank 0. -/
theorem process_ranking {N : Nat} (ext : External N) (args : Nat → Track)
    (s s' : FwdDCAFitterN N) (c : Nat) (hn : s.mCrossings.nDCA ≤ 2)
    (h : FwdDCAFitterN.process ext args s = .ok (c, s')) :
    c ≤ 2
    ∧ (∀ k < c, s'.mOrder k < c)
    ∧ (∀ k < c, ∀ l < c, s'.mOrder k = s'.mOrder l → k = l)
    ∧ (∀ k l, k ≤ l → l < c →
        FwdDCAFitterN.getChi2AtPCACandidate s' k ≤ FwdDCAFitterN.getChi2AtPCACandidate s' l)
    ∧ (c = 2 → s'.mChi2 0 = s'.mChi2 1 → s'.mOrder 0 = 0 ∧ s'.mOrder 1 = 1) := by
  obtain ⟨s4, hs', hc, _, hcnt, hord⟩ := process_live_slots ext args s s' c h
  have hc2 : c ≤ 2 := by
    have h1 := nSeedsInRadius_le (FwdDCAFitterN.mergeSeeds s).mCrossings s.mMaxR2
    have h2 := mergeSeeds_nDCA_le s hn
    omega
  refine ⟨hc2, ?_⟩
  have hcases : c = 0 ∨ c = 1 ∨ c = 2 := by omega
  rcases hcases with h0 | h1 | h2
  · subst h0
    refine ⟨fun k hk => absurd hk (Nat.not_lt_zero k), fun k hk => absurd hk (Nat.not_lt_zero k),
      fun k l _ hl => absurd hl (Nat.not_lt_zero l), fun h => by omega⟩
  · have hs4 : s' = s4 := by
      rw [hs', orderCandidates_le_one s4 (by omega)]
    subst hs4
    subst h1
    refine ⟨fun k hk => ?_, fun k hk l hl _ => by omega, fun k l hkl hl => ?_, fun h => by omega⟩
    · rw [hord k hk]; exact hk
    · have hl0 : l = 0 := by omega
      have hk0 : k = 0 := by omega
      rw [hl0, hk0]
  · have h20 : s4.mCurHyp = 2 := by omega
    have ho0 : s4.mOrder 0 = 0 := hord 0 (by omega)
    have ho1 : s4.mOrder 1 = 1 := hord 1 (by omega)
    rw [orderCandidates_two s4 h20, ho0, ho1] at hs'
    subst h2
    by_cases hlt : s4.mChi2 1 < s4.mChi2 0
    · rw [if_pos hlt] at hs'
      have e0 : s'.mOrder 0 = 1 := by rw [hs']; rfl
      have e1 : s'.mOrder 1 = 0 := by rw [hs']; rfl
      have ec : s'.mChi2 = s4.mChi2 := by rw [hs']
      refine ⟨fun k hk => ?_, fun k hk l hl hkl => ?_, fun k l hkl hl => ?_, fun _ heq => ?_⟩
      · have : k = 0 ∨ k = 1 := by omega
        rcases this with hk | hk <;> rw [hk] <;> omega
      · have hk' : k = 0 ∨ k = 1 := by omega
        have hl' : l = 0 ∨ l = 1 := by omega
        rcases hk' with hk' | hk' <;> rcases hl' with hl' | hl' <;> subst hk' <;> subst hl' <;>
          first | rfl | (rw [e0, e1] at hkl; omega)
      · have hk' : k = 0 ∨ k = 1 := by omega
        have hl' : l = 0 ∨ l = 1 := by omega
        unfold FwdDCAFitterN.getChi2AtPCACandidate
        rcases hk' with hk' | hk' <;> rcases hl' with hl' | hl' <;> subst hk' <;> subst hl'
        · exact le_refl _
        · rw [e0, e1, ec]; exact le_of_lt hlt
        · omega
        · exact le_refl _
      · rw [ec] at heq
        rw [heq] at hlt
        exact absurd hlt (lt_irrefl _)
    · rw [if_neg hlt] at hs'
      subst hs'
      refine ⟨fun k hk => ?_, fun k hk l hl hkl => ?_, fun k l hkl hl => ?_, fun _ _ => ⟨ho0, ho1⟩⟩
      · rw [hord k (by omega)]; exact hk
      · rw [hord k (by omega), hord l (by omega)] at hkl; exact hkl
      · have hk' : k = 0 ∨ k = 1 := by omega
        have hl' : l = 0 ∨ l = 1 := by omega
        unfold FwdDCAFitterN.getChi2AtPCACandidate
        rcases hk' with hk' | hk' <;> rcases hl' with hl' | hl' <;> subst hk' <;> subst hl'
        · exact le_refl _
        · rw [ho0, ho1]; exact not_lt.mp hlt
        · omega
        · exact le_refl _

set_option maxRecDepth 100000 in
/-- Witness of C3: the two-seed fit returns two candidates; the second slot has
the smaller chi2 and is ranked first. -/
theorem process_ranking_witness :
    ∃ s, FwdDCAFitterN.process (linearExt 2) twoSeedTracks twoSeedFitter = .ok (2, s)
      ∧ s.mOrder 0 = 1 ∧ s.mOrder 1 = 0
      ∧ FwdDCAFitterN.getChi2AtPCACandidate s 0 ≤ FwdDCAFitterN.getChi2AtPCACandidate s 1 := by
  have h : processOutcome (FwdDCAFitterN.process (linearExt 2) twoSeedTracks twoSeedFitter)
      = some (2, 1, 0, 1 / 16, 81 / 16) := by decide!
  obtain ⟨s, h1, h2, h3, _, _⟩ := processOutcome_some _ _ _ _ _ _ h
  have hr := process_ranking (linearExt 2) twoSeedTracks twoSeedFitter s 2
    (by show (2 : Int) ≤ 2; decide) h1
  exact ⟨s, h1, h2, h3, hr.2.2.2.1 0 1 (by omega) (by omega)⟩

/-- C4: for a crossing set of at most 2 seeds, a returning `process` call
returns a count `c` that is at most the number of seeds, after merging, whose
squared planar radius is `<= mMaxR2`, itself at most 2, and `getNCandidates()`
afterwards equals `c`; when the merged crossing set is empty or every seed lies
outside the acceptance radius, `process` returns 0. -/
theorem process_candidate_count {N : Nat} (ext : External N) (args : Nat → Track)
    (s : FwdDCAFitterN N) (hn : s.mCrossings.nDCA ≤ 2) :
    (∀ c s', FwdDCAFitterN.process ext args s = .ok (c, s') →
        c ≤ nSeedsInRadius (FwdDCAFitterN.mergeSeeds s).mCrossings s.mMaxR2
        ∧ nSeedsInRadius (FwdDCAFitterN.mergeSeeds s).mCrossings s.mMaxR2 ≤ 2
        ∧ FwdDCAFitterN.getNCandidates s' = c)
    ∧ (nSeedsInRadius (FwdDCAFitterN.mergeSeeds s).mCrossings s.mMaxR2 = 0 →
        ∃ s', FwdDCAFitterN.process ext args s = .ok (0, s'))
    ∧ ((FwdDCAFitterN.mergeSeeds s).mCrossings.nDCA ≤ 0 →
        nSeedsInRadius (FwdDCAFitterN.mergeSeeds s).mCrossings s.mMaxR2 = 0)
    ∧ ((∀ ic : Nat, (ic : Int) < (FwdDCAFitterN.mergeSeeds s).mCrossings.nDCA →
          (FwdDCAFitterN.mergeSeeds s).mCrossings.xDCA ic * (FwdDCAFitterN.mergeSeeds s).mCrossings.xDCA ic
            + (FwdDCAFitterN.mergeSeeds s).mCrossings.yDCA ic * (FwdDCAFitterN.mergeSeeds s).mCrossings.yDCA ic
            > s.mMaxR2) →
        nSeedsInRadius (FwdDCAFitterN.mergeSeeds s).mCrossings s.mMaxR2 = 0) := by
  have hle : nSeedsInRadius (FwdDCAFitterN.mergeSeeds s).mCrossings s.mMaxR2 ≤ 2 := by
    have h1 := nSeedsInRadius_le (FwdDCAFitterN.mergeSeeds s).mCrossings s.mMaxR2
    have h2 := mergeSeeds_nDCA_le s hn
    omega
  have hout : (∀ ic : Nat, (ic : Int) < (FwdDCAFitterN.mergeSeeds s).mCrossings.nDCA →
      (FwdDCAFitterN.mergeSeeds s).mCrossings.xDCA ic * (FwdDCAFitterN.mergeSeeds s).mCrossings.xDCA ic
        + (FwdDCAFitterN.mergeSeeds s).mCrossings.yDCA ic * (FwdDCAFitterN.mergeSeeds s).mCrossings.yDCA ic
        > s.mMaxR2) →
      nSeedsInRadius (FwdDCAFitterN.mergeSeeds s).mCrossings s.mMaxR2 = 0 := by
    intro hall
    unfold nSeedsInRadius
    rw [Finset.card_eq_zero, Finset.filter_eq_empty_iff]
    intro ic hic
    rw [Finset.mem_range] at hic
    exact not_le.mpr (hall ic (by omega))
  refine ⟨fun c s' h => ?_, fun h0 => ?_, fun hempty => hout (fun ic hic => by omega), hout⟩
  · obtain ⟨s4, hs', hc, _, hcnt, _⟩ := process_live_slots ext args s s' c h
    refine ⟨hcnt, hle, ?_⟩
    unfold FwdDCAFitterN.getNCandidates
    rw [hs', (orderCandidates_frame s4).1, hc]
  · obtain ⟨e1, e2, e3, _⟩ := process_entry args s _ rfl
    have hloop := crossingLoop_all_outside ext
      (FwdDCAFitterN.mergeSeeds
        (if (FwdDCAFitterN.clear (FwdDCAFitterN.assign args s)).mUseAbsDCA then
          FwdDCAFitterN.FwdcalcRMatrices (FwdDCAFitterN.clear (FwdDCAFitterN.assign args s))
        else FwdDCAFitterN.clear (FwdDCAFitterN.assign args s))).mCrossings.nDCA.toNat 0 _
      (by
        rw [e1, e3]
        intro j _ hj
        unfold nSeedsInRadius at h0
        rw [Finset.card_eq_zero, Finset.filter_eq_empty_iff] at h0
        exact not_le.mp (h0 (Finset.mem_range.mpr (by omega))))
    unfold FwdDCAFitterN.process
    dsimp only
    rw [hloop]
    dsimp only
    rw [(orderCandidates_frame _).1, e2]
    exact ⟨_, rfl⟩

set_option maxRecDepth 100000 in
/-- Witness of C4: the two-seed fit has both seeds inside the radius and
returns 2 candidates. -/
theorem process_candidate_count_witness :
    ∃ s, FwdDCAFitterN.process (linearExt 2) twoSeedTracks twoSeedFitter = .ok (2, s)
      ∧ 2 ≤ nSeedsInRadius (FwdDCAFitterN.mergeSeeds twoSeedFitter).mCrossings twoSeedFitter.mMaxR2
      ∧ nSeedsInRadius (FwdDCAFitterN.mergeSeeds twoSeedFitter).mCrossings twoSeedFitter.mMaxR2 ≤ 2
      ∧ FwdDCAFitterN.getNCandidates s = 2 := by
  have h : processOutcome (FwdDCAFitterN.process (linearExt 2) twoSeedTracks twoSeedFitter)
      = some (2, 1, 0, 1 / 16, 81 / 16) := by decide!
  obtain ⟨s, h1, _, _, _, _⟩ := processOutcome_some _ _ _ _ _ _ h
  have hr := (process_candidate_count (linearExt 2) twoSeedTracks twoSeedFitter
    (by show (2 : Int) ≤ 2; decide)).1 2 s h1
  exact ⟨s, h1, hr.1, hr.2.1, hr.2.2⟩

/-- C5: when the crossing set has exactly 2 seeds whose squared planar distance
is strictly below `mMaxDist2ToMergeSeeds`, the merging block of `process` makes
it a set of size 1 whose seed is the midpoint; when the distance is at or above
the threshold, or the set does not have 2 seeds, the block changes nothing. A
returning `process` call leaves behind exactly the crossing set so merged. -/
theorem mergeSeeds_midpoint {N : Nat} (s : FwdDCAFitterN N) :
    ((s.mCrossings.nDCA = 2
        ∧ (s.mCrossings.xDCA 0 - s.mCrossings.xDCA 1) * (s.mCrossings.xDCA 0 - s.mCrossings.xDCA 1)
          + (s.mCrossings.yDCA 0 - s.mCrossings.yDCA 1) * (s.mCrossings.yDCA 0 - s.mCrossings.yDCA 1)
          < s.mMaxDist2ToMergeSeeds) →
      (FwdDCAFitterN.mergeSeeds s).mCrossings.nDCA = 1
      ∧ (FwdDCAFitterN.mergeSeeds s).mCrossings.xDCA 0
          = (s.mCrossings.xDCA 0 + s.mCrossings.xDCA 1) / 2
      ∧ (FwdDCAFitterN.mergeSeeds s).mCrossings.yDCA 0
          = (s.mCrossings.yDCA 0 + s.mCrossings.yDCA 1) / 2)
    ∧ ((s.mCrossings.nDCA ≠ 2
        ∨ s.mMaxDist2ToMergeSeeds
          ≤ (s.mCrossings.xDCA 0 - s.mCrossings.xDCA 1) * (s.mCrossings.xDCA 0 - s.mCrossings.xDCA 1)
            + (s.mCrossings.yDCA 0 - s.mCrossings.yDCA 1) * (s.mCrossings.yDCA 0 - s.mCrossings.yDCA 1)) →
      FwdDCAFitterN.mergeSeeds s = s)
    ∧ (∀ (ext : External N) (args : Nat → Track) (c : Nat) (s' : FwdDCAFitterN N),
        FwdDCAFitterN.process ext args s = .ok (c, s') →
        s'.mCrossings = (FwdDCAFitterN.mergeSeeds s).mCrossings) := by
  refine ⟨?_, ?_, ?_⟩
  · rintro ⟨h2, hd⟩
    have h2' : s.mCrossings.nDCA = (FwdDCAFitterN.MAXHYP : Int) := by rw [h2]; rfl
    unfold FwdDCAFitterN.mergeSeeds
    rw [if_pos h2']
    dsimp only
    rw [if_pos hd]
    refine ⟨rfl, ?_, ?_⟩
    · simp only [upd, if_true]; ring
    · simp only [upd, if_true]; ring
  · intro h
    unfold FwdDCAFitterN.mergeSeeds
    dsimp only
    split
    · rename_i h2
      have h2' : s.mCrossings.nDCA = 2 := by rw [h2]; rfl
      rcases h with h | h
      · exact absurd h2' h
      · rw [if_neg (not_lt.mpr h)]
    · rfl
  · intro ext args c s' h
    obtain ⟨s4, hs', _, hcr, _, _⟩ := process_live_slots ext args s s' c h
    rw [hs', (orderCandidates_frame s4).2.2, hcr]

/-- Witness of C5: two seeds at distance 1/2 collapse to their midpoint. -/
theorem mergeSeeds_midpoint_witness :
    (FwdDCAFitterN.mergeSeeds closeSeedsFitter).mCrossings.nDCA = 1
    ∧ (FwdDCAFitterN.mergeSeeds closeSeedsFitter).mCrossings.xDCA 0 = 5 / 4
    ∧ (FwdDCAFitterN.mergeSeeds closeSeedsFitter).mCrossings.yDCA 0 = 2 := by
  have h := (mergeSeeds_midpoint closeSeedsFitter).1
    ⟨rfl, by norm_num [closeSeedsFitter, defaultFitter]⟩
  refine ⟨h.1, ?_, ?_⟩
  · rw [h.2.1]
    norm_num [closeSeedsFitter]
  · rw [h.2.2]
    norm_num [closeSeedsFitter]

/-- The slot prepared by `seedCrossing` carries the seed: `findZatXY` writes
only the z component of the vertex. -/
theorem seedCrossing_seed {N : Nat} (ext : External N) (ic : Nat) (s : FwdDCAFitterN N) :
    (FwdDCAFitterN.seedCrossing ext ic s).mPCA s.mCurHyp 0 = s.mCrossings.xDCA ic
    ∧ (FwdDCAFitterN.seedCrossing ext ic s).mPCA s.mCurHyp 1 = s.mCrossings.yDCA ic
    ∧ (FwdDCAFitterN.seedCrossing ext ic s).mCrossIDCur = ic
    ∧ (FwdDCAFitterN.seedCrossing ext ic s).mNIters s.mCurHyp = 0
    ∧ (FwdDCAFitterN.seedCrossing ext ic s).mChi2 s.mCurHyp = -1
    ∧ (FwdDCAFitterN.seedCrossing ext ic s).mTrPropDone s.mCurHyp = false := by
  unfold FwdDCAFitterN.seedCrossing FwdDCAFitterN.findZatXY
  simp [upd, Vec3D.setAt]

/-- C6: in the crossing loop of `process`, a seed with `x^2 + y^2 > mMaxR2` is
skipped and the whole fitter state (so `mCurHyp`, `mChi2`, `mNIters`, `mPCA`)
is unchanged by it; a seed with `x^2 + y^2 <= mMaxR2` is handed to the
minimiser of the current mode, on a slot reset for it and seeded with `(x, y)`;
after `setMaxR(r)` a seed exactly on the radius, `x^2 + y^2 = r^2`, is kept. -/
theorem processCrossing_acceptance_radius {N : Nat} (ext : External N) (ic : Nat)
    (s : FwdDCAFitterN N) :
    (s.mCrossings.xDCA ic * s.mCrossings.xDCA ic + s.mCrossings.yDCA ic * s.mCrossings.yDCA ic
        > s.mMaxR2 →
      FwdDCAFitterN.processCrossing ext ic s = .ok s)
    ∧ (s.mCrossings.xDCA ic * s.mCrossings.xDCA ic + s.mCrossings.yDCA ic * s.mCrossings.yDCA ic
        ≤ s.mMaxR2 →
      FwdDCAFitterN.processCrossing ext ic s
        = (if s.mUseAbsDCA then
            .ok (FwdDCAFitterN.acceptCrossing ext
              (FwdDCAFitterN.minimizeChi2NoErr ext (FwdDCAFitterN.seedCrossing ext ic s)))
          else
            Except.map (FwdDCAFitterN.acceptCrossing ext)
              (FwdDCAFitterN.minimizeChi2 ext (FwdDCAFitterN.seedCrossing ext ic s)))
      ∧ (FwdDCAFitterN.seedCrossing ext ic s).mPCA s.mCurHyp 0 = s.mCrossings.xDCA ic
      ∧ (FwdDCAFitterN.seedCrossing ext ic s).mPCA s.mCurHyp 1 = s.mCrossings.yDCA ic
      ∧ (FwdDCAFitterN.seedCrossing ext ic s).mNIters s.mCurHyp = 0
      ∧ (FwdDCAFitterN.seedCrossing ext ic s).mChi2 s.mCurHyp = -1
      ∧ (FwdDCAFitterN.seedCrossing ext ic s).mTrPropDone s.mCurHyp = false)
    ∧ (∀ r : ℚ,
        s.mCrossings.xDCA ic * s.mCrossings.xDCA ic + s.mCrossings.yDCA ic * s.mCrossings.yDCA ic
          = r * r →
        FwdDCAFitterN.processCrossing ext ic (FwdDCAFitterN.setMaxR s r)
          = (if s.mUseAbsDCA then
              .ok (FwdDCAFitterN.acceptCrossing ext
                (FwdDCAFitterN.minimizeChi2NoErr ext
                  (FwdDCAFitterN.seedCrossing ext ic (FwdDCAFitterN.setMaxR s r))))
            else
              Except.map (FwdDCAFitterN.acceptCrossing ext)
                (FwdDCAFitterN.minimizeChi2 ext
                  (FwdDCAFitterN.seedCrossing ext ic (FwdDCAFitterN.setMaxR s r))))) := by
  have kept : ∀ t : FwdDCAFitterN N,
      t.mCrossings.xDCA ic * t.mCrossings.xDCA ic + t.mCrossings.yDCA ic * t.mCrossings.yDCA ic
        ≤ t.mMaxR2 →
      FwdDCAFitterN.processCrossing ext ic t
        = (if t.mUseAbsDCA then
            .ok (FwdDCAFitterN.acceptCrossing ext
              (FwdDCAFitterN.minimizeChi2NoErr ext (FwdDCAFitterN.seedCrossing ext ic t)))
          else
            Except.map (FwdDCAFitterN.acceptCrossing ext)
              (FwdDCAFitterN.minimizeChi2 ext (FwdDCAFitterN.seedCrossing ext ic t))) := by
    intro t ht
    have hu : (FwdDCAFitterN.seedCrossing ext ic t).mUseAbsDCA = t.mUseAbsDCA :=
      (ctl_eq_parts (ctl_seedCrossing ext ic t)).2.2.2.2.1
    unfold FwdDCAFitterN.processCrossing
    rw [if_neg (not_lt.mpr ht)]
    dsimp only
    rw [hu]
    split
    · rfl
    · cases FwdDCAFitterN.minimizeChi2 ext (FwdDCAFitterN.seedCrossing ext ic t) <;> rfl
  refine ⟨fun h => ?_, fun h => ?_, fun r hr => ?_⟩
  · unfold FwdDCAFitterN.processCrossing
    rw [if_pos h]
  · obtain ⟨a1, a2, _, a4, a5, a6⟩ := seedCrossing_seed ext ic s
    exact ⟨kept s h, a1, a2, a4, a5, a6⟩
  · exact kept (FwdDCAFitterN.setMaxR s r) (le_of_eq hr)

set_option maxRecDepth 100000 in
/-- Witness of C6: with `setMaxR(5)` the seed `(0, -5)`, exactly on the radius,
is fitted and makes the first slot live; with `setMaxR(4)` it is skipped. -/
theorem processCrossing_acceptance_radius_witness :
    processOutcome (Except.map (fun t => (t.mCurHyp, t))
        (FwdDCAFitterN.processCrossing (linearExt 2) 0
          (FwdDCAFitterN.setMaxR (FwdDCAFitterN.assign twoSeedTracks twoSeedFitter) 5)))
      = some (1, 0, 0, 81 / 16, 81 / 16)
    ∧ FwdDCAFitterN.processCrossing (linearExt 2) 0
          (FwdDCAFitterN.setMaxR (FwdDCAFitterN.assign twoSeedTracks twoSeedFitter) 4)
        = .ok (FwdDCAFitterN.setMaxR (FwdDCAFitterN.assign twoSeedTracks twoSeedFitter) 4) := by
  constructor
  · rw [(processCrossing_acceptance_radius (linearExt 2) 0
      (FwdDCAFitterN.assign twoSeedTracks twoSeedFitter)).2.2 5
      (by norm_num [FwdDCAFitterN.assign, twoSeedFitter, defaultFitter])]
    decide!
  · exact (processCrossing_acceptance_radius (linearExt 2) 0
      (FwdDCAFitterN.setMaxR (FwdDCAFitterN.assign twoSeedTracks twoSeedFitter) 4)).1
      (by norm_num [FwdDCAFitterN.setMaxR, FwdDCAFitterN.assign, twoSeedFitter, defaultFitter])

/-! ### The weight matrix and the coefficient matrices -/

/-- The model of `Invert()` returns a two-sided inverse. -/
theorem MatSym3D_Invert_some (m m' : MatSym3D) (h : m.Invert = some m') :
    m'.toStd * m.toStd = 1 ∧ m.toStd * m'.toStd = 1 := by
  unfold MatSym3D.Invert at h
  split at h
  · cases h
  · rename_i hd
    injection h with h
    subst h
    unfold MatSym3D.det at hd
    constructor
    · ext i j
      fin_cases i <;> fin_cases j <;>
        simp only [MatSym3D.toStd, MatSym3D.det, Matrix.mul_apply, Fin.sum_univ_three,
          Matrix.of_apply, Matrix.cons_val', Matrix.cons_val_zero, Matrix.cons_val_one,
          Matrix.cons_val_two, Matrix.head_cons, Matrix.tail_cons, Matrix.empty_val',
          Matrix.cons_val_fin_one, Matrix.one_apply_eq, Matrix.one_apply_ne, Fin.zero_eta,
          Fin.mk_one, Fin.reduceFinMk, ne_eq, Fin.reduceEq, not_false_eq_true, Fin.isValue] <;>
        field_simp <;> ring
    · ext i j
      fin_cases i <;> fin_cases j <;>
        simp only [MatSym3D.toStd, MatSym3D.det, Matrix.mul_apply, Fin.sum_univ_three,
          Matrix.of_apply, Matrix.cons_val', Matrix.cons_val_zero, Matrix.cons_val_one,
          Matrix.cons_val_two, Matrix.head_cons, Matrix.tail_cons, Matrix.empty_val',
          Matrix.cons_val_fin_one, Matrix.one_apply_eq, Matrix.one_apply_ne, Fin.zero_eta,
          Fin.mk_one, Fin.reduceFinMk, ne_eq, Fin.reduceEq, not_false_eq_true, Fin.isValue] <;>
        field_simp <;> ring

theorem MatSym3D_det_toStd (m : MatSym3D) : m.toStd.det = m.det := by
  simp [MatSym3D.toStd, MatSym3D.det, Matrix.det_fin_three]
  ring

theorem MatSym3D_Invert_none (m : MatSym3D) : m.Invert = none ↔ m.toStd.det = 0 := by
  rw [MatSym3D_det_toStd]
  unfold MatSym3D.Invert
  split <;> simp_all

theorem MatSym3D_zero_toStd : MatSym3D.zero.toStd = 0 := by
  ext a b
  fin_cases a <;> fin_cases b <;> rfl

/-- The accumulation loop of `FwdcalcInverseWeight`: it adds the inverse
covariances of the prongs `0..n-1` to `mWeightInv` and touches nothing else the
weights depend on. -/
theorem weightLoop_spec {N : Nat} : ∀ (n : Nat) (t : FwdDCAFitterN N),
    (forDown n (fun i (u : FwdDCAFitterN N) =>
      { u with mWeightInv :=
          { XX := u.mWeightInv.XX + (u.mTrcEInv u.mCurHyp i).sxx
            XY := u.mWeightInv.XY + (u.mTrcEInv u.mCurHyp i).sxy
            XZ := u.mWeightInv.XZ + 0
            YY := u.mWeightInv.YY + (u.mTrcEInv u.mCurHyp i).syy
            YZ := u.mWeightInv.YZ + 0
            ZZ := u.mWeightInv.ZZ + (u.mTrcEInv u.mCurHyp i).szz } }) t).mWeightInv.toStd
      = t.mWeightInv.toStd + ∑ j in Finset.range n, augmentedInvCov (t.mTrcEInv t.mCurHyp j)
    ∧ (forDown n (fun i (u : FwdDCAFitterN N) =>
      { u with mWeightInv :=
          { XX := u.mWeightInv.XX + (u.mTrcEInv u.mCurHyp i).sxx
            XY := u.mWeightInv.XY + (u.mTrcEInv u.mCurHyp i).sxy
            XZ := u.mWeightInv.XZ + 0
            YY := u.mWeightInv.YY + (u.mTrcEInv u.mCurHyp i).syy
            YZ := u.mWeightInv.YZ + 0
            ZZ := u.mWeightInv.ZZ + (u.mTrcEInv u.mCurHyp i).szz } }) t).mTrcEInv = t.mTrcEInv
    ∧ (forDown n (fun i (u : FwdDCAFitterN N) =>
      { u with mWeightInv :=
          { XX := u.mWeightInv.XX + (u.mTrcEInv u.mCurHyp i).sxx
            XY := u.mWeightInv.XY + (u.mTrcEInv u.mCurHyp i).sxy
            XZ := u.mWeightInv.XZ + 0
            YY := u.mWeightInv.YY + (u.mTrcEInv u.mCurHyp i).syy
            YZ := u.mWeightInv.YZ + 0
            ZZ := u.mWeightInv.ZZ + (u.mTrcEInv u.mCurHyp i).szz } }) t).mCurHyp = t.mCurHyp := by
  intro n
  induction n with
  | zero => intro t; simp [forDown]
  | succ n ih =>
    intro t
    rw [forDown]
    obtain ⟨h1, h2, h3⟩ := ih
      { t with mWeightInv :=
          { XX := t.mWeightInv.XX + (t.mTrcEInv t.mCurHyp n).sxx
            XY := t.mWeightInv.XY + (t.mTrcEInv t.mCurHyp n).sxy
            XZ := t.mWeightInv.XZ + 0
            YY := t.mWeightInv.YY + (t.mTrcEInv t.mCurHyp n).syy
            YZ := t.mWeightInv.YZ + 0
            ZZ := t.mWeightInv.ZZ + (t.mTrcEInv t.mCurHyp n).szz } }
    refine ⟨?_, h2, h3⟩
    rw [h1, Finset.sum_range_succ]
    ext a b
    fin_cases a <;> fin_cases b <;>
      simp [MatSym3D.toStd, augmentedInvCov, Matrix.add_apply] <;> ring

/-- The state `FwdcalcInverseWeight` leaves: on success `mWeightInv` is a
two-sided inverse of the weight sum, and the call fails exactly when the weight
sum is singular. -/
theorem FwdcalcInverseWeight_spec {N : Nat} (s : FwdDCAFitterN N) :
    ((FwdDCAFitterN.FwdcalcInverseWeight s).1 = true →
      (FwdDCAFitterN.FwdcalcInverseWeight s).2.mWeightInv.toStd * weightSum s = 1
      ∧ weightSum s * (FwdDCAFitterN.FwdcalcInverseWeight s).2.mWeightInv.toStd = 1)
    ∧ ((FwdDCAFitterN.FwdcalcInverseWeight s).1 = false ↔ (weightSum s).det = 0)
    ∧ (FwdDCAFitterN.FwdcalcInverseWeight s).2.mTrcEInv = s.mTrcEInv
    ∧ (FwdDCAFitterN.FwdcalcInverseWeight s).2.mCurHyp = s.mCurHyp := by
  obtain ⟨h1, h2, h3⟩ := weightLoop_spec N ({ s with mWeightInv := MatSym3D.zero } : FwdDCAFitterN N)
  have hz := MatSym3D_zero_toStd
  have hW : (forDown N (fun i (u : FwdDCAFitterN N) =>
      { u with mWeightInv :=
          { XX := u.mWeightInv.XX + (u.mTrcEInv u.mCurHyp i).sxx
            XY := u.mWeightInv.XY + (u.mTrcEInv u.mCurHyp i).sxy
            XZ := u.mWeightInv.XZ + 0
            YY := u.mWeightInv.YY + (u.mTrcEInv u.mCurHyp i).syy
            YZ := u.mWeightInv.YZ + 0
            ZZ := u.mWeightInv.ZZ + (u.mTrcEInv u.mCurHyp i).szz } })
      ({ s with mWeightInv := MatSym3D.zero } : FwdDCAFitterN N)).mWeightInv.toStd = weightSum s := by
    rw [h1]
    show MatSym3D.zero.toStd + _ = _
    rw [hz, zero_add]
    rfl
  unfold FwdDCAFitterN.FwdcalcInverseWeight
  dsimp only
  split
  · rename_i m hm
    obtain ⟨i1, i2⟩ := MatSym3D_Invert_some _ m hm
    rw [hW] at i1 i2
    have hne : (weightSum s).det ≠ 0 := by
      intro hd
      rw [← hW] at hd
      have := (MatSym3D_Invert_none _).mpr hd
      rw [hm] at this
      cases this
    exact ⟨fun _ => ⟨i1, i2⟩, ⟨fun h => Bool.noConfusion h, fun h => absurd h hne⟩, h2, h3⟩
  · rename_i hm
    have hd := (MatSym3D_Invert_none _).mp hm
    rw [hW] at hd
    exact ⟨fun h => Bool.noConfusion h, ⟨fun _ => hd, fun _ => rfl⟩, h2, h3⟩

/-- The coefficient loop of `FwdcalcPCACoefs`: it writes `mWeightInv * miei` for
the prongs `0..n-1` of the current hypothesis and no other coefficient. -/
theorem coefLoop_spec {N : Nat} : ∀ (n : Nat) (t : FwdDCAFitterN N),
    (forDown n (fun i (u : FwdDCAFitterN N) =>
      { u with mTrCFVT := upd2 u.mTrCFVT u.mCurHyp i (u.mWeightInv.toStd * FwdDCAFitterN.miei (u.mTrcEInv u.mCurHyp i)) }) t).mWeightInv
      = t.mWeightInv
    ∧ (forDown n (fun i (u : FwdDCAFitterN N) =>
      { u with mTrCFVT := upd2 u.mTrCFVT u.mCurHyp i (u.mWeightInv.toStd * FwdDCAFitterN.miei (u.mTrcEInv u.mCurHyp i)) }) t).mTrcEInv
      = t.mTrcEInv
    ∧ (forDown n (fun i (u : FwdDCAFitterN N) =>
      { u with mTrCFVT := upd2 u.mTrCFVT u.mCurHyp i (u.mWeightInv.toStd * FwdDCAFitterN.miei (u.mTrcEInv u.mCurHyp i)) }) t).mCurHyp
      = t.mCurHyp
    ∧ ∀ k i, (forDown n (fun i (u : FwdDCAFitterN N) =>
      { u with mTrCFVT := upd2 u.mTrCFVT u.mCurHyp i (u.mWeightInv.toStd * FwdDCAFitterN.miei (u.mTrcEInv u.mCurHyp i)) }) t).mTrCFVT k i
      = if k = t.mCurHyp ∧ i < n then t.mWeightInv.toStd * augmentedInvCov (t.mTrcEInv t.mCurHyp i)
        else t.mTrCFVT k i := by
  intro n
  induction n with
  | zero =>
    intro t
    refine ⟨rfl, rfl, rfl, fun k i => ?_⟩
    simp [forDown]
  | succ n ih =>
    intro t
    rw [forDown]
    obtain ⟨h1, h2, h3, h4⟩ := ih
      { t with mTrCFVT := upd2 t.mTrCFVT t.mCurHyp n (t.mWeightInv.toStd * FwdDCAFitterN.miei (t.mTrcEInv t.mCurHyp n)) }
    refine ⟨h1, h2, h3, fun k i => ?_⟩
    rw [h4 k i]
    dsimp only
    by_cases hk : k = t.mCurHyp
    · by_cases hin : i < n
      · rw [if_pos ⟨hk, hin⟩, if_pos ⟨hk, by omega⟩]
      · rw [if_neg (fun h => hin h.2)]
        by_cases hi : i = n
        · rw [if_pos ⟨hk, by omega⟩]
          simp only [upd2, hk, hi, and_self, if_true]
          rfl
        · rw [if_neg (fun h => by omega)]
          simp [upd2, hi]
    · rw [if_neg (fun h => hk h.1), if_neg (fun h => hk h.1)]
      simp [upd2, hk]

/-- C10: when `FwdcalcPCACoefs` returns true, `mWeightInv` is the inverse of
`W`, the sum over the `N` prongs of `E_j = [[sxx, sxy, 0], [sxy, syy, 0],
[0, 0, szz]]`, and for every prong `i` the coefficient matrix `mTrCFVT[i]` of
the current hypothesis equals `mWeightInv * E_i`; `FwdcalcPCACoefs` returns
false exactly when the inversion of `W` fails, which in the model of `Invert` is
when `W` is singular. -/
theorem FwdcalcPCACoefs_inverse_weight {N : Nat} (s : FwdDCAFitterN N) :
    ((FwdDCAFitterN.FwdcalcPCACoefs s).1 = true →
      (FwdDCAFitterN.FwdcalcPCACoefs s).2.mWeightInv.toStd * weightSum s = 1
      ∧ weightSum s * (FwdDCAFitterN.FwdcalcPCACoefs s).2.mWeightInv.toStd = 1
      ∧ ∀ i < N, (FwdDCAFitterN.FwdcalcPCACoefs s).2.mTrCFVT s.mCurHyp i
          = (FwdDCAFitterN.FwdcalcPCACoefs s).2.mWeightInv.toStd
            * augmentedInvCov (s.mTrcEInv s.mCurHyp i))
    ∧ ((FwdDCAFitterN.FwdcalcPCACoefs s).1 = false
        ↔ (FwdDCAFitterN.FwdcalcInverseWeight s).1 = false)
    ∧ ((FwdDCAFitterN.FwdcalcPCACoefs s).1 = false ↔ (weightSum s).det = 0) := by
  obtain ⟨w1, w2, w3, w4⟩ := FwdcalcInverseWeight_spec s
  obtain ⟨c1, c2, c3, c4⟩ := coefLoop_spec N (FwdDCAFitterN.FwdcalcInverseWeight s).2
  cases hb : (FwdDCAFitterN.FwdcalcInverseWeight s).1 with
  | false =>
    have hf : FwdDCAFitterN.FwdcalcPCACoefs s = (false, (FwdDCAFitterN.FwdcalcInverseWeight s).2) := by
      unfold FwdDCAFitterN.FwdcalcPCACoefs
      dsimp only
      rw [hb]
      rfl
    rw [hf]
    exact ⟨fun h => Bool.noConfusion h, ⟨fun _ => rfl, fun _ => rfl⟩,
      ⟨fun _ => w2.mp hb, fun _ => rfl⟩⟩
  | true =>
    have ht : FwdDCAFitterN.FwdcalcPCACoefs s
        = (true, forDown N (fun i (u : FwdDCAFitterN N) =>
            { u with mTrCFVT := upd2 u.mTrCFVT u.mCurHyp i (u.mWeightInv.toStd * FwdDCAFitterN.miei (u.mTrcEInv u.mCurHyp i)) })
            (FwdDCAFitterN.FwdcalcInverseWeight s).2) := by
      unfold FwdDCAFitterN.FwdcalcPCACoefs
      dsimp only
      rw [hb]
      rfl
    rw [ht]
    obtain ⟨i1, i2⟩ := w1 hb
    refine ⟨fun _ => ?_, ⟨fun h => Bool.noConfusion h, fun h => Bool.noConfusion h⟩,
      ⟨fun h => Bool.noConfusion h, fun h => ?_⟩⟩
    · dsimp only
      rw [c1]
      refine ⟨i1, i2, fun i hi => ?_⟩
      rw [c4 s.mCurHyp i, if_pos ⟨w4.symm, hi⟩, w3, w4]
    · have := w2.mpr h
      rw [hb] at this
      exact Bool.noConfusion this

set_option maxRecDepth 100000 in
/-- Witness of C10 on the two-prong state `chi2NegativeState`: the inversion
succeeds and both coefficient matrices are `mWeightInv * E_i`. -/
theorem FwdcalcPCACoefs_inverse_weight_witness :
    (FwdDCAFitterN.FwdcalcPCACoefs chi2NegativeState).1 = true
    ∧ (FwdDCAFitterN.FwdcalcPCACoefs chi2NegativeState).2.mWeightInv.toStd
        * weightSum chi2NegativeState = 1
    ∧ (FwdDCAFitterN.FwdcalcPCACoefs chi2NegativeState).2.mTrCFVT 0 1
        = (FwdDCAFitterN.FwdcalcPCACoefs chi2NegativeState).2.mWeightInv.toStd
          * augmentedInvCov covI_1_1_09 := by
  have hb : (FwdDCAFitterN.FwdcalcPCACoefs chi2NegativeState).1 = true := by decide!
  have h := (FwdcalcPCACoefs_inverse_weight chi2NegativeState).1 hb
  exact ⟨hb, h.1, h.2.2 1 (by omega)⟩

/-- An accumulating loop over a state: when every pass keeps `inv` and adds
`f (inv t) i` to `g`, the loop adds the sum of these terms to `g`. -/
theorem forDown_acc {σ α M : Type} [AddCommMonoid M] (inv : σ → α) (g : σ → M)
    (f : α → Nat → M) (body : Nat → σ → σ) (hinv : ∀ i t, inv (body i t) = inv t)
    (hg : ∀ i t, g (body i t) = g t + f (inv t) i) : ∀ (n : Nat) (s : σ),
    g (forDown n body s) = g s + ∑ i in Finset.range n, f (inv s) i := by
  intro n
  induction n with
  | zero => intro s; simp [forDown]
  | succ n ih =>
    intro s
    rw [forDown, ih, hg, hinv, Finset.sum_range_succ, add_assoc, add_comm (f (inv s) n)]

/-! ### The vertex of the absolute-distance mode -/

/-- The x coordinate of the vertex that `FwdcalcPCANoErr` stores: the z of the
last prong plus the x of the other prongs, times `1/N`. -/
theorem FwdcalcPCANoErr_x {N : Nat} (ext : External N) (s : FwdDCAFitterN N) :
    (FwdDCAFitterN.FwdcalcPCANoErr ext s).mPCA s.mCurHyp 0
      = (s.mTrPos s.mCurHyp (N - 1) 2 + ∑ i in Finset.range (N - 1), s.mTrPos s.mCurHyp i 0)
        * FwdDCAFitterN.NInv N := by
  unfold FwdDCAFitterN.FwdcalcPCANoErr
  dsimp only
  have hinv := forDown_preserves (fun t : FwdDCAFitterN N => (t.mCurHyp, t.mTrPos))
    (fun i (t : FwdDCAFitterN N) =>
      let y := ext.indeterminateY t i
      let z := ext.indeterminateZ t i
      let pca := t.mPCA t.mCurHyp
      let pca0 := Vec3D.setAt pca 0 (pca 0 + t.mTrPos t.mCurHyp i 0)
      let pca1 := Vec3D.setAt pca0 1 (pca0 1 + y)
      let pca2 := Vec3D.setAt pca1 2 (pca1 2 + z)
      { t with mPCA := upd t.mPCA t.mCurHyp pca2 }) (fun _ _ => rfl) (N - 1)
  have hacc := forDown_acc (fun t : FwdDCAFitterN N => (t.mCurHyp, t.mTrPos))
    (fun t : FwdDCAFitterN N => t.mPCA t.mCurHyp 0)
    (fun (a : Nat × (Nat → Nat → Vec3D)) i => a.2 a.1 i 0)
    (fun i (t : FwdDCAFitterN N) =>
      let y := ext.indeterminateY t i
      let z := ext.indeterminateZ t i
      let pca := t.mPCA t.mCurHyp
      let pca0 := Vec3D.setAt pca 0 (pca 0 + t.mTrPos t.mCurHyp i 0)
      let pca1 := Vec3D.setAt pca0 1 (pca0 1 + y)
      let pca2 := Vec3D.setAt pca1 2 (pca1 2 + z)
      { t with mPCA := upd t.mPCA t.mCurHyp pca2 }) (fun _ _ => rfl)
    (fun i t => by simp [upd, Vec3D.setAt]) (N - 1)
  dsimp only at hinv hacc
  let v0 : Vec3D := Vec3D.setAt (s.mPCA s.mCurHyp) 0 (s.mTrPos s.mCurHyp (N - 1) 2)
  obtain ⟨s1, hs1⟩ : ∃ s1 : FwdDCAFitterN N, { s with mPCA := upd s.mPCA s.mCurHyp v0 } = s1 :=
    ⟨_, rfl⟩
  rw [hs1]
  have hc := congrArg Prod.fst (hinv s1)
  have ha := hacc s1
  dsimp only at hc
  have hc1 : s1.mCurHyp = s.mCurHyp := by rw [← hs1]
  have hp1 : s1.mTrPos = s.mTrPos := by rw [← hs1]
  have hx1 : s1.mPCA s.mCurHyp 0 = s.mTrPos s.mCurHyp (N - 1) 2 := by
    rw [← hs1]; simp [upd, Vec3D.setAt, v0]
  rw [hc, hc1]
  rw [hc, hc1, hp1, hx1] at ha
  simp only [upd, if_true, Vec3D.setAt]
  simp only [Fin.isValue, Fin.reduceEq, if_true, if_false, reduceIte]
  exact congrArg (fun x => x * FwdDCAFitterN.NInv N) ha

/-- C12 fails on the code: for the two prongs at `(1, 2, 3)` and `(4, 5, 6)` the
mean of the x coordinates is `5/2`, but the x coordinate of the vertex that
`FwdcalcPCANoErr` stores is `7/2 = (6 + 1) / 2`, the z of the last prong plus
the x of the first one, halved; this holds whatever the unwritten locals `y`
and `z` hold. The y coordinate is the old content of the vertex plus the
unwritten local, halved: 0 when both are 0, where the mean of the y
coordinates is `7/2`. -/
theorem FwdcalcPCANoErr_not_mean (ext : External 2) :
    (FwdDCAFitterN.FwdcalcPCANoErr ext twoPointsState).mPCA 0 0 = 7 / 2
    ∧ (twoPointsState.mTrPos 0 0 0 + twoPointsState.mTrPos 0 1 0) * FwdDCAFitterN.NInv 2 = 5 / 2
    ∧ (FwdDCAFitterN.FwdcalcPCANoErr (linearExt 2) twoPointsState).mPCA 0 1 = 0
    ∧ (twoPointsState.mTrPos 0 0 1 + twoPointsState.mTrPos 0 1 1) * FwdDCAFitterN.NInv 2 = 7 / 2 := by
  refine ⟨?_, ?_, by decide!, by decide!⟩
  · have h := FwdcalcPCANoErr_x ext twoPointsState
    have hc : twoPointsState.mCurHyp = 0 := rfl
    rw [hc] at h
    rw [h]
    simp [twoPointsState, FwdDCAFitterN.NInv, Finset.sum_range_succ]
    norm_num
  · simp [twoPointsState, FwdDCAFitterN.NInv]
    norm_num

/-! ### Frames of the vertex steps, for any observation -/

/-- An observation that does not read `mWeightInv` is not changed by
`FwdcalcInverseWeight`. -/
theorem FwdcalcInverseWeight_frame {N : Nat} {α : Type} (f : FwdDCAFitterN N → α)
    (hW : ∀ (t : FwdDCAFitterN N) (m : MatSym3D), f { t with mWeightInv := m } = f t)
    (s : FwdDCAFitterN N) : f (FwdDCAFitterN.FwdcalcInverseWeight s).2 = f s := by
  have hloop : ∀ t : FwdDCAFitterN N, f (forDown N (fun i (t : FwdDCAFitterN N) =>
      { t with mWeightInv :=
        { XX := t.mWeightInv.XX + (t.mTrcEInv t.mCurHyp i).sxx
          XY := t.mWeightInv.XY + (t.mTrcEInv t.mCurHyp i).sxy
          XZ := t.mWeightInv.XZ + 0
          YY := t.mWeightInv.YY + (t.mTrcEInv t.mCurHyp i).syy
          YZ := t.mWeightInv.YZ + 0
          ZZ := t.mWeightInv.ZZ + (t.mTrcEInv t.mCurHyp i).szz } }) t) = f t :=
    forDown_preserves f _ (fun i t => hW t _) N
  unfold FwdDCAFitterN.FwdcalcInverseWeight
  dsimp only
  split
  · exact (hW _ _).trans ((hloop _).trans (hW s _))
  · exact (hloop _).trans (hW s _)

/-- An observation that reads neither `mWeightInv` nor `mTrCFVT` is not changed
by `FwdcalcPCACoefs`. -/
theorem FwdcalcPCACoefs_frame {N : Nat} {α : Type} (f : FwdDCAFitterN N → α)
    (hW : ∀ (t : FwdDCAFitterN N) (m : MatSym3D), f { t with mWeightInv := m } = f t)
    (hT : ∀ (t : FwdDCAFitterN N) (m : Nat → Nat → MatStd3D), f { t with mTrCFVT := m } = f t)
    (s : FwdDCAFitterN N) : f (FwdDCAFitterN.FwdcalcPCACoefs s).2 = f s := by
  unfold FwdDCAFitterN.FwdcalcPCACoefs
  dsimp only
  split
  · exact FwdcalcInverseWeight_frame f hW s
  · exact (forDown_preserves f _ (fun i t => hT t _) N _).trans (FwdcalcInverseWeight_frame f hW s)

/-- An observation that does not read `mPCA` is not changed by `FwdcalcPCA`. -/
theorem FwdcalcPCA_frame {N : Nat} {α : Type} (f : FwdDCAFitterN N → α)
    (hP : ∀ (t : FwdDCAFitterN N) (m : Nat → Vec3D), f { t with mPCA := m } = f t)
    (s : FwdDCAFitterN N) : f (FwdDCAFitterN.FwdcalcPCA s) = f s := by
  unfold FwdDCAFitterN.FwdcalcPCA
  dsimp only
  exact (forDown_preserves f _ (fun i t => hP t _) (N - 1) _).trans (hP s _)

/-- An observation that does not read `mTrRes` is not changed by
`FwdcalcTrackResiduals`. -/
theorem FwdcalcTrackResiduals_frame {N : Nat} {α : Type} (f : FwdDCAFitterN N → α)
    (hR : ∀ (t : FwdDCAFitterN N) (m : Nat → Nat → Vec3D), f { t with mTrRes := m } = f t)
    (s : FwdDCAFitterN N) : f (FwdDCAFitterN.FwdcalcTrackResiduals s) = f s := by
  unfold FwdDCAFitterN.FwdcalcTrackResiduals
  exact forDown_preserves f _ (fun i t => hR t _) N s

/-! ### What the vertex steps compute -/

/-- The vertex that `FwdcalcPCA` stores for a fitter with at least one prong is
the sum over the prongs of `Ti * Pi`. -/
theorem FwdcalcPCA_spec {N : Nat} (hN : 0 < N) (s : FwdDCAFitterN N) :
    (FwdDCAFitterN.FwdcalcPCA s).mPCA s.mCurHyp
      = ∑ i in Finset.range N, Matrix.mulVec (s.mTrCFVT s.mCurHyp i) (s.mTrPos s.mCurHyp i) := by
  have hacc := forDown_acc (fun t : FwdDCAFitterN N => (t.mCurHyp, t.mTrCFVT, t.mTrPos))
    (fun t : FwdDCAFitterN N => t.mPCA t.mCurHyp)
    (fun (a : Nat × (Nat → Nat → MatStd3D) × (Nat → Nat → Vec3D)) i =>
      Matrix.mulVec (a.2.1 a.1 i) (a.2.2 a.1 i))
    (fun i (t : FwdDCAFitterN N) =>
      let v : Vec3D := t.mPCA t.mCurHyp + Matrix.mulVec (t.mTrCFVT t.mCurHyp i) (t.mTrPos t.mCurHyp i)
      { t with mPCA := upd t.mPCA t.mCurHyp v }) (fun _ _ => rfl)
    (fun i t => by simp [upd]) (N - 1)
  have hinv := forDown_preserves (fun t : FwdDCAFitterN N => t.mCurHyp)
    (fun i (t : FwdDCAFitterN N) =>
      let v : Vec3D := t.mPCA t.mCurHyp + Matrix.mulVec (t.mTrCFVT t.mCurHyp i) (t.mTrPos t.mCurHyp i)
      { t with mPCA := upd t.mPCA t.mCurHyp v }) (fun _ _ => rfl) (N - 1)
  let v0 : Vec3D := Matrix.mulVec (s.mTrCFVT s.mCurHyp (N - 1)) (s.mTrPos s.mCurHyp (N - 1))
  have ha := hacc { s with mPCA := upd s.mPCA s.mCurHyp v0 }
  have hc := hinv { s with mPCA := upd s.mPCA s.mCurHyp v0 }
  dsimp only at ha hc
  rw [hc] at ha
  unfold FwdDCAFitterN.FwdcalcPCA
  dsimp only
  refine ha.trans ?_
  obtain ⟨n, rfl⟩ : ∃ n, N = n + 1 := ⟨N - 1, by omega⟩
  rw [Finset.sum_range_succ, add_comm]
  simp [upd, v0]

/-- The residuals that `FwdcalcTrackResiduals` stores for the prongs of the
current hypothesis are `Pi - V`. -/
theorem FwdcalcTrackResiduals_spec {N : Nat} (s : FwdDCAFitterN N) (i : Nat) (hi : i < N) :
    (FwdDCAFitterN.FwdcalcTrackResiduals s).mTrRes s.mCurHyp i
      = s.mTrPos s.mCurHyp i - s.mPCA s.mCurHyp := by
  have key : ∀ (n : Nat) (t : FwdDCAFitterN N),
      (forDown n (fun i (t : FwdDCAFitterN N) =>
        let vtxLoc : Vec3D := t.mPCA t.mCurHyp
        { t with mTrRes := upd2 t.mTrRes t.mCurHyp i (t.mTrPos t.mCurHyp i - vtxLoc) }) t).mTrRes
          t.mCurHyp i
        = if i < n then t.mTrPos t.mCurHyp i - t.mPCA t.mCurHyp else t.mTrRes t.mCurHyp i := by
    intro n
    induction n with
    | zero => intro t; simp [forDown]
    | succ n ih =>
      intro t
      rw [forDown]
      have h := ih { t with mTrRes := upd2 t.mTrRes t.mCurHyp n (t.mTrPos t.mCurHyp n - t.mPCA t.mCurHyp) }
      dsimp only at h ⊢
      rw [h]
      by_cases h1 : i < n
      · rw [if_pos h1, if_pos (by omega)]
      · rw [if_neg h1]
        by_cases h2 : i = n
        · rw [if_pos (by omega)]
          simp [upd2, h2]
        · rw [if_neg (by omega)]
          simp [upd2, h2]
  unfold FwdDCAFitterN.FwdcalcTrackResiduals
  rw [key N s, if_pos hi]

/-- The weighted chi2 as a sum over the prongs. -/
theorem FwdcalcChi2_eq_sum {N : Nat} (s : FwdDCAFitterN N) :
    FwdDCAFitterN.FwdcalcChi2 s = ∑ i in Finset.range N,
      (s.mTrRes s.mCurHyp i 0 * s.mTrRes s.mCurHyp i 0 * (s.mTrcEInv s.mCurHyp i).sxx
        + s.mTrRes s.mCurHyp i 1 * s.mTrRes s.mCurHyp i 1 * (s.mTrcEInv s.mCurHyp i).syy
        + s.mTrRes s.mCurHyp i 2 * s.mTrRes s.mCurHyp i 2 * (s.mTrcEInv s.mCurHyp i).szz
        + 2 * s.mTrRes s.mCurHyp i 1 * s.mTrRes s.mCurHyp i 2 * (s.mTrcEInv s.mCurHyp i).sxy) := by
  unfold FwdDCAFitterN.FwdcalcChi2
  dsimp only
  rw [forDown_add, zero_add]

/-- The state a successful `FwdcalcPCACoefs` leaves: `mWeightInv` is the inverse
of the weight sum, every coefficient matrix of the current hypothesis is
`mWeightInv * E_i`, and the coefficient matrices add up to the identity. -/
theorem FwdcalcPCACoefs_true {N : Nat} (s : FwdDCAFitterN N)
    (h : (FwdDCAFitterN.FwdcalcPCACoefs s).1 = true) :
    (FwdDCAFitterN.FwdcalcPCACoefs s).2.mWeightInv.toStd * weightSum s = 1
    ∧ weightSum s * (FwdDCAFitterN.FwdcalcPCACoefs s).2.mWeightInv.toStd = 1
    ∧ (∀ i < N, (FwdDCAFitterN.FwdcalcPCACoefs s).2.mTrCFVT s.mCurHyp i
        = (FwdDCAFitterN.FwdcalcPCACoefs s).2.mWeightInv.toStd
          * augmentedInvCov (s.mTrcEInv s.mCurHyp i))
    ∧ ∑ i in Finset.range N, (FwdDCAFitterN.FwdcalcPCACoefs s).2.mTrCFVT s.mCurHyp i = 1 := by
  obtain ⟨w1, w2, w3, w4⟩ := FwdcalcInverseWeight_spec s
  obtain ⟨c1, c2, c3, c4⟩ := coefLoop_spec N (FwdDCAFitterN.FwdcalcInverseWeight s).2
  have hb : (FwdDCAFitterN.FwdcalcInverseWeight s).1 = true := by
    cases hb : (FwdDCAFitterN.FwdcalcInverseWeight s).1 with
    | true => rfl
    | false =>
      have hf : FwdDCAFitterN.FwdcalcPCACoefs s = (false, (FwdDCAFitterN.FwdcalcInverseWeight s).2) := by
        unfold FwdDCAFitterN.FwdcalcPCACoefs
        dsimp only
        rw [hb]
        rfl
      rw [hf] at h
      exact Bool.noConfusion h
  have ht : FwdDCAFitterN.FwdcalcPCACoefs s
      = (true, forDown N (fun i (u : FwdDCAFitterN N) =>
          { u with mTrCFVT := upd2 u.mTrCFVT u.mCurHyp i (u.mWeightInv.toStd * FwdDCAFitterN.miei (u.mTrcEInv u.mCurHyp i)) })
          (FwdDCAFitterN.FwdcalcInverseWeight s).2) := by
    unfold FwdDCAFitterN.FwdcalcPCACoefs
    dsimp only
    rw [hb]
    rfl
  rw [ht]
  dsimp only
  rw [c1]
  obtain ⟨i1, i2⟩ := w1 hb
  have hT : ∀ i < N, (forDown N (fun i (u : FwdDCAFitterN N) =>
          { u with mTrCFVT := upd2 u.mTrCFVT u.mCurHyp i (u.mWeightInv.toStd * FwdDCAFitterN.miei (u.mTrcEInv u.mCurHyp i)) })
          (FwdDCAFitterN.FwdcalcInverseWeight s).2).mTrCFVT s.mCurHyp i
        = (FwdDCAFitterN.FwdcalcInverseWeight s).2.mWeightInv.toStd
          * augmentedInvCov (s.mTrcEInv s.mCurHyp i) := by
    intro i hi
    rw [c4 s.mCurHyp i, if_pos ⟨w4.symm, hi⟩, w3, w4]
  refine ⟨i1, i2, hT, ?_⟩
  rw [Finset.sum_congr rfl (fun i hi => hT i (Finset.mem_range.mp hi)), ← Finset.mul_sum]
  exact i1


/-- The call `FwdcalcPCACoefs` fails exactly when the weight sum is singular. -/
theorem FwdcalcPCACoefs_false_iff {N : Nat} (s : FwdDCAFitterN N) :
    (FwdDCAFitterN.FwdcalcPCACoefs s).1 = false ↔ (weightSum s).det = 0 := by
  obtain ⟨_, w2, _, _⟩ := FwdcalcInverseWeight_spec s
  rw [← w2]
  unfold FwdDCAFitterN.FwdcalcPCACoefs
  dsimp only
  cases (FwdDCAFitterN.FwdcalcInverseWeight s).1 <;> simp

/-- A sum of matrix-vector products with one vector is the product of the sum
of the matrices with that vector. -/
theorem sum_mulVec_const (A : Nat → MatStd3D) (v : Vec3D) : ∀ n : Nat,
    ∑ i in Finset.range n, Matrix.mulVec (A i) v
      = Matrix.mulVec (∑ i in Finset.range n, A i) v := by
  intro n
  induction n with
  | zero => simp
  | succ n ih => rw [Finset.sum_range_succ, Finset.sum_range_succ, Matrix.add_mulVec, ih]

/-- C11: in the weighted mode, when the working positions of all `N` prongs
(`N ≥ 1`) of the current hypothesis coincide at one point `P` and the weight
inversion of `FwdcalcPCACoefs` succeeds, `FwdcalcPCA` stores the vertex `V = P`,
`FwdcalcTrackResiduals` then stores a zero residual for every prong, and
`FwdcalcChi2` then returns 0. -/
theorem FwdcalcPCA_exact_intersection {N : Nat} (hN : 0 < N) (s : FwdDCAFitterN N) (P : Vec3D)
    (hcoef : (FwdDCAFitterN.FwdcalcPCACoefs s).1 = true)
    (hP : ∀ i < N, s.mTrPos s.mCurHyp i = P) :
    (FwdDCAFitterN.FwdcalcPCA (FwdDCAFitterN.FwdcalcPCACoefs s).2).mPCA s.mCurHyp = P
    ∧ (∀ i < N, (FwdDCAFitterN.FwdcalcTrackResiduals
        (FwdDCAFitterN.FwdcalcPCA (FwdDCAFitterN.FwdcalcPCACoefs s).2)).mTrRes s.mCurHyp i = 0)
    ∧ FwdDCAFitterN.FwdcalcChi2 (FwdDCAFitterN.FwdcalcTrackResiduals
        (FwdDCAFitterN.FwdcalcPCA (FwdDCAFitterN.FwdcalcPCACoefs s).2)) = 0 := by
  obtain ⟨_, _, _, hsum⟩ := FwdcalcPCACoefs_true s hcoef
  have hf := FwdcalcPCACoefs_frame (fun t : FwdDCAFitterN N => (t.mCurHyp, t.mTrPos))
    (fun _ _ => rfl) (fun _ _ => rfl) s
  generalize (FwdDCAFitterN.FwdcalcPCACoefs s).2 = s1 at hsum hf ⊢
  have hc1 : s1.mCurHyp = s.mCurHyp := congrArg Prod.fst hf
  have hp1 : s1.mTrPos = s.mTrPos := congrArg Prod.snd hf
  have hV : (FwdDCAFitterN.FwdcalcPCA s1).mPCA s.mCurHyp = P := by
    have h := FwdcalcPCA_spec hN s1
    rw [hc1, hp1] at h
    rw [h, Finset.sum_congr rfl (fun i hi => by rw [hP i (Finset.mem_range.mp hi)]),
      sum_mulVec_const, hsum, Matrix.one_mulVec]
  have hf2 := FwdcalcPCA_frame (fun t : FwdDCAFitterN N => (t.mCurHyp, t.mTrPos))
    (fun _ _ => rfl) s1
  generalize FwdDCAFitterN.FwdcalcPCA s1 = s2 at hV hf2 ⊢
  have hc2 : s2.mCurHyp = s.mCurHyp := (congrArg Prod.fst hf2).trans hc1
  have hp2 : s2.mTrPos = s.mTrPos := (congrArg Prod.snd hf2).trans hp1
  have hR : ∀ i < N, (FwdDCAFitterN.FwdcalcTrackResiduals s2).mTrRes s.mCurHyp i = 0 := by
    intro i hi
    have h := FwdcalcTrackResiduals_spec s2 i hi
    rw [hc2, hp2, hV, hP i hi, sub_self] at h
    exact h
  refine ⟨hV, hR, ?_⟩
  have hc3 : (FwdDCAFitterN.FwdcalcTrackResiduals s2).mCurHyp = s.mCurHyp :=
    (FwdcalcTrackResiduals_frame (fun t : FwdDCAFitterN N => t.mCurHyp) (fun _ _ => rfl) s2).trans hc2
  rw [FwdcalcChi2_eq_sum, hc3]
  refine Finset.sum_eq_zero (fun i hi => ?_)
  rw [hR i (Finset.mem_range.mp hi)]
  simp

set_option maxRecDepth 100000 in
/-- Witness of C11 on `exactIntersectionState`: the weight inversion succeeds,
the vertex is `(1, 2, 3)` and the chi2 is 0. -/
theorem FwdcalcPCA_exact_intersection_witness :
    (FwdDCAFitterN.FwdcalcPCACoefs exactIntersectionState).1 = true
    ∧ (FwdDCAFitterN.FwdcalcPCA (FwdDCAFitterN.FwdcalcPCACoefs exactIntersectionState).2).mPCA 0
        = ![1, 2, 3]
    ∧ FwdDCAFitterN.FwdcalcChi2 (FwdDCAFitterN.FwdcalcTrackResiduals
        (FwdDCAFitterN.FwdcalcPCA (FwdDCAFitterN.FwdcalcPCACoefs exactIntersectionState).2)) = 0 :=
  have hb : (FwdDCAFitterN.FwdcalcPCACoefs exactIntersectionState).1 = true := by decide!
  have h := FwdcalcPCA_exact_intersection (by decide) exactIntersectionState ![1, 2, 3] hb
    (fun _ _ => rfl)
  ⟨hb, h.1, h.2.2⟩

/-! ### Inflating the covariances -/

/-- The inverse covariance of a prong whose planar covariance terms are
multiplied by `k > 0` is `1/k` times the inverse covariance of the prong. -/
theorem FwdTrackCovI_set_inflate (k : ℚ) (hk : 0 < k) (c c' : FwdTrackCovI) (trc : Track)
    (zf : ℚ) (e : FwdTrackCovI) (h : c.set trc zf = .ok e) :
    c'.set (inflate k trc) zf = .ok
      { sxx := 1 / k * e.sxx, syy := 1 / k * e.syy, sxy := 1 / k * e.sxy, szz := 1 / k * e.szz } := by
  obtain ⟨h1, h2⟩ := FwdTrackCovI_set_cases c trc zf
  by_cases hd : 0 < trc.getSigma2X * trc.getSigma2Y - trc.getSigmaXY * trc.getSigmaXY
  · rw [h1 hd] at h
    injection h with h
    subst h
    have hd' : 0 < (inflate k trc).getSigma2X * (inflate k trc).getSigma2Y
        - (inflate k trc).getSigmaXY * (inflate k trc).getSigmaXY := by
      show 0 < k * trc.getSigma2X * (k * trc.getSigma2Y) - k * trc.getSigmaXY * (k * trc.getSigmaXY)
      have : k * trc.getSigma2X * (k * trc.getSigma2Y) - k * trc.getSigmaXY * (k * trc.getSigmaXY)
          = k * k * (trc.getSigma2X * trc.getSigma2Y - trc.getSigmaXY * trc.getSigmaXY) := by ring
      rw [this]
      positivity
    rw [(FwdTrackCovI_set_cases c' (inflate k trc) zf).1 hd']
    show Except.ok _ = Except.ok _
    have e1 : k * trc.getSigma2X * (k * trc.getSigma2Y) - k * trc.getSigmaXY * (k * trc.getSigmaXY)
        = k * k * (trc.getSigma2X * trc.getSigma2Y - trc.getSigmaXY * trc.getSigmaXY) := by ring
    have hk0 : k ≠ 0 := ne_of_gt hk
    have hd0 : trc.getSigma2X * trc.getSigma2Y - trc.getSigmaXY * trc.getSigmaXY ≠ 0 := ne_of_gt hd
    congr 1
    simp only [inflate, e1, FwdTrackCovI.mk.injEq]
    refine ⟨?_, ?_, ?_, ?_⟩
    · field_simp; ring
    · field_simp; ring
    · field_simp; ring
    · ring
  · rw [h2 (not_lt.mp hd)] at h
    cases h

/-- Inflation does not change whether `FwdTrackCovI::set` throws. -/
theorem FwdTrackCovI_set_inflate_error (k : ℚ) (hk : 0 < k) (c c' : FwdTrackCovI) (trc : Track)
    (zf : ℚ) (h : c.set trc zf = .error "invalid track covariance") :
    c'.set (inflate k trc) zf = .error "invalid track covariance" := by
  obtain ⟨h1, _⟩ := FwdTrackCovI_set_cases c trc zf
  by_cases hd : 0 < trc.getSigma2X * trc.getSigma2Y - trc.getSigmaXY * trc.getSigmaXY
  · rw [h1 hd] at h
    cases h
  · refine (FwdTrackCovI_set_cases c' (inflate k trc) zf).2 ?_
    show k * trc.getSigma2X * (k * trc.getSigma2Y) - k * trc.getSigmaXY * (k * trc.getSigmaXY) ≤ 0
    have : k * trc.getSigma2X * (k * trc.getSigma2Y) - k * trc.getSigmaXY * (k * trc.getSigmaXY)
        = k * k * (trc.getSigma2X * trc.getSigma2Y - trc.getSigmaXY * trc.getSigmaXY) := by ring
    rw [this]
    exact mul_nonpos_of_nonneg_of_nonpos (by positivity) (not_lt.mp hd)

/-- The inverse covariances of two fitters whose prongs differ by an inflation
of the covariance by `k > 0`. -/
theorem mTrcEInv_inflate {N : Nat} (k : ℚ) (hk : 0 < k) (zf : ℚ) (c0 c0' : Nat → FwdTrackCovI)
    (trk : Nat → Track) (s s' : FwdDCAFitterN N)
    (hs : ∀ i < N, (c0 i).set (trk i) zf = .ok (s.mTrcEInv s.mCurHyp i))
    (hs' : ∀ i < N, (c0' i).set (inflate k (trk i)) zf = .ok (s'.mTrcEInv s.mCurHyp i))
    (i : Nat) (hi : i < N) :
    s'.mTrcEInv s.mCurHyp i =
      { sxx := 1 / k * (s.mTrcEInv s.mCurHyp i).sxx, syy := 1 / k * (s.mTrcEInv s.mCurHyp i).syy
        sxy := 1 / k * (s.mTrcEInv s.mCurHyp i).sxy, szz := 1 / k * (s.mTrcEInv s.mCurHyp i).szz } := by
  have h := FwdTrackCovI_set_inflate k hk (c0 i) (c0' i) (trk i) zf _ (hs i hi)
  rw [hs' i hi] at h
  injection h

/-- The weight sum after an inflation of the covariances by `k` is `1/k` times
the weight sum. -/
theorem weightSum_inflate {N : Nat} (k : ℚ) (s s' : FwdDCAFitterN N)
    (hcur : s'.mCurHyp = s.mCurHyp)
    (hE : ∀ i < N, s'.mTrcEInv s.mCurHyp i =
      { sxx := 1 / k * (s.mTrcEInv s.mCurHyp i).sxx, syy := 1 / k * (s.mTrcEInv s.mCurHyp i).syy
        sxy := 1 / k * (s.mTrcEInv s.mCurHyp i).sxy, szz := 1 / k * (s.mTrcEInv s.mCurHyp i).szz }) :
    (∀ i < N, augmentedInvCov (s'.mTrcEInv s.mCurHyp i)
        = (1 / k) • augmentedInvCov (s.mTrcEInv s.mCurHyp i))
    ∧ weightSum s' = (1 / k) • weightSum s := by
  have hA : ∀ i < N, augmentedInvCov (s'.mTrcEInv s.mCurHyp i)
      = (1 / k) • augmentedInvCov (s.mTrcEInv s.mCurHyp i) := by
    intro i hi
    rw [hE i hi]
    ext a b
    fin_cases a <;> fin_cases b <;> simp [augmentedInvCov]
  refine ⟨hA, ?_⟩
  unfold weightSum
  rw [hcur, Finset.smul_sum]
  exact Finset.sum_congr rfl (fun i hi => hA i (Finset.mem_range.mp hi))

/-- C13: for every `k > 0`, multiplying the planar covariance terms
(`cxx`, `cyy`, `cxy`) of every prong by `k` does not change whether
`FwdcalcPCACoefs` succeeds, leaves every coefficient matrix `mTrCFVT[i]` that it
computes unchanged, and hence leaves the vertex computed by `FwdcalcPCA` from
the same positions unchanged. The inverse covariances of the two fitters `s`
and `s'` are those that `FwdTrackCovI::set` produces for the prongs `trk i` and
for the inflated prongs. -/
theorem FwdcalcPCACoefs_inflation_invariant {N : Nat} (hN : 0 < N) (k : ℚ) (hk : 0 < k) (zf : ℚ)
    (c0 c0' : Nat → FwdTrackCovI) (trk : Nat → Track) (s s' : FwdDCAFitterN N)
    (hcur : s'.mCurHyp = s.mCurHyp)
    (hpos : ∀ i < N, s'.mTrPos s.mCurHyp i = s.mTrPos s.mCurHyp i)
    (hs : ∀ i < N, (c0 i).set (trk i) zf = .ok (s.mTrcEInv s.mCurHyp i))
    (hs' : ∀ i < N, (c0' i).set (inflate k (trk i)) zf = .ok (s'.mTrcEInv s.mCurHyp i)) :
    (FwdDCAFitterN.FwdcalcPCACoefs s').1 = (FwdDCAFitterN.FwdcalcPCACoefs s).1
    ∧ ((FwdDCAFitterN.FwdcalcPCACoefs s).1 = true →
      (∀ i < N, (FwdDCAFitterN.FwdcalcPCACoefs s').2.mTrCFVT s.mCurHyp i
          = (FwdDCAFitterN.FwdcalcPCACoefs s).2.mTrCFVT s.mCurHyp i)
      ∧ (FwdDCAFitterN.FwdcalcPCA (FwdDCAFitterN.FwdcalcPCACoefs s').2).mPCA s.mCurHyp
          = (FwdDCAFitterN.FwdcalcPCA (FwdDCAFitterN.FwdcalcPCACoefs s).2).mPCA s.mCurHyp) := by
  have hk0 : k ≠ 0 := ne_of_gt hk
  have hE := mTrcEInv_inflate k hk zf c0 c0' trk s s' hs hs'
  obtain ⟨hA, hW⟩ := weightSum_inflate k s s' hcur hE
  have hdet : (weightSum s').det = 0 ↔ (weightSum s).det = 0 := by
    rw [hW, Matrix.det_smul]
    simp [hk0]
  have hb : (FwdDCAFitterN.FwdcalcPCACoefs s').1 = (FwdDCAFitterN.FwdcalcPCACoefs s).1 := by
    have h1 := FwdcalcPCACoefs_false_iff s
    have h2 := FwdcalcPCACoefs_false_iff s'
    by_cases hd : (weightSum s).det = 0
    · rw [h1.mpr hd, h2.mpr (hdet.mpr hd)]
    · have e1 : (FwdDCAFitterN.FwdcalcPCACoefs s).1 = true :=
        (Bool.eq_false_or_eq_true _).resolve_right (fun hx => hd (h1.mp hx)) |>.symm ▸ rfl
      have e2 : (FwdDCAFitterN.FwdcalcPCACoefs s').1 = true :=
        (Bool.eq_false_or_eq_true _).resolve_right (fun hx => hd (hdet.mp (h2.mp hx))) |>.symm ▸ rfl
      rw [e1, e2]
  refine ⟨hb, fun ht => ?_⟩
  have ht' : (FwdDCAFitterN.FwdcalcPCACoefs s').1 = true := hb.trans ht
  obtain ⟨_, a2, a3, _⟩ := FwdcalcPCACoefs_true s ht
  obtain ⟨b1, _, b3, _⟩ := FwdcalcPCACoefs_true s' ht'
  rw [hcur] at b3
  have hf := FwdcalcPCACoefs_frame (fun t : FwdDCAFitterN N => (t.mCurHyp, t.mTrPos))
    (fun _ _ => rfl) (fun _ _ => rfl) s
  have hf' := FwdcalcPCACoefs_frame (fun t : FwdDCAFitterN N => (t.mCurHyp, t.mTrPos))
    (fun _ _ => rfl) (fun _ _ => rfl) s'
  generalize (FwdDCAFitterN.FwdcalcPCACoefs s).2 = t at a2 a3 hf ⊢
  generalize (FwdDCAFitterN.FwdcalcPCACoefs s').2 = t' at b1 b3 hf' ⊢
  have hW' : t'.mWeightInv.toStd = k • t.mWeightInv.toStd := by
    rw [hW, Matrix.mul_smul] at b1
    have h1 : t'.mWeightInv.toStd * weightSum s = k • (1 : MatStd3D) := by
      rw [← b1, smul_smul, mul_one_div_cancel hk0, one_smul]
    calc t'.mWeightInv.toStd = t'.mWeightInv.toStd * (weightSum s * t.mWeightInv.toStd) := by
          rw [a2, mul_one]
      _ = (t'.mWeightInv.toStd * weightSum s) * t.mWeightInv.toStd := by rw [mul_assoc]
      _ = k • t.mWeightInv.toStd := by rw [h1, Matrix.smul_mul, one_mul]
  have hT : ∀ i < N, t'.mTrCFVT s.mCurHyp i = t.mTrCFVT s.mCurHyp i := by
    intro i hi
    rw [b3 i hi, a3 i hi, hW', hA i hi, Matrix.smul_mul, Matrix.mul_smul, smul_smul,
      mul_one_div_cancel hk0, one_smul]
  refine ⟨hT, ?_⟩
  have hc : t.mCurHyp = s.mCurHyp := congrArg Prod.fst hf
  have hp : t.mTrPos = s.mTrPos := congrArg Prod.snd hf
  have hc' : t'.mCurHyp = s.mCurHyp := (congrArg Prod.fst hf').trans hcur
  have hp' : t'.mTrPos = s'.mTrPos := congrArg Prod.snd hf'
  have h1 := FwdcalcPCA_spec hN t
  have h2 := FwdcalcPCA_spec hN t'
  rw [hc, hp] at h1
  rw [hc', hp'] at h2
  rw [h1, h2]
  refine Finset.sum_congr rfl (fun i hi => ?_)
  rw [hT i (Finset.mem_range.mp hi), hpos i (Finset.mem_range.mp hi)]

set_option maxRecDepth 100000 in
/-- Witness of C13 with `k = 2` on two prongs with the planar covariance
`cxx = cyy = 1`, `cxy = 9/10`: the fitter `exactIntersectionState` holds their
inverse covariances and `inflatedState` those of the inflated prongs. -/
theorem FwdcalcPCACoefs_inflation_invariant_witness :
    (FwdDCAFitterN.FwdcalcPCACoefs inflatedState).1 = (FwdDCAFitterN.FwdcalcPCACoefs exactIntersectionState).1
    ∧ (FwdDCAFitterN.FwdcalcPCACoefs exactIntersectionState).1 = true
    ∧ (FwdDCAFitterN.FwdcalcPCACoefs inflatedState).2.mTrCFVT 0 1
        = (FwdDCAFitterN.FwdcalcPCACoefs exactIntersectionState).2.mTrCFVT 0 1 :=
  have h := FwdcalcPCACoefs_inflation_invariant (by decide) 2 (by norm_num) 5
    (fun _ => covI_1_1_09) (fun _ => covI_1_1_09) (fun _ => trackAt 1 2 3 1 1 (9 / 10))
    exactIntersectionState inflatedState rfl (fun _ _ => rfl)
    (fun _ _ => by
      show FwdTrackCovI.set covI_1_1_09 (trackAt 1 2 3 1 1 (9 / 10)) 5 = .ok covI_1_1_09
      simp [FwdTrackCovI.set, trackAt, covI_1_1_09]
      norm_num)
    (fun _ _ => by
      show FwdTrackCovI.set covI_1_1_09 (inflate 2 (trackAt 1 2 3 1 1 (9 / 10))) 5
        = .ok covI_2_2_18
      simp [FwdTrackCovI.set, trackAt, covI_2_2_18, inflate]
      norm_num)
  have hb : (FwdDCAFitterN.FwdcalcPCACoefs exactIntersectionState).1 = true := by decide!
  ⟨h.1, hb, (h.2 hb).1 1 (by decide)⟩

/-- Element access of a sum of symmetric matrices. -/
theorem MatSym3D_add_toStd (a b : MatSym3D) : (a.add b).toStd = a.toStd + b.toStd := by
  ext i j
  fin_cases i <;> fin_cases j <;> simp [MatSym3D.add, MatSym3D.toStd]

/-- Element access of a symmetric matrix whose cells are `k` times those of
another. -/
theorem MatSym3D_toStd_smul (k : ℚ) (m m' : MatSym3D) (hXX : m'.XX = k * m.XX)
    (hXY : m'.XY = k * m.XY) (hYY : m'.YY = k * m.YY) (hXZ : m'.XZ = k * m.XZ)
    (hYZ : m'.YZ = k * m.YZ) (hZZ : m'.ZZ = k * m.ZZ) : m'.toStd = k • m.toStd := by
  ext i j
  fin_cases i <;> fin_cases j <;> simp [MatSym3D.toStd, hXX, hXY, hYY, hXZ, hYZ, hZZ]

/-- The similarity transform is linear in the transformed matrix. -/
theorem Similarity_smul (k : ℚ) (u : MatStd3D) (m m' : MatSym3D) (h : m'.toStd = k • m.toStd) :
    (Similarity u m').toStd = k • (Similarity u m).toStd := by
  have hp : u * m'.toStd * u.transpose = k • (u * m.toStd * u.transpose) := by
    rw [h, Matrix.mul_smul, Matrix.smul_mul]
  unfold Similarity
  dsimp only
  rw [hp]
  ext i j
  fin_cases i <;> fin_cases j <;> simp [MatSym3D.toStd]

/-- The vertex covariance as a sum over the prongs. -/
theorem calcPCACovMatrix_eq_sum {N : Nat} (s : FwdDCAFitterN N) (cand : Nat) :
    (FwdDCAFitterN.calcPCACovMatrix s cand).toStd
      = ∑ i in Finset.range N, (Similarity
          (if s.mUseAbsDCA then FwdDCAFitterN.getTrackRotMatrix s i else s.mTrCFVT (s.mOrder cand) i)
          (FwdDCAFitterN.getTrackCovMatrix s i cand)).toStd := by
  have h := forDown_acc (fun _ : MatSym3D => ()) MatSym3D.toStd
    (fun _ i => (Similarity
      (if s.mUseAbsDCA then FwdDCAFitterN.getTrackRotMatrix s i else s.mTrCFVT (s.mOrder cand) i)
      (FwdDCAFitterN.getTrackCovMatrix s i cand)).toStd)
    (fun i (covm : MatSym3D) => covm.add (Similarity
      (if s.mUseAbsDCA then FwdDCAFitterN.getTrackRotMatrix s i else s.mTrCFVT (s.mOrder cand) i)
      (FwdDCAFitterN.getTrackCovMatrix s i cand)))
    (fun _ _ => rfl) (fun i t => MatSym3D_add_toStd _ _) N MatSym3D.zero
  unfold FwdDCAFitterN.calcPCACovMatrix
  rw [h, MatSym3D_zero_toStd, zero_add]

/-- C14: for every `k > 0`, multiplying the planar covariance terms of every
prong by `k` multiplies the weighted chi2 `FwdcalcChi2` of fixed residuals by
`1/k` (so a non-zero chi2 changes strictly monotonically with the inflation:
it moves towards 0 when `k > 1`) and multiplies every element of the vertex
covariance returned by `calcPCACovMatrix` by `k`. The fitters `s` and `s'` hold
the prongs and the inflated prongs, the inverse covariances that
`FwdTrackCovI::set` produces for them, the same residuals and the same
coefficient matrices. -/
theorem inflation_scales_chi2_and_covariance {N : Nat} (k : ℚ) (hk : 0 < k)
    (c0 c0' : Nat → FwdTrackCovI) (s s' : FwdDCAFitterN N) (cand : Nat)
    (hcur : s'.mCurHyp = s.mCurHyp) (hord : s'.mOrder cand = s.mOrder cand)
    (habs : s'.mUseAbsDCA = s.mUseAbsDCA)
    (htr : ∀ h i, s'.mCandTr h i = inflate k (s.mCandTr h i))
    (hs : ∀ i < N, (c0 i).set (s.mCandTr s.mCurHyp i) FwdDCAFitterN.ZerrFactor
      = .ok (s.mTrcEInv s.mCurHyp i))
    (hs' : ∀ i < N, (c0' i).set (s'.mCandTr s.mCurHyp i) FwdDCAFitterN.ZerrFactor
      = .ok (s'.mTrcEInv s.mCurHyp i))
    (hres : ∀ i < N, s'.mTrRes s.mCurHyp i = s.mTrRes s.mCurHyp i)
    (hT : ∀ i < N, s'.mTrCFVT (s.mOrder cand) i = s.mTrCFVT (s.mOrder cand) i) :
    FwdDCAFitterN.FwdcalcChi2 s' = 1 / k * FwdDCAFitterN.FwdcalcChi2 s
    ∧ (FwdDCAFitterN.calcPCACovMatrix s' cand).toStd
        = k • (FwdDCAFitterN.calcPCACovMatrix s cand).toStd
    ∧ (1 < k → 0 < FwdDCAFitterN.FwdcalcChi2 s →
        FwdDCAFitterN.FwdcalcChi2 s' < FwdDCAFitterN.FwdcalcChi2 s)
    ∧ (1 < k → FwdDCAFitterN.FwdcalcChi2 s < 0 →
        FwdDCAFitterN.FwdcalcChi2 s < FwdDCAFitterN.FwdcalcChi2 s') := by
  have hE := mTrcEInv_inflate k hk FwdDCAFitterN.ZerrFactor c0 c0' (fun i => s.mCandTr s.mCurHyp i)
    s s' hs (fun i hi => by rw [← htr]; exact hs' i hi)
  have hchi : FwdDCAFitterN.FwdcalcChi2 s' = 1 / k * FwdDCAFitterN.FwdcalcChi2 s := by
    rw [FwdcalcChi2_eq_sum, FwdcalcChi2_eq_sum, hcur, Finset.mul_sum]
    refine Finset.sum_congr rfl (fun i hi => ?_)
    rw [hres i (Finset.mem_range.mp hi), hE i (Finset.mem_range.mp hi)]
    ring
  have hcov : (FwdDCAFitterN.calcPCACovMatrix s' cand).toStd
      = k • (FwdDCAFitterN.calcPCACovMatrix s cand).toStd := by
    rw [calcPCACovMatrix_eq_sum, calcPCACovMatrix_eq_sum, Finset.smul_sum]
    refine Finset.sum_congr rfl (fun i hi => ?_)
    have hm : (FwdDCAFitterN.getTrackCovMatrix s' i cand).toStd
        = k • (FwdDCAFitterN.getTrackCovMatrix s i cand).toStd := by
      refine MatSym3D_toStd_smul k _ _ ?_ ?_ ?_ ?_ ?_ ?_ <;>
        simp only [FwdDCAFitterN.getTrackCovMatrix, hord, htr, inflate, mul_zero, mul_assoc]
    have hu : (if s'.mUseAbsDCA then FwdDCAFitterN.getTrackRotMatrix s' i
          else s'.mTrCFVT (s'.mOrder cand) i)
        = (if s.mUseAbsDCA then FwdDCAFitterN.getTrackRotMatrix s i
          else s.mTrCFVT (s.mOrder cand) i) := by
      rw [habs, hord, hT i (Finset.mem_range.mp hi)]
      rfl
    rw [hu]
    exact Similarity_smul k _ _ _ hm
  have hk1 : ∀ c : ℚ, 1 < k → 0 < c → 1 / k * c < c := by
    intro c h1 hc
    have : 1 / k < 1 := by rw [div_lt_one hk]; exact h1
    nlinarith
  refine ⟨hchi, hcov, fun h1 hc => ?_, fun h1 hc => ?_⟩
  · rw [hchi]
    exact hk1 _ h1 hc
  · rw [hchi]
    have := hk1 (-FwdDCAFitterN.FwdcalcChi2 s) h1 (by linarith)
    linarith

set_option maxRecDepth 100000 in
/-- Witness of C14 with `k = 2` on `covScaleState` and `covScaleStateInflated`:
the chi2 is halved and the vertex covariance doubled. -/
theorem inflation_scales_chi2_and_covariance_witness :
    FwdDCAFitterN.FwdcalcChi2 covScaleStateInflated
        = 1 / 2 * FwdDCAFitterN.FwdcalcChi2 covScaleState
    ∧ (FwdDCAFitterN.calcPCACovMatrix covScaleStateInflated 0).toStd
        = (2 : ℚ) • (FwdDCAFitterN.calcPCACovMatrix covScaleState 0).toStd :=
  have h := inflation_scales_chi2_and_covariance 2 (by norm_num)
    (fun _ => covI_1_1_09) (fun _ => covI_1_1_09) covScaleState covScaleStateInflated 0
    rfl rfl rfl (fun _ _ => rfl)
    (fun _ _ => by
      show FwdTrackCovI.set covI_1_1_09 (trackAt 1 2 3 1 1 (9 / 10)) 5 = .ok covI_1_1_09
      simp [FwdTrackCovI.set, trackAt, covI_1_1_09]
      norm_num)
    (fun _ _ => by
      show FwdTrackCovI.set covI_1_1_09 (inflate 2 (trackAt 1 2 3 1 1 (9 / 10))) 5
        = .ok covI_2_2_18
      simp [FwdTrackCovI.set, trackAt, covI_2_2_18, inflate]
      norm_num)
    (fun _ _ => rfl) (fun _ _ => rfl)
  ⟨h.1, h.2.1⟩

/-! ### Propagation to the vertex -/

/-- C20: after `FwdpropagateTracksToVertex(cand)` the propagation-done flag of
the slot of `cand` is set (`isPropagateTracksToVertexDone(cand)` is true), and a
second call on the same candidate returns true and leaves the whole state as
the first call left it. -/
theorem FwdpropagateTracksToVertex_idempotent {N : Nat} (ext : External N) (cand : Nat)
    (s : FwdDCAFitterN N) :
    (FwdDCAFitterN.FwdpropagateTracksToVertex ext cand s).1 = true
    ∧ FwdDCAFitterN.isPropagateTracksToVertexDone
        (FwdDCAFitterN.FwdpropagateTracksToVertex ext cand s).2 cand = true
    ∧ FwdDCAFitterN.FwdpropagateTracksToVertex ext cand
        (FwdDCAFitterN.FwdpropagateTracksToVertex ext cand s).2
      = (true, (FwdDCAFitterN.FwdpropagateTracksToVertex ext cand s).2) := by
  have hord : (FwdDCAFitterN.FwdpropagateTracksToVertex ext cand s).2.mOrder = s.mOrder := by
    have h := ctl_FwdpropagateTracksToVertex ext cand s
    exact congrArg (fun p => p.2.1) h
  have hdone : (FwdDCAFitterN.FwdpropagateTracksToVertex ext cand s).2.mTrPropDone (s.mOrder cand)
      = true := by
    unfold FwdDCAFitterN.FwdpropagateTracksToVertex
    dsimp only
    split
    · assumption
    · simp [upd]
  refine ⟨FwdpropagateTracksToVertex_fst ext cand s, ?_, ?_⟩
  · unfold FwdDCAFitterN.isPropagateTracksToVertexDone
    rw [hord]
    exact hdone
  · generalize hs' : (FwdDCAFitterN.FwdpropagateTracksToVertex ext cand s).2 = s' at hord hdone
    unfold FwdDCAFitterN.FwdpropagateTracksToVertex
    dsimp only
    rw [hord, hdone]
    rfl

/-! ### The Newton loop -/

section Newton

open FwdDCAFitterN

variable {N : Nat}

/-- A pass of the Newton loop, by its parts. -/
theorem minimizePass_eq (ext : External N) (abs : Bool) (chi2 : ℚ) (s : FwdDCAFitterN N) :
    minimizePass ext abs chi2 s =
      match newtonStep (passDerivatives ext abs s) with
      | none => .returnFalse (passDerivatives ext abs s)
      | some (dz, s5) =>
        if prefersAlternative (passPCA ext abs s5) then
          .returnFalse { passPCA ext abs s5 with mAllowAltPreference := false }
        else if getAbsMax N dz < (FwdcalcTrackResiduals (passPCA ext abs s5)).mMinParamChange
            ∨ passChi2 abs (FwdcalcTrackResiduals (passPCA ext abs s5))
              > chi2 * (FwdcalcTrackResiduals (passPCA ext abs s5)).mMinRelChi2Change then
          .converged (passChi2 abs (FwdcalcTrackResiduals (passPCA ext abs s5)))
            (FwdcalcTrackResiduals (passPCA ext abs s5))
        else
          .next (passChi2 abs (FwdcalcTrackResiduals (passPCA ext abs s5)))
            (FwdcalcTrackResiduals (passPCA ext abs s5)) := by
  cases abs
  · simp only [minimizePass, minimizeChi2Pass, newtonStep, passDerivatives, passPCA, passChi2,
      prefersAlternative, FwdcorrectTracks, Bool.false_eq_true, if_false, Bool.not_true]
    cases MatSymND.Invert N (FwdcalcChi2Derivatives (FwdcalcResidDerivatives
      (calcTrackDerivatives ext s))).mD2Chi2Dz2 <;> rfl
  · simp only [minimizePass, minimizeChi2NoErrPass, newtonStep, passDerivatives, passPCA, passChi2,
      prefersAlternative, FwdcorrectTracks, if_true, Bool.not_true, Bool.false_eq_true, if_false]
    cases MatSymND.Invert N (FwdcalcChi2DerivativesNoErr (FwdcalcResidDerivativesNoErr
      (calcTrackDerivatives ext s))).mD2Chi2Dz2 <;> rfl

/-- One turn of the Newton loop. -/
theorem minimizeLoop_succ (ext : External N) (abs : Bool) (fuel : Nat) (chi2 : ℚ)
    (s : FwdDCAFitterN N) :
    minimizeLoop ext abs (fuel + 1) chi2 s =
      match minimizePass ext abs chi2 s with
      | .returnFalse s' => (none, s')
      | .converged c s' => (some c, s')
      | .next c s7 =>
        if (incrNIters s7).mNIters (incrNIters s7).mCurHyp < (incrNIters s7).mMaxIter then
          minimizeLoop ext abs fuel c (incrNIters s7)
        else (some c, incrNIters s7) := by
  cases abs
  · simp only [minimizeLoop, minimizePass, Bool.false_eq_true, if_false]
    rw [minimizeChi2Loop]
    rfl
  · simp only [minimizeLoop, minimizePass, if_true]
    rw [minimizeChi2NoErrLoop]
    rfl

/-- The selected minimiser, by its parts: the steps before the loop, the
loop, and the store of `chi2 * NInv` followed by the test against
`mMaxChi2`. -/
theorem minimizeOf_eq (ext : External N) (abs : Bool) (s : FwdDCAFitterN N) :
    minimizeOf ext abs s =
      match loopEntry ext abs s with
      | .error e => .error e
      | .ok (false, s') => .ok (false, s')
      | .ok (true, s3) =>
        match minimizeLoop ext abs (loopFuel s3) (passChi2 abs s3) s3 with
        | (none, s4) => .ok (false, s4)
        | (some c, s4) =>
          .ok (decide (c * NInv N < s4.mMaxChi2),
            { s4 with mChi2 := upd s4.mChi2 s4.mCurHyp (c * NInv N) }) := by
  cases abs
  · simp only [minimizeOf, loopEntry, minimizeChi2, minimizeLoop, passChi2, Bool.false_eq_true,
      if_false]
    cases minimizeChi2Prepare ext s with
    | error e => rfl
    | ok s1 =>
      dsimp only
      split
      · rfl
      · split
        · rfl
        · dsimp only
          split <;> simp_all [upd]
  · simp only [minimizeOf, loopEntry, minimizeChi2NoErr, minimizeLoop, passChi2, if_true]
    split
    · rfl
    · dsimp only
      split <;> simp_all [upd]

end Newton

/-! ### What the numeric steps leave of the switch `mAllowAltPreference` -/

section AltFrame

open FwdDCAFitterN

variable {N : Nat}

theorem altPref_FwdcalcInverseWeight (s : FwdDCAFitterN N) :
    altPref (FwdcalcInverseWeight s).2 = altPref s := by
  unfold FwdcalcInverseWeight
  have h := forDown_preserves (altPref (N := N)) (fun i (t : FwdDCAFitterN N) =>
    { t with mWeightInv :=
        { XX := t.mWeightInv.XX + (t.mTrcEInv t.mCurHyp i).sxx
          XY := t.mWeightInv.XY + (t.mTrcEInv t.mCurHyp i).sxy
          XZ := t.mWeightInv.XZ + 0
          YY := t.mWeightInv.YY + (t.mTrcEInv t.mCurHyp i).syy
          YZ := t.mWeightInv.YZ + 0
          ZZ := t.mWeightInv.ZZ + (t.mTrcEInv t.mCurHyp i).szz } }) (fun _ _ => rfl) N
    { s with mWeightInv := MatSym3D.zero }
  dsimp only
  split
  · exact h
  · exact h

theorem altPref_FwdcalcPCACoefs (s : FwdDCAFitterN N) :
    altPref (FwdcalcPCACoefs s).2 = altPref s := by
  unfold FwdcalcPCACoefs
  dsimp only
  split
  · exact altPref_FwdcalcInverseWeight s
  · refine (forDown_preserves altPref _ (fun i t => ?_) _ _).trans (altPref_FwdcalcInverseWeight s)
    rfl

theorem altPref_FwdcalcResidDerivatives (s : FwdDCAFitterN N) :
    altPref (FwdcalcResidDerivatives s) = altPref s := by
  unfold FwdcalcResidDerivatives
  refine forDown_preserves altPref _ (fun i t => ?_) _ _
  refine forDown_preserves altPref _ (fun j u => ?_) _ _
  rfl

theorem altPref_FwdcalcResidDerivativesNoErr (s : FwdDCAFitterN N) :
    altPref (FwdcalcResidDerivativesNoErr s) = altPref s := by
  unfold FwdcalcResidDerivativesNoErr
  refine forDown_preserves altPref _ (fun i t => ?_) _ _
  refine (forDown_preserves altPref _ (fun j u => ?_) _ _).trans ?_
  · rfl
  · rfl

theorem altPref_FwdcalcChi2Derivatives1 (s : FwdDCAFitterN N) :
    altPref (FwdcalcChi2Derivatives1 s).1 = altPref s := by
  unfold FwdcalcChi2Derivatives1
  refine forDown_preserves (fun p : FwdDCAFitterN N × (Nat → Nat → Vec3D) => altPref p.1) _
    (fun i t => ?_) _ _
  refine (forDown_preserves (fun p : FwdDCAFitterN N × (Nat → Nat → Vec3D) => altPref p.1) _
    (fun j u => ?_) _ _).trans ?_
  · rfl
  · rfl

theorem altPref_FwdcalcChi2Derivatives (s : FwdDCAFitterN N) :
    altPref (FwdcalcChi2Derivatives s) = altPref s := by
  unfold FwdcalcChi2Derivatives
  refine (forDown_preserves altPref _ (fun i t => ?_) _ _).trans (altPref_FwdcalcChi2Derivatives1 s)
  refine forDown_preserves altPref _ (fun j u => ?_) _ _
  refine (forDown_preserves altPref _ (fun k v => ?_) _ _).trans ?_
  · rfl
  · rfl

theorem altPref_FwdcalcChi2DerivativesNoErr (s : FwdDCAFitterN N) :
    altPref (FwdcalcChi2DerivativesNoErr s) = altPref s := by
  unfold FwdcalcChi2DerivativesNoErr
  refine forDown_preserves altPref _ (fun i t => ?_) _ _
  refine (forDown_preserves altPref _ (fun j u => ?_) _ _).trans ?_
  · dsimp only
    split
    · refine (forDown_preserves altPref _ (fun k v => ?_) _ _).trans ?_
      · rfl
      · rfl
    · rfl
  · rfl

theorem altPref_FwdcalcPCA (s : FwdDCAFitterN N) : altPref (FwdcalcPCA s) = altPref s := by
  unfold FwdcalcPCA
  refine (forDown_preserves altPref _ (fun i t => ?_) _ _).trans ?_
  · rfl
  · rfl

theorem altPref_FwdcalcPCANoErr (ext : External N) (s : FwdDCAFitterN N) :
    altPref (FwdcalcPCANoErr ext s) = altPref s := by
  unfold FwdcalcPCANoErr
  dsimp only
  refine Eq.trans (b := altPref (forDown (N - 1) _ _)) rfl ?_
  refine (forDown_preserves altPref _ (fun i t => ?_) _ _).trans ?_
  · rfl
  · rfl

theorem altPref_FwdcalcTrackResiduals (s : FwdDCAFitterN N) :
    altPref (FwdcalcTrackResiduals s) = altPref s := by
  unfold FwdcalcTrackResiduals
  refine forDown_preserves altPref _ (fun i t => ?_) _ _
  rfl

theorem altPref_calcTrackDerivatives (ext : External N) (s : FwdDCAFitterN N) :
    altPref (calcTrackDerivatives ext s) = altPref s := by
  unfold calcTrackDerivatives
  refine forDown_preserves altPref _ (fun i t => ?_) _ _
  rfl

theorem altPref_FwdcorrectTracks (corrZ : Nat → ℚ) (s : FwdDCAFitterN N) :
    altPref (FwdcorrectTracks corrZ s).2 = altPref s := by
  unfold FwdcorrectTracks
  refine forDown_preserves altPref _ (fun i t => ?_) _ _
  rfl

theorem altPref_findZatXY (ext : External N) (icand : Nat) (s : FwdDCAFitterN N) :
    altPref (findZatXY ext icand s) = altPref s := rfl

theorem altPref_minimizeChi2Prepare (ext : External N) (s s' : FwdDCAFitterN N)
    (h : minimizeChi2Prepare ext s = .ok s') : altPref s' = altPref s := by
  unfold minimizeChi2Prepare at h
  refine forDownM_preserves altPref _ (fun i t t' ht => ?_) _ _ _ h
  dsimp only at ht
  split at ht
  · injection ht with ht
    rw [← ht]
    rfl
  · cases ht

theorem altPref_minimizeChi2NoErrPrepare (ext : External N) (s : FwdDCAFitterN N) :
    altPref (minimizeChi2NoErrPrepare ext s) = altPref s := by
  unfold minimizeChi2NoErrPrepare
  refine forDown_preserves altPref _ (fun i t => ?_) _ _
  rfl

theorem altPref_FwdpropagateTracksToVertex (ext : External N) (icand : Nat) (s : FwdDCAFitterN N) :
    altPref (FwdpropagateTracksToVertex ext icand s).2 = altPref s := by
  unfold FwdpropagateTracksToVertex
  dsimp only
  split
  · rfl
  · refine Eq.trans (b := altPref (forDown N _ s)) rfl ?_
    refine forDown_preserves altPref _ (fun i t => ?_) _ _
    dsimp only
    split <;> rfl

end AltFrame

/-! ### The parts of a pass -/

section NewtonParts

open FwdDCAFitterN

variable {N : Nat}

theorem cfg_passDerivatives (ext : External N) (abs : Bool) (s : FwdDCAFitterN N) :
    cfg (passDerivatives ext abs s) = cfg s := by
  cases abs
  · show cfg (FwdcalcChi2Derivatives (FwdcalcResidDerivatives (calcTrackDerivatives ext s))) = _
    rw [cfg_FwdcalcChi2Derivatives, cfg_FwdcalcResidDerivatives, cfg_calcTrackDerivatives]
  · show cfg (FwdcalcChi2DerivativesNoErr (FwdcalcResidDerivativesNoErr
      (calcTrackDerivatives ext s))) = _
    rw [cfg_FwdcalcChi2DerivativesNoErr, cfg_FwdcalcResidDerivativesNoErr,
      cfg_calcTrackDerivatives]

theorem altPref_passDerivatives (ext : External N) (abs : Bool) (s : FwdDCAFitterN N) :
    altPref (passDerivatives ext abs s) = altPref s := by
  cases abs
  · show altPref (FwdcalcChi2Derivatives (FwdcalcResidDerivatives (calcTrackDerivatives ext s)))
      = _
    rw [altPref_FwdcalcChi2Derivatives, altPref_FwdcalcResidDerivatives,
      altPref_calcTrackDerivatives]
  · show altPref (FwdcalcChi2DerivativesNoErr (FwdcalcResidDerivativesNoErr
      (calcTrackDerivatives ext s))) = _
    rw [altPref_FwdcalcChi2DerivativesNoErr, altPref_FwdcalcResidDerivativesNoErr,
      altPref_calcTrackDerivatives]

theorem cfg_passPCA (ext : External N) (abs : Bool) (s : FwdDCAFitterN N) :
    cfg (passPCA ext abs s) = cfg s := by
  cases abs
  · exact cfg_FwdcalcPCA s
  · exact cfg_FwdcalcPCANoErr ext s

theorem altPref_passPCA (ext : External N) (abs : Bool) (s : FwdDCAFitterN N) :
    altPref (passPCA ext abs s) = altPref s := by
  cases abs
  · exact altPref_FwdcalcPCA s
  · exact altPref_FwdcalcPCANoErr ext s

/-- The Newton step writes no member of `cfg` and leaves the switch alone. -/
theorem newtonStep_frame (s3 s5 : FwdDCAFitterN N) (dz : Nat → ℚ)
    (h : newtonStep s3 = some (dz, s5)) : cfg s5 = cfg s3 ∧ altPref s5 = altPref s3 := by
  unfold newtonStep at h
  split at h
  · cases h
  · rename_i m _
    simp only [Option.some.injEq, Prod.mk.injEq] at h
    obtain ⟨_, h2⟩ := h
    rw [← h2]
    exact ⟨cfg_FwdcorrectTracks _ _, altPref_FwdcorrectTracks _ _⟩

/-- A pass whose Hessian inversion fails returns false. -/
theorem minimizePass_of_step_none (ext : External N) (abs : Bool) (chi2 : ℚ) (s : FwdDCAFitterN N)
    (h : newtonStep (passDerivatives ext abs s) = none) :
    minimizePass ext abs chi2 s = .returnFalse (passDerivatives ext abs s) := by
  rw [minimizePass_eq, h]

/-- A pass after a successful Newton step, by the two tests that follow. -/
theorem minimizePass_of_step_some (ext : External N) (abs : Bool) (chi2 : ℚ) (s s5 : FwdDCAFitterN N)
    (dz : Nat → ℚ) (h : newtonStep (passDerivatives ext abs s) = some (dz, s5)) :
    minimizePass ext abs chi2 s =
      if prefersAlternative (passPCA ext abs s5) then
        .returnFalse { passPCA ext abs s5 with mAllowAltPreference := false }
      else if getAbsMax N dz < (FwdcalcTrackResiduals (passPCA ext abs s5)).mMinParamChange
          ∨ passChi2 abs (FwdcalcTrackResiduals (passPCA ext abs s5))
            > chi2 * (FwdcalcTrackResiduals (passPCA ext abs s5)).mMinRelChi2Change then
        .converged (passChi2 abs (FwdcalcTrackResiduals (passPCA ext abs s5)))
          (FwdcalcTrackResiduals (passPCA ext abs s5))
      else
        .next (passChi2 abs (FwdcalcTrackResiduals (passPCA ext abs s5)))
          (FwdcalcTrackResiduals (passPCA ext abs s5)) := by
  rw [minimizePass_eq, h]

theorem cfg_minimizePass (ext : External N) (abs : Bool) (chi2 : ℚ) (s : FwdDCAFitterN N) :
    cfg (minimizePass ext abs chi2 s).state = cfg s := by
  cases abs
  · exact cfg_minimizeChi2Pass ext chi2 s
  · exact cfg_minimizeChi2NoErrPass ext chi2 s

/-- The state in which the two tests of a pass are made has the configuration of
the state in which the pass started. -/
theorem cfg_passVertex (ext : External N) (abs : Bool) (s s5 : FwdDCAFitterN N) (dz : Nat → ℚ)
    (h : newtonStep (passDerivatives ext abs s) = some (dz, s5)) :
    cfg (passPCA ext abs s5) = cfg s
    ∧ cfg (FwdcalcTrackResiduals (passPCA ext abs s5)) = cfg s
    ∧ altPref (passPCA ext abs s5) = altPref s
    ∧ altPref (FwdcalcTrackResiduals (passPCA ext abs s5)) = altPref s := by
  obtain ⟨h1, h2⟩ := newtonStep_frame _ _ _ h
  refine ⟨?_, ?_, ?_, ?_⟩
  · rw [cfg_passPCA, h1, cfg_passDerivatives]
  · rw [cfg_FwdcalcTrackResiduals, cfg_passPCA, h1, cfg_passDerivatives]
  · rw [altPref_passPCA, h2, altPref_passDerivatives]
  · rw [altPref_FwdcalcTrackResiduals, altPref_passPCA, h2, altPref_passDerivatives]

/-- The members of `cfg`, one by one. -/
theorem cfg_fields {s s' : FwdDCAFitterN N} (h : cfg s' = cfg s) :
    s'.mCurHyp = s.mCurHyp ∧ s'.mNIters = s.mNIters ∧ s'.mMaxIter = s.mMaxIter
    ∧ s'.mMinParamChange = s.mMinParamChange ∧ s'.mMinRelChi2Change = s.mMinRelChi2Change
    ∧ s'.mMaxChi2 = s.mMaxChi2 ∧ s'.mCrossIDCur = s.mCrossIDCur ∧ s'.mCrossIDAlt = s.mCrossIDAlt
    ∧ s'.mCrossings = s.mCrossings ∧ s'.mChi2 = s.mChi2 ∧ s'.mOrder = s.mOrder
    ∧ s'.mTrPropDone = s.mTrPropDone ∧ s'.mUseAbsDCA = s.mUseAbsDCA
    ∧ s'.mPropagateToPCA = s.mPropagateToPCA := by
  simp only [cfg, Prod.mk.injEq] at h
  obtain ⟨⟨h1, h2, h3, _, h5, h6, h7⟩, ⟨g1, g2, g3, g4, g5, _, _, _⟩, ⟨k1, k2, k3, _⟩⟩ := h
  exact ⟨h1, g1, g2, g3, g4, g5, k1, k2, h3, h7, h2, k3, h5, h6⟩

/-- The source's `getAbsMax(v)` of a vector with at least one component is the largest
absolute value of its components. -/
theorem getAbsMax_spec (N : Nat) (hN : 0 < N) (v : Nat → ℚ) :
    (∀ i < N, |v i| ≤ getAbsMax N v) ∧ ∃ i < N, getAbsMax N v = |v i| := by
  have key : ∀ (n : Nat) (mx : ℚ),
      mx ≤ forDown n (fun i mx => let vai := |v i|; if mx < vai then vai else mx) mx
      ∧ (∀ i < n, |v i| ≤ forDown n (fun i mx => let vai := |v i|; if mx < vai then vai else mx) mx)
      ∧ (forDown n (fun i mx => let vai := |v i|; if mx < vai then vai else mx) mx = mx
        ∨ ∃ i < n, forDown n (fun i mx => let vai := |v i|; if mx < vai then vai else mx) mx
            = |v i|) := by
    intro n
    induction n with
    | zero => intro mx; exact ⟨le_refl _, fun i hi => absurd hi (Nat.not_lt_zero i), Or.inl rfl⟩
    | succ n ih =>
      intro mx
      rw [forDown]
      dsimp only
      obtain ⟨a, b, c⟩ := ih (if mx < |v n| then |v n| else mx)
      have hmx : mx ≤ (if mx < |v n| then |v n| else mx) := by
        split
        · exact le_of_lt ‹_›
        · exact le_refl _
      have hvn : |v n| ≤ (if mx < |v n| then |v n| else mx) := by
        split
        · exact le_refl _
        · exact not_lt.mp ‹_›
      refine ⟨le_trans hmx a, fun i hi => ?_, ?_⟩
      · by_cases h : i = n
        · rw [h]; exact le_trans hvn a
        · exact b i (by omega)
      · rcases c with c | ⟨i, hi, c⟩
        · rw [c]
          by_cases h : mx < |v n|
          · rw [if_pos h]; exact Or.inr ⟨n, Nat.lt_succ_self n, rfl⟩
          · rw [if_neg h]; exact Or.inl rfl
        · exact Or.inr ⟨i, Nat.lt_succ_of_lt hi, c⟩
  obtain ⟨a, b, c⟩ := key N (-1)
  refine ⟨b, ?_⟩
  rcases c with c | c
  · exfalso
    have h0 := b 0 hN
    have : (0 : ℚ) ≤ |v 0| := abs_nonneg _
    unfold getAbsMax at *
    dsimp only at *
    linarith
  · exact c

end NewtonParts

/-! ### The stop criterion -/

section NewtonStop

open FwdDCAFitterN

variable {N : Nat}

/-- C15: after a pass of the Newton loop (of `minimizeChi2NoErr` when `abs` is
true, of `minimizeChi2` otherwise) whose Newton step `dz` succeeded and which
was not abandoned for the alternative seed, the pass stops the iteration as
converged exactly when `getAbsMax(dz) < mMinParamChange` or
`chi2Upd > chi2 * mMinRelChi2Change`, where `chi2` is the chi2 of the previous
pass; otherwise the pass goes on to the loop condition. In both cases the chi2
carried on is the updated one, and on convergence the loop ends at once with
the updated chi2 as its final chi2. `getAbsMax(dz)` is the largest `|dz_i|`. -/
theorem newton_pass_convergence_test (ext : External N) (abs : Bool) (chi2 : ℚ)
    (s s5 : FwdDCAFitterN N) (dz : Nat → ℚ)
    (hstep : newtonStep (passDerivatives ext abs s) = some (dz, s5))
    (halt : prefersAlternative (passPCA ext abs s5) = false) :
    (minimizePass ext abs chi2 s
        = .converged (passChi2 abs (FwdcalcTrackResiduals (passPCA ext abs s5)))
            (FwdcalcTrackResiduals (passPCA ext abs s5))
      ↔ (getAbsMax N dz < s.mMinParamChange
          ∨ passChi2 abs (FwdcalcTrackResiduals (passPCA ext abs s5)) > chi2 * s.mMinRelChi2Change))
    ∧ (minimizePass ext abs chi2 s
        = .next (passChi2 abs (FwdcalcTrackResiduals (passPCA ext abs s5)))
            (FwdcalcTrackResiduals (passPCA ext abs s5))
      ↔ ¬ (getAbsMax N dz < s.mMinParamChange
          ∨ passChi2 abs (FwdcalcTrackResiduals (passPCA ext abs s5)) > chi2 * s.mMinRelChi2Change))
    ∧ ((getAbsMax N dz < s.mMinParamChange
          ∨ passChi2 abs (FwdcalcTrackResiduals (passPCA ext abs s5)) > chi2 * s.mMinRelChi2Change)
        → ∀ fuel, minimizeLoop ext abs (fuel + 1) chi2 s
            = (some (passChi2 abs (FwdcalcTrackResiduals (passPCA ext abs s5))),
                FwdcalcTrackResiduals (passPCA ext abs s5)))
    ∧ (0 < N → (∀ i < N, |dz i| ≤ getAbsMax N dz) ∧ ∃ i < N, getAbsMax N dz = |dz i|) := by
  have hp := minimizePass_of_step_some ext abs chi2 s s5 dz hstep
  obtain ⟨_, hc, _, _⟩ := cfg_passVertex ext abs s s5 dz hstep
  obtain ⟨_, _, _, h4, h5, _⟩ := cfg_fields hc
  rw [halt, h4, h5] at hp
  simp only [Bool.false_eq_true, if_false] at hp
  by_cases hstop : getAbsMax N dz < s.mMinParamChange
      ∨ passChi2 abs (FwdcalcTrackResiduals (passPCA ext abs s5)) > chi2 * s.mMinRelChi2Change
  · rw [if_pos hstop] at hp
    refine ⟨⟨fun _ => hstop, fun _ => hp⟩, ⟨fun h => ?_, fun h => absurd hstop h⟩, fun _ fuel => ?_,
      fun hN => getAbsMax_spec N hN dz⟩
    · rw [hp] at h; cases h
    · rw [minimizeLoop_succ, hp]
  · rw [if_neg hstop] at hp
    refine ⟨⟨fun h => ?_, fun h => absurd h hstop⟩, ⟨fun _ => hstop, fun _ => hp⟩,
      fun h => absurd h hstop, fun hN => getAbsMax_spec N hN dz⟩
    rw [hp] at h; cases h

set_option maxRecDepth 100000 in
/-- The first Newton step of the fit of `newtonEntryState` succeeds. -/
theorem newtonEntryState_step :
    (newtonStep (passDerivatives (linearExt 2) true newtonEntryState)).isSome = true := by
  decide!

set_option maxRecDepth 100000 in
/-- Witness of C15 on the first pass of the absolute-distance fit of
`newtonEntryState`, entered with the chi2 `49/2`: the correction is 0, below
`mMinParamChange`, and the pass ends the loop with the updated chi2 `81/8`. -/
theorem newton_pass_convergence_test_witness :
    ∃ (dz : Nat → ℚ) (s5 : FwdDCAFitterN 2),
      newtonStep (passDerivatives (linearExt 2) true newtonEntryState) = some (dz, s5)
      ∧ prefersAlternative (passPCA (linearExt 2) true s5) = false
      ∧ getAbsMax 2 dz < newtonEntryState.mMinParamChange
      ∧ passChi2 true (FwdcalcTrackResiduals (passPCA (linearExt 2) true s5)) = 81 / 8
      ∧ minimizeLoop (linearExt 2) true 1 (49 / 2) newtonEntryState
          = (some (passChi2 true (FwdcalcTrackResiduals (passPCA (linearExt 2) true s5))),
              FwdcalcTrackResiduals (passPCA (linearExt 2) true s5)) :=
  have hstep : newtonStep (passDerivatives (linearExt 2) true newtonEntryState)
      = some ((newtonStep (passDerivatives (linearExt 2) true newtonEntryState)).get
          newtonEntryState_step) := (Option.some_get newtonEntryState_step).symm
  have halt : prefersAlternative (passPCA (linearExt 2) true
      ((newtonStep (passDerivatives (linearExt 2) true newtonEntryState)).get
        newtonEntryState_step).2) = false := by decide!
  have hdz : getAbsMax 2 ((newtonStep (passDerivatives (linearExt 2) true newtonEntryState)).get
      newtonEntryState_step).1 < newtonEntryState.mMinParamChange := by decide!
  have hc : passChi2 true (FwdcalcTrackResiduals (passPCA (linearExt 2) true
      ((newtonStep (passDerivatives (linearExt 2) true newtonEntryState)).get
        newtonEntryState_step).2)) = 81 / 8 := by decide!
  ⟨_, _, hstep, halt, hdz, hc,
    (newton_pass_convergence_test (linearExt 2) true (49 / 2) newtonEntryState _ _ hstep halt).2.2.1
      (Or.inl hdz) 0⟩

end NewtonStop

/-! ### The iteration cap -/

section NewtonCap

open FwdDCAFitterN

variable {N : Nat}

/-- The passes of the Newton loop and its result, for a loop entered with the
counter below `mMaxIter`: the loop makes at least one pass and at most
`mMaxIter - mNIters` passes; the counter grows by the number of passes that got
to the loop condition; the last pass decides the result, and the counter ends
at `mMaxIter` exactly when the last pass got to the loop condition. -/
theorem newtonPasses_spec (ext : External N) (abs : Bool) :
    ∀ (fuel : Nat) (chi2 : ℚ) (s : FwdDCAFitterN N),
      s.mNIters s.mCurHyp < s.mMaxIter →
      (s.mMaxIter - s.mNIters s.mCurHyp).toNat ≤ fuel →
      newtonPasses ext abs fuel chi2 s ≠ []
      ∧ ((newtonPasses ext abs fuel chi2 s).length : Int) ≤ s.mMaxIter - s.mNIters s.mCurHyp
      ∧ (minimizeLoop ext abs fuel chi2 s).2.mCurHyp = s.mCurHyp
      ∧ (minimizeLoop ext abs fuel chi2 s).2.mMaxIter = s.mMaxIter
      ∧ (minimizeLoop ext abs fuel chi2 s).2.mNIters s.mCurHyp
          = s.mNIters s.mCurHyp
            + ((newtonPasses ext abs fuel chi2 s).countP PassResult.isNext : Int)
      ∧ (∀ c s7, (newtonPasses ext abs fuel chi2 s).getLast? = some (.next c s7) →
          minimizeLoop ext abs fuel chi2 s = (some c, incrNIters s7)
          ∧ (minimizeLoop ext abs fuel chi2 s).2.mNIters s.mCurHyp = s.mMaxIter)
      ∧ (∀ c s', (newtonPasses ext abs fuel chi2 s).getLast? = some (.converged c s') →
          minimizeLoop ext abs fuel chi2 s = (some c, s')
          ∧ (minimizeLoop ext abs fuel chi2 s).2.mNIters s.mCurHyp < s.mMaxIter)
      ∧ (∀ s', (newtonPasses ext abs fuel chi2 s).getLast? = some (.returnFalse s') →
          minimizeLoop ext abs fuel chi2 s = (none, s')
          ∧ (minimizeLoop ext abs fuel chi2 s).2.mNIters s.mCurHyp < s.mMaxIter) := by
  intro fuel
  induction fuel with
  | zero =>
    intro chi2 s h0 hf
    exfalso
    omega
  | succ n ih =>
    intro chi2 s h0 hf
    have hcfg := cfg_minimizePass ext abs chi2 s
    rw [minimizeLoop_succ, newtonPasses]
    cases hr : minimizePass ext abs chi2 s with
    | returnFalse s' =>
      rw [hr] at hcfg
      obtain ⟨e1, e2, e3, _⟩ := cfg_fields hcfg
      obtain ⟨e1, e2, e3⟩ : s'.mCurHyp = s.mCurHyp ∧ s'.mNIters = s.mNIters
          ∧ s'.mMaxIter = s.mMaxIter := ⟨e1, e2, e3⟩
      dsimp only
      refine ⟨by simp, by simp; omega, e1, e3, by simp [PassResult.isNext, e2], ?_, ?_, ?_⟩
      · intro c s7 h; simp at h
      · intro c s'' h; simp at h
      · intro s'' h
        simp only [List.getLast?_singleton, Option.some.injEq, PassResult.returnFalse.injEq] at h
        subst h
        exact ⟨rfl, by rw [e2]; exact h0⟩
    | converged c s' =>
      rw [hr] at hcfg
      obtain ⟨e1, e2, e3, _⟩ := cfg_fields hcfg
      obtain ⟨e1, e2, e3⟩ : s'.mCurHyp = s.mCurHyp ∧ s'.mNIters = s.mNIters
          ∧ s'.mMaxIter = s.mMaxIter := ⟨e1, e2, e3⟩
      dsimp only
      refine ⟨by simp, by simp; omega, e1, e3, by simp [PassResult.isNext, e2], ?_, ?_, ?_⟩
      · intro c' s7 h; simp at h
      · intro c' s'' h
        simp only [List.getLast?_singleton, Option.some.injEq, PassResult.converged.injEq] at h
        obtain ⟨h1, h2⟩ := h
        subst h1 h2
        exact ⟨rfl, by rw [e2]; exact h0⟩
      · intro s'' h; simp at h
    | next c s7 =>
      rw [hr] at hcfg
      obtain ⟨e1, e2, e3, _⟩ := cfg_fields hcfg
      obtain ⟨e1, e2, e3⟩ : s7.mCurHyp = s.mCurHyp ∧ s7.mNIters = s.mNIters
          ∧ s7.mMaxIter = s.mMaxIter := ⟨e1, e2, e3⟩
      have i1 : (incrNIters s7).mCurHyp = s.mCurHyp := e1
      have i3 : (incrNIters s7).mMaxIter = s.mMaxIter := e3
      have i2 : (incrNIters s7).mNIters s.mCurHyp = s.mNIters s.mCurHyp + 1 := by
        simp [incrNIters, upd, e1, e2]
      dsimp only
      rw [i1, i2, i3]
      by_cases hlt : s.mNIters s.mCurHyp + 1 < s.mMaxIter
      · rw [if_pos hlt, if_pos hlt]
        have ih' := ih c (incrNIters s7)
          (by rw [i1, i2, i3]; exact hlt) (by rw [i1, i2, i3]; omega)
        rw [i1, i2, i3] at ih'
        obtain ⟨a, b, c1, c2, c3, d1, d2, d3⟩ := ih'
        obtain ⟨x, l, hl⟩ : ∃ x l, newtonPasses ext abs n c (incrNIters s7) = x :: l := by
          cases hx : newtonPasses ext abs n c (incrNIters s7) with
          | nil => exact absurd hx a
          | cons x l => exact ⟨x, l, rfl⟩
        have hlast : (PassResult.next c s7 :: newtonPasses ext abs n c (incrNIters s7)).getLast?
            = (newtonPasses ext abs n c (incrNIters s7)).getLast? := by
          rw [hl, List.getLast?_cons_cons]
        rw [hlast]
        refine ⟨by simp, ?_, c1, c2, ?_, d1, d2, d3⟩
        · simp only [List.length_cons, Nat.cast_add, Nat.cast_one]
          omega
        · rw [c3]
          simp only [List.countP_cons, PassResult.isNext, if_true]
          push_cast
          ring
      · rw [if_neg hlt, if_neg hlt]
        have hM : s.mNIters s.mCurHyp + 1 = s.mMaxIter := by omega
        refine ⟨by simp, by simp; omega, i1, i3, ?_, ?_, ?_, ?_⟩
        · rw [i2]; simp [PassResult.isNext]
        · intro c' s'' h
          simp only [List.getLast?_singleton, Option.some.injEq, PassResult.next.injEq] at h
          obtain ⟨h1, h2⟩ := h
          subst h1 h2
          exact ⟨rfl, by rw [i2]; exact hM⟩
        · intro c' s'' h; simp at h
        · intro s'' h; simp at h

end NewtonCap

section NewtonMinimiser

open FwdDCAFitterN

variable {N : Nat}

/-- The steps of a minimiser before its loop write no member of `cfg` and leave
the switch alone. -/
theorem loopEntry_frame (ext : External N) (abs : Bool) (s0 s' : FwdDCAFitterN N) (b : Bool)
    (h : loopEntry ext abs s0 = .ok (b, s')) : cfg s' = cfg s0 ∧ altPref s' = altPref s0 := by
  cases abs
  · simp only [loopEntry, Bool.false_eq_true, if_false] at h
    cases hp : minimizeChi2Prepare ext s0 with
    | error e => rw [hp] at h; cases h
    | ok s1 =>
      rw [hp] at h
      have c1 := cfg_minimizeChi2Prepare ext s0 s1 hp
      have a1 := altPref_minimizeChi2Prepare ext s0 s1 hp
      dsimp only at h
      split at h
      · simp only [Except.ok.injEq, Prod.mk.injEq] at h
        rw [← h.2]; exact ⟨c1, a1⟩
      · split at h
        · simp only [Except.ok.injEq, Prod.mk.injEq] at h
          rw [← h.2]
          exact ⟨by rw [cfg_FwdcalcPCACoefs, c1], by rw [altPref_FwdcalcPCACoefs, a1]⟩
        · simp only [Except.ok.injEq, Prod.mk.injEq] at h
          rw [← h.2]
          exact ⟨by rw [cfg_FwdcalcTrackResiduals, cfg_FwdcalcPCA, cfg_FwdcalcPCACoefs, c1],
            by rw [altPref_FwdcalcTrackResiduals, altPref_FwdcalcPCA, altPref_FwdcalcPCACoefs, a1]⟩
  · simp only [loopEntry, if_true] at h
    have c1 := cfg_minimizeChi2NoErrPrepare ext s0
    have a1 := altPref_minimizeChi2NoErrPrepare ext s0
    split at h
    · simp only [Except.ok.injEq, Prod.mk.injEq] at h
      rw [← h.2]; exact ⟨c1, a1⟩
    · simp only [Except.ok.injEq, Prod.mk.injEq] at h
      rw [← h.2]
      exact ⟨by rw [cfg_FwdcalcTrackResiduals, cfg_FwdcalcPCANoErr, c1],
        by rw [altPref_FwdcalcTrackResiduals, altPref_FwdcalcPCANoErr, a1]⟩

/-- Enough fuel: the result of the Newton loop does not depend on the bound. -/
theorem minimizeLoop_fuel (ext : External N) (abs : Bool) (fuel fuel' : Nat) (chi2 : ℚ)
    (s : FwdDCAFitterN N) (h : loopFuel s ≤ fuel) (h' : loopFuel s ≤ fuel') :
    minimizeLoop ext abs fuel chi2 s = minimizeLoop ext abs fuel' chi2 s := by
  cases abs
  · exact minimizeChi2Loop_fuel ext fuel fuel' chi2 s h h'
  · exact minimizeChi2NoErrLoop_fuel ext fuel fuel' chi2 s h h'

/-- What a fit leaves alone is a part of `cfg`. -/
theorem cfgFit_of_cfg {s s' : FwdDCAFitterN N} (h : cfg s' = cfg s) : cfgFit s' = cfgFit s := by
  simp only [cfg, Prod.mk.injEq] at h
  obtain ⟨⟨h1, h2, h3, h4, h5, h6, _⟩, ⟨_, g2, g3, g4, g5, _, _, _⟩, ⟨k1, k2, k3, _⟩⟩ := h
  simp only [cfgFit, h1, h2, h3, h4, h5, h6, g2, g3, g4, g5, k1, k2, k3]

/-- The members of `cfgFit`, one by one. -/
theorem cfgFit_fields {s s' : FwdDCAFitterN N} (h : cfgFit s' = cfgFit s) :
    s'.mCurHyp = s.mCurHyp ∧ s'.mMaxIter = s.mMaxIter ∧ s'.mMaxChi2 = s.mMaxChi2
    ∧ s'.mCrossIDCur = s.mCrossIDCur ∧ s'.mCrossIDAlt = s.mCrossIDAlt
    ∧ s'.mCrossings = s.mCrossings ∧ s'.mOrder = s.mOrder
    ∧ s'.mTrPropDone = s.mTrPropDone ∧ s'.mUseAbsDCA = s.mUseAbsDCA
    ∧ s'.mPropagateToPCA = s.mPropagateToPCA ∧ s'.mMaxR2 = s.mMaxR2 := by
  simp only [cfgFit, Prod.mk.injEq] at h
  obtain ⟨⟨h1, h2, h3, h4, h5, h6⟩, ⟨g2, _, _, g5⟩, ⟨k1, k2, k3⟩⟩ := h
  exact ⟨h1, g2, g5, k1, k2, h3, h2, k3, h5, h6, h4⟩

/-- The Newton loop leaves `cfgFit` alone. -/
theorem cfgFit_minimizeLoop (ext : External N) (abs : Bool) :
    ∀ (fuel : Nat) (chi2 : ℚ) (s : FwdDCAFitterN N),
      cfgFit (minimizeLoop ext abs fuel chi2 s).2 = cfgFit s := by
  intro fuel
  induction fuel with
  | zero => intro chi2 s; cases abs <;> rfl
  | succ n ih =>
    intro chi2 s
    rw [minimizeLoop_succ]
    have hp := cfgFit_of_cfg (cfg_minimizePass ext abs chi2 s)
    cases hr : minimizePass ext abs chi2 s with
    | returnFalse s' => rw [hr] at hp; exact hp
    | converged c s' => rw [hr] at hp; exact hp
    | next c s7 =>
      rw [hr] at hp
      dsimp only
      split
      · exact (ih c (incrNIters s7)).trans hp
      · exact hp

/-- The minimiser after its loop: the loop result `none` is `return false`; a
loop chi2 `c` is stored as `c * NInv` and compared with `mMaxChi2`. -/
theorem minimizeOf_of_entry (ext : External N) (abs : Bool) (s0 s3 : FwdDCAFitterN N)
    (h : loopEntry ext abs s0 = .ok (true, s3)) :
    (∀ c, (minimizeLoop ext abs (loopFuel s3) (passChi2 abs s3) s3).1 = some c →
      minimizeOf ext abs s0 = .ok (decide (c * NInv N < s0.mMaxChi2),
        { (minimizeLoop ext abs (loopFuel s3) (passChi2 abs s3) s3).2 with
          mChi2 := upd (minimizeLoop ext abs (loopFuel s3) (passChi2 abs s3) s3).2.mChi2
            s0.mCurHyp (c * NInv N) }))
    ∧ ((minimizeLoop ext abs (loopFuel s3) (passChi2 abs s3) s3).1 = none →
      minimizeOf ext abs s0
        = .ok (false, (minimizeLoop ext abs (loopFuel s3) (passChi2 abs s3) s3).2)) := by
  obtain ⟨hc, _⟩ := loopEntry_frame ext abs s0 s3 true h
  have hl := (cfgFit_minimizeLoop ext abs (loopFuel s3) (passChi2 abs s3) s3).trans
    (cfgFit_of_cfg hc)
  obtain ⟨e1, _, e3, _⟩ := cfgFit_fields hl
  rw [minimizeOf_eq, h]
  dsimp only
  generalize minimizeLoop ext abs (loopFuel s3) (passChi2 abs s3) s3 = r at e1 e3 ⊢
  obtain ⟨o, s4⟩ := r
  dsimp only at e1 e3 ⊢
  constructor
  · intro c hc'
    subst hc'
    simp [upd, e1, e3]
  · intro hn
    subst hn
    rfl

end NewtonMinimiser

section NewtonClaims

open FwdDCAFitterN

variable {N : Nat}

/-- C16: the Newton loop of the selected minimiser (`minimizeChi2NoErr` when
`abs` is true, `minimizeChi2` otherwise), entered as `process` enters it (counter
of the current slot 0) with `mMaxIter ≥ 1`, ends after at least one and at most
`mMaxIter` passes, whatever bound the recursion is given beyond `loopFuel`; the
minimiser returns, and on return `mNIters[mCurHyp]` is the number of passes that
got to the loop condition (neither `return false` nor the stop criterion), is at
most `mMaxIter`, and equals `mMaxIter` exactly when the last pass got to the
loop condition, that is when the cap ended the loop; a fit ended by the cap is
accepted exactly when its chi2 times `1/N` is below `mMaxChi2`, like any
other. -/
theorem newton_loop_iteration_cap (ext : External N) (abs : Bool) (s0 s3 : FwdDCAFitterN N)
    (hentry : loopEntry ext abs s0 = .ok (true, s3))
    (h0 : s0.mNIters s0.mCurHyp = 0) (hM : 1 ≤ s0.mMaxIter) :
    1 ≤ (newtonPasses ext abs (loopFuel s3) (passChi2 abs s3) s3).length
    ∧ ((newtonPasses ext abs (loopFuel s3) (passChi2 abs s3) s3).length : Int) ≤ s0.mMaxIter
    ∧ (∀ fuel, loopFuel s3 ≤ fuel →
        minimizeLoop ext abs fuel (passChi2 abs s3) s3
          = minimizeLoop ext abs (loopFuel s3) (passChi2 abs s3) s3)
    ∧ ∃ b s', minimizeOf ext abs s0 = .ok (b, s')
      ∧ s'.mNIters s0.mCurHyp
          = ((newtonPasses ext abs (loopFuel s3) (passChi2 abs s3) s3).countP
              PassResult.isNext : Int)
      ∧ s'.mNIters s0.mCurHyp ≤ s0.mMaxIter
      ∧ (s'.mNIters s0.mCurHyp = s0.mMaxIter ↔
          ∃ c s7, (newtonPasses ext abs (loopFuel s3) (passChi2 abs s3) s3).getLast?
            = some (.next c s7))
      ∧ (∀ c s7, (newtonPasses ext abs (loopFuel s3) (passChi2 abs s3) s3).getLast?
            = some (.next c s7) →
          b = decide (c * NInv N < s0.mMaxChi2) ∧ s'.mChi2 s0.mCurHyp = c * NInv N) := by
  obtain ⟨hc, _⟩ := loopEntry_frame ext abs s0 s3 true hentry
  obtain ⟨e1, e2, e3, _⟩ := cfg_fields hc
  have h0' : s3.mNIters s3.mCurHyp = 0 := by rw [e1, e2]; exact h0
  have hf : loopFuel s3 = s3.mMaxIter.toNat + 1 := by
    unfold loopFuel; rw [h0', sub_zero]
  have hs := newtonPasses_spec ext abs (loopFuel s3)
    (passChi2 abs s3) s3 (by rw [h0', e3]; omega) (by rw [hf, h0', sub_zero]; omega)
  rw [h0', e1, e3] at hs
  obtain ⟨a, b, c1, c2, c3, d1, d2, d3⟩ := hs
  obtain ⟨m1, m2⟩ := minimizeOf_of_entry ext abs s0 s3 hentry
  generalize htr : newtonPasses ext abs (loopFuel s3) (passChi2 abs s3) s3 = tr at *
  generalize hr : minimizeLoop ext abs (loopFuel s3) (passChi2 abs s3) s3 = r at *
  have hlen : 1 ≤ tr.length := by
    cases tr with
    | nil => exact absurd rfl a
    | cons x l => simp
  have hcount : r.2.mNIters s0.mCurHyp = (tr.countP PassResult.isNext : Int) := by
    rw [c3, zero_add]
  refine ⟨hlen, by omega, fun fuel hfuel => ?_, ?_⟩
  · rw [← hr]
    exact minimizeLoop_fuel ext abs _ _ _ _ hfuel (le_refl _)
  · obtain ⟨x, hx⟩ : ∃ x, tr.getLast? = some x := by
      cases hx : tr.getLast? with
      | none => rw [List.getLast?_eq_none_iff] at hx; exact absurd hx a
      | some x => exact ⟨x, rfl⟩
    cases x with
    | returnFalse s' =>
      obtain ⟨q1, q2⟩ := d3 s' hx
      have hn : r.1 = none := by rw [q1]
      refine ⟨false, r.2, m2 hn, hcount, le_of_lt q2, ⟨fun h => ?_, fun h => ?_⟩, fun c s7 h => ?_⟩
      · rw [h] at q2; exact absurd q2 (lt_irrefl _)
      · obtain ⟨c, s7, h⟩ := h; rw [hx] at h; cases h
      · rw [hx] at h; cases h
    | converged c s' =>
      obtain ⟨q1, q2⟩ := d2 c s' hx
      have hn : r.1 = some c := by rw [q1]
      refine ⟨_, _, m1 c hn, hcount, le_of_lt q2, ⟨fun h => ?_, fun h => ?_⟩, fun c' s7 h => ?_⟩
      · change r.2.mNIters s0.mCurHyp = _ at h
        rw [h] at q2; exact absurd q2 (lt_irrefl _)
      · obtain ⟨c', s7, h⟩ := h; rw [hx] at h; cases h
      · rw [hx] at h; cases h
    | next c s7 =>
      obtain ⟨q1, q2⟩ := d1 c s7 hx
      have hn : r.1 = some c := by rw [q1]
      refine ⟨_, _, m1 c hn, hcount, le_of_eq q2, ⟨fun _ => ⟨c, s7, hx⟩, fun _ => q2⟩,
        fun c' s7' h => ?_⟩
      rw [hx] at h
      simp only [Option.some.injEq, PassResult.next.injEq] at h
      obtain ⟨h1, _⟩ := h
      subst h1
      exact ⟨rfl, by simp [upd]⟩

set_option maxRecDepth 100000 in
/-- The minimiser enters its loop for `newtonSeedState` with `newtonEntryState`. -/
theorem newtonEntryState_entry :
    loopEntry (linearExt 2) true newtonSeedState = .ok (true, newtonEntryState) := by
  simp only [loopEntry, if_true]
  rw [if_neg (by decide!)]
  rfl

set_option maxRecDepth 100000 in
/-- Witness of C16 on the absolute-distance fit of `newtonSeedState` (default
`mMaxIter = 20`): the loop makes one pass. -/
theorem newton_loop_iteration_cap_witness :
    loopEntry (linearExt 2) true newtonSeedState = .ok (true, newtonEntryState)
    ∧ newtonSeedState.mNIters newtonSeedState.mCurHyp = 0
    ∧ (1 : Int) ≤ newtonSeedState.mMaxIter
    ∧ 1 ≤ (newtonPasses (linearExt 2) true (loopFuel newtonEntryState)
        (passChi2 true newtonEntryState) newtonEntryState).length
    ∧ ((newtonPasses (linearExt 2) true (loopFuel newtonEntryState)
        (passChi2 true newtonEntryState) newtonEntryState).length : Int)
        ≤ newtonSeedState.mMaxIter :=
  have h := newton_loop_iteration_cap (linearExt 2) true newtonSeedState newtonEntryState
    newtonEntryState_entry (by decide!) (by decide!)
  ⟨newtonEntryState_entry, by decide!, by decide!, h.1, h.2.1⟩

end NewtonClaims

/-! ### Acceptance, and the preference for the alternative seed -/

section AltSeed

open FwdDCAFitterN

variable {N : Nat}

/-- The body of the crossing loop for a seed within the radius: seed the slot,
run the selected minimiser, and go on with its result. -/
theorem processCrossing_eq (ext : External N) (ic : Nat) (s : FwdDCAFitterN N)
    (hr : s.mCrossings.xDCA ic * s.mCrossings.xDCA ic
      + s.mCrossings.yDCA ic * s.mCrossings.yDCA ic ≤ s.mMaxR2) :
    processCrossing ext ic s =
      match minimizeOf ext s.mUseAbsDCA (seedCrossing ext ic s) with
      | .ok r => .ok (acceptCrossing ext r)
      | .error e => .error e := by
  have hu : (seedCrossing ext ic s).mUseAbsDCA = s.mUseAbsDCA := rfl
  unfold processCrossing minimizeOf
  rw [if_neg (not_lt.mpr hr)]
  dsimp only
  rw [hu]
  cases s.mUseAbsDCA <;> rfl

/-- The test for the alternative seed fails when there is no alternative seed. -/
theorem prefersAlternative_of_neg (s : FwdDCAFitterN N) (h : s.mCrossIDAlt < 0) :
    prefersAlternative s = false := by
  unfold prefersAlternative
  rw [decide_eq_false (not_le.mpr h)]
  rfl

/-- The switch after a pass: off when the pass is abandoned for the alternative
seed, untouched otherwise. -/
theorem altPref_minimizePass (ext : External N) (abs : Bool) (chi2 : ℚ) (s : FwdDCAFitterN N) :
    altPref (minimizePass ext abs chi2 s).state = altPref s
    ∨ (altPref (minimizePass ext abs chi2 s).state = false
      ∧ (minimizePass ext abs chi2 s).chi2 = none ∧ 0 ≤ s.mCrossIDAlt) := by
  cases hs : newtonStep (passDerivatives ext abs s) with
  | none =>
    rw [minimizePass_of_step_none ext abs chi2 s hs]
    exact Or.inl (altPref_passDerivatives ext abs s)
  | some p =>
    obtain ⟨dz, s5⟩ := p
    rw [minimizePass_of_step_some ext abs chi2 s s5 dz hs]
    obtain ⟨c1, _, a1, a2⟩ := cfg_passVertex ext abs s s5 dz hs
    obtain ⟨_, _, _, _, _, _, _, k2, _⟩ := cfg_fields c1
    cases hp : prefersAlternative (passPCA ext abs s5) with
    | true =>
      rw [if_pos rfl]
      refine Or.inr ⟨rfl, rfl, ?_⟩
      by_contra hneg
      have := prefersAlternative_of_neg (passPCA ext abs s5) (by rw [k2]; exact not_le.mp hneg)
      rw [hp] at this
      exact Bool.noConfusion this
    | false =>
      simp only [Bool.false_eq_true, if_false]
      split
      · exact Or.inl a2
      · exact Or.inl a2

/-- The switch after the Newton loop: off when the loop was abandoned for the
alternative seed (the loop then returns false), untouched otherwise. -/
theorem altPref_minimizeLoop (ext : External N) (abs : Bool) :
    ∀ (fuel : Nat) (chi2 : ℚ) (s : FwdDCAFitterN N),
      altPref (minimizeLoop ext abs fuel chi2 s).2 = altPref s
      ∨ (altPref (minimizeLoop ext abs fuel chi2 s).2 = false
        ∧ (minimizeLoop ext abs fuel chi2 s).1 = none ∧ 0 ≤ s.mCrossIDAlt) := by
  intro fuel
  induction fuel with
  | zero => intro chi2 s; left; cases abs <;> rfl
  | succ n ih =>
    intro chi2 s
    have hp := altPref_minimizePass ext abs chi2 s
    have hc := cfg_minimizePass ext abs chi2 s
    rw [minimizeLoop_succ]
    cases hr : minimizePass ext abs chi2 s with
    | returnFalse s' =>
      rw [hr] at hp
      rcases hp with hp | ⟨h1, _, h3⟩
      · exact Or.inl hp
      · exact Or.inr ⟨h1, rfl, h3⟩
    | converged c s' =>
      rw [hr] at hp
      rcases hp with hp | ⟨_, h2, _⟩
      · exact Or.inl hp
      · cases h2
    | next c s7 =>
      rw [hr] at hp hc
      have hp7 : altPref s7 = altPref s := by
        rcases hp with hp | ⟨_, h2, _⟩
        · exact hp
        · cases h2
      have hk : (incrNIters s7).mCrossIDAlt = s.mCrossIDAlt := (cfg_fields hc).2.2.2.2.2.2.2.1
      dsimp only
      split
      · rcases ih c (incrNIters s7) with h | ⟨h1, h2, h3⟩
        · exact Or.inl (h.trans hp7)
        · exact Or.inr ⟨h1, h2, by rw [← hk]; exact h3⟩
      · exact Or.inl hp7

/-- The switch after a minimiser: off when the fit was abandoned for the
alternative seed (the minimiser then returns false), untouched otherwise. -/
theorem altPref_minimizeOf (ext : External N) (abs : Bool) (s0 s' : FwdDCAFitterN N) (b : Bool)
    (h : minimizeOf ext abs s0 = .ok (b, s')) :
    altPref s' = altPref s0 ∨ (altPref s' = false ∧ b = false ∧ 0 ≤ s0.mCrossIDAlt) := by
  rw [minimizeOf_eq] at h
  cases he : loopEntry ext abs s0 with
  | error e => rw [he] at h; cases h
  | ok p =>
    obtain ⟨b0, s3⟩ := p
    obtain ⟨c3, a3⟩ := loopEntry_frame ext abs s0 s3 b0 he
    rw [he] at h
    cases b0 with
    | false =>
      simp only [Except.ok.injEq, Prod.mk.injEq] at h
      rw [← h.2]
      exact Or.inl a3
    | true =>
      dsimp only at h
      have hl := altPref_minimizeLoop ext abs (loopFuel s3) (passChi2 abs s3) s3
      have hk : s3.mCrossIDAlt = s0.mCrossIDAlt := (cfg_fields c3).2.2.2.2.2.2.2.1
      generalize minimizeLoop ext abs (loopFuel s3) (passChi2 abs s3) s3 = r at h hl
      obtain ⟨o, s4⟩ := r
      cases o with
      | none =>
        simp only [Except.ok.injEq, Prod.mk.injEq] at h
        obtain ⟨hb, hs⟩ := h
        rw [← hs, ← hb]
        rcases hl with hl | ⟨h1, _, h3⟩
        · exact Or.inl (hl.trans a3)
        · exact Or.inr ⟨h1, rfl, by rw [← hk]; exact h3⟩
      | some c =>
        simp only [Except.ok.injEq, Prod.mk.injEq] at h
        obtain ⟨_, hs⟩ := h
        rw [← hs]
        rcases hl with hl | ⟨_, h2, _⟩
        · exact Or.inl (hl.trans a3)
        · cases h2

/-- The seed preparation of the crossing loop leaves the switch alone and offers
the other seed as alternative only when there are two seeds and the switch is
on. -/
theorem seedCrossing_alt (ext : External N) (ic : Nat) (s : FwdDCAFitterN N) :
    altPref (seedCrossing ext ic s) = altPref s
    ∧ (seedCrossing ext ic s).mCrossIDAlt
        = (if s.mCrossings.nDCA = 2 ∧ s.mAllowAltPreference = true then 1 - (ic : Int) else -1)
    ∧ (seedCrossing ext ic s).mCrossIDCur = ic
    ∧ (seedCrossing ext ic s).mCurHyp = s.mCurHyp
    ∧ (seedCrossing ext ic s).mMaxChi2 = s.mMaxChi2
    ∧ (seedCrossing ext ic s).mNIters s.mCurHyp = 0
    ∧ (seedCrossing ext ic s).mMaxIter = s.mMaxIter :=
  ⟨rfl, rfl, rfl, rfl, rfl, by simp [seedCrossing, findZatXY, upd], rfl⟩

/-- The switch after the treatment of one seed by the crossing loop: it goes
off only by an abandoned fit, which leaves the live-slot count alone, and
never goes on. -/
theorem altPref_processCrossing (ext : External N) (ic : Nat) (s s' : FwdDCAFitterN N)
    (h : processCrossing ext ic s = .ok s') :
    altPref s' = altPref s
    ∨ (altPref s = true ∧ altPref s' = false ∧ s'.mCurHyp = s.mCurHyp
      ∧ s.mCrossings.nDCA = 2) := by
  by_cases hr : s.mCrossings.xDCA ic * s.mCrossings.xDCA ic
      + s.mCrossings.yDCA ic * s.mCrossings.yDCA ic ≤ s.mMaxR2
  · rw [processCrossing_eq ext ic s hr] at h
    cases hm : minimizeOf ext s.mUseAbsDCA (seedCrossing ext ic s) with
    | error e => rw [hm] at h; cases h
    | ok r =>
      obtain ⟨b, s1⟩ := r
      rw [hm] at h
      simp only [Except.ok.injEq] at h
      obtain ⟨sa, sb, _, sd, _⟩ := seedCrossing_alt ext ic s
      rcases altPref_minimizeOf ext _ _ _ _ hm with h1 | ⟨h1, h2, h3⟩
      · left
        rw [← h]
        cases b with
        | false => rw [acceptCrossing_false ext _ rfl]; exact h1.trans sa
        | true =>
          refine Eq.trans ?_ (h1.trans sa)
          unfold acceptCrossing
          dsimp only
          rw [if_pos rfl]
          split
          · have hp := altPref_FwdpropagateTracksToVertex ext s1.mCurHyp
              ({ s1 with mOrder := upd s1.mOrder s1.mCurHyp s1.mCurHyp } : FwdDCAFitterN N)
            split
            · exact hp
            · exact hp
          · rfl
      · right
        subst h2
        rw [acceptCrossing_false ext _ rfl] at h
        subst h
        rw [sb] at h3
        have hcond : s.mCrossings.nDCA = 2 ∧ s.mAllowAltPreference = true := by
          by_contra hne
          rw [if_neg hne] at h3
          omega
        have hcur : s1.mCurHyp = s.mCurHyp := by
          have hf := minimizeOf_eq ext s.mUseAbsDCA (seedCrossing ext ic s)
          rw [hm] at hf
          cases he : loopEntry ext s.mUseAbsDCA (seedCrossing ext ic s) with
          | error e => rw [he] at hf; cases hf
          | ok p =>
            obtain ⟨b0, s3⟩ := p
            obtain ⟨c3, _⟩ := loopEntry_frame ext _ _ s3 b0 he
            rw [he] at hf
            cases b0 with
            | false =>
              simp only [Except.ok.injEq, Prod.mk.injEq] at hf
              rw [hf.2]
              exact ((cfg_fields c3).1).trans sd
            | true =>
              dsimp only at hf
              have hl := cfgFit_minimizeLoop ext s.mUseAbsDCA (loopFuel s3)
                (passChi2 s.mUseAbsDCA s3) s3
              generalize minimizeLoop ext s.mUseAbsDCA (loopFuel s3)
                (passChi2 s.mUseAbsDCA s3) s3 = r at hf hl
              obtain ⟨o, s4⟩ := r
              cases o with
              | none =>
                simp only [Except.ok.injEq, Prod.mk.injEq] at hf
                rw [hf.2]
                exact ((cfgFit_fields hl).1).trans (((cfg_fields c3).1).trans sd)
              | some c =>
                simp only [Except.ok.injEq, Prod.mk.injEq] at hf
                rw [hf.2]
                exact ((cfgFit_fields hl).1).trans (((cfg_fields c3).1).trans sd)
        exact ⟨hcond.2, h1, hcur, hcond.1⟩
  · left
    unfold processCrossing at h
    rw [if_pos (not_le.mp hr)] at h
    simp only [Except.ok.injEq] at h
    rw [h]

/-- Once the switch is off, the crossing loop counts no further abandonment and
leaves the switch off. -/
theorem nAltAbandoned_off (ext : External N) :
    ∀ (fuel ic : Nat) (s : FwdDCAFitterN N), s.mAllowAltPreference = false →
      nAltAbandoned ext fuel ic s = 0
      ∧ ∀ s', crossingLoop ext fuel ic s = .ok s' → s'.mAllowAltPreference = false := by
  intro fuel
  induction fuel with
  | zero =>
    intro ic s h
    refine ⟨rfl, fun s' hs' => ?_⟩
    simp only [crossingLoop, Except.ok.injEq] at hs'
    rw [← hs']; exact h
  | succ n ih =>
    intro ic s h
    rw [nAltAbandoned, crossingLoop]
    split
    · cases hp : processCrossing ext ic s with
      | error e => exact ⟨rfl, fun s' hs' => by cases hs'⟩
      | ok s1 =>
        have h1 : s1.mAllowAltPreference = false := by
          rcases altPref_processCrossing ext ic s s1 hp with q | ⟨q, _⟩
          · exact q.trans h
          · rw [show altPref s = s.mAllowAltPreference from rfl, h] at q
            exact Bool.noConfusion q
        obtain ⟨i1, i2⟩ := ih (ic + 1) s1 h1
        dsimp only
        rw [h, i1]
        exact ⟨rfl, i2⟩
    · refine ⟨rfl, fun s' hs' => ?_⟩
      simp only [Except.ok.injEq] at hs'
      rw [← hs']; exact h

/-- The crossing loop counts at most one abandonment. -/
theorem nAltAbandoned_le_one (ext : External N) :
    ∀ (fuel ic : Nat) (s : FwdDCAFitterN N), nAltAbandoned ext fuel ic s ≤ 1 := by
  intro fuel
  induction fuel with
  | zero => intro ic s; exact Nat.zero_le _
  | succ n ih =>
    intro ic s
    rw [nAltAbandoned]
    split
    · cases hp : processCrossing ext ic s with
      | error e => exact Nat.zero_le _
      | ok s1 =>
        dsimp only
        cases h1 : s1.mAllowAltPreference with
        | false =>
          rw [(nAltAbandoned_off ext n (ic + 1) s1 h1).1]
          split <;> omega
        | true =>
          have := ih (ic + 1) s1
          simp only [Bool.not_true, Bool.and_false, Bool.false_eq_true, if_false, zero_add]
          exact this
    · exact Nat.zero_le _

end AltSeed

section AltSeedClaims

open FwdDCAFitterN

variable {N : Nat}

/-- C17: when the Newton loop of the fit of the seed `ic` (within the radius)
finishes with the chi2 `c`, the minimiser stores `c * NInv` (`NInv = 1/N`) as
the chi2 of the current slot and returns true exactly when this value is
strictly below `mMaxChi2`; `process` then advances the live-slot count by one
and `getChi2AtPCACandidate` reports the stored value for the new slot; a
candidate at or above the ceiling is rejected and `process` does not advance the
live-slot count. -/
theorem minimizer_quality_rejection (ext : External N) (ic : Nat) (s s3 : FwdDCAFitterN N) (c : ℚ)
    (hr : s.mCrossings.xDCA ic * s.mCrossings.xDCA ic
      + s.mCrossings.yDCA ic * s.mCrossings.yDCA ic ≤ s.mMaxR2)
    (hentry : loopEntry ext s.mUseAbsDCA (seedCrossing ext ic s) = .ok (true, s3))
    (hloop : (minimizeLoop ext s.mUseAbsDCA (loopFuel s3) (passChi2 s.mUseAbsDCA s3) s3).1
      = some c) :
    ∃ s', minimizeOf ext s.mUseAbsDCA (seedCrossing ext ic s)
        = .ok (decide (c * NInv N < s.mMaxChi2), s')
      ∧ s'.mChi2 s.mCurHyp = c * NInv N
      ∧ ∃ s'', processCrossing ext ic s = .ok s''
        ∧ (c * NInv N < s.mMaxChi2 →
            s''.mCurHyp = s.mCurHyp + 1 ∧ getChi2AtPCACandidate s'' s.mCurHyp = c * NInv N)
        ∧ (s.mMaxChi2 ≤ c * NInv N → s''.mCurHyp = s.mCurHyp) := by
  obtain ⟨_, _, _, sd, se, _⟩ := seedCrossing_alt ext ic s
  have hm := (minimizeOf_of_entry ext s.mUseAbsDCA (seedCrossing ext ic s) s3 hentry).1 c hloop
  rw [sd, se] at hm
  obtain ⟨hc, _⟩ := loopEntry_frame ext _ _ s3 true hentry
  have hl := cfgFit_minimizeLoop ext s.mUseAbsDCA (loopFuel s3) (passChi2 s.mUseAbsDCA s3) s3
  have hcur : (minimizeLoop ext s.mUseAbsDCA (loopFuel s3) (passChi2 s.mUseAbsDCA s3) s3).2.mCurHyp
      = s.mCurHyp := ((cfgFit_fields hl).1).trans (((cfg_fields hc).1).trans sd)
  generalize (minimizeLoop ext s.mUseAbsDCA (loopFuel s3) (passChi2 s.mUseAbsDCA s3) s3).2 = s4
    at hm hcur
  refine ⟨_, hm, by simp [upd], ?_⟩
  rw [processCrossing_eq ext ic s hr, hm]
  refine ⟨_, rfl, fun hlt => ?_, fun hge => ?_⟩
  · rw [decide_eq_true hlt]
    obtain ⟨a1, a2, _, _, _, _, a7⟩ := acceptCrossing_true ext
      (true, ({ s4 with mChi2 := upd s4.mChi2 s.mCurHyp (c * NInv N) } : FwdDCAFitterN N)) rfl
    dsimp only at a1 a2 a7
    refine ⟨by rw [a1, hcur], ?_⟩
    unfold getChi2AtPCACandidate
    rw [a2, a7, hcur]
    simp [upd]
  · rw [decide_eq_false (not_lt.mpr hge), acceptCrossing_false ext _ rfl]
    exact hcur

set_option maxRecDepth 100000 in
/-- Witness of C17 on the seed 0 of `twoSeedFitter` with `twoSeedTracks`: the loop
ends with the chi2 `81/8`, the stored chi2 `81/16` is below the default ceiling
100 and the live-slot count goes from 0 to 1. -/
theorem minimizer_quality_rejection_witness :
    ∃ s'', processCrossing (linearExt 2) 0 newtonProcessState = .ok s''
      ∧ s''.mCurHyp = newtonProcessState.mCurHyp + 1
      ∧ getChi2AtPCACandidate s'' newtonProcessState.mCurHyp = 81 / 8 * NInv 2 :=
  have hu : newtonProcessState.mUseAbsDCA = true := by decide!
  have hentry : loopEntry (linearExt 2) newtonProcessState.mUseAbsDCA
      (seedCrossing (linearExt 2) 0 newtonProcessState) = .ok (true, newtonEntryState) := by
    rw [hu]; exact newtonEntryState_entry
  have hloop : (minimizeLoop (linearExt 2) newtonProcessState.mUseAbsDCA
      (loopFuel newtonEntryState) (passChi2 newtonProcessState.mUseAbsDCA newtonEntryState)
      newtonEntryState).1 = some (81 / 8) := by decide!
  have h := minimizer_quality_rejection (linearExt 2) 0 newtonProcessState newtonEntryState
    (81 / 8) (by decide!) hentry hloop
  match h with
  | ⟨_, _, _, s'', h1, h2, _⟩ => ⟨s'', h1, (h2 (by decide!)).1, (h2 (by decide!)).2⟩

/-- C18: after the vertex update of a pass of the Newton loop, with an
alternative seed (`mCrossIDAlt ≥ 0`), the candidate is abandoned (the pass and
with it the loop return false, and `mAllowAltPreference` is switched off)
exactly when the squared planar distance of the updated vertex to the
alternative seed is strictly smaller than its squared planar distance to the
seed being fitted; at equal distances, or without alternative seed
(`mCrossIDAlt < 0`), the pass goes on to the convergence test and leaves the
switch alone. The alternative seed offered by `process` is the other one of two
seeds (`1 - ic`) while the switch is on, and none (`-1`) otherwise. -/
theorem alternate_seed_abandonment (ext : External N) (abs : Bool) (chi2 : ℚ)
    (s s5 : FwdDCAFitterN N) (dz : Nat → ℚ)
    (hstep : newtonStep (passDerivatives ext abs s) = some (dz, s5)) :
    (closerToAlternative (passPCA ext abs s5) = true ↔
      ((passPCA ext abs s5).mPCA s.mCurHyp 0 - s.mCrossings.xDCA s.mCrossIDAlt.toNat) ^ 2
        + ((passPCA ext abs s5).mPCA s.mCurHyp 1 - s.mCrossings.yDCA s.mCrossIDAlt.toNat) ^ 2
      < ((passPCA ext abs s5).mPCA s.mCurHyp 0 - s.mCrossings.xDCA s.mCrossIDCur) ^ 2
        + ((passPCA ext abs s5).mPCA s.mCurHyp 1 - s.mCrossings.yDCA s.mCrossIDCur) ^ 2)
    ∧ ((0 ≤ s.mCrossIDAlt ∧ closerToAlternative (passPCA ext abs s5) = true) →
        minimizePass ext abs chi2 s
          = .returnFalse { passPCA ext abs s5 with mAllowAltPreference := false }
        ∧ ∀ fuel, minimizeLoop ext abs (fuel + 1) chi2 s
          = (none, { passPCA ext abs s5 with mAllowAltPreference := false }))
    ∧ (¬ (0 ≤ s.mCrossIDAlt ∧ closerToAlternative (passPCA ext abs s5) = true) →
        (minimizePass ext abs chi2 s).chi2
          = some (passChi2 abs (FwdcalcTrackResiduals (passPCA ext abs s5)))
        ∧ (minimizePass ext abs chi2 s).state.mAllowAltPreference = s.mAllowAltPreference)
    ∧ (∀ (ic : Nat) (t : FwdDCAFitterN N), (seedCrossing ext ic t).mCrossIDAlt
        = (if t.mCrossings.nDCA = 2 ∧ t.mAllowAltPreference = true then 1 - (ic : Int) else -1)) := by
  obtain ⟨c1, _, _, a2⟩ := cfg_passVertex ext abs s s5 dz hstep
  obtain ⟨e1, _, _, _, _, _, k1, k2, k3, _⟩ := cfg_fields c1
  have hp := minimizePass_of_step_some ext abs chi2 s s5 dz hstep
  have hpa : prefersAlternative (passPCA ext abs s5)
      = (decide (0 ≤ s.mCrossIDAlt) && closerToAlternative (passPCA ext abs s5)) := by
    unfold prefersAlternative
    rw [k2]
  refine ⟨?_, fun h => ?_, fun h => ?_, fun ic t => (seedCrossing_alt ext ic t).2.1⟩
  · unfold closerToAlternative
    rw [e1, k1, k2, k3]
    simp only [decide_eq_true_eq, gt_iff_lt, pow_two]
  · have : prefersAlternative (passPCA ext abs s5) = true := by
      rw [hpa, decide_eq_true h.1, h.2]; rfl
    rw [this, if_pos rfl] at hp
    refine ⟨hp, fun fuel => ?_⟩
    rw [minimizeLoop_succ, hp]
  · have : prefersAlternative (passPCA ext abs s5) = false := by
      rw [hpa]
      by_cases h0 : 0 ≤ s.mCrossIDAlt
      · have hc : closerToAlternative (passPCA ext abs s5) = false := by
          cases hx : closerToAlternative (passPCA ext abs s5) with
          | false => rfl
          | true => exact absurd ⟨h0, hx⟩ h
        rw [hc]; simp
      · rw [decide_eq_false h0]; rfl
    rw [this] at hp
    simp only [Bool.false_eq_true, if_false] at hp
    rw [hp]
    split
    · exact ⟨rfl, a2⟩
    · exact ⟨rfl, a2⟩

set_option maxRecDepth 100000 in
/-- Witness of C18 on the first pass of the fit of `newtonEntryState` (seed
`(0, -5)`, alternative seed `(0, 5)`): the updated vertex `(0, -5/4)` is not
closer to the alternative seed, and the pass goes on with the chi2 `81/8`. -/
theorem alternate_seed_abandonment_witness :
    ∃ (dz : Nat → ℚ) (s5 : FwdDCAFitterN 2),
      newtonStep (passDerivatives (linearExt 2) true newtonEntryState) = some (dz, s5)
      ∧ closerToAlternative (passPCA (linearExt 2) true s5) = false
      ∧ (minimizePass (linearExt 2) true (49 / 2) newtonEntryState).chi2
          = some (passChi2 true (FwdcalcTrackResiduals (passPCA (linearExt 2) true s5))) :=
  have hstep : newtonStep (passDerivatives (linearExt 2) true newtonEntryState)
      = some ((newtonStep (passDerivatives (linearExt 2) true newtonEntryState)).get
          newtonEntryState_step) := (Option.some_get newtonEntryState_step).symm
  have hc : closerToAlternative (passPCA (linearExt 2) true
      ((newtonStep (passDerivatives (linearExt 2) true newtonEntryState)).get
        newtonEntryState_step).2) = false := by decide!
  ⟨_, _, hstep, hc,
    ((alternate_seed_abandonment (linearExt 2) true (49 / 2) newtonEntryState _ _ hstep).2.2.1
      (fun h => Bool.noConfusion (hc.symm.trans h.2))).1⟩

/-- C19: once a pass has abandoned a candidate for the alternative seed,
`mAllowAltPreference` is false; with the switch off every later seed of the same
`process` call is prepared with `mCrossIDAlt = -1`, no pass of a fit with
`mCrossIDAlt = -1` is abandoned for the alternative seed, and the switch stays
off for the rest of the crossing loop; the switch goes off during the treatment
of a seed only by such an abandonment, which rejects the candidate; so the
crossing loop of one `process` call abandons at most one candidate by
alternative preference (`nAltAbandoned` counts the seeds at which the switch
goes off). -/
theorem alt_preference_no_oscillation (ext : External N) :
    (∀ (abs : Bool) (chi2 : ℚ) (s s5 : FwdDCAFitterN N) (dz : Nat → ℚ),
      newtonStep (passDerivatives ext abs s) = some (dz, s5) →
      prefersAlternative (passPCA ext abs s5) = true →
      (minimizePass ext abs chi2 s).state.mAllowAltPreference = false
      ∧ (minimizePass ext abs chi2 s).chi2 = none)
    ∧ (∀ (ic : Nat) (s : FwdDCAFitterN N), s.mAllowAltPreference = false →
      (seedCrossing ext ic s).mCrossIDAlt = -1
      ∧ (seedCrossing ext ic s).mAllowAltPreference = false)
    ∧ (∀ (abs : Bool) (chi2 : ℚ) (s : FwdDCAFitterN N), s.mCrossIDAlt = -1 →
      (minimizePass ext abs chi2 s).state.mAllowAltPreference = s.mAllowAltPreference
      ∧ ∀ (dz : Nat → ℚ) (s5 : FwdDCAFitterN N),
        newtonStep (passDerivatives ext abs s) = some (dz, s5) →
        prefersAlternative (passPCA ext abs s5) = false)
    ∧ (∀ (ic : Nat) (s s' : FwdDCAFitterN N), processCrossing ext ic s = .ok s' →
      (s.mAllowAltPreference = false → s'.mAllowAltPreference = false)
      ∧ (s.mAllowAltPreference = true → s'.mAllowAltPreference = false →
          s'.mCurHyp = s.mCurHyp ∧ s.mCrossings.nDCA = 2))
    ∧ (∀ (fuel ic : Nat) (s s' : FwdDCAFitterN N), crossingLoop ext fuel ic s = .ok s' →
      s.mAllowAltPreference = false → s'.mAllowAltPreference = false)
    ∧ (∀ (fuel ic : Nat) (s : FwdDCAFitterN N), nAltAbandoned ext fuel ic s ≤ 1) := by
  refine ⟨fun abs chi2 s s5 dz hstep hp => ?_, fun ic s h => ?_, fun abs chi2 s h => ?_,
    fun ic s s' h => ?_, fun fuel ic s s' h hs => (nAltAbandoned_off ext fuel ic s hs).2 s' h,
    nAltAbandoned_le_one ext⟩
  · rw [minimizePass_of_step_some ext abs chi2 s s5 dz hstep, hp, if_pos rfl]
    exact ⟨rfl, rfl⟩
  · obtain ⟨a, b, _⟩ := seedCrossing_alt ext ic s
    refine ⟨?_, a.trans h⟩
    rw [b, if_neg (fun hc => by rw [h] at hc; exact Bool.noConfusion hc.2)]
  · constructor
    · rcases altPref_minimizePass ext abs chi2 s with q | ⟨_, _, q⟩
      · exact q
      · rw [h] at q; omega
    · intro dz s5 hstep
      obtain ⟨c1, _⟩ := cfg_passVertex ext abs s s5 dz hstep
      exact prefersAlternative_of_neg _ (by rw [(cfg_fields c1).2.2.2.2.2.2.2.1, h]; omega)
  · rcases altPref_processCrossing ext ic s s' h with q | ⟨q1, q2, q3, q4⟩
    · refine ⟨fun hs => q.trans hs, fun h1 h2 => ?_⟩
      have : s'.mAllowAltPreference = s.mAllowAltPreference := q
      rw [h1, h2] at this
      exact Bool.noConfusion this
    · refine ⟨fun hs => ?_, fun _ _ => ⟨q3, q4⟩⟩
      have : s.mAllowAltPreference = true := q1
      rw [hs] at this
      exact Bool.noConfusion this

set_option maxRecDepth 100000 in
/-- Witness of C19 on `altSeedFitter` with `twoSeedTracks` (seeds `(0, 1)` and
`(0, 3)`): the fit of the first seed is accepted, the fit of the second one is
abandoned for the first seed, and the crossing loop counts this one
abandonment. -/
theorem alt_preference_no_oscillation_witness :
    nAltAbandoned (linearExt 2) 2 0 altSeedProcessState = 1
    ∧ nAltAbandoned (linearExt 2) 2 0 altSeedProcessState ≤ 1
    ∧ processOutcome (process (linearExt 2) twoSeedTracks altSeedFitter)
        = some (1, 0, 0, 9 / 16, 9 / 16) :=
  ⟨by decide!, (alt_preference_no_oscillation (linearExt 2)).2.2.2.2.2 2 0 altSeedProcessState,
    by decide!⟩

end AltSeedClaims

/-! ### Setters -/

/-- C28: for every integer `n`, after `setMaxIter(n)` `getMaxIter()` returns
`max(n, 2)`, so the stored cap is never below 2; the default-constructed value
is 20. -/
theorem setMaxIter_floor {N : Nat} (s : FwdDCAFitterN N) (n : Int) :
    FwdDCAFitterN.getMaxIter (FwdDCAFitterN.setMaxIter s n) = max n 2
    ∧ 2 ≤ FwdDCAFitterN.getMaxIter (FwdDCAFitterN.setMaxIter s n)
    ∧ FwdDCAFitterN.getMaxIter (defaultFitter N) = 20 := by
  refine ⟨?_, ?_, rfl⟩
  · show (if n > 2 then n else 2) = max n 2
    split
    · exact (max_eq_left (le_of_lt ‹_›)).symm
    · exact (max_eq_right (not_lt.mp ‹_›)).symm
  · show 2 ≤ (if n > 2 then n else 2)
    split
    · exact le_of_lt ‹_›
    · exact le_refl _

/-- The source's `getAbsMax(v)` of a zero vector is not positive. -/
theorem getAbsMax_zero (N : Nat) (v : Nat → ℚ) (h : ∀ i < N, v i = 0) :
    FwdDCAFitterN.getAbsMax N v ≤ 0 := by
  unfold FwdDCAFitterN.getAbsMax
  refine forDown_invariant_lt (fun mx : ℚ => mx ≤ 0) _ N (-1) (fun i mx hi hmx => ?_) (by norm_num)
  dsimp only
  rw [h i hi, abs_zero]
  split
  · exact le_refl _
  · exact hmx

section SetterClaims

open FwdDCAFitterN

variable {N : Nat}

/-- C29: for every `x`, after `setMinParamChange(x)` `getMinParamChange()` returns
`x` if `x > 1e-4` and `1e-4` otherwise; this value and the default `1e-3` are
strictly positive, so `getAbsMax(dz)` of a zero correction is below the
threshold, and a Newton pass whose correction vector is zero (and which is not
abandoned for the alternative seed) always ends as converged, whatever the
chi2. -/
theorem setMinParamChange_floor (s : FwdDCAFitterN N) (x : ℚ) :
    getMinParamChange (setMinParamChange s x) = (if x > 1 / 10000 then x else 1 / 10000)
    ∧ 0 < getMinParamChange (setMinParamChange s x)
    ∧ getMinParamChange (defaultFitter N) = 1 / 1000
    ∧ (∀ dz : Nat → ℚ, (∀ i < N, dz i = 0) →
        getAbsMax N dz < getMinParamChange (setMinParamChange s x)
        ∧ getAbsMax N dz < getMinParamChange (defaultFitter N))
    ∧ (∀ (ext : External N) (abs : Bool) (chi2 : ℚ) (t s5 : FwdDCAFitterN N) (dz : Nat → ℚ),
        0 < t.mMinParamChange →
        newtonStep (passDerivatives ext abs t) = some (dz, s5) →
        (∀ i < N, dz i = 0) →
        prefersAlternative (passPCA ext abs s5) = false →
        minimizePass ext abs chi2 t
          = .converged (passChi2 abs (FwdcalcTrackResiduals (passPCA ext abs s5)))
              (FwdcalcTrackResiduals (passPCA ext abs s5))) := by
  have hpos : 0 < getMinParamChange (setMinParamChange s x) := by
    show (0 : ℚ) < (if x > 1 / 10000 then x else 1 / 10000)
    split
    · exact lt_trans (by norm_num) ‹x > 1 / 10000›
    · norm_num
  refine ⟨rfl, hpos, rfl, fun dz hdz => ?_, fun ext abs chi2 t s5 dz ht hstep hdz halt => ?_⟩
  · have h0 := getAbsMax_zero N dz hdz
    refine ⟨lt_of_le_of_lt h0 hpos, lt_of_le_of_lt h0 ?_⟩
    show (0 : ℚ) < 1 / 1000
    norm_num
  · have hp := minimizePass_of_step_some ext abs chi2 t s5 dz hstep
    obtain ⟨_, hc, _, _⟩ := cfg_passVertex ext abs t s5 dz hstep
    obtain ⟨_, _, _, h4, _⟩ := cfg_fields hc
    rw [halt, h4] at hp
    simp only [Bool.false_eq_true, if_false] at hp
    rw [if_pos (Or.inl (lt_of_le_of_lt (getAbsMax_zero N dz hdz) ht))] at hp
    exact hp

/-- C30, as the code has it: after `setMinRelChi2Change(r)` the stored ratio is
`r` when `r > 0.1` and 999 otherwise; with the stored ratio 999 a pass that is
not stopped by the parameter-change test goes on exactly when the updated chi2
is at most 999 times the previous one; in particular the test does not stop the
iteration when the previous chi2 is not negative and the updated chi2 is not
larger than it. -/
theorem setMinRelChi2Change_ratio (s : FwdDCAFitterN N) (r : ℚ) :
    (setMinRelChi2Change s r).mMinRelChi2Change = (if r > 1 / 10 then r else 999)
    ∧ (∀ (ext : External N) (abs : Bool) (chi2 : ℚ) (t s5 : FwdDCAFitterN N) (dz : Nat → ℚ),
        t.mMinRelChi2Change = 999 →
        newtonStep (passDerivatives ext abs t) = some (dz, s5) →
        prefersAlternative (passPCA ext abs s5) = false →
        ¬ getAbsMax N dz < t.mMinParamChange →
        (minimizePass ext abs chi2 t
            = .next (passChi2 abs (FwdcalcTrackResiduals (passPCA ext abs s5)))
                (FwdcalcTrackResiduals (passPCA ext abs s5))
          ↔ passChi2 abs (FwdcalcTrackResiduals (passPCA ext abs s5)) ≤ chi2 * 999))
    ∧ (∀ chi2 chi2Upd : ℚ, 0 ≤ chi2 → chi2Upd ≤ chi2 → ¬ chi2Upd > chi2 * 999) := by
  refine ⟨rfl, fun ext abs chi2 t s5 dz hr hstep halt hdz => ?_, fun chi2 chi2Upd h0 h1 => ?_⟩
  · have hp := minimizePass_of_step_some ext abs chi2 t s5 dz hstep
    obtain ⟨_, hc, _, _⟩ := cfg_passVertex ext abs t s5 dz hstep
    obtain ⟨_, _, _, h4, h5, _⟩ := cfg_fields hc
    rw [halt, h4, h5, hr] at hp
    simp only [Bool.false_eq_true, if_false] at hp
    by_cases hgt : passChi2 abs (FwdcalcTrackResiduals (passPCA ext abs s5)) > chi2 * 999
    · rw [if_pos (Or.inr hgt)] at hp
      rw [hp]
      exact ⟨fun h => PassResult.noConfusion h, fun h => absurd hgt (not_lt.mpr h)⟩
    · rw [if_neg (fun h => h.elim hdz hgt)] at hp
      exact ⟨fun _ => not_lt.mp hgt, fun _ => hp⟩
  · intro h
    nlinarith

set_option maxRecDepth 100000 in
/-- The first Newton step of the fit of `relChi2EntryState` succeeds. -/
theorem relChi2EntryState_step :
    (newtonStep (passDerivatives (linearExt 2) true relChi2EntryState)).isSome = true := by
  decide!

set_option maxRecDepth 100000 in
/-- Counterexample to C30 as stated: with the ratio 999 stored by
`setMinRelChi2Change(0)`, the first pass of the absolute-distance fit of
`relChi2Tracks` at the seed `(0, 4)` is entered with the chi2 `1/5000`, makes
the correction `dz = (1/60, 1/60)`, which is not below `mMinParamChange = 1e-3`,
and computes the updated chi2 `360101/180000`, more than 999 times the previous
one: the relative test stops the iteration after this pass. -/
theorem relChi2_test_stops_early :
    relChi2EntryState.mMinRelChi2Change = 999
    ∧ passChi2 true relChi2EntryState = 1 / 5000
    ∧ ∃ (dz : Nat → ℚ) (s5 : FwdDCAFitterN 2),
      newtonStep (passDerivatives (linearExt 2) true relChi2EntryState) = some (dz, s5)
      ∧ ¬ getAbsMax 2 dz < relChi2EntryState.mMinParamChange
      ∧ passChi2 true (FwdcalcTrackResiduals (passPCA (linearExt 2) true s5)) = 360101 / 180000
      ∧ minimizeLoop (linearExt 2) true (loopFuel relChi2EntryState) (1 / 5000) relChi2EntryState
          = (some (360101 / 180000), FwdcalcTrackResiduals (passPCA (linearExt 2) true s5)) := by
  have hstep : newtonStep (passDerivatives (linearExt 2) true relChi2EntryState)
      = some ((newtonStep (passDerivatives (linearExt 2) true relChi2EntryState)).get
          relChi2EntryState_step) := (Option.some_get relChi2EntryState_step).symm
  have hdz : ¬ getAbsMax 2 ((newtonStep (passDerivatives (linearExt 2) true
      relChi2EntryState)).get relChi2EntryState_step).1 < relChi2EntryState.mMinParamChange := by
    decide!
  have hc : passChi2 true (FwdcalcTrackResiduals (passPCA (linearExt 2) true
      ((newtonStep (passDerivatives (linearExt 2) true relChi2EntryState)).get
        relChi2EntryState_step).2)) = 360101 / 180000 := by decide!
  have halt : prefersAlternative (passPCA (linearExt 2) true
      ((newtonStep (passDerivatives (linearExt 2) true relChi2EntryState)).get
        relChi2EntryState_step).2) = false := by decide!
  have hfuel : loopFuel relChi2EntryState = 20 + 1 := by decide!
  generalize (newtonStep (passDerivatives (linearExt 2) true relChi2EntryState)).get
    relChi2EntryState_step = p at hstep hdz hc halt
  obtain ⟨dz, s5⟩ := p
  dsimp only at hdz hc halt
  refine ⟨by decide!, by decide!, dz, s5, hstep, hdz, hc, ?_⟩
  have hp := minimizePass_of_step_some (linearExt 2) true (1 / 5000) relChi2EntryState s5 dz hstep
  rw [halt] at hp
  simp only [Bool.false_eq_true, if_false] at hp
  have hgt : passChi2 true (FwdcalcTrackResiduals (passPCA (linearExt 2) true s5))
      > 1 / 5000 * (FwdcalcTrackResiduals (passPCA (linearExt 2) true s5)).mMinRelChi2Change := by
    obtain ⟨_, hcf, _, _⟩ := cfg_passVertex (linearExt 2) true relChi2EntryState s5 dz hstep
    rw [hc, (cfg_fields hcf).2.2.2.2.1]
    decide!
  rw [if_pos (Or.inr hgt)] at hp
  have hl := minimizeLoop_succ (linearExt 2) true 20 (1 / 5000) relChi2EntryState
  rw [hp] at hl
  rw [hc] at hl
  exact (congrArg (fun n => minimizeLoop (linearExt 2) true n (1 / 5000) relChi2EntryState) hfuel).trans hl

end SetterClaims

/-! ### The vertex covariance -/

/-- Element access of a packed symmetric matrix gives a symmetric matrix. -/
theorem MatSym3D_toStd_transpose (m : MatSym3D) : m.toStd.transpose = m.toStd := by
  ext i j
  fin_cases i <;> fin_cases j <;> rfl

/-- The packed result of the similarity transform, read back element by
element, is `U * M * U^T`. -/
theorem Similarity_toStd (u : MatStd3D) (m : MatSym3D) :
    (Similarity u m).toStd = u * m.toStd * u.transpose := by
  have hsym : (u * m.toStd * u.transpose).transpose = u * m.toStd * u.transpose := by
    rw [Matrix.transpose_mul, Matrix.transpose_mul, Matrix.transpose_transpose,
      MatSym3D_toStd_transpose, Matrix.mul_assoc]
  have h : ∀ i j, (u * m.toStd * u.transpose) i j = (u * m.toStd * u.transpose) j i := by
    intro i j
    exact (congrFun (congrFun hsym i) j).symm
  ext i j
  fin_cases i <;> fin_cases j
  · rfl
  · exact h 1 0
  · exact h 2 0
  · rfl
  · rfl
  · exact h 2 1
  · rfl
  · rfl
  · rfl

/-- C22: the vertex covariance `calcPCACovMatrix(cand)` is, in the weighted
mode, the sum over the `N` prongs of `T_i * C_i * T_i^T`, with `T_i` the
coefficient matrix `mTrCFVT[mOrder[cand]][i]` and `C_i` the position covariance
`getTrackCovMatrix(i, cand)`; in the absolute-distance mode it is the plain sum
of the `C_i`; it is a symmetric 3x3 matrix, and `calcPCACovMatrixFlat` returns
its lower triangle in the order (0,0), (1,0), (1,1), (2,0), (2,1), (2,2). -/
theorem calcPCACovMatrix_similarity_sum {N : Nat} (s : FwdDCAFitterN N) (cand : Nat) :
    (s.mUseAbsDCA = false →
      (FwdDCAFitterN.calcPCACovMatrix s cand).toStd
        = ∑ i in Finset.range N, s.mTrCFVT (s.mOrder cand) i
            * (FwdDCAFitterN.getTrackCovMatrix s i cand).toStd
            * (s.mTrCFVT (s.mOrder cand) i).transpose)
    ∧ (s.mUseAbsDCA = true →
      (FwdDCAFitterN.calcPCACovMatrix s cand).toStd
        = ∑ i in Finset.range N, (FwdDCAFitterN.getTrackCovMatrix s i cand).toStd)
    ∧ (FwdDCAFitterN.calcPCACovMatrix s cand).toStd.transpose
        = (FwdDCAFitterN.calcPCACovMatrix s cand).toStd
    ∧ FwdDCAFitterN.calcPCACovMatrixFlat s cand
        = ![(FwdDCAFitterN.calcPCACovMatrix s cand).toStd 0 0,
            (FwdDCAFitterN.calcPCACovMatrix s cand).toStd 1 0,
            (FwdDCAFitterN.calcPCACovMatrix s cand).toStd 1 1,
            (FwdDCAFitterN.calcPCACovMatrix s cand).toStd 2 0,
            (FwdDCAFitterN.calcPCACovMatrix s cand).toStd 2 1,
            (FwdDCAFitterN.calcPCACovMatrix s cand).toStd 2 2]
    ∧ FwdDCAFitterN.calcPCACovMatrixFlat s cand
        = ![(FwdDCAFitterN.calcPCACovMatrix s cand).XX,
            (FwdDCAFitterN.calcPCACovMatrix s cand).XY,
            (FwdDCAFitterN.calcPCACovMatrix s cand).YY,
            (FwdDCAFitterN.calcPCACovMatrix s cand).XZ,
            (FwdDCAFitterN.calcPCACovMatrix s cand).YZ,
            (FwdDCAFitterN.calcPCACovMatrix s cand).ZZ] := by
  refine ⟨fun h => ?_, fun h => ?_, MatSym3D_toStd_transpose _, rfl, rfl⟩
  · rw [calcPCACovMatrix_eq_sum]
    refine Finset.sum_congr rfl (fun i _ => ?_)
    rw [h, Similarity_toStd]
    rfl
  · rw [calcPCACovMatrix_eq_sum]
    refine Finset.sum_congr rfl (fun i _ => ?_)
    rw [h, Similarity_toStd]
    have hI : FwdDCAFitterN.getTrackRotMatrix s i = 1 := by
      ext a b
      fin_cases a <;> fin_cases b <;> rfl
    simp only [if_true, hI, Matrix.transpose_one, Matrix.one_mul, Matrix.mul_one]

/-! ### The parent track -/

section Parent

open FwdDCAFitterN

variable {N : Nat}

/-- The inner loop `for (i = 0; i < 3; i++) pvecV[i] += pvecT[i]`. -/
theorem forUp_addVec3 (p v : Fin 3 → ℚ) :
    forUp 3 (fun i (p : Fin 3 → ℚ) => fun k => if k.val = i then p k + v k else p k) p
      = fun k => p k + v k := by
  funext k
  fin_cases k <;> simp [forUp]

/-- The inner loop `for (i = 0; i < 6; i++) covV[MomInd[i]] += covT[MomInd[i]]`. -/
theorem forUp_addMom (c v : Fin 21 → ℚ) :
    forUp 6 (fun i (c : Fin 21 → ℚ) => upd21 c (MomInd i) (c (MomInd i) + v (MomInd i))) c
      = fun k => if k ∈ [(9 : Fin 21), 13, 14, 18, 19, 20] then c k + v k else c k := by
  funext k
  fin_cases k <;> simp [forUp, upd21, MomInd]

/-- The source's `getTrack` on a propagated candidate. -/
theorem getTrack_done (s : FwdDCAFitterN N) (i cand : Nat)
    (h : isPropagateTracksToVertexDone s cand = true) :
    getTrack s i cand = .ok (s.mCandTr (s.mOrder cand) i) := by
  unfold getTrack
  unfold isPropagateTracksToVertexDone at h
  rw [h]
  rfl

/-- The prong loop of `createParentTrackPar` on a propagated candidate. -/
theorem parentLoop_spec (s : FwdDCAFitterN N) (cand : Nat)
    (h : isPropagateTracksToVertexDone s cand = true) : ∀ n : Nat,
    forUpM n (fun it (acc : (Fin 3 → ℚ) × Int) =>
        match getTrack s it cand with
        | .error e => .error e
        | .ok trc =>
          let pvecT := trc.getPxPyPzGlo
          let pvecV := forUp 3 (fun i (p : Fin 3 → ℚ) =>
            fun k => if k.val = i then p k + pvecT k else p k) acc.1
          .ok (pvecV, acc.2 + trc.getCharge)) (fun _ => 0, 0)
      = .ok (fun k => ∑ i in Finset.range n, (s.mCandTr (s.mOrder cand) i).getPxPyPzGlo k,
          ∑ i in Finset.range n, (s.mCandTr (s.mOrder cand) i).getCharge) := by
  intro n
  induction n with
  | zero => simp [forUpM]
  | succ n ih =>
    rw [forUpM, ih]
    dsimp only
    rw [getTrack_done s n cand h]
    dsimp only
    rw [forUp_addVec3]
    simp only [Finset.sum_range_succ]

/-- The prong loop of `createParentTrackParCov` on a propagated candidate. -/
theorem parentCovLoop_spec (s : FwdDCAFitterN N) (cand : Nat)
    (h : isPropagateTracksToVertexDone s cand = true) : ∀ n : Nat,
    forUpM n (fun it (acc : (Fin 21 → ℚ) × (Fin 3 → ℚ) × Int) =>
        match getTrack s it cand with
        | .error e => .error e
        | .ok trc =>
          let pvecT := trc.getPxPyPzGlo
          let covT := trc.getCovXYZPxPyPzGlo
          let covV := forUp 6 (fun i (c : Fin 21 → ℚ) =>
            upd21 c (MomInd i) (c (MomInd i) + covT (MomInd i))) acc.1
          let pvecV := forUp 3 (fun i (p : Fin 3 → ℚ) =>
            fun k => if k.val = i then p k + pvecT k else p k) acc.2.1
          .ok (covV, pvecV, acc.2.2 + trc.getCharge)) (fun _ => 0, fun _ => 0, 0)
      = .ok (fun k => if k ∈ [(9 : Fin 21), 13, 14, 18, 19, 20] then
            ∑ i in Finset.range n, (s.mCandTr (s.mOrder cand) i).getCovXYZPxPyPzGlo k else 0,
          fun k => ∑ i in Finset.range n, (s.mCandTr (s.mOrder cand) i).getPxPyPzGlo k,
          ∑ i in Finset.range n, (s.mCandTr (s.mOrder cand) i).getCharge) := by
  intro n
  induction n with
  | zero => simp [forUpM]
  | succ n ih =>
    rw [forUpM, ih]
    dsimp only
    rw [getTrack_done s n cand h]
    dsimp only
    rw [forUp_addVec3, forUp_addMom]
    simp only [Finset.sum_range_succ, Except.ok.injEq, Prod.mk.injEq, and_true]
    funext k
    split <;> simp

/-- C23: for a propagated candidate, `createParentTrackPar` builds the parent
from the vertex position `getPCACandidate(cand)`, a momentum vector that is the
component-wise sum of the momenta `getPxPyPzGlo` of the `N` prongs
`getTrack(i, cand)`, and a charge that is the sum of the `N` prong charges. -/
theorem createParentTrackPar_sums (s : FwdDCAFitterN N) (cand : Nat) (sectorAlpha : Bool)
    (h : isPropagateTracksToVertexDone s cand = true) :
    createParentTrackPar s cand sectorAlpha = .ok
      { vertex := ![getPCACandidate s cand 0, getPCACandidate s cand 1, getPCACandidate s cand 2]
        pvecV := fun k => ∑ i in Finset.range N, (s.mCandTr (s.mOrder cand) i).getPxPyPzGlo k
        q := ∑ i in Finset.range N, (s.mCandTr (s.mOrder cand) i).getCharge
        sectorAlpha := sectorAlpha }
    ∧ ∀ i, getTrack s i cand = .ok (s.mCandTr (s.mOrder cand) i) := by
  refine ⟨?_, fun i => getTrack_done s i cand h⟩
  unfold createParentTrackPar
  rw [getTrack_done s 0 cand h, getTrack_done s 1 cand h]
  dsimp only
  rw [parentLoop_spec s cand h N]

/-- C24: for a propagated candidate, the 21-element packed covariance that
`createParentTrackParCov` passes to the parent has (a) the six momentum-block
elements (indices 9, 13, 14, 18, 19, 20) equal to the sums over the `N` prongs
of the same elements of the covariance `getCovXYZPxPyPzGlo` of each prong, (b)
the six position-block elements (indices 0..5) equal to the vertex covariance
`calcPCACovMatrixFlat(cand)`, and (c) the remaining nine elements (indices 6, 7,
8, 10, 11, 12, 15, 16, 17) equal to 0. -/
theorem createParentTrackParCov_layout (s : FwdDCAFitterN N) (cand : Nat) (sectorAlpha : Bool)
    (h : isPropagateTracksToVertexDone s cand = true) :
    ∃ p : ParentTrackParCov, createParentTrackParCov s cand sectorAlpha = .ok p
      ∧ (∀ k ∈ [(9 : Fin 21), 13, 14, 18, 19, 20],
          p.covV k = ∑ i in Finset.range N, (s.mCandTr (s.mOrder cand) i).getCovXYZPxPyPzGlo k)
      ∧ (∀ j : Fin 6, p.covV (Fin.castLE (by decide) j) = calcPCACovMatrixFlat s cand j)
      ∧ (∀ k ∈ [(6 : Fin 21), 7, 8, 10, 11, 12, 15, 16, 17], p.covV k = 0)
      ∧ p.pos = getPCACandidatePos s cand
      ∧ p.pvecV = (fun k => ∑ i in Finset.range N, (s.mCandTr (s.mOrder cand) i).getPxPyPzGlo k)
      ∧ p.q = ∑ i in Finset.range N, (s.mCandTr (s.mOrder cand) i).getCharge := by
  unfold createParentTrackParCov
  rw [getTrack_done s 0 cand h, getTrack_done s 1 cand h]
  dsimp only
  rw [parentCovLoop_spec s cand h N]
  dsimp only
  refine ⟨_, rfl, ?_, ?_, ?_, rfl, rfl, rfl⟩
  · intro k hk
    dsimp only
    fin_cases hk <;> simp [upd21]
  · intro j
    dsimp only
    fin_cases j <;> rfl
  · intro k hk
    dsimp only
    fin_cases hk <;> simp [upd21]

end Parent

/-- Witness of C23 on `parentDemoState`: the parent has the vertex `(7, 8, 9)`,
the momentum `(5, 7, 9)` and the charge 0. -/
theorem createParentTrackPar_sums_witness :
    FwdDCAFitterN.isPropagateTracksToVertexDone parentDemoState 0 = true
    ∧ FwdDCAFitterN.createParentTrackPar parentDemoState 0 true = .ok
        { vertex := ![7, 8, 9], pvecV := ![5, 7, 9], q := 0, sectorAlpha := true } :=
  ⟨rfl, by
    rw [(createParentTrackPar_sums parentDemoState 0 true rfl).1]
    simp only [Except.ok.injEq, ParentTrackPar.mk.injEq, and_true, true_and]
    refine ⟨rfl, ?_, by decide⟩
    funext k
    fin_cases k <;> simp [Finset.sum_range_succ, parentDemoState, momTrack] <;> norm_num⟩

/-- Witness of C24 on `parentDemoState`: element 9 of the parent covariance is
`9 + 18`, the sum of the elements 9 of the two prongs, and element 6 is 0. -/
theorem createParentTrackParCov_layout_witness :
    FwdDCAFitterN.isPropagateTracksToVertexDone parentDemoState 0 = true
    ∧ ∃ p : ParentTrackParCov,
        FwdDCAFitterN.createParentTrackParCov parentDemoState 0 true = .ok p
        ∧ p.covV 9 = 27 ∧ p.covV 6 = 0
        ∧ p.covV 0 = FwdDCAFitterN.calcPCACovMatrixFlat parentDemoState 0 0 :=
  ⟨rfl, by
    obtain ⟨p, h1, h2, h3, h4, _⟩ := createParentTrackParCov_layout parentDemoState 0 true rfl
    refine ⟨p, h1, ?_, h4 6 (by simp), h3 0⟩
    rw [h2 9 (by simp)]
    decide!⟩

/-! ### Queries of the propagated prongs -/

section GetTrack

open FwdDCAFitterN

variable {N : Nat}

/-- A minimiser leaves `cfgFit` alone. -/
theorem cfgFit_minimizeOf (ext : External N) (abs : Bool) (s0 s' : FwdDCAFitterN N) (b : Bool)
    (h : minimizeOf ext abs s0 = .ok (b, s')) : cfgFit s' = cfgFit s0 := by
  rw [minimizeOf_eq] at h
  cases he : loopEntry ext abs s0 with
  | error e => rw [he] at h; cases h
  | ok p =>
    obtain ⟨b0, s3⟩ := p
    obtain ⟨c3, _⟩ := loopEntry_frame ext abs s0 s3 b0 he
    rw [he] at h
    cases b0 with
    | false =>
      simp only [Except.ok.injEq, Prod.mk.injEq] at h
      rw [← h.2]
      exact cfgFit_of_cfg c3
    | true =>
      dsimp only at h
      have hl := cfgFit_minimizeLoop ext abs (loopFuel s3) (passChi2 abs s3) s3
      generalize minimizeLoop ext abs (loopFuel s3) (passChi2 abs s3) s3 = r at h hl
      obtain ⟨o, s4⟩ := r
      cases o with
      | none =>
        simp only [Except.ok.injEq, Prod.mk.injEq] at h
        rw [← h.2]
        exact hl.trans (cfgFit_of_cfg c3)
      | some c =>
        simp only [Except.ok.injEq, Prod.mk.injEq] at h
        rw [← h.2]
        exact Eq.trans (b := cfgFit s4) rfl (hl.trans (cfgFit_of_cfg c3))

/-- The propagated flags after `FwdpropagateTracksToVertex(icand)`: the flag of
the slot ranked `icand` is set, the others are left alone. -/
theorem mTrPropDone_FwdpropagateTracksToVertex (ext : External N) (icand : Nat)
    (s : FwdDCAFitterN N) (k : Nat) :
    (FwdpropagateTracksToVertex ext icand s).2.mTrPropDone k
      = if k = s.mOrder icand then true else s.mTrPropDone k := by
  unfold FwdpropagateTracksToVertex
  dsimp only
  split
  · rename_i hd
    split
    · rename_i hk; rw [hk]; exact hd
    · rfl
  · show upd _ _ _ k = _
    unfold upd
    by_cases hk : k = s.mOrder icand
    · rw [if_pos hk, if_pos hk]
    · rw [if_neg hk, if_neg hk]
      refine congrFun (forDown_preserves (fun t : FwdDCAFitterN N => t.mTrPropDone) _
        (fun i t => ?_) N s) k
      dsimp only
      split <;> rfl

/-- The propagated flags after the treatment of one seed by the crossing loop:
the flags of the slots below the current one are left alone, and the flag of
an accepted candidate is the switch `mPropagateToPCA`. -/
theorem processCrossing_propDone (ext : External N) (ic : Nat) (s s' : FwdDCAFitterN N)
    (h : processCrossing ext ic s = .ok s') :
    (∀ k, k ≠ s.mCurHyp → s'.mTrPropDone k = s.mTrPropDone k)
    ∧ (s'.mCurHyp = s.mCurHyp + 1 → s'.mTrPropDone s.mCurHyp = s.mPropagateToPCA) := by
  by_cases hr : s.mCrossings.xDCA ic * s.mCrossings.xDCA ic
      + s.mCrossings.yDCA ic * s.mCrossings.yDCA ic ≤ s.mMaxR2
  · rw [processCrossing_eq ext ic s hr] at h
    cases hm : minimizeOf ext s.mUseAbsDCA (seedCrossing ext ic s) with
    | error e => rw [hm] at h; cases h
    | ok r =>
      obtain ⟨b, s1⟩ := r
      rw [hm] at h
      simp only [Except.ok.injEq] at h
      have hf := cfgFit_fields (cfgFit_minimizeOf ext _ _ _ _ hm)
      obtain ⟨f1, _, _, _, _, _, f7, f8, _, f10, _⟩ := hf
      have sc : (seedCrossing ext ic s).mCurHyp = s.mCurHyp := rfl
      have sp : (seedCrossing ext ic s).mPropagateToPCA = s.mPropagateToPCA := rfl
      have sd : (seedCrossing ext ic s).mTrPropDone = upd s.mTrPropDone s.mCurHyp false := rfl
      rw [sc] at f1
      rw [sp] at f10
      rw [sd] at f8
      cases b with
      | false =>
        rw [acceptCrossing_false ext _ rfl] at h
        subst h
        refine ⟨fun k hk => ?_, fun hc => ?_⟩
        · rw [f8]; simp [upd, hk]
        · rw [f1] at hc; omega
      | true =>
        subst h
        unfold acceptCrossing
        dsimp only
        rw [if_pos rfl]
        by_cases hp : s1.mPropagateToPCA = true
        · rw [if_pos hp]
          have hfst := FwdpropagateTracksToVertex_fst ext s1.mCurHyp
            ({ s1 with mOrder := upd s1.mOrder s1.mCurHyp s1.mCurHyp } : FwdDCAFitterN N)
          have hd := mTrPropDone_FwdpropagateTracksToVertex ext s1.mCurHyp
            ({ s1 with mOrder := upd s1.mOrder s1.mCurHyp s1.mCurHyp } : FwdDCAFitterN N)
          rw [hfst]
          simp only [Bool.not_true, Bool.false_eq_true, if_false]
          have ho : upd s1.mOrder s1.mCurHyp s1.mCurHyp s1.mCurHyp = s1.mCurHyp := by simp [upd]
          refine ⟨fun k hk => ?_, fun _ => ?_⟩
          · rw [hd k]
            dsimp only
            rw [ho, f1, if_neg hk, f8]
            simp [upd, hk]
          · rw [hd s.mCurHyp]
            dsimp only
            rw [ho, f1, if_pos rfl, ← f10, hp]
        · rw [if_neg hp]
          dsimp only
          refine ⟨fun k hk => ?_, fun _ => ?_⟩
          · rw [f8]; simp [upd, hk]
          · rw [f8, ← f10]
            simp only [upd, if_true]
            cases hq : s1.mPropagateToPCA with
            | true => exact absurd hq hp
            | false => rfl
  · unfold processCrossing at h
    rw [if_pos (not_le.mp hr)] at h
    simp only [Except.ok.injEq] at h
    subst h
    exact ⟨fun _ _ => rfl, fun hc => by omega⟩

end GetTrack

section GetTrackClaim

open FwdDCAFitterN

variable {N : Nat}

/-- The source's `process`, by its parts: the entry state, the crossing loop and the
ordering of the candidates. -/
theorem process_eq (ext : External N) (args : Nat → Track) (s : FwdDCAFitterN N) :
    process ext args s =
      match crossingLoop ext (processEntry args s).mCrossings.nDCA.toNat 0 (processEntry args s) with
      | .error e => .error e
      | .ok s4 => .ok ((orderCandidates s4).mCurHyp, orderCandidates s4) := rfl

/-- The merging of the seeds writes the crossing set only. -/
theorem mergeSeeds_frameG {α : Type} (f : FwdDCAFitterN N → α)
    (hC : ∀ (t : FwdDCAFitterN N) (m : CrossInfo), f { t with mCrossings := m } = f t)
    (s : FwdDCAFitterN N) : f (mergeSeeds s) = f s := by
  unfold mergeSeeds
  dsimp only
  split
  · split
    · exact hC s _
    · rfl
  · rfl

/-- The ordering of the candidates writes the ranking only. -/
theorem orderCandidates_frameG {α : Type} (f : FwdDCAFitterN N → α)
    (hO : ∀ (t : FwdDCAFitterN N) (m : Nat → Nat), f { t with mOrder := m } = f t)
    (s : FwdDCAFitterN N) : f (orderCandidates s) = f s := by
  unfold orderCandidates
  refine forDown_preserves f _ (fun i t => ?_) _ _
  refine forDown_preserves f _ (fun j u => ?_) _ _
  dsimp only
  split
  · exact hO u _
  · rfl

/-- The entry state of `process`: the live-slot count is 0, the switch
`mAllowAltPreference` is on, the input tracks are the arguments, and the
configuration is that of the fitter. -/
theorem processEntry_spec (args : Nat → Track) (s : FwdDCAFitterN N) :
    (processEntry args s).mCurHyp = 0
    ∧ (processEntry args s).mAllowAltPreference = true
    ∧ (processEntry args s).mPropagateToPCA = s.mPropagateToPCA
    ∧ (processEntry args s).mUseAbsDCA = s.mUseAbsDCA
    ∧ (processEntry args s).mOrigTrPtr = (assign args s).mOrigTrPtr
    ∧ (processEntry args s).mCrossings = (mergeSeeds s).mCrossings := by
  have hc : cfg (if (clear (assign args s)).mUseAbsDCA then FwdcalcRMatrices (clear (assign args s))
      else clear (assign args s)) = cfg (clear (assign args s)) := by
    split
    · exact cfg_FwdcalcRMatrices _
    · rfl
  have ha : altPref (if (clear (assign args s)).mUseAbsDCA then
      FwdcalcRMatrices (clear (assign args s)) else clear (assign args s))
      = altPref (clear (assign args s)) := by
    split
    · unfold FwdcalcRMatrices
      refine forDown_preserves altPref _ (fun i t => ?_) _ _
      refine forDown_preserves altPref _ (fun j u => ?_) _ _
      rfl
    · rfl
  have hm := mergeSeeds_frameG (fun t : FwdDCAFitterN N => (cfgFit t).1.1) (fun _ _ => rfl)
    (if (clear (assign args s)).mUseAbsDCA then FwdcalcRMatrices (clear (assign args s))
      else clear (assign args s))
  have hm2 := mergeSeeds_frameG (fun t : FwdDCAFitterN N =>
      (t.mCurHyp, t.mPropagateToPCA, t.mUseAbsDCA, t.mOrigTrPtr, altPref t)) (fun _ _ => rfl)
    (if (clear (assign args s)).mUseAbsDCA then FwdcalcRMatrices (clear (assign args s))
      else clear (assign args s))
  obtain ⟨e1, _, _, _, _, _, _, _, _, _, _, _, e13, e14⟩ := cfg_fields hc
  simp only [Prod.mk.injEq] at hm2
  obtain ⟨m1, m2, m3, m4, m5⟩ := hm2
  have ho : (if (clear (assign args s)).mUseAbsDCA then FwdcalcRMatrices (clear (assign args s))
      else clear (assign args s)).mOrigTrPtr = (clear (assign args s)).mOrigTrPtr := by
    have := hc
    simp only [cfg, Prod.mk.injEq] at this
    exact this.2.2.2.2.2
  refine ⟨m1.trans e1, m5.trans ha, m2.trans e14, m3.trans e13, m4.trans ho,
    (process_entry args s _ rfl).1⟩

/-- After the crossing loop the propagated flag of every live slot is the switch
`mPropagateToPCA`. -/
theorem crossingLoop_propDone (ext : External N) :
    ∀ (fuel ic : Nat) (s s' : FwdDCAFitterN N), crossingLoop ext fuel ic s = .ok s' →
      (∀ k < s.mCurHyp, s.mTrPropDone k = s.mPropagateToPCA) →
      s'.mPropagateToPCA = s.mPropagateToPCA
      ∧ ∀ k < s'.mCurHyp, s'.mTrPropDone k = s'.mPropagateToPCA := by
  intro fuel
  induction fuel with
  | zero =>
    intro ic s s' h hP
    simp only [crossingLoop, Except.ok.injEq] at h
    subst h
    exact ⟨rfl, hP⟩
  | succ n ih =>
    intro ic s s' h hP
    rw [crossingLoop] at h
    split at h
    · cases hp : processCrossing ext ic s with
      | error e => rw [hp] at h; cases h
      | ok s1 =>
        rw [hp] at h
        dsimp only at h
        obtain ⟨_, _, _, q4, _, q6⟩ := processCrossing_step ext ic s s1 hp
        obtain ⟨d1, d2⟩ := processCrossing_propDone ext ic s s1 hp
        have hP1 : ∀ k < s1.mCurHyp, s1.mTrPropDone k = s1.mPropagateToPCA := by
          intro k hk
          rw [q4]
          rcases q6 with ⟨c1, _⟩ | ⟨_, c1, _⟩
          · rw [c1] at hk
            rw [d1 k (by omega)]
            exact hP k hk
          · by_cases hkc : k = s.mCurHyp
            · rw [hkc]; exact d2 c1
            · rw [d1 k hkc]
              exact hP k (by omega)
        obtain ⟨i1, i2⟩ := ih (ic + 1) s1 s' h hP1
        exact ⟨i1.trans q4, i2⟩
    · simp only [Except.ok.injEq] at h
      subst h
      exact ⟨rfl, hP⟩

/-- After a returning `process` call the propagated flag of every ranked
candidate is the switch `mPropagateToPCA`. -/
theorem process_propDone (ext : External N) (args : Nat → Track) (s s' : FwdDCAFitterN N)
    (c : Nat) (h : process ext args s = .ok (c, s')) :
    ∀ cand < c, isPropagateTracksToVertexDone s' cand = s.mPropagateToPCA := by
  rw [process_eq] at h
  cases hl : crossingLoop ext (processEntry args s).mCrossings.nDCA.toNat 0 (processEntry args s)
    with
  | error e => rw [hl] at h; cases h
  | ok t4 =>
    rw [hl] at h
    simp only [Except.ok.injEq, Prod.mk.injEq] at h
    obtain ⟨e0, _, e2, _⟩ := processEntry_spec args s
    obtain ⟨p1, p2⟩ := crossingLoop_propDone ext _ 0 _ t4 hl (by rw [e0]; intro k hk; omega)
    obtain ⟨_, _, _, _, _, i6, _⟩ := crossingLoop_inv ext _ 0 _ t4 hl
    have hord := i6 (by rw [e0]; intro k hk; omega)
    have hcur : (orderCandidates t4).mCurHyp = t4.mCurHyp := (orderCandidates_frame t4).1
    have hc4 : c = t4.mCurHyp := by rw [← h.1, hcur]
    have hrange := orderCandidates_range t4 (fun k hk => by rw [hord k hk]; exact hk)
    have hflag := orderCandidates_frameG (fun t : FwdDCAFitterN N => t.mTrPropDone)
      (fun _ _ => rfl) t4
    intro cand hcand
    unfold isPropagateTracksToVertexDone
    rw [← h.2, hflag, p2 _ (hrange cand (by omega)), p1, e2]

end GetTrackClaim


section GetTrackClaim2

open FwdDCAFitterN

variable {N : Nat}

/-- C21: `getTrack(i, cand)` fails with "propagateTracksToVertex was not called
yet" exactly when the propagated flag of the slot ranked `cand` is not set, and
otherwise returns prong `i` of that slot. After a returning `process` call with
`mPropagateToPCA` on, every returned candidate can be queried; with it off,
`getTrack` fails for every returned candidate, until
`FwdpropagateTracksToVertex(cand)` is called for it. -/
theorem getTrack_fails_iff_not_propagated (ext : External N) (args : Nat → Track)
    (s s' : FwdDCAFitterN N) (c : Nat) (h : process ext args s = .ok (c, s')) :
    (∀ (t : FwdDCAFitterN N) (i cand : Nat),
      (getTrack t i cand = .error "propagateTracksToVertex was not called yet"
        ↔ isPropagateTracksToVertexDone t cand = false)
      ∧ (isPropagateTracksToVertexDone t cand = true →
          getTrack t i cand = .ok (t.mCandTr (t.mOrder cand) i)))
    ∧ (s.mPropagateToPCA = true → ∀ cand < c, ∀ i,
        getTrack s' i cand = .ok (s'.mCandTr (s'.mOrder cand) i))
    ∧ (s.mPropagateToPCA = false → ∀ cand < c, ∀ i,
        getTrack s' i cand = .error "propagateTracksToVertex was not called yet"
        ∧ getTrack (FwdpropagateTracksToVertex ext cand s').2 i cand
            = .ok ((FwdpropagateTracksToVertex ext cand s').2.mCandTr (s'.mOrder cand) i)) := by
  have hbase : ∀ (t : FwdDCAFitterN N) (i cand : Nat),
      (getTrack t i cand = .error "propagateTracksToVertex was not called yet"
        ↔ isPropagateTracksToVertexDone t cand = false)
      ∧ (isPropagateTracksToVertexDone t cand = true →
          getTrack t i cand = .ok (t.mCandTr (t.mOrder cand) i)) := by
    intro t i cand
    refine ⟨⟨fun hg => ?_, fun hd => ?_⟩, getTrack_done t i cand⟩
    · cases hd : isPropagateTracksToVertexDone t cand with
      | false => rfl
      | true => rw [getTrack_done t i cand hd] at hg; cases hg
    · unfold getTrack
      unfold isPropagateTracksToVertexDone at hd
      rw [hd]
      rfl
  have hp := process_propDone ext args s s' c h
  refine ⟨hbase, fun hon cand hc i => ?_, fun hoff cand hc i => ⟨?_, ?_⟩⟩
  · exact getTrack_done s' i cand ((hp cand hc).trans hon)
  · exact ((hbase s' i cand).1).mpr ((hp cand hc).trans hoff)
  · have hord : (FwdpropagateTracksToVertex ext cand s').2.mOrder = s'.mOrder :=
      congrArg (fun p => p.2.1) (ctl_FwdpropagateTracksToVertex ext cand s')
    have hd : isPropagateTracksToVertexDone (FwdpropagateTracksToVertex ext cand s').2 cand
        = true := by
      unfold isPropagateTracksToVertexDone
      rw [hord, mTrPropDone_FwdpropagateTracksToVertex, if_pos rfl]
    rw [getTrack_done _ i cand hd, hord]

set_option maxRecDepth 100000 in
/-- Witness of C21 on `twoSeedFitter` with `twoSeedTracks` (propagation to the
vertex on by default): `process` returns two candidates and the prongs of the
best one can be queried. -/
theorem getTrack_fails_iff_not_propagated_witness :
    ∃ s', process (linearExt 2) twoSeedTracks twoSeedFitter = .ok (2, s')
      ∧ ∀ i, getTrack s' i 0 = .ok (s'.mCandTr (s'.mOrder 0) i) := by
  have ho : processOutcome (process (linearExt 2) twoSeedTracks twoSeedFitter)
      = some (2, 1, 0, 1 / 16, 81 / 16) := by decide!
  obtain ⟨s', h1, _⟩ := processOutcome_some _ _ _ _ _ _ ho
  exact ⟨s', h1, (getTrack_fails_iff_not_propagated (linearExt 2) twoSeedTracks twoSeedFitter
    s' 2 h1).2.1 rfl 0 (by decide)⟩

end GetTrackClaim2

/-! ### What raises a failure -/

/-- A throwing loop whose passes throw one message only, and only on a
condition that the passes do not change, throws exactly when the condition
holds for one of its passes. -/
theorem forDownM_error_iff {σ : Type} (msg : String) (body : Nat → σ → Except String σ)
    (bad : Nat → σ → Prop)
    (hb : ∀ i t, (body i t = .error msg ↔ bad i t) ∧ (∀ e, body i t = .error e → e = msg))
    (hinv : ∀ i t t' j, body i t = .ok t' → (bad j t' ↔ bad j t)) :
    ∀ (n : Nat) (t : σ), (forDownM n body t = .error msg ↔ ∃ i < n, bad i t)
      ∧ (∀ e, forDownM n body t = .error e → e = msg) := by
  intro n
  induction n with
  | zero =>
    intro t
    refine ⟨⟨fun h => ?_, fun ⟨i, hi, _⟩ => absurd hi (Nat.not_lt_zero i)⟩, fun e h => ?_⟩
    · simp [forDownM] at h
    · simp [forDownM] at h
  | succ n ih =>
    intro t
    rw [forDownM]
    cases hbd : body n t with
    | error e =>
      dsimp only
      have he := (hb n t).2 e hbd
      subst he
      exact ⟨⟨fun _ => ⟨n, Nat.lt_succ_self n, ((hb n t).1).mp hbd⟩, fun _ => rfl⟩,
        fun e h => by cases h; rfl⟩
    | ok t' =>
      dsimp only
      obtain ⟨i1, i2⟩ := ih t'
      refine ⟨⟨fun h => ?_, fun ⟨i, hi, hbi⟩ => ?_⟩, i2⟩
      · obtain ⟨i, hi, hbi⟩ := i1.mp h
        exact ⟨i, Nat.lt_succ_of_lt hi, (hinv n t t' i hbd).mp hbi⟩
      · refine i1.mpr ⟨i, ?_, (hinv n t t' i hbd).mpr hbi⟩
        by_contra hlt
        have hin : i = n := by omega
        subst hin
        have := ((hb i t).1).mpr hbi
        rw [hbd] at this
        cases this

section Escalation

open FwdDCAFitterN

variable {N : Nat}

set_option maxRecDepth 100000 in
/-- Counterexample to C26 as stated: in the absolute-distance mode `process`
hands both seeds of `twoSeedFitter` to the solver with the tracks
`badCovTracks`, whose planar covariance `cxx = cyy = cxy = 1` has the
determinant 0, and returns the candidate count 2; the same input raises in the
weighted mode. The determinant is 0 in single precision as well, and the
outcomes are the same with `FwdTrackCovI::set` in single precision. -/
theorem process_abs_ignores_covariance :
    (∀ i z, ((linearExt 2).propagateToZlinear (badCovTracks i) z).getSigma2X
        * ((linearExt 2).propagateToZlinear (badCovTracks i) z).getSigma2Y
        - ((linearExt 2).propagateToZlinear (badCovTracks i) z).getSigmaXY
          * ((linearExt 2).propagateToZlinear (badCovTracks i) z).getSigmaXY = 0)
    ∧ nSeedsInRadius twoSeedFitter.mCrossings twoSeedFitter.mMaxR2 = 2
    ∧ processOutcome (process (linearExt 2) badCovTracks twoSeedFitter)
        = some (2, 1, 0, 1 / 16, 81 / 16)
    ∧ processOutcome (process (linearExt 2) badCovTracks twoSeedWeightedFitter) = none
    ∧ (∀ i z, floatDetXY ((linearExt 2).propagateToZlinear (badCovTracks i) z) = .fin 0)
    ∧ processOutcome (processFloat (linearExt 2) badCovTracks twoSeedFitter)
        = some (2, 1, 0, 1 / 16, 81 / 16)
    ∧ processOutcome (processFloat (linearExt 2) badCovTracks twoSeedWeightedFitter) = none := by
  have hf : ∀ i z, floatDetXY ((linearExt 2).propagateToZlinear (badCovTracks i) z) = .fin 0 := by
    intro i z
    have h1 : floatDetXY (trackAt 0 0 0 1 1 1) = .fin 0 := by decide!
    by_cases h : i = 0
    · simpa [floatDetXY, linearExt, propagateLinear, badCovTracks, trackDir, trackAt, h] using h1
    · simpa [floatDetXY, linearExt, propagateLinear, badCovTracks, trackDir, trackAt, h] using h1
  refine ⟨fun i z => ?_, by decide!, by decide!, by decide!, hf, by decide!, by decide!⟩
  by_cases h : i = 0
  · simp [linearExt, propagateLinear, badCovTracks, trackDir, trackAt, h]
  · simp [linearExt, propagateLinear, badCovTracks, trackDir, trackAt, h]

end Escalation

/-! ### What a call of `process` inherits -/

section Persistence

open FwdDCAFitterN

variable {N : Nat}

/-- The crossing set that the loop of `process` reads is the stored one, with
the merge of close seeds applied: the input tracks play no part in it. -/
theorem processEntry_crossings (args : Nat → Track) (s : FwdDCAFitterN N) :
    (processEntry args s).mCrossings = (mergeSeeds s).mCrossings :=
  (process_entry args s _ rfl).1

end Persistence

/-! ### Failed inversions -/

section InversionFailure

open FwdDCAFitterN

variable {N : Nat}

/-- A Newton loop one of whose passes returns false returns false, with the
state of that pass. -/
theorem minimizeLoop_of_returnFalse (ext : External N) (abs : Bool) :
    ∀ (fuel : Nat) (chi2 : ℚ) (s s' : FwdDCAFitterN N),
      PassResult.returnFalse s' ∈ newtonPasses ext abs fuel chi2 s →
      minimizeLoop ext abs fuel chi2 s = (none, s') := by
  intro fuel
  induction fuel with
  | zero => intro chi2 s s' h; simp [newtonPasses] at h
  | succ n ih =>
    intro chi2 s s' h
    rw [minimizeLoop_succ]
    rw [newtonPasses] at h
    cases hr : minimizePass ext abs chi2 s with
    | returnFalse s1 =>
      rw [hr] at h
      simp only [List.mem_singleton, PassResult.returnFalse.injEq] at h
      rw [h]
    | converged c s1 =>
      rw [hr] at h
      simp at h
    | next c s7 =>
      rw [hr] at h
      dsimp only at h ⊢
      simp only [List.mem_cons] at h
      rcases h with h | h
      · exact PassResult.noConfusion h
      · split_ifs at h ⊢ with hc
        · exact ih c (incrNIters s7) s' h
        · simp at h

/-- A fit that returns false for a seed within the radius: the crossing loop
goes on with the state of the minimiser, and the live-slot count, the ranking
and the crossing set are as before the seed. -/
theorem processCrossing_of_false (ext : External N) (ic : Nat) (s s1 : FwdDCAFitterN N)
    (hr : s.mCrossings.xDCA ic * s.mCrossings.xDCA ic
      + s.mCrossings.yDCA ic * s.mCrossings.yDCA ic ≤ s.mMaxR2)
    (hm : minimizeOf ext s.mUseAbsDCA (seedCrossing ext ic s) = .ok (false, s1)) :
    processCrossing ext ic s = .ok s1 ∧ s1.mCurHyp = s.mCurHyp ∧ s1.mOrder = s.mOrder
    ∧ s1.mCrossings = s.mCrossings := by
  obtain ⟨e1, _, _, _, _, e6, e7, _⟩ := cfgFit_fields (cfgFit_minimizeOf ext _ _ _ _ hm)
  refine ⟨?_, e1, e7, e6⟩
  rw [processCrossing_eq ext ic s hr, hm]
  rfl

/-- C25, as the code has it: a pass of the Newton loop (either mode) whose
matrix of second derivatives cannot be inverted returns false and leaves the
switch `mAllowAltPreference` as it was; a loop one of whose passes returns false
returns false, and so does the minimiser; the weighted minimiser returns false
when the sum of the weights cannot be inverted. For a seed within the radius
whose fit returns false, the crossing loop raises nothing, does not advance the
live-slot count, leaves the ranking and the crossing set as they were, and goes
on with the next seed. The seed of the failed fit stays in the crossing set:
with two seeds and the switch on it is the alternative seed of the other one,
whose fit can be abandoned for it. -/
theorem numerical_failure_is_local (ext : External N) :
    (∀ (abs : Bool) (chi2 : ℚ) (s : FwdDCAFitterN N),
      MatSymND.Invert N (passDerivatives ext abs s).mD2Chi2Dz2 = none →
      minimizePass ext abs chi2 s = .returnFalse (passDerivatives ext abs s)
      ∧ altPref (passDerivatives ext abs s) = altPref s)
    ∧ (∀ (abs : Bool) (fuel : Nat) (chi2 : ℚ) (s s' : FwdDCAFitterN N),
      PassResult.returnFalse s' ∈ newtonPasses ext abs fuel chi2 s →
      minimizeLoop ext abs fuel chi2 s = (none, s'))
    ∧ (∀ (abs : Bool) (s0 s3 : FwdDCAFitterN N), loopEntry ext abs s0 = .ok (true, s3) →
      (minimizeLoop ext abs (loopFuel s3) (passChi2 abs s3) s3).1 = none →
      minimizeOf ext abs s0
        = .ok (false, (minimizeLoop ext abs (loopFuel s3) (passChi2 abs s3) s3).2))
    ∧ (∀ (s0 s1 : FwdDCAFitterN N), minimizeChi2Prepare ext s0 = .ok s1 →
      ¬ (s1.mMaxDXIni > 0 ∧ roughDXCut s1 = false) → (weightSum s1).det = 0 →
      minimizeOf ext false s0 = .ok (false, (FwdcalcPCACoefs s1).2))
    ∧ (∀ (ic : Nat) (s s1 : FwdDCAFitterN N),
      s.mCrossings.xDCA ic * s.mCrossings.xDCA ic
        + s.mCrossings.yDCA ic * s.mCrossings.yDCA ic ≤ s.mMaxR2 →
      minimizeOf ext s.mUseAbsDCA (seedCrossing ext ic s) = .ok (false, s1) →
      processCrossing ext ic s = .ok s1 ∧ s1.mCurHyp = s.mCurHyp ∧ s1.mOrder = s.mOrder
      ∧ s1.mCrossings = s.mCrossings)
    ∧ (∀ (fuel ic : Nat) (s s1 : FwdDCAFitterN N), (ic : Int) < s.mCrossings.nDCA →
      processCrossing ext ic s = .ok s1 →
      crossingLoop ext (fuel + 1) ic s = crossingLoop ext fuel (ic + 1) s1)
    ∧ (∀ (ic : Nat) (s : FwdDCAFitterN N), s.mCrossings.nDCA = 2 →
      s.mAllowAltPreference = true → (seedCrossing ext ic s).mCrossIDAlt = 1 - (ic : Int)) := by
  refine ⟨fun abs chi2 s h => ⟨?_, altPref_passDerivatives ext abs s⟩,
    fun abs => minimizeLoop_of_returnFalse ext abs,
    fun abs s0 s3 he hn => (minimizeOf_of_entry ext abs s0 s3 he).2 hn,
    fun s0 s1 hp hx hw => ?_,
    fun ic s s1 hr hm => processCrossing_of_false ext ic s s1 hr hm,
    fun fuel ic s s1 hlt hp => ?_,
    fun ic s hn ha => ?_⟩
  · refine minimizePass_of_step_none ext abs chi2 s ?_
    unfold newtonStep
    rw [h]
  · have hc := (FwdcalcPCACoefs_false_iff s1).mpr hw
    rw [minimizeOf_eq]
    simp only [loopEntry, Bool.false_eq_true, if_false, hp]
    rw [if_neg hx, hc]
    rfl
  · rw [crossingLoop, if_pos hlt, hp]
  · rw [(seedCrossing_alt ext ic s).2.1, if_pos ⟨hn, ha⟩]

set_option maxRecDepth 100000 in
/-- The matrix of second derivatives of the first pass for the seed 0 of
`singularSeedFitter` on `chargedTracks` cannot be inverted. -/
theorem singularSeedEntryState_singular :
    MatSymND.Invert 2 (passDerivatives (curvedExt 2) true (singularSeedEntryState 0)).mD2Chi2Dz2
      = none :=
  Option.isNone_iff_eq_none.mp (by decide!)

set_option maxRecDepth 100000 in
/-- Witness for C25: the first pass of the fit of the seed 0 of
`singularSeedFitter` on `chargedTracks` has the matrix of second derivatives
`[[1, 0], [0, 0]]`, which cannot be inverted, and returns false. -/
theorem numerical_failure_is_local_witness :
    MatSymND.Invert 2 (passDerivatives (curvedExt 2) true (singularSeedEntryState 0)).mD2Chi2Dz2
      = none
    ∧ minimizePass (curvedExt 2) true 0 (singularSeedEntryState 0)
      = .returnFalse (passDerivatives (curvedExt 2) true (singularSeedEntryState 0))
    ∧ altPref (passDerivatives (curvedExt 2) true (singularSeedEntryState 0))
      = altPref (singularSeedEntryState 0) :=
  ⟨singularSeedEntryState_singular,
    (numerical_failure_is_local (curvedExt 2)).1 true 0 (singularSeedEntryState 0)
      singularSeedEntryState_singular⟩

set_option maxRecDepth 100000 in
/-- Counterexample to C25 as stated: for the seed 0 of `singularSeedFitter` on
`chargedTracks` the minimiser enters its loop with the residuals `(0, 1/2, 0)`
of both tracks, the second derivatives of the track paths are `(0, 0)` and
`(0, -4)`, and the matrix of second derivatives `[[1, 0], [0, 0]]` of the first
pass has the determinant 0 and cannot be inverted; for the seed 1 the matrix is
`[[1, 0], [0, 2]]`. With both seeds in the crossing set the fit of the seed 1
is abandoned for the seed 0 (the switch is off after the call) and `process`
returns no candidate; with the seed 1 alone `process` returns it as a
candidate with the chi2 `1/16`. Every number of the example is dyadic with
few digits, so that the single- and double-precision operations of the code
give the same values. -/
theorem failed_seed_changes_remaining_seed :
    loopEntry (curvedExt 2) true
        (seedCrossing (curvedExt 2) 0 (processEntry chargedTracks singularSeedFitter))
      = .ok (true, singularSeedEntryState 0)
    ∧ (∀ i : Fin 2, (singularSeedEntryState 0).mTrRes 0 i = ![0, 1 / 2, 0])
    ∧ (∀ i : Fin 2,
        (((passDerivatives (curvedExt 2) true (singularSeedEntryState 0)).mTrDer 0 i).d2xdz2,
          ((passDerivatives (curvedExt 2) true (singularSeedEntryState 0)).mTrDer 0 i).d2ydz2)
          = (![(0, 0), (0, -4)] : Fin 2 → ℚ × ℚ) i)
    ∧ (∀ i j : Fin 2,
        symGet (passDerivatives (curvedExt 2) true (singularSeedEntryState 0)).mD2Chi2Dz2 i j
          = (!![1, 0; 0, 0] : Matrix (Fin 2) (Fin 2) ℚ) i j)
    ∧ MatSymND.Invert 2 (passDerivatives (curvedExt 2) true (singularSeedEntryState 0)).mD2Chi2Dz2
        = none
    ∧ (∀ i j : Fin 2,
        symGet (passDerivatives (curvedExt 2) true (singularSeedEntryState 1)).mD2Chi2Dz2 i j
          = (!![1, 0; 0, 2] : Matrix (Fin 2) (Fin 2) ℚ) i j)
    ∧ processOutcome (process (curvedExt 2) chargedTracks singularSeedFitter)
        = some (0, 0, 0, -1, -1)
    ∧ (stateAfter (process (curvedExt 2) chargedTracks singularSeedFitter)
        singularSeedFitter).mAllowAltPreference = false
    ∧ processOutcome (process (curvedExt 2) chargedTracks remainingSeedFitter)
        = some (1, 0, 0, 1 / 16, 1 / 16) := by
  refine ⟨?_, by decide!, by decide!, by decide!, Option.isNone_iff_eq_none.mp (by decide!),
    by decide!, by decide!, by decide!, by decide!⟩
  simp only [loopEntry, if_true]
  rw [if_neg (by decide!)]
  rfl

end InversionFailure

/-! ### Defaults -/

section Defaults

open FwdDCAFitterN

/-- C31, as the code has it: a fitter made by either constructor has the
maximal number of iterations 20, the squared acceptance radius `200 * 200`
(so `getMaxR()` is 200 for a square root that is exact on it), the maximal
initial spread 4, the minimal parameter change `1/1000`, the minimal relative
chi2 change `9/10`, the squared merge distance 1, and the chi2 ceiling 100 in
both modes; `setUseAbsDCA` does not change the ceiling, and 999 is only the
default argument of `setMaxChi2`. -/
theorem default_configuration (N : Nat) (bz : ℚ) (useAbsDCA prop2DCA : Bool) :
    (∀ s : FwdDCAFitterN N, s = defaultFitter N ∨ s = construct N bz useAbsDCA prop2DCA →
      getMaxIter s = 20 ∧ s.mMaxR2 = 200 * 200
      ∧ (∀ ext : External N, ext.sqrt (200 * 200) = 200 → getMaxR ext s = 200)
      ∧ getMaxDXIni s = 4 ∧ getMinParamChange s = 1 / 1000 ∧ s.mMinRelChi2Change = 9 / 10
      ∧ getMaxDistance2ToMerge s = 1 ∧ getMaxChi2 s = 100)
    ∧ getUseAbsDCA (construct N bz useAbsDCA prop2DCA) = useAbsDCA
    ∧ getUseAbsDCA (defaultFitter N) = false
    ∧ (∀ (s : FwdDCAFitterN N) (v : Bool), getMaxChi2 (setUseAbsDCA s v) = getMaxChi2 s)
    ∧ (∀ s : FwdDCAFitterN N, getMaxChi2 (setMaxChi2 s setMaxChi2Default) = 999) := by
  refine ⟨fun s hs => ?_, rfl, rfl, fun s v => rfl, fun s => rfl⟩
  rcases hs with hs | hs
  · subst hs
    exact ⟨rfl, rfl, fun ext h => h, rfl, rfl, rfl, rfl, rfl⟩
  · subst hs
    exact ⟨rfl, rfl, fun ext h => h, rfl, rfl, rfl, rfl, rfl⟩

/-- The square root of `linearExt` is exact on the default squared radius. -/
theorem sqrtQ_default_radius : sqrtQ (200 * 200) = 200 := by
  have h : (200 * 200 : ℚ) = ((40000 : ℕ) : ℚ) := by norm_num
  rw [h]
  unfold sqrtQ
  rw [Rat.num_natCast, Rat.den_natCast]
  have h2 : (40000 : ℕ) = 200 * 200 := by norm_num
  simp only [Int.toNat_ofNat]
  rw [h2, Nat.sqrt_eq]
  norm_num

/-- Witness for C31: the default-constructed two-prong fitter, with the square
root of `linearExt`. -/
theorem default_configuration_witness :
    getMaxIter (defaultFitter 2) = 20 ∧ (defaultFitter 2).mMaxR2 = 200 * 200
    ∧ (linearExt 2).sqrt (200 * 200) = 200
    ∧ getMaxR (linearExt 2) (defaultFitter 2) = 200
    ∧ getMaxChi2 (defaultFitter 2) = 100 :=
  have h := (default_configuration 2 0 false true).1 (defaultFitter 2) (Or.inl rfl)
  ⟨h.1, h.2.1, sqrtQ_default_radius, h.2.2.1 (linearExt 2) sqrtQ_default_radius,
    h.2.2.2.2.2.2.2⟩

/-- Counterexample to C31 as stated: the chi2 ceiling of a new fitter does not
depend on the minimisation mode; it is 100 in the absolute-distance mode and
100 in the weighted mode, whichever constructor and whichever order of
`setUseAbsDCA` calls made the fitter, and never 999. -/
theorem default_ceiling_mode_independent :
    getMaxChi2 (construct 2 0 true true) = 100
    ∧ getMaxChi2 (construct 2 0 false true) = 100
    ∧ getMaxChi2 (setUseAbsDCA (defaultFitter 2) true) = 100
    ∧ getMaxChi2 (setUseAbsDCA (defaultFitter 2) false) = 100
    ∧ (100 : ℚ) ≠ 999 :=
  ⟨rfl, rfl, rfl, rfl, by norm_num⟩

end Defaults

/-! ### Loops that fill a table -/

/-- A loop whose pass `i` writes the entries `W i` of a table with values that
depend on the entry and on data that no pass changes: an entry written by some
pass holds its value, and the other entries are as before the loop. -/
theorem forDown_fill {σ α β κ : Type} (inv : σ → α) (g : σ → κ → β) (v : α → κ → β)
    (W : Nat → κ → Prop) (body : Nat → σ → σ) :
    ∀ (n : Nat) (s : σ), (∀ i t, i < n → inv (body i t) = inv t) →
      (∀ i t k, i < n → W i k → g (body i t) k = v (inv t) k) →
      (∀ i t k, i < n → ¬ W i k → g (body i t) k = g t k) →
      inv (forDown n body s) = inv s
      ∧ ∀ k, ((∃ i < n, W i k) → g (forDown n body s) k = v (inv s) k)
        ∧ ((∀ i < n, ¬ W i k) → g (forDown n body s) k = g s k) := by
  intro n
  induction n with
  | zero =>
    intro s _ _ _
    exact ⟨rfl, fun k => ⟨fun ⟨i, hi, _⟩ => absurd hi (Nat.not_lt_zero i), fun _ => rfl⟩⟩
  | succ n ih =>
    intro s hinv hw hn
    rw [forDown]
    obtain ⟨i1, i2⟩ := ih (body n s) (fun i t hi => hinv i t (Nat.lt_succ_of_lt hi))
      (fun i t k hi => hw i t k (Nat.lt_succ_of_lt hi))
      (fun i t k hi => hn i t k (Nat.lt_succ_of_lt hi))
    have hs := hinv n s (Nat.lt_succ_self n)
    refine ⟨i1.trans hs, fun k => ⟨fun ⟨i, hi, hik⟩ => ?_, fun hno => ?_⟩⟩
    · by_cases hex : ∃ j < n, W j k
      · rw [(i2 k).1 hex, hs]
      · have hall : ∀ j < n, ¬ W j k := fun j hj hjk => hex ⟨j, hj, hjk⟩
        have hin : i = n := by
          by_contra hne
          exact hall i (by omega) hik
        subst hin
        rw [(i2 k).2 hall, hw i s k (Nat.lt_succ_self i) hik]
    · rw [(i2 k).2 (fun j hj => hno j (Nat.lt_succ_of_lt hj)),
        hn n s k (Nat.lt_succ_self n) (hno n (Nat.lt_succ_self n))]

/-- A loop whose pass `i` replaces the entry `i` of an array by a value that
depends on the old entry and on data that no pass changes. -/
theorem forDown_update {σ α β : Type} (inv : σ → α) (g : σ → Nat → β) (u : α → Nat → β → β)
    (body : Nat → σ → σ) (hinv : ∀ i t, inv (body i t) = inv t)
    (hw : ∀ i t, g (body i t) i = u (inv t) i (g t i))
    (hn : ∀ i t k, k ≠ i → g (body i t) k = g t k) :
    ∀ (n : Nat) (s : σ), inv (forDown n body s) = inv s
      ∧ ∀ k, g (forDown n body s) k = if k < n then u (inv s) k (g s k) else g s k := by
  intro n
  induction n with
  | zero => intro s; exact ⟨rfl, fun k => by simp [forDown]⟩
  | succ n ih =>
    intro s
    rw [forDown]
    obtain ⟨i1, i2⟩ := ih (body n s)
    refine ⟨i1.trans (hinv n s), fun k => ?_⟩
    rw [i2 k, hinv n s]
    by_cases h1 : k < n
    · rw [if_pos h1, if_pos (Nat.lt_succ_of_lt h1), hn n s k (Nat.ne_of_lt h1)]
    · rw [if_neg h1]
      by_cases h2 : k = n
      · subst h2
        rw [if_pos (Nat.lt_succ_self k), hw]
      · rw [if_neg (by omega), hn n s k h2]

/-! ### Residual derivatives -/

section ResidDerivatives

open FwdDCAFitterN

variable {N : Nat}

/-- The entries that `FwdcalcResidDerivatives` writes, as the source computes
them, and what it leaves alone. -/
theorem FwdcalcResidDerivatives_entries (s : FwdDCAFitterN N) :
    (FwdcalcResidDerivatives s).mCurHyp = s.mCurHyp
    ∧ (FwdcalcResidDerivatives s).mTrCFVT = s.mTrCFVT
    ∧ (FwdcalcResidDerivatives s).mTrDer = s.mTrDer
    ∧ ∀ i < N, ∀ j < N,
      (FwdcalcResidDerivatives s).mDResidDx i j
        = (if i = j then
            ![-(s.mTrCFVT s.mCurHyp j 0 0 * (s.mTrDer s.mCurHyp j).dxdz
                  + s.mTrCFVT s.mCurHyp j 0 1 * (s.mTrDer s.mCurHyp j).dydz
                  + s.mTrCFVT s.mCurHyp j 0 2) + (s.mTrDer s.mCurHyp j).dxdz,
              -(s.mTrCFVT s.mCurHyp j 1 0 * (s.mTrDer s.mCurHyp j).dxdz
                  + s.mTrCFVT s.mCurHyp j 1 1 * (s.mTrDer s.mCurHyp j).dydz
                  + s.mTrCFVT s.mCurHyp j 1 2) + (s.mTrDer s.mCurHyp j).dydz,
              -(s.mTrCFVT s.mCurHyp j 2 0 * (s.mTrDer s.mCurHyp j).dxdz
                  + s.mTrCFVT s.mCurHyp j 2 1 * (s.mTrDer s.mCurHyp j).dydz
                  + s.mTrCFVT s.mCurHyp j 2 2) + 1]
          else
            ![-(s.mTrCFVT s.mCurHyp j 0 0 * (s.mTrDer s.mCurHyp j).dxdz
                  + s.mTrCFVT s.mCurHyp j 0 1 * (s.mTrDer s.mCurHyp j).dydz
                  + s.mTrCFVT s.mCurHyp j 0 2),
              -(s.mTrCFVT s.mCurHyp j 1 0 * (s.mTrDer s.mCurHyp j).dxdz
                  + s.mTrCFVT s.mCurHyp j 1 1 * (s.mTrDer s.mCurHyp j).dydz
                  + s.mTrCFVT s.mCurHyp j 1 2),
              -(s.mTrCFVT s.mCurHyp j 2 0 * (s.mTrDer s.mCurHyp j).dxdz
                  + s.mTrCFVT s.mCurHyp j 2 1 * (s.mTrDer s.mCurHyp j).dydz
                  + s.mTrCFVT s.mCurHyp j 2 2)])
      ∧ (FwdcalcResidDerivatives s).mD2ResidDx2 i j
        = (if i = j then
            ![-(s.mTrCFVT s.mCurHyp j 0 1 * (s.mTrDer s.mCurHyp j).d2ydz2
                  + s.mTrCFVT s.mCurHyp j 0 0 * (s.mTrDer s.mCurHyp j).d2xdz2)
                + (s.mTrDer s.mCurHyp j).d2xdz2,
              -(s.mTrCFVT s.mCurHyp j 1 1 * (s.mTrDer s.mCurHyp j).d2ydz2
                  + s.mTrCFVT s.mCurHyp j 1 0 * (s.mTrDer s.mCurHyp j).d2xdz2)
                + (s.mTrDer s.mCurHyp j).d2ydz2,
              -(s.mTrCFVT s.mCurHyp j 2 1 * (s.mTrDer s.mCurHyp j).d2ydz2
                  + s.mTrCFVT s.mCurHyp j 2 0 * (s.mTrDer s.mCurHyp j).d2xdz2)]
          else
            ![-(s.mTrCFVT s.mCurHyp j 0 1 * (s.mTrDer s.mCurHyp j).d2ydz2
                  + s.mTrCFVT s.mCurHyp j 0 0 * (s.mTrDer s.mCurHyp j).d2xdz2),
              -(s.mTrCFVT s.mCurHyp j 1 1 * (s.mTrDer s.mCurHyp j).d2ydz2
                  + s.mTrCFVT s.mCurHyp j 1 0 * (s.mTrDer s.mCurHyp j).d2xdz2),
              -(s.mTrCFVT s.mCurHyp j 2 1 * (s.mTrDer s.mCurHyp j).d2ydz2
                  + s.mTrCFVT s.mCurHyp j 2 0 * (s.mTrDer s.mCurHyp j).d2xdz2)]) := by
  -- the data that no pass changes, the table, and the value of an entry
  let inv : FwdDCAFitterN N → Nat × (Nat → Nat → MatStd3D) × (Nat → Nat → FwdTrackDeriv) :=
    fun t => (t.mCurHyp, t.mTrCFVT, t.mTrDer)
  let g : FwdDCAFitterN N → Nat × Nat → Vec3D × Vec3D :=
    fun t k => (t.mDResidDx k.1 k.2, t.mD2ResidDx2 k.1 k.2)
  let v : Nat × (Nat → Nat → MatStd3D) × (Nat → Nat → FwdTrackDeriv) → Nat × Nat → Vec3D × Vec3D :=
    fun a k =>
      ((if k.1 = k.2 then
          ![-(a.2.1 a.1 k.2 0 0 * (a.2.2 a.1 k.2).dxdz + a.2.1 a.1 k.2 0 1 * (a.2.2 a.1 k.2).dydz
                + a.2.1 a.1 k.2 0 2) + (a.2.2 a.1 k.2).dxdz,
            -(a.2.1 a.1 k.2 1 0 * (a.2.2 a.1 k.2).dxdz + a.2.1 a.1 k.2 1 1 * (a.2.2 a.1 k.2).dydz
                + a.2.1 a.1 k.2 1 2) + (a.2.2 a.1 k.2).dydz,
            -(a.2.1 a.1 k.2 2 0 * (a.2.2 a.1 k.2).dxdz + a.2.1 a.1 k.2 2 1 * (a.2.2 a.1 k.2).dydz
                + a.2.1 a.1 k.2 2 2) + 1]
        else
          ![-(a.2.1 a.1 k.2 0 0 * (a.2.2 a.1 k.2).dxdz + a.2.1 a.1 k.2 0 1 * (a.2.2 a.1 k.2).dydz
                + a.2.1 a.1 k.2 0 2),
            -(a.2.1 a.1 k.2 1 0 * (a.2.2 a.1 k.2).dxdz + a.2.1 a.1 k.2 1 1 * (a.2.2 a.1 k.2).dydz
                + a.2.1 a.1 k.2 1 2),
            -(a.2.1 a.1 k.2 2 0 * (a.2.2 a.1 k.2).dxdz + a.2.1 a.1 k.2 2 1 * (a.2.2 a.1 k.2).dydz
                + a.2.1 a.1 k.2 2 2)]),
       (if k.1 = k.2 then
          ![-(a.2.1 a.1 k.2 0 1 * (a.2.2 a.1 k.2).d2ydz2 + a.2.1 a.1 k.2 0 0 * (a.2.2 a.1 k.2).d2xdz2)
              + (a.2.2 a.1 k.2).d2xdz2,
            -(a.2.1 a.1 k.2 1 1 * (a.2.2 a.1 k.2).d2ydz2 + a.2.1 a.1 k.2 1 0 * (a.2.2 a.1 k.2).d2xdz2)
              + (a.2.2 a.1 k.2).d2ydz2,
            -(a.2.1 a.1 k.2 2 1 * (a.2.2 a.1 k.2).d2ydz2 + a.2.1 a.1 k.2 2 0 * (a.2.2 a.1 k.2).d2xdz2)]
        else
          ![-(a.2.1 a.1 k.2 0 1 * (a.2.2 a.1 k.2).d2ydz2 + a.2.1 a.1 k.2 0 0 * (a.2.2 a.1 k.2).d2xdz2),
            -(a.2.1 a.1 k.2 1 1 * (a.2.2 a.1 k.2).d2ydz2 + a.2.1 a.1 k.2 1 0 * (a.2.2 a.1 k.2).d2xdz2),
            -(a.2.1 a.1 k.2 2 1 * (a.2.2 a.1 k.2).d2ydz2
                + a.2.1 a.1 k.2 2 0 * (a.2.2 a.1 k.2).d2xdz2)]))
  -- the body of the loop over `j` for one `i`
  let inner : Nat → Nat → FwdDCAFitterN N → FwdDCAFitterN N := fun i j t =>
    let matT := t.mTrCFVT t.mCurHyp j
    let trDx := t.mTrDer t.mCurHyp j
    let matMT : MatStd3D := matT
    let dr1 : Vec3D :=
      ![-(matMT 0 0 * trDx.dxdz + matMT 0 1 * trDx.dydz + matMT 0 2),
        -(matMT 1 0 * trDx.dxdz + matMT 1 1 * trDx.dydz + matMT 1 2),
        -(matMT 2 0 * trDx.dxdz + matMT 2 1 * trDx.dydz + matMT 2 2)]
    let dr2 : Vec3D :=
      ![-(matMT 0 1 * trDx.d2ydz2 + matMT 0 0 * trDx.d2xdz2),
        -(matMT 1 1 * trDx.d2ydz2 + matMT 1 0 * trDx.d2xdz2),
        -(matMT 2 1 * trDx.d2ydz2 + matMT 2 0 * trDx.d2xdz2)]
    let dr1f : Vec3D :=
      if i = j then ![dr1 0 + trDx.dxdz, dr1 1 + trDx.dydz, dr1 2 + 1] else dr1
    let dr2f : Vec3D :=
      if i = j then ![dr2 0 + trDx.d2xdz2, dr2 1 + trDx.d2ydz2, dr2 2] else dr2
    { t with
      mDResidDx := upd2 t.mDResidDx i j dr1f
      mD2ResidDx2 := upd2 t.mD2ResidDx2 i j dr2f }
  have hdef : FwdcalcResidDerivatives s
      = forDown N (fun i (si : FwdDCAFitterN N) => forDown N (inner i) si) s := rfl
  have hin : ∀ (i : Nat) (t : FwdDCAFitterN N),
      inv (forDown N (inner i) t) = inv t
      ∧ ∀ k, ((∃ j < N, k = (i, j)) → g (forDown N (inner i) t) k = v (inv t) k)
        ∧ ((∀ j < N, ¬ k = (i, j)) → g (forDown N (inner i) t) k = g t k) := by
    intro i t
    refine forDown_fill inv g v (fun j k => k = (i, j)) (inner i) N t (fun j u _ => rfl)
      (fun j u k _ hk => ?_) (fun j u k _ hk => ?_)
    · subst hk
      by_cases hij : i = j
      · subst hij
        simp [g, v, inv, inner, upd2]
      · simp [g, v, inv, inner, upd2, hij]
    · obtain ⟨k1, k2⟩ := k
      have hne : ¬ (k1 = i ∧ k2 = j) := fun h => hk (by rw [h.1, h.2])
      simp [g, inner, upd2, hne]
  -- the loop over `i`
  have outer := forDown_fill inv g v (fun i k => k.1 = i ∧ k.2 < N)
    (fun i (si : FwdDCAFitterN N) => forDown N (inner i) si) N s
    (fun i u _ => (hin i u).1)
    (fun i u k _ hk => ((hin i u).2 k).1 ⟨k.2, hk.2, by rw [← hk.1]⟩)
    (fun i u k _ hk => ((hin i u).2 k).2 (fun j hj he => hk (by rw [he]; exact ⟨rfl, hj⟩)))
  rw [← hdef] at outer
  obtain ⟨o1, o2⟩ := outer
  have o1' : inv (FwdcalcResidDerivatives s) = inv s := o1
  simp only [inv, Prod.mk.injEq] at o1'
  refine ⟨o1'.1, o1'.2.1, o1'.2.2, fun i hi j hj => ?_⟩
  have h := (o2 (i, j)).1 ⟨i, hi, rfl, hj⟩
  have h' : g (FwdcalcResidDerivatives s) (i, j) = v (inv s) (i, j) := h
  simp only [g, v, inv, Prod.mk.injEq] at h'
  exact h'

/-- C32: after `FwdcalcResidDerivatives`, for all prongs `i`, `j` the first
derivative `mDResidDx[i][j]` is `(delta_ij * I - T_j)` applied to
`(dxdz_j, dydz_j, 1)` and the second derivative `mD2ResidDx2[i][j]` is
`(delta_ij * I - T_j)` applied to `(d2xdz2_j, d2ydz2_j, 0)`, with the coefficient
matrix `T_j` and the derivatives of prong `j` of the current hypothesis, which
the call leaves as they were. -/
theorem FwdcalcResidDerivatives_matrix_form (s : FwdDCAFitterN N) (i j : Nat) (hi : i < N)
    (hj : j < N) :
    (FwdcalcResidDerivatives s).mDResidDx i j
      = Matrix.mulVec ((if i = j then (1 : MatStd3D) else 0) - s.mTrCFVT s.mCurHyp j)
          ![(s.mTrDer s.mCurHyp j).dxdz, (s.mTrDer s.mCurHyp j).dydz, 1]
    ∧ (FwdcalcResidDerivatives s).mD2ResidDx2 i j
      = Matrix.mulVec ((if i = j then (1 : MatStd3D) else 0) - s.mTrCFVT s.mCurHyp j)
          ![(s.mTrDer s.mCurHyp j).d2xdz2, (s.mTrDer s.mCurHyp j).d2ydz2, 0]
    ∧ (FwdcalcResidDerivatives s).mCurHyp = s.mCurHyp
    ∧ (FwdcalcResidDerivatives s).mTrCFVT = s.mTrCFVT
    ∧ (FwdcalcResidDerivatives s).mTrDer = s.mTrDer := by
  obtain ⟨e1, e2, e3, e4⟩ := FwdcalcResidDerivatives_entries s
  obtain ⟨d1, d2⟩ := e4 i hi j hj
  refine ⟨?_, ?_, e1, e2, e3⟩
  · rw [d1]
    by_cases hij : i = j
    · simp only [hij, if_true]
      funext c
      fin_cases c <;>
        simp [Matrix.mulVec, Matrix.dotProduct, Fin.sum_univ_three, Matrix.sub_apply,
          Matrix.one_apply] <;> ring
    · simp only [hij, if_false]
      funext c
      fin_cases c <;>
        simp [Matrix.mulVec, Matrix.dotProduct, Fin.sum_univ_three, Matrix.sub_apply]
  · rw [d2]
    by_cases hij : i = j
    · simp only [hij, if_true]
      funext c
      fin_cases c <;>
        simp [Matrix.mulVec, Matrix.dotProduct, Fin.sum_univ_three, Matrix.sub_apply,
          Matrix.one_apply] <;> ring
    · simp only [hij, if_false]
      funext c
      fin_cases c <;>
        simp [Matrix.mulVec, Matrix.dotProduct, Fin.sum_univ_three, Matrix.sub_apply] <;> ring

/-- Witness for C32: the entries `[0][1]` of the two-prong state
`chi2NegativeState`. -/
theorem FwdcalcResidDerivatives_matrix_form_witness :
    (0 < 2 ∧ 1 < 2)
    ∧ (FwdcalcResidDerivatives chi2NegativeState).mDResidDx 0 1
      = Matrix.mulVec ((if (0 : Nat) = 1 then (1 : MatStd3D) else 0)
            - chi2NegativeState.mTrCFVT chi2NegativeState.mCurHyp 1)
          ![(chi2NegativeState.mTrDer chi2NegativeState.mCurHyp 1).dxdz,
            (chi2NegativeState.mTrDer chi2NegativeState.mCurHyp 1).dydz, 1] :=
  ⟨⟨by decide, by decide⟩,
    (FwdcalcResidDerivatives_matrix_form chi2NegativeState 0 1 (by decide) (by decide)).1⟩

end ResidDerivatives

/-! ### Residual derivatives of the absolute-distance mode -/

section ResidDerivativesNoErr

open FwdDCAFitterN

variable {N : Nat}

/-- The entries that `FwdcalcResidDerivativesNoErr` writes, as the source
computes them, and what it leaves alone. -/
theorem FwdcalcResidDerivativesNoErr_entries (s : FwdDCAFitterN N) :
    (FwdcalcResidDerivativesNoErr s).mCurHyp = s.mCurHyp
    ∧ (FwdcalcResidDerivativesNoErr s).mTrDer = s.mTrDer
    ∧ ∀ i < N, ∀ j < N,
      (FwdcalcResidDerivativesNoErr s).mDResidDx i j
        = (if i = j then
            ![(1 - NInv N) * (s.mTrDer s.mCurHyp j).dxdz,
              (1 - NInv N) * (s.mTrDer s.mCurHyp j).dydz, 1 - NInv N]
          else
            ![-(s.mTrDer s.mCurHyp j).dxdz * NInv N, -(s.mTrDer s.mCurHyp j).dydz * NInv N,
              -1 * NInv N])
      ∧ (FwdcalcResidDerivativesNoErr s).mD2ResidDx2 i j
        = (if i = j then
            ![(1 - NInv N) * (s.mTrDer s.mCurHyp j).d2xdz2,
              (1 - NInv N) * (s.mTrDer s.mCurHyp j).d2ydz2, 0]
          else
            ![-(s.mTrDer s.mCurHyp j).d2xdz2 * NInv N, -(s.mTrDer s.mCurHyp j).d2ydz2 * NInv N,
              0]) := by
  let inv : FwdDCAFitterN N → Nat × (Nat → Nat → FwdTrackDeriv) := fun t => (t.mCurHyp, t.mTrDer)
  let g : FwdDCAFitterN N → Nat × Nat → Vec3D × Vec3D :=
    fun t k => (t.mDResidDx k.1 k.2, t.mD2ResidDx2 k.1 k.2)
  -- the off-diagonal and the diagonal value, from the derivatives of one track
  let offd : FwdTrackDeriv → Vec3D × Vec3D := fun d =>
    (![-d.dxdz * NInv N, -d.dydz * NInv N, -1 * NInv N], ![-d.d2xdz2 * NInv N, -d.d2ydz2 * NInv N, 0])
  let dg : FwdTrackDeriv → Vec3D × Vec3D := fun d =>
    (![(1 - NInv N) * d.dxdz, (1 - NInv N) * d.dydz, 1 - NInv N],
      ![(1 - NInv N) * d.d2xdz2, (1 - NInv N) * d.d2ydz2, 0])
  let v : Nat × (Nat → Nat → FwdTrackDeriv) → Nat × Nat → Vec3D × Vec3D :=
    fun a k => if k.1 = k.2 then dg (a.2 a.1 k.2) else offd (a.2 a.1 k.2)
  let vi : Nat → FwdTrackDeriv → Nat × (Nat → Nat → FwdTrackDeriv) → Nat × Nat → Vec3D × Vec3D :=
    fun i d a k => if k.1 = i then offd (a.2 a.1 k.2) else offd d
  let inner : Nat → FwdTrackDeriv → Nat → FwdDCAFitterN N → FwdDCAFitterN N :=
    fun i trDxi j t =>
      let trDxj := t.mTrDer t.mCurHyp j
      let d1 := upd2 (upd2 t.mDResidDx i j ![-trDxj.dxdz * NInv N, -trDxj.dydz * NInv N, -1 * NInv N])
        j i ![-trDxi.dxdz * NInv N, -trDxi.dydz * NInv N, -1 * NInv N]
      let d2 := upd2 (upd2 t.mD2ResidDx2 i j ![-trDxj.d2xdz2 * NInv N, -trDxj.d2ydz2 * NInv N, 0])
        j i ![-trDxi.d2xdz2 * NInv N, -trDxi.d2ydz2 * NInv N, 0]
      { t with mDResidDx := d1, mD2ResidDx2 := d2 }
  let diag : Nat → FwdDCAFitterN N → FwdDCAFitterN N := fun i si =>
    { si with
      mDResidDx := upd2 si.mDResidDx i i
        ![(1 - NInv N) * (si.mTrDer si.mCurHyp i).dxdz,
          (1 - NInv N) * (si.mTrDer si.mCurHyp i).dydz, 1 - NInv N]
      mD2ResidDx2 := upd2 si.mD2ResidDx2 i i
        ![(1 - NInv N) * (si.mTrDer si.mCurHyp i).d2xdz2,
          (1 - NInv N) * (si.mTrDer si.mCurHyp i).d2ydz2, 0] }
  have hdef : FwdcalcResidDerivativesNoErr s
      = forDown N (fun i (si : FwdDCAFitterN N) =>
          forDown i (inner i (si.mTrDer si.mCurHyp i)) (diag i si)) s := rfl
  have hin : ∀ (i : Nat) (d : FwdTrackDeriv) (t : FwdDCAFitterN N),
      inv (forDown i (inner i d) t) = inv t
      ∧ ∀ k, ((∃ j < i, k = (i, j) ∨ k = (j, i)) → g (forDown i (inner i d) t) k = vi i d (inv t) k)
        ∧ ((∀ j < i, ¬ (k = (i, j) ∨ k = (j, i))) → g (forDown i (inner i d) t) k = g t k) := by
    intro i d t
    refine forDown_fill inv g (vi i d) (fun j k => k = (i, j) ∨ k = (j, i)) (inner i d) i t
      (fun j u _ => rfl) (fun j u k hj hk => ?_) (fun j u k hj hk => ?_)
    · have hne : j ≠ i := Nat.ne_of_lt hj
      have hne' : i ≠ j := fun h => hne h.symm
      rcases hk with hk | hk
      · subst hk
        simp [g, vi, inv, inner, offd, upd2, hne, hne']
      · subst hk
        simp [g, vi, inv, inner, offd, upd2, hne, hne']
    · obtain ⟨k1, k2⟩ := k
      have h1 : ¬ (k1 = i ∧ k2 = j) := fun h => hk (Or.inl (by rw [h.1, h.2]))
      have h2 : ¬ (k1 = j ∧ k2 = i) := fun h => hk (Or.inr (by rw [h.1, h.2]))
      simp [g, inner, upd2, h1, h2]
  have outer := forDown_fill inv g v (fun i k => (k.1 = i ∧ k.2 ≤ i) ∨ (k.2 = i ∧ k.1 ≤ i))
    (fun i (si : FwdDCAFitterN N) => forDown i (inner i (si.mTrDer si.mCurHyp i)) (diag i si)) N s
    (fun i u _ => (hin i _ (diag i u)).1)
    (fun i u k _ hk => ?_) (fun i u k _ hk => ?_)
  · rw [← hdef] at outer
    obtain ⟨o1, o2⟩ := outer
    have o1' : inv (FwdcalcResidDerivativesNoErr s) = inv s := o1
    simp only [inv, Prod.mk.injEq] at o1'
    refine ⟨o1'.1, o1'.2, fun i hi j hj => ?_⟩
    have hmax : ∃ m < N, ((i, j).1 = m ∧ (i, j).2 ≤ m) ∨ ((i, j).2 = m ∧ (i, j).1 ≤ m) := by
      by_cases hij : j ≤ i
      · exact ⟨i, hi, Or.inl ⟨rfl, hij⟩⟩
      · exact ⟨j, hj, Or.inr ⟨rfl, by omega⟩⟩
    have h : g (FwdcalcResidDerivativesNoErr s) (i, j) = v (inv s) (i, j) := (o2 (i, j)).1 hmax
    by_cases hij : i = j
    · simp only [g, v, inv, dg, hij, if_true, Prod.mk.injEq] at h ⊢
      exact h
    · simp only [g, v, inv, offd, hij, if_false, Prod.mk.injEq] at h ⊢
      exact h
  · -- an entry written by pass `i`
    dsimp only
    obtain ⟨k1, k2⟩ := k
    by_cases hd : k1 = i ∧ k2 = i
    · obtain ⟨h1, h2⟩ := hd
      rw [h1, h2]
      rw [((hin i _ (diag i u)).2 (i, i)).2 (fun j hj h => by
        rcases h with h | h
        · simp only [Prod.mk.injEq] at h
          omega
        · simp only [Prod.mk.injEq] at h
          omega)]
      simp [g, v, inv, dg, diag, upd2]
    · have hex : ∃ j < i, (k1, k2) = (i, j) ∨ (k1, k2) = (j, i) := by
        rcases hk with ⟨h1, h2⟩ | ⟨h1, h2⟩
        · dsimp only at h1 h2
          exact ⟨k2, by omega, Or.inl (by rw [h1])⟩
        · dsimp only at h1 h2
          exact ⟨k1, by omega, Or.inr (by rw [h1])⟩
      rw [((hin i _ (diag i u)).2 (k1, k2)).1 hex]
      obtain ⟨j, hj, h | h⟩ := hex
      · simp only [Prod.mk.injEq] at h
        obtain ⟨h1, h2⟩ := h
        subst h1
        subst h2
        have hne : ¬ k1 = k2 := by omega
        simp [vi, v, inv, diag, hne]
      · simp only [Prod.mk.injEq] at h
        obtain ⟨h1, h2⟩ := h
        subst h1
        subst h2
        have hne : ¬ k1 = k2 := by omega
        simp [vi, v, inv, diag, hne]
  · -- an entry that pass `i` does not write
    dsimp only
    obtain ⟨k1, k2⟩ := k
    have hno : ∀ j < i, ¬ ((k1, k2) = (i, j) ∨ (k1, k2) = (j, i)) := by
      intro j hj h
      rcases h with h | h
      · simp only [Prod.mk.injEq] at h
        exact hk (Or.inl ⟨h.1, by rw [h.2]; omega⟩)
      · simp only [Prod.mk.injEq] at h
        exact hk (Or.inr ⟨h.2, by rw [h.1]; omega⟩)
    rw [((hin i _ (diag i u)).2 (k1, k2)).2 hno]
    have hd : ¬ (k1 = i ∧ k2 = i) := fun h => hk (Or.inl ⟨h.1, by rw [h.2]⟩)
    simp [g, diag, upd2, hd]

/-- C33: for every number of prongs (in particular 2, 3 and 4) and every set of
track derivatives, the first and second residual derivatives that
`FwdcalcResidDerivativesNoErr` produces for all pairs `(i, j)` are those that
the weighted `FwdcalcResidDerivatives` produces when every coefficient matrix
`T_j` of the current hypothesis is `1/N` times the identity. -/
theorem FwdcalcResidDerivativesNoErr_eq_weighted (s : FwdDCAFitterN N)
    (hT : ∀ j < N, s.mTrCFVT s.mCurHyp j = NInv N • (1 : MatStd3D)) (i j : Nat) (hi : i < N)
    (hj : j < N) :
    (FwdcalcResidDerivativesNoErr s).mDResidDx i j = (FwdcalcResidDerivatives s).mDResidDx i j
    ∧ (FwdcalcResidDerivativesNoErr s).mD2ResidDx2 i j
      = (FwdcalcResidDerivatives s).mD2ResidDx2 i j := by
  obtain ⟨_, _, e3⟩ := FwdcalcResidDerivativesNoErr_entries s
  obtain ⟨n1, n2⟩ := e3 i hi j hj
  obtain ⟨w1, w2, _⟩ := FwdcalcResidDerivatives_matrix_form s i j hi hj
  rw [n1, n2, w1, w2, hT j hj]
  by_cases hij : i = j
  · simp only [hij, if_true]
    constructor <;>
    · funext c
      fin_cases c <;>
        simp [Matrix.mulVec, Matrix.dotProduct, Fin.sum_univ_three, Matrix.sub_apply,
          Matrix.one_apply, Matrix.smul_apply]
  · simp only [hij, if_false]
    constructor <;>
    · funext c
      fin_cases c <;>
        simp [Matrix.mulVec, Matrix.dotProduct, Fin.sum_univ_three, Matrix.sub_apply,
          Matrix.one_apply, Matrix.smul_apply, mul_comm]

/-- Witness for C33: the two-prong state `chi2NegativeState` with the
coefficient matrices `1/2` times the identity, pair `(1, 0)`. -/
theorem FwdcalcResidDerivativesNoErr_eq_weighted_witness :
    (∀ j < 2, ({ chi2NegativeState with
        mTrCFVT := fun _ _ => NInv 2 • (1 : MatStd3D) } : FwdDCAFitterN 2).mTrCFVT 0 j
      = NInv 2 • (1 : MatStd3D))
    ∧ (FwdcalcResidDerivativesNoErr ({ chi2NegativeState with
        mTrCFVT := fun _ _ => NInv 2 • (1 : MatStd3D) } : FwdDCAFitterN 2)).mDResidDx 1 0
      = (FwdcalcResidDerivatives ({ chi2NegativeState with
        mTrCFVT := fun _ _ => NInv 2 • (1 : MatStd3D) } : FwdDCAFitterN 2)).mDResidDx 1 0 :=
  ⟨fun _ _ => rfl,
    (FwdcalcResidDerivativesNoErr_eq_weighted
      ({ chi2NegativeState with mTrCFVT := fun _ _ => NInv 2 • (1 : MatStd3D) } : FwdDCAFitterN 2)
      (fun _ _ => rfl) 1 0 (by decide) (by decide)).1⟩

end ResidDerivativesNoErr

/-! ### The Newton correction -/

section Correction

open FwdDCAFitterN

variable {N : Nat}

/-- The positions after `FwdcorrectTracks`, as the source computes them, and what
the call leaves alone. -/
theorem FwdcorrectTracks_entries (corrZ : Nat → ℚ) (s : FwdDCAFitterN N) :
    (FwdcorrectTracks corrZ s).2.mCurHyp = s.mCurHyp
    ∧ (FwdcorrectTracks corrZ s).2.mTrDer = s.mTrDer
    ∧ ∀ k, (FwdcorrectTracks corrZ s).2.mTrPos s.mCurHyp k
      = if k < N then
          Vec3D.setAt (Vec3D.setAt (Vec3D.setAt (s.mTrPos s.mCurHyp k) 0
            (s.mTrPos s.mCurHyp k 0 - ((s.mTrDer s.mCurHyp k).dxdz * corrZ k
              - (1 / 2 : ℚ) * corrZ k * corrZ k * (s.mTrDer s.mCurHyp k).d2xdz2))) 1
            (s.mTrPos s.mCurHyp k 1 - ((s.mTrDer s.mCurHyp k).dydz * corrZ k
              - (1 / 2 : ℚ) * corrZ k * corrZ k * (s.mTrDer s.mCurHyp k).d2ydz2))) 2
            (s.mTrPos s.mCurHyp k 2 - corrZ k)
        else s.mTrPos s.mCurHyp k := by
  have h := forDown_update (fun t : FwdDCAFitterN N => (t.mCurHyp, t.mTrDer))
    (fun t k => t.mTrPos t.mCurHyp k)
    (fun (a : Nat × (Nat → Nat → FwdTrackDeriv)) k (p : Vec3D) =>
      Vec3D.setAt (Vec3D.setAt (Vec3D.setAt p 0
        (p 0 - ((a.2 a.1 k).dxdz * corrZ k - (1 / 2 : ℚ) * corrZ k * corrZ k * (a.2 a.1 k).d2xdz2))) 1
        (p 1 - ((a.2 a.1 k).dydz * corrZ k - (1 / 2 : ℚ) * corrZ k * corrZ k * (a.2 a.1 k).d2ydz2))) 2
        (p 2 - corrZ k))
    (fun i (t : FwdDCAFitterN N) =>
      let trDer := t.mTrDer t.mCurHyp i
      let dz2h := (1 / 2 : ℚ) * corrZ i * corrZ i
      let pos := t.mTrPos t.mCurHyp i
      let pos0 := Vec3D.setAt pos 0 (pos 0 - (trDer.dxdz * corrZ i - dz2h * trDer.d2xdz2))
      let pos1 := Vec3D.setAt pos0 1 (pos0 1 - (trDer.dydz * corrZ i - dz2h * trDer.d2ydz2))
      let pos2 := Vec3D.setAt pos1 2 (pos1 2 - corrZ i)
      { t with mTrPos := upd2 t.mTrPos t.mCurHyp i pos2 })
    (fun _ _ => rfl) (fun i t => by simp [upd2, Vec3D.setAt])
    (fun i t k hk => by simp [upd2, hk]) N s
  obtain ⟨h1, h2⟩ := h
  have h1' : ((FwdcorrectTracks corrZ s).2.mCurHyp, (FwdcorrectTracks corrZ s).2.mTrDer)
      = (s.mCurHyp, s.mTrDer) := h1
  simp only [Prod.mk.injEq] at h1'
  refine ⟨h1'.1, h1'.2, fun k => ?_⟩
  have h2' := h2 k
  have hc : (FwdcorrectTracks corrZ s).2.mCurHyp = s.mCurHyp := h1'.1
  unfold FwdcorrectTracks at hc ⊢
  dsimp only at h2' hc ⊢
  rw [hc] at h2'
  exact h2'

/-- C35: for every correction vector, `FwdcorrectTracks` returns true and
replaces the position `(x, y, z)` of each prong `i` of the current hypothesis by
`(x - dxdz_i*dz_i + (1/2)*d2xdz2_i*dz_i^2, y - dydz_i*dz_i + (1/2)*d2ydz2_i*dz_i^2,
z - dz_i)`; the new position of prong `i` depends only on its old position, on
`dz_i` and on the derivatives of prong `i`; and a zero correction leaves every
position as it was. -/
theorem FwdcorrectTracks_expansion (corrZ : Nat → ℚ) (s : FwdDCAFitterN N) :
    (FwdcorrectTracks corrZ s).1 = true
    ∧ (∀ i < N, (FwdcorrectTracks corrZ s).2.mTrPos s.mCurHyp i
      = ![s.mTrPos s.mCurHyp i 0 - (s.mTrDer s.mCurHyp i).dxdz * corrZ i
            + (1 / 2) * (s.mTrDer s.mCurHyp i).d2xdz2 * corrZ i ^ 2,
          s.mTrPos s.mCurHyp i 1 - (s.mTrDer s.mCurHyp i).dydz * corrZ i
            + (1 / 2) * (s.mTrDer s.mCurHyp i).d2ydz2 * corrZ i ^ 2,
          s.mTrPos s.mCurHyp i 2 - corrZ i])
    ∧ (∀ (corrZ' : Nat → ℚ) (s' : FwdDCAFitterN N), ∀ i < N, corrZ' i = corrZ i →
      s'.mTrDer s'.mCurHyp i = s.mTrDer s.mCurHyp i →
      s'.mTrPos s'.mCurHyp i = s.mTrPos s.mCurHyp i →
      (FwdcorrectTracks corrZ' s').2.mTrPos s'.mCurHyp i
        = (FwdcorrectTracks corrZ s).2.mTrPos s.mCurHyp i)
    ∧ ((∀ i < N, corrZ i = 0) →
      ∀ i, (FwdcorrectTracks corrZ s).2.mTrPos s.mCurHyp i = s.mTrPos s.mCurHyp i)
    ∧ (FwdcorrectTracks corrZ s).2.mCurHyp = s.mCurHyp
    ∧ (FwdcorrectTracks corrZ s).2.mTrDer = s.mTrDer := by
  obtain ⟨e1, e2, e3⟩ := FwdcorrectTracks_entries corrZ s
  refine ⟨rfl, fun i hi => ?_, fun corrZ' s' i hi hc hd hp => ?_, fun hz i => ?_, e1, e2⟩
  · rw [e3 i, if_pos hi]
    funext c
    fin_cases c <;> simp [Vec3D.setAt] <;> ring
  · rw [e3 i, if_pos hi, (FwdcorrectTracks_entries corrZ' s').2.2 i, if_pos hi, hc, hd, hp]
  · rw [e3 i]
    by_cases hi : i < N
    · rw [if_pos hi, hz i hi]
      funext c
      fin_cases c <;> simp [Vec3D.setAt]
    · rw [if_neg hi]

set_option maxRecDepth 100000 in
/-- Witness for C35: the zero correction on the two-prong state
`newtonEntryState`. -/
theorem FwdcorrectTracks_expansion_witness :
    (∀ i < 2, (fun _ : Nat => (0 : ℚ)) i = 0)
    ∧ ∀ i, (FwdcorrectTracks (fun _ => 0) newtonEntryState).2.mTrPos newtonEntryState.mCurHyp i
        = newtonEntryState.mTrPos newtonEntryState.mCurHyp i :=
  ⟨fun _ _ => rfl,
    (FwdcorrectTracks_expansion (fun _ => 0) newtonEntryState).2.2.2.1 (fun _ _ => rfl)⟩

end Correction

/-! ### The gradient of the chi2 -/

section Gradient

open FwdDCAFitterN

variable {N : Nat}

/-- The gradient that `FwdcalcChi2Derivatives` stores: component `i` is the sum
over the prongs `j` of `res_j . (E_j * dres_j/dx_i)`, with the augmented inverse
covariance `E_j`; the residuals, the inverse covariances and the residual
derivatives are left as they were. -/
theorem FwdcalcChi2Derivatives_gradient (s : FwdDCAFitterN N) :
    (FwdcalcChi2Derivatives s).mCurHyp = s.mCurHyp
    ∧ (FwdcalcChi2Derivatives s).mTrRes = s.mTrRes
    ∧ (FwdcalcChi2Derivatives s).mTrPos = s.mTrPos
    ∧ ∀ i < N, (FwdcalcChi2Derivatives s).mDChi2Dz i
      = ∑ j in Finset.range N, Dot (s.mTrRes s.mCurHyp j)
          (Matrix.mulVec (augmentedInvCov (s.mTrcEInv s.mCurHyp j)) (s.mDResidDx j i)) := by
  let inv : FwdDCAFitterN N × (Nat → Nat → Vec3D)
      → Nat × (Nat → Nat → Vec3D) × (Nat → Nat → FwdTrackCovI) × (Nat → Nat → Vec3D)
        × (Nat → Nat → Vec3D) :=
    fun p => (p.1.mCurHyp, p.1.mTrRes, p.1.mTrcEInv, p.1.mDResidDx, p.1.mTrPos)
  let f : Nat × (Nat → Nat → Vec3D) × (Nat → Nat → FwdTrackCovI) × (Nat → Nat → Vec3D)
      × (Nat → Nat → Vec3D) → Nat → Nat → ℚ :=
    fun a i j => Dot (a.2.1 a.1 j)
      ![(a.2.2.1 a.1 j).sxx * a.2.2.2.1 j i 0 + (a.2.2.1 a.1 j).sxy * a.2.2.2.1 j i 1,
        (a.2.2.1 a.1 j).sxy * a.2.2.2.1 j i 0 + (a.2.2.1 a.1 j).syy * a.2.2.2.1 j i 1,
        (a.2.2.1 a.1 j).szz * a.2.2.2.1 j i 2]
  let B : Nat → Nat → FwdDCAFitterN N × (Nat → Nat → Vec3D)
      → FwdDCAFitterN N × (Nat → Nat → Vec3D) := fun i j q =>
    let res := q.1.mTrRes q.1.mCurHyp j
    let covI := q.1.mTrcEInv q.1.mCurHyp j
    let dr1 := q.1.mDResidDx j i
    let cidr : Vec3D :=
      ![covI.sxx * dr1 0 + covI.sxy * dr1 1,
        covI.sxy * dr1 0 + covI.syy * dr1 1,
        covI.szz * dr1 2]
    ({ q.1 with mDChi2Dz := upd q.1.mDChi2Dz i (q.1.mDChi2Dz i + Dot res cidr) },
      upd2 q.2 i j cidr)
  let O : Nat → FwdDCAFitterN N × (Nat → Nat → Vec3D)
      → FwdDCAFitterN N × (Nat → Nat → Vec3D) := fun i p =>
    forDown N (B i) ({ p.1 with mDChi2Dz := upd p.1.mDChi2Dz i 0 }, p.2)
  have hdef : FwdcalcChi2Derivatives1 s = forDown N O (s, fun _ _ => 0) := rfl
  have hacc : ∀ i q, (forDown N (B i) q).1.mDChi2Dz i
      = q.1.mDChi2Dz i + ∑ j in Finset.range N, f (inv q) i j := fun i q =>
    forDown_acc inv (fun q => q.1.mDChi2Dz i) (fun a j => f a i j) (B i) (fun _ _ => rfl)
      (fun j q => by simp [B, f, inv, upd]) N q
  have hinv : ∀ i q, inv (forDown N (B i) q) = inv q := fun i q =>
    forDown_preserves inv (B i) (fun _ _ => rfl) N q
  have hoth : ∀ i k q, k ≠ i → (forDown N (B i) q).1.mDChi2Dz k = q.1.mDChi2Dz k := fun i k q hk =>
    forDown_preserves (fun q : FwdDCAFitterN N × (Nat → Nat → Vec3D) => q.1.mDChi2Dz k) (B i)
      (fun j q => by simp [B, upd, hk]) N q
  have h1 := forDown_fill inv (fun p k => p.1.mDChi2Dz k)
    (fun a k => ∑ j in Finset.range N, f a k j) (fun i k => k = i) O N (s, fun _ _ => 0)
    (fun i p _ => hinv i _)
    (fun i p k _ hk => by
      subst hk
      show (forDown N (B k) _).1.mDChi2Dz k = _
      rw [hacc]
      simp [inv, upd])
    (fun i p k _ hk => by
      show (forDown N (B i) _).1.mDChi2Dz k = _
      rw [hoth i k _ hk]
      simp [upd, hk])
  rw [← hdef] at h1
  obtain ⟨a1, a2⟩ := h1
  have hfr : ∀ {α : Type} (o : FwdDCAFitterN N → α),
      (∀ (t : FwdDCAFitterN N) (m : Nat → Nat → ℚ), o { t with mD2Chi2Dz2 := m } = o t) →
      o (FwdcalcChi2Derivatives s) = o (FwdcalcChi2Derivatives1 s).1 := by
    intro α o ho
    unfold FwdcalcChi2Derivatives
    refine forDown_preserves o _ (fun i t => ?_) _ _
    refine forDown_preserves o _ (fun j u => ?_) _ _
    refine (forDown_preserves o _ (fun k w => ?_) _ _).trans (ho u _)
    exact ho w _
  have a1' : inv (FwdcalcChi2Derivatives1 s) = inv (s, fun _ _ => 0) := a1
  simp only [inv, Prod.mk.injEq] at a1'
  refine ⟨(hfr (fun t => t.mCurHyp) (fun _ _ => rfl)).trans a1'.1,
    (hfr (fun t => t.mTrRes) (fun _ _ => rfl)).trans a1'.2.1,
    (hfr (fun t => t.mTrPos) (fun _ _ => rfl)).trans a1'.2.2.2.2, fun i hi => ?_⟩
  rw [hfr (fun t => t.mDChi2Dz i) (fun _ _ => rfl)]
  have h := (a2 i).1 ⟨i, hi, rfl⟩
  dsimp only at h
  rw [h]
  refine Finset.sum_congr rfl (fun j _ => ?_)
  simp only [f, inv, Dot, augmentedInvCov]
  simp [Matrix.mulVec, Matrix.dotProduct, Fin.sum_univ_three]

/-- The gradient that `FwdcalcChi2DerivativesNoErr` stores: component `i` is the
sum over the prongs `j` of `res_j . dres_j/dx_i`; the residuals and the
positions are left as they were. -/
theorem FwdcalcChi2DerivativesNoErr_gradient (s : FwdDCAFitterN N) :
    (FwdcalcChi2DerivativesNoErr s).mCurHyp = s.mCurHyp
    ∧ (FwdcalcChi2DerivativesNoErr s).mTrRes = s.mTrRes
    ∧ (FwdcalcChi2DerivativesNoErr s).mTrPos = s.mTrPos
    ∧ ∀ i < N, (FwdcalcChi2DerivativesNoErr s).mDChi2Dz i
      = ∑ j in Finset.range N, Dot (s.mTrRes s.mCurHyp j) (s.mDResidDx j i) := by
  let inv : FwdDCAFitterN N
      → Nat × (Nat → Nat → Vec3D) × (Nat → Nat → Vec3D) × (Nat → Nat → Vec3D) :=
    fun t => (t.mCurHyp, t.mTrRes, t.mDResidDx, t.mTrPos)
  let B : Nat → Nat → FwdDCAFitterN N → FwdDCAFitterN N := fun i j sj =>
    let res := sj.mTrRes sj.mCurHyp j
    let dr1 := sj.mDResidDx j i
    let s1 : FwdDCAFitterN N :=
      { sj with mDChi2Dz := upd sj.mDChi2Dz i (sj.mDChi2Dz i + Dot res dr1) }
    if i ≥ j then
      let c0 := Dot (s1.mTrRes s1.mCurHyp i) (s1.mD2ResidDx2 i j)
      let s2 : FwdDCAFitterN N := { s1 with mD2Chi2Dz2 := symSet s1.mD2Chi2Dz2 i j c0 }
      forDown N (fun k (t : FwdDCAFitterN N) =>
        let c := symGet t.mD2Chi2Dz2 i j + Dot (t.mDResidDx k i) (t.mDResidDx k j)
        { t with mD2Chi2Dz2 := symSet t.mD2Chi2Dz2 i j c }) s2
    else s1
  let O : Nat → FwdDCAFitterN N → FwdDCAFitterN N := fun i si =>
    forDown N (B i) { si with mDChi2Dz := upd si.mDChi2Dz i 0 }
  have hdef : FwdcalcChi2DerivativesNoErr s = forDown N O s := rfl
  -- one pass of the loop over `j`: an observation that reads neither the
  -- gradient nor the Hessian is kept, and the gradient is changed in `i` only
  have hB : ∀ {α : Type} (o : FwdDCAFitterN N → α),
      (∀ (t : FwdDCAFitterN N) (m : Nat → Nat → ℚ), o { t with mD2Chi2Dz2 := m } = o t) →
      ∀ i j (sj : FwdDCAFitterN N), o (B i j sj)
        = o { sj with
            mDChi2Dz := upd sj.mDChi2Dz i (sj.mDChi2Dz i + Dot (sj.mTrRes sj.mCurHyp j) (sj.mDResidDx j i)) } := by
    intro α o ho i j sj
    show o (if i ≥ j then _ else _) = _
    split
    · refine (forDown_preserves o _ (fun k w => ?_) _ _).trans ?_
      · exact ho w _
      · exact ho _ _
    · rfl
  have hacc : ∀ i q, (forDown N (B i) q).mDChi2Dz i
      = q.mDChi2Dz i + ∑ j in Finset.range N, Dot (q.mTrRes q.mCurHyp j) (q.mDResidDx j i) :=
    fun i q =>
    forDown_acc inv (fun q => q.mDChi2Dz i)
      (fun (a : Nat × (Nat → Nat → Vec3D) × (Nat → Nat → Vec3D) × (Nat → Nat → Vec3D)) j =>
        Dot (a.2.1 a.1 j) (a.2.2.1 j i)) (B i)
      (fun j q => hB inv (fun _ _ => rfl) i j q)
      (fun j q => (hB (fun t => t.mDChi2Dz i) (fun _ _ => rfl) i j q).trans
        (by simp [inv, upd])) N q
  have hinv : ∀ i q, inv (forDown N (B i) q) = inv q := fun i q =>
    forDown_preserves inv (B i) (fun j q => hB inv (fun _ _ => rfl) i j q) N q
  have hoth : ∀ i k q, k ≠ i → (forDown N (B i) q).mDChi2Dz k = q.mDChi2Dz k := fun i k q hk =>
    forDown_preserves (fun q : FwdDCAFitterN N => q.mDChi2Dz k) (B i)
      (fun j q => (hB (fun t => t.mDChi2Dz k) (fun _ _ => rfl) i j q).trans
        (by simp [upd, hk])) N q
  have h1 := forDown_fill inv (fun t k => t.mDChi2Dz k)
    (fun a k => ∑ j in Finset.range N, Dot (a.2.1 a.1 j) (a.2.2.1 j k)) (fun i k => k = i) O N s
    (fun i p _ => hinv i _)
    (fun i p k _ hk => by
      subst hk
      show (forDown N (B k) _).mDChi2Dz k = _
      rw [hacc]
      simp [inv, upd])
    (fun i p k _ hk => by
      show (forDown N (B i) _).mDChi2Dz k = _
      rw [hoth i k _ hk]
      simp [upd, hk])
  rw [← hdef] at h1
  obtain ⟨a1, a2⟩ := h1
  have a1' : inv (FwdcalcChi2DerivativesNoErr s) = inv s := a1
  simp only [inv, Prod.mk.injEq] at a1'
  exact ⟨a1'.1, a1'.2.1, a1'.2.2.2, fun i hi => (a2 i).1 ⟨i, hi, rfl⟩⟩

end Gradient

/-! ### The weighted chi2 and the quadratic form -/

section QuadraticForm

open FwdDCAFitterN

set_option maxRecDepth 100000 in
/-- C34 fails on the code: the quadratic form `sum r_i^T * E_i * r_i` is
`sum (sxx*rx^2 + syy*ry^2 + szz*rz^2 + 2*sxy*rx*ry)`, and `E_i` is the matrix
that `FwdcalcPCACoefs` uses for the weights (`miei`) and that
`FwdcalcChi2Derivatives` uses for the gradient; but `FwdcalcChi2` adds the
cross term `2*sxy*ry*rz`, so it differs from the quadratic form by
`sum 2*sxy*(ry*rz - rx*ry)`. On `chi2NegativeState` (residuals `(0, 1, 1)` and
`(0, -1, -1)`, `sxx = syy = 100/19`, `sxy = -90/19`, `szz = 1/5`) the quadratic
form is `1038/95` and `FwdcalcChi2` returns `-762/95`. -/
theorem FwdcalcChi2_not_quadratic_form :
    (∀ (N : Nat) (s : FwdDCAFitterN N), chi2QuadraticFormSpec s
      = ∑ i in Finset.range N,
          ((s.mTrcEInv s.mCurHyp i).sxx * s.mTrRes s.mCurHyp i 0 ^ 2
            + (s.mTrcEInv s.mCurHyp i).syy * s.mTrRes s.mCurHyp i 1 ^ 2
            + (s.mTrcEInv s.mCurHyp i).szz * s.mTrRes s.mCurHyp i 2 ^ 2
            + 2 * (s.mTrcEInv s.mCurHyp i).sxy * s.mTrRes s.mCurHyp i 0 * s.mTrRes s.mCurHyp i 1))
    ∧ (∀ (N : Nat) (s : FwdDCAFitterN N), FwdcalcChi2 s
      = chi2QuadraticFormSpec s
        + ∑ i in Finset.range N, 2 * (s.mTrcEInv s.mCurHyp i).sxy
            * (s.mTrRes s.mCurHyp i 1 * s.mTrRes s.mCurHyp i 2
              - s.mTrRes s.mCurHyp i 0 * s.mTrRes s.mCurHyp i 1))
    ∧ (∀ tcov : FwdTrackCovI, miei tcov = augmentedInvCov tcov)
    ∧ (∀ (N : Nat) (s : FwdDCAFitterN N) (i : Nat), i < N →
      (FwdcalcChi2Derivatives s).mDChi2Dz i
        = ∑ j in Finset.range N, Dot (s.mTrRes s.mCurHyp j)
            (Matrix.mulVec (augmentedInvCov (s.mTrcEInv s.mCurHyp j)) (s.mDResidDx j i)))
    ∧ chi2QuadraticFormSpec chi2NegativeState = 1038 / 95
    ∧ FwdcalcChi2 chi2NegativeState = -(762 / 95) := by
  have hq : ∀ (N : Nat) (s : FwdDCAFitterN N), chi2QuadraticFormSpec s
      = ∑ i in Finset.range N,
          ((s.mTrcEInv s.mCurHyp i).sxx * s.mTrRes s.mCurHyp i 0 ^ 2
            + (s.mTrcEInv s.mCurHyp i).syy * s.mTrRes s.mCurHyp i 1 ^ 2
            + (s.mTrcEInv s.mCurHyp i).szz * s.mTrRes s.mCurHyp i 2 ^ 2
            + 2 * (s.mTrcEInv s.mCurHyp i).sxy * s.mTrRes s.mCurHyp i 0
              * s.mTrRes s.mCurHyp i 1) := by
    intro N s
    unfold chi2QuadraticFormSpec
    refine Finset.sum_congr rfl (fun i _ => ?_)
    simp [Matrix.mulVec, Matrix.dotProduct, Fin.sum_univ_three, augmentedInvCov]
    ring
  refine ⟨hq, fun N s => ?_, fun tcov => rfl,
    fun N s i hi => (FwdcalcChi2Derivatives_gradient s).2.2.2 i hi, ?_, by decide!⟩
  · rw [FwdcalcChi2_eq_sum, hq, ← Finset.sum_add_distrib]
    refine Finset.sum_congr rfl (fun i _ => ?_)
    ring
  · rw [hq]
    decide!

/-- The gradient of the weighted chi2 on `chi2NegativeState`, component 0, is
formed with the augmented inverse covariances. -/
theorem FwdcalcChi2_not_quadratic_form_witness :
    0 < 2
    ∧ (FwdcalcChi2Derivatives chi2NegativeState).mDChi2Dz 0
      = ∑ j in Finset.range 2, Dot (chi2NegativeState.mTrRes chi2NegativeState.mCurHyp j)
          (Matrix.mulVec (augmentedInvCov (chi2NegativeState.mTrcEInv chi2NegativeState.mCurHyp j))
            (chi2NegativeState.mDResidDx j 0)) :=
  ⟨by decide, FwdcalcChi2_not_quadratic_form.2.2.2.1 2 chi2NegativeState 0 (by decide)⟩

end QuadraticForm

/-! ### The rough cut -/

/-- A loop that tests a condition for every index as long as the flag is on
ends with the flag on exactly when it started so and every test passed. -/
theorem forDown_all (p : Nat → Bool) : ∀ (n : Nat) (a : Bool),
    forDown n (fun i acc => if acc then p i else acc) a = true
      ↔ a = true ∧ ∀ i < n, p i = true := by
  intro n
  induction n with
  | zero => intro a; simp [forDown]
  | succ n ih =>
    intro a
    rw [forDown, ih]
    cases a with
    | false => simp
    | true =>
      simp only [if_true, true_and]
      constructor
      · rintro ⟨hn, hlt⟩ i hi
        by_cases h : i = n
        · rw [h]; exact hn
        · exact hlt i (by omega)
      · intro h
        exact ⟨h n (Nat.lt_succ_self n), fun i hi => h i (Nat.lt_succ_of_lt hi)⟩

section RoughCut

open FwdDCAFitterN

variable {N : Nat}

/-- The source's `roughDXCut()` accepts exactly when no pair `j < i` of prongs is
further apart in x than `mMaxDXIni`. -/
theorem roughDXCut_iff_lt (s : FwdDCAFitterN N) :
    roughDXCut s = true
      ↔ ∀ i < N, ∀ j < i,
        |(s.mCandTr s.mCurHyp i).getX - (s.mCandTr s.mCurHyp j).getX| ≤ s.mMaxDXIni := by
  have hin : ∀ i, forDown i (fun j (acc : Bool) =>
        if acc then
          if |(s.mCandTr s.mCurHyp i).getX - (s.mCandTr s.mCurHyp j).getX| > s.mMaxDXIni then false
          else true
        else acc) true = true
      ↔ ∀ j < i, |(s.mCandTr s.mCurHyp i).getX - (s.mCandTr s.mCurHyp j).getX| ≤ s.mMaxDXIni := by
    intro i
    rw [forDown_all (fun j =>
      if |(s.mCandTr s.mCurHyp i).getX - (s.mCandTr s.mCurHyp j).getX| > s.mMaxDXIni then false
      else true) i true]
    simp only [true_and]
    refine forall_congr' (fun j => forall_congr' (fun _ => ?_))
    by_cases h : |(s.mCandTr s.mCurHyp i).getX - (s.mCandTr s.mCurHyp j).getX| > s.mMaxDXIni
    · simp [h]
    · simp [h, not_lt.mp h]
  have hbody : (fun i (accept : Bool) =>
      if accept then
        forDown i (fun j (acc : Bool) =>
          if acc then
            if |(s.mCandTr s.mCurHyp i).getX - (s.mCandTr s.mCurHyp j).getX| > s.mMaxDXIni
              then false
            else true
          else acc) accept
      else accept)
      = (fun i (accept : Bool) =>
      if accept then
        forDown i (fun j (acc : Bool) =>
          if acc then
            if |(s.mCandTr s.mCurHyp i).getX - (s.mCandTr s.mCurHyp j).getX| > s.mMaxDXIni
              then false
            else true
          else acc) true
      else accept) := by
    funext i accept
    cases accept <;> rfl
  unfold roughDXCut
  rw [hbody, forDown_all (fun i => forDown i (fun j (acc : Bool) =>
      if acc then
        if |(s.mCandTr s.mCurHyp i).getX - (s.mCandTr s.mCurHyp j).getX| > s.mMaxDXIni then false
        else true
      else acc) true) N true]
  simp only [true_and]
  exact forall_congr' (fun i => forall_congr' (fun _ => hin i))

/-- C36, as the code has it: `roughDXCut` returns true exactly when for every
pair of prongs `i != j` the absolute difference of the x of their working tracks
is at most `mMaxDXIni`. With the prongs prepared, both minimisers return false
at once, before anything else is computed, when `mMaxDXIni > 0` and
`roughDXCut` is false, and go on to the vertex otherwise, in particular
whenever `mMaxDXIni <= 0`. In the absolute-distance mode this is the only
return before the Newton loop; in the weighted mode the minimiser also returns
false before the loop when the cut is passed and the sum of the weights cannot
be inverted. -/
theorem roughDXCut_rejection (ext : External N) (s : FwdDCAFitterN N) :
    (roughDXCut s = true
      ↔ ∀ i < N, ∀ j < N, i ≠ j →
        |(s.mCandTr s.mCurHyp i).getX - (s.mCandTr s.mCurHyp j).getX| ≤ s.mMaxDXIni)
    ∧ ((minimizeChi2NoErrPrepare ext s).mMaxDXIni > 0
        ∧ roughDXCut (minimizeChi2NoErrPrepare ext s) = false →
      minimizeOf ext true s = .ok (false, minimizeChi2NoErrPrepare ext s))
    ∧ ((∃ s', loopEntry ext true s = .ok (false, s'))
      ↔ (minimizeChi2NoErrPrepare ext s).mMaxDXIni > 0
        ∧ roughDXCut (minimizeChi2NoErrPrepare ext s) = false)
    ∧ ((minimizeChi2NoErrPrepare ext s).mMaxDXIni ≤ 0 →
      ∃ s3, loopEntry ext true s = .ok (true, s3))
    ∧ (∀ s1, minimizeChi2Prepare ext s = .ok s1 →
      (s1.mMaxDXIni > 0 ∧ roughDXCut s1 = false → minimizeOf ext false s = .ok (false, s1))
      ∧ ((∃ s', loopEntry ext false s = .ok (false, s'))
        ↔ (s1.mMaxDXIni > 0 ∧ roughDXCut s1 = false) ∨ (weightSum s1).det = 0)
      ∧ (s1.mMaxDXIni ≤ 0 → (weightSum s1).det ≠ 0 →
        ∃ s3, loopEntry ext false s = .ok (true, s3))
      ∧ s1.mMaxDXIni = s.mMaxDXIni)
    ∧ (minimizeChi2NoErrPrepare ext s).mMaxDXIni = s.mMaxDXIni := by
  refine ⟨?_, fun hc => ?_, ?_, fun hle => ?_, fun s1 hp => ⟨fun hc => ?_, ?_, fun hle hw => ?_, ?_⟩,
    ?_⟩
  · rw [roughDXCut_iff_lt]
    constructor
    · intro h i hi j hj hij
      rcases Nat.lt_or_gt_of_ne hij with hlt | hgt
      · rw [abs_sub_comm]
        exact h j hj i hlt
      · exact h i hi j hgt
    · intro h i hi j hj
      exact h i hi j (by omega) (by omega)
  · rw [minimizeOf_eq]
    simp only [loopEntry, if_true]
    rw [if_pos hc]
  · simp only [loopEntry, if_true]
    constructor
    · rintro ⟨s', h⟩
      by_contra hc
      rw [if_neg hc] at h
      simp at h
    · intro hc
      exact ⟨_, by rw [if_pos hc]⟩
  · simp only [loopEntry, if_true]
    rw [if_neg (fun hc => absurd hc.1 (not_lt.mpr hle))]
    exact ⟨_, rfl⟩
  · rw [minimizeOf_eq]
    simp only [loopEntry, Bool.false_eq_true, if_false, hp]
    rw [if_pos hc]
  · simp only [loopEntry, Bool.false_eq_true, if_false, hp]
    by_cases hc : s1.mMaxDXIni > 0 ∧ roughDXCut s1 = false
    · rw [if_pos hc]
      exact ⟨fun _ => Or.inl hc, fun _ => ⟨_, rfl⟩⟩
    · rw [if_neg hc, ← FwdcalcPCACoefs_false_iff]
      cases hb : (FwdcalcPCACoefs s1).1 with
      | false =>
        refine ⟨fun _ => Or.inr ?_, fun _ => ⟨(FwdcalcPCACoefs s1).2, ?_⟩⟩
        · simp
        · simp
      | true =>
        constructor
        · rintro ⟨s', h⟩
          simp at h
        · rintro (h | h)
          · exact absurd h hc
          · simp at h
  · simp only [loopEntry, Bool.false_eq_true, if_false, hp]
    rw [if_neg (fun hc => absurd hc.1 (not_lt.mpr hle))]
    have hb : (FwdcalcPCACoefs s1).1 = true := by
      cases hb : (FwdcalcPCACoefs s1).1 with
      | true => rfl
      | false => exact absurd ((FwdcalcPCACoefs_false_iff s1).mp hb) hw
    rw [hb]
    exact ⟨_, rfl⟩
  · have h := cfg_minimizeChi2Prepare ext s s1 hp
    simp only [cfg, Prod.mk.injEq] at h
    exact h.2.1.2.2.2.2.2.1
  · have h := cfg_minimizeChi2NoErrPrepare ext s
    simp only [cfg, Prod.mk.injEq] at h
    exact h.2.1.2.2.2.2.2.1

set_option maxRecDepth 100000 in
/-- Witness for C36: with `mMaxDXIni = 0` the cut is skipped and the
absolute-distance minimiser enters its loop for `newtonSeedState`. -/
theorem roughDXCut_rejection_witness :
    (minimizeChi2NoErrPrepare (linearExt 2)
      ({ newtonSeedState with mMaxDXIni := 0 } : FwdDCAFitterN 2)).mMaxDXIni ≤ 0
    ∧ ∃ s3, loopEntry (linearExt 2) true ({ newtonSeedState with mMaxDXIni := 0 } : FwdDCAFitterN 2)
        = .ok (true, s3) :=
  ⟨by decide!,
    (roughDXCut_rejection (linearExt 2)
      ({ newtonSeedState with mMaxDXIni := 0 } : FwdDCAFitterN 2)).2.2.2.1 (by decide!)⟩

set_option maxRecDepth 100000 in
/-- Counterexample to C36 as stated: for the weighted fit of `oppositeCovTracks`
(planar covariances `diag(1, 1)` and `diag(-1, -1)`, both of positive
determinant, so that the inverse covariances add up to zero) the prongs are
prepared, `mMaxDXIni = 4 > 0` and `roughDXCut` is true, yet the minimiser returns
false before any iteration, because the sum of the weights cannot be inverted;
`process` returns no candidate. -/
theorem weighted_rejects_with_cut_passed :
    (match minimizeChi2Prepare (linearExt 2) oppositeCovSeedState with
      | .ok s1 => some (decide (s1.mMaxDXIni > 0), roughDXCut s1, (weightSum s1).det)
      | .error _ => none) = some (true, true, 0)
    ∧ (match loopEntry (linearExt 2) false oppositeCovSeedState with
      | .ok (b, _) => some b
      | .error _ => none) = some false
    ∧ (match minimizeOf (linearExt 2) false oppositeCovSeedState with
      | .ok (b, s') => some (b, s'.mNIters s'.mCurHyp)
      | .error _ => none) = some (false, 0)
    ∧ processOutcome (process (linearExt 2) oppositeCovTracks chi2NegativeFitter)
        = some (0, 0, 0, -1, -1) :=
  ⟨by decide!, by decide!, by decide!, by decide!⟩

end RoughCut

/-! ### The weighted vertex -/

/-- The product of a matrix with a sum of vectors is the sum of the products. -/
theorem mulVec_sum_range (A : MatStd3D) (v : Nat → Vec3D) : ∀ n : Nat,
    Matrix.mulVec A (∑ i in Finset.range n, v i)
      = ∑ i in Finset.range n, Matrix.mulVec A (v i) := by
  intro n
  induction n with
  | zero => simp
  | succ n ih => rw [Finset.sum_range_succ, Finset.sum_range_succ, Matrix.mulVec_add, ih]

section WeightedVertex

open FwdDCAFitterN

variable {N : Nat}

/-- A fitter for which `FwdcalcPCACoefs` succeeds has at least one prong. -/
theorem FwdcalcPCACoefs_true_pos (s : FwdDCAFitterN N) (h : (FwdcalcPCACoefs s).1 = true) :
    0 < N := by
  by_contra hN
  have h0 : N = 0 := by omega
  subst h0
  have hd : (weightSum s).det = 0 := by
    have hw : weightSum s = 0 := by simp [weightSum]
    rw [hw, Matrix.det_zero ⟨0⟩]
  rw [(FwdcalcPCACoefs_false_iff s).mpr hd] at h
  exact Bool.noConfusion h

/-- C37: whenever `FwdcalcPCACoefs` returns true, the coefficient matrices
`mTrCFVT[i]` of the `N` prongs of the current hypothesis add up to the 3x3
identity, so the vertex that `FwdcalcPCA` computes with these matrices is an
affine combination of the prong positions: translating every prong position by
a vector `t` translates the vertex by `t`. -/
theorem FwdcalcPCACoefs_sum_identity (s : FwdDCAFitterN N) (h : (FwdcalcPCACoefs s).1 = true) :
    ∑ i in Finset.range N, (FwdcalcPCACoefs s).2.mTrCFVT s.mCurHyp i = 1
    ∧ ∀ (s1 s2 : FwdDCAFitterN N) (t : Vec3D), s1.mCurHyp = s.mCurHyp → s2.mCurHyp = s.mCurHyp →
      (∀ i < N, s1.mTrCFVT s.mCurHyp i = (FwdcalcPCACoefs s).2.mTrCFVT s.mCurHyp i) →
      (∀ i < N, s2.mTrCFVT s.mCurHyp i = (FwdcalcPCACoefs s).2.mTrCFVT s.mCurHyp i) →
      (∀ i < N, s2.mTrPos s.mCurHyp i = s1.mTrPos s.mCurHyp i + t) →
      (FwdcalcPCA s2).mPCA s.mCurHyp = (FwdcalcPCA s1).mPCA s.mCurHyp + t := by
  have hN := FwdcalcPCACoefs_true_pos s h
  have hsum := (FwdcalcPCACoefs_true s h).2.2.2
  refine ⟨hsum, fun s1 s2 t h1 h2 hT1 hT2 hP => ?_⟩
  have e1 := FwdcalcPCA_spec hN s1
  have e2 := FwdcalcPCA_spec hN s2
  rw [h1] at e1
  rw [h2] at e2
  rw [e1, e2]
  have hterm : ∀ i ∈ Finset.range N,
      Matrix.mulVec (s2.mTrCFVT s.mCurHyp i) (s2.mTrPos s.mCurHyp i)
        = Matrix.mulVec (s1.mTrCFVT s.mCurHyp i) (s1.mTrPos s.mCurHyp i)
          + Matrix.mulVec ((FwdcalcPCACoefs s).2.mTrCFVT s.mCurHyp i) t := by
    intro i hi
    have hi' := Finset.mem_range.mp hi
    rw [hP i hi', hT2 i hi', hT1 i hi', Matrix.mulVec_add]
  rw [Finset.sum_congr rfl hterm, Finset.sum_add_distrib, sum_mulVec_const, hsum,
    Matrix.one_mulVec]

set_option maxRecDepth 100000 in
/-- Witness for C37: the two-prong state `chi2NegativeState`, for which
`FwdcalcPCACoefs` succeeds; the coefficient matrices add up to the identity. -/
theorem FwdcalcPCACoefs_sum_identity_witness :
    (FwdcalcPCACoefs chi2NegativeState).1 = true
    ∧ ∑ i in Finset.range 2,
        (FwdcalcPCACoefs chi2NegativeState).2.mTrCFVT chi2NegativeState.mCurHyp i = 1 :=
  ⟨by decide!, (FwdcalcPCACoefs_sum_identity chi2NegativeState (by decide!)).1⟩

/-- C38: after `FwdcalcPCACoefs` succeeds and `FwdcalcPCA` and
`FwdcalcTrackResiduals` have run, the residual of every prong is `P_i - V` and
the weighted residuals cancel: the sum over the prongs of `E_i * r_i` is the
zero vector, with the augmented inverse covariance `E_i`. -/
theorem weighted_residuals_cancel (s : FwdDCAFitterN N) (h : (FwdcalcPCACoefs s).1 = true) :
    (∀ i < N, (FwdcalcTrackResiduals (FwdcalcPCA (FwdcalcPCACoefs s).2)).mTrRes s.mCurHyp i
      = s.mTrPos s.mCurHyp i
        - (FwdcalcTrackResiduals (FwdcalcPCA (FwdcalcPCACoefs s).2)).mPCA s.mCurHyp)
    ∧ (∀ i, (FwdcalcTrackResiduals (FwdcalcPCA (FwdcalcPCACoefs s).2)).mTrcEInv s.mCurHyp i
      = s.mTrcEInv s.mCurHyp i)
    ∧ ∑ i in Finset.range N,
        Matrix.mulVec (augmentedInvCov (s.mTrcEInv s.mCurHyp i))
          ((FwdcalcTrackResiduals (FwdcalcPCA (FwdcalcPCACoefs s).2)).mTrRes s.mCurHyp i) = 0 := by
  have hN := FwdcalcPCACoefs_true_pos s h
  obtain ⟨_, hW, hT, _⟩ := FwdcalcPCACoefs_true s h
  -- frames
  have c1 : ((FwdcalcPCACoefs s).2.mCurHyp, (FwdcalcPCACoefs s).2.mTrPos,
      (FwdcalcPCACoefs s).2.mTrcEInv) = (s.mCurHyp, s.mTrPos, s.mTrcEInv) :=
    FwdcalcPCACoefs_frame (fun t => (t.mCurHyp, t.mTrPos, t.mTrcEInv)) (fun _ _ => rfl)
      (fun _ _ => rfl) s
  simp only [Prod.mk.injEq] at c1
  obtain ⟨c1a, c1b, c1c⟩ := c1
  have p1 : ((FwdcalcPCA (FwdcalcPCACoefs s).2).mCurHyp, (FwdcalcPCA (FwdcalcPCACoefs s).2).mTrPos,
      (FwdcalcPCA (FwdcalcPCACoefs s).2).mTrcEInv)
      = ((FwdcalcPCACoefs s).2.mCurHyp, (FwdcalcPCACoefs s).2.mTrPos,
        (FwdcalcPCACoefs s).2.mTrcEInv) :=
    FwdcalcPCA_frame (fun t => (t.mCurHyp, t.mTrPos, t.mTrcEInv)) (fun _ _ => rfl) _
  simp only [Prod.mk.injEq] at p1
  obtain ⟨p1a, p1b, p1c⟩ := p1
  have r1 : ((FwdcalcTrackResiduals (FwdcalcPCA (FwdcalcPCACoefs s).2)).mPCA,
      (FwdcalcTrackResiduals (FwdcalcPCA (FwdcalcPCACoefs s).2)).mTrcEInv)
      = ((FwdcalcPCA (FwdcalcPCACoefs s).2).mPCA, (FwdcalcPCA (FwdcalcPCACoefs s).2).mTrcEInv) :=
    FwdcalcTrackResiduals_frame (fun t => (t.mPCA, t.mTrcEInv)) (fun _ _ => rfl) _
  simp only [Prod.mk.injEq] at r1
  obtain ⟨r1a, r1b⟩ := r1
  have hV : (FwdcalcPCA (FwdcalcPCACoefs s).2).mPCA s.mCurHyp
      = ∑ j in Finset.range N, Matrix.mulVec ((FwdcalcPCACoefs s).2.mTrCFVT s.mCurHyp j)
          (s.mTrPos s.mCurHyp j) := by
    have e := FwdcalcPCA_spec hN (FwdcalcPCACoefs s).2
    rw [c1a, c1b] at e
    exact e
  have hres : ∀ i < N,
      (FwdcalcTrackResiduals (FwdcalcPCA (FwdcalcPCACoefs s).2)).mTrRes s.mCurHyp i
        = s.mTrPos s.mCurHyp i - (FwdcalcPCA (FwdcalcPCACoefs s).2).mPCA s.mCurHyp := by
    intro i hi
    have e := FwdcalcTrackResiduals_spec (FwdcalcPCA (FwdcalcPCACoefs s).2) i hi
    rw [p1a, c1a, p1b, c1b] at e
    exact e
  refine ⟨fun i hi => by rw [hres i hi, r1a], fun i => by rw [r1b, p1c, c1c], ?_⟩
  have hterm : ∀ i ∈ Finset.range N,
      Matrix.mulVec (augmentedInvCov (s.mTrcEInv s.mCurHyp i))
          ((FwdcalcTrackResiduals (FwdcalcPCA (FwdcalcPCACoefs s).2)).mTrRes s.mCurHyp i)
        = Matrix.mulVec (augmentedInvCov (s.mTrcEInv s.mCurHyp i)) (s.mTrPos s.mCurHyp i)
          - Matrix.mulVec (augmentedInvCov (s.mTrcEInv s.mCurHyp i))
              ((FwdcalcPCA (FwdcalcPCACoefs s).2).mPCA s.mCurHyp) := by
    intro i hi
    rw [hres i (Finset.mem_range.mp hi), Matrix.mulVec_sub]
  rw [Finset.sum_congr rfl hterm, Finset.sum_sub_distrib, sum_mulVec_const]
  have hws : ∑ i in Finset.range N, augmentedInvCov (s.mTrcEInv s.mCurHyp i) = weightSum s := rfl
  rw [hws, hV]
  have hT' : ∀ j ∈ Finset.range N,
      Matrix.mulVec ((FwdcalcPCACoefs s).2.mTrCFVT s.mCurHyp j) (s.mTrPos s.mCurHyp j)
        = Matrix.mulVec (FwdcalcPCACoefs s).2.mWeightInv.toStd
            (Matrix.mulVec (augmentedInvCov (s.mTrcEInv s.mCurHyp j)) (s.mTrPos s.mCurHyp j)) := by
    intro j hj
    rw [hT j (Finset.mem_range.mp hj), Matrix.mulVec_mulVec]
  rw [Finset.sum_congr rfl hT', ← mulVec_sum_range, Matrix.mulVec_mulVec, hW, Matrix.one_mulVec,
    sub_self]

set_option maxRecDepth 100000 in
/-- Witness for C38: the two-prong state `chi2NegativeState`. -/
theorem weighted_residuals_cancel_witness :
    (FwdcalcPCACoefs chi2NegativeState).1 = true
    ∧ ∑ i in Finset.range 2,
        Matrix.mulVec (augmentedInvCov (chi2NegativeState.mTrcEInv chi2NegativeState.mCurHyp i))
          ((FwdcalcTrackResiduals (FwdcalcPCA (FwdcalcPCACoefs chi2NegativeState).2)).mTrRes
            chi2NegativeState.mCurHyp i) = 0 :=
  ⟨by decide!, (weighted_residuals_cancel chi2NegativeState (by decide!)).2.2⟩

end WeightedVertex

/-! ### The position covariance and the inverse covariance -/

/-- The product of the augmented inverse of a planar covariance and the matrix
with the covariance term in the `(y, z)` cell is the identity only without
correlation. -/
theorem covProduct_iff (X Y C Z : ℚ) (hdet : 0 < X * Y - C * C) (hz : Z ≠ 0) :
    (!![Y * (1 / (X * Y - C * C)), -C * (1 / (X * Y - C * C)), 0;
        -C * (1 / (X * Y - C * C)), X * (1 / (X * Y - C * C)), 0;
        0, 0, 1 / (Y * Z)] : MatStd3D)
      * !![X, 0, 0; 0, Y, C; 0, C, Y * Z] = 1 ↔ C = 0 := by
  have hd := ne_of_gt hdet
  have hy : Y ≠ 0 := by
    intro hy
    rw [hy] at hdet
    nlinarith [mul_self_nonneg C]
  constructor
  · intro h
    have h01 := congrFun (congrFun h 0) 1
    simp [Matrix.mul_apply, Fin.sum_univ_three] at h01
    rcases h01 with h01 | h01
    · rcases h01 with h01 | h01
      · exact h01
      · exact absurd h01 hd
    · exact absurd h01 hy
  · intro h0
    subst h0
    have hxy : X * Y ≠ 0 := by simpa using hd
    have hx : X ≠ 0 := left_ne_zero_of_mul hxy
    rw [Matrix.one_fin_three, Matrix.mul_fin_three]
    have e1 : Y * (1 / (X * Y - 0)) * X = 1 := by field_simp; ring
    have e2 : X * (1 / (X * Y - 0)) * Y = 1 := by field_simp
    have e3 : 1 / (Y * Z) * (Y * Z) = 1 := by field_simp
    simp only [mul_zero, zero_mul, add_zero, zero_add, neg_zero, e1, e2, e3]

section CovarianceModel

open FwdDCAFitterN

variable {N : Nat}

/-- C39 fails on the code: `getTrackCovMatrix` stores the xy covariance of the
track in the cell `(2, 1)`, the `(y, z)` element, and leaves the `(x, y)` element
0, while `FwdTrackCovI::set` inverts the planar covariance with `cxy` as the
`(x, y)` element. For a prong with a valid planar covariance the product of the
augmented inverse covariance `E` and the matrix of `getTrackCovMatrix` is
therefore the identity only when `cxy = 0`. For `cxx = cyy = 1`, `cxy = 9/10`
the product is `[[100/19, -90/19, -81/19], [-90/19, 100/19, 90/19],
[0, 9/50, 1]]`. -/
theorem getTrackCovMatrix_not_inverse :
    (∀ (N : Nat) (s : FwdDCAFitterN N) (i cand : Nat),
      (getTrackCovMatrix s i cand).toStd 0 1 = 0
      ∧ (getTrackCovMatrix s i cand).toStd 1 2 = (s.mCandTr (s.mOrder cand) i).getSigmaXY
      ∧ (getTrackCovMatrix s i cand).toStd 0 2 = 0
      ∧ (getTrackCovMatrix s i cand).toStd 2 2
        = (s.mCandTr (s.mOrder cand) i).getSigma2Y * ZerrFactor)
    ∧ (∀ (N : Nat) (s : FwdDCAFitterN N) (i cand : Nat) (self c : FwdTrackCovI),
      self.set (s.mCandTr (s.mOrder cand) i) ZerrFactor = .ok c →
      (augmentedInvCov c * (getTrackCovMatrix s i cand).toStd = 1
        ↔ (s.mCandTr (s.mOrder cand) i).getSigmaXY = 0))
    ∧ covI_1_1_09.set (correlatedCovState.mCandTr (correlatedCovState.mOrder 0) 0) ZerrFactor
        = .ok covI_1_1_09
    ∧ augmentedInvCov covI_1_1_09 * (getTrackCovMatrix correlatedCovState 0 0).toStd
        = !![100 / 19, -(90 / 19), -(81 / 19);
             -(90 / 19), 100 / 19, 90 / 19;
             0, 9 / 50, 1] := by
  refine ⟨fun N s i cand => ⟨rfl, rfl, rfl, rfl⟩, fun N s i cand self c hset => ?_, ?_, ?_⟩
  · obtain ⟨hok, herr⟩ := FwdTrackCovI_set_cases self (s.mCandTr (s.mOrder cand) i) ZerrFactor
    have hdet : 0 < (s.mCandTr (s.mOrder cand) i).getSigma2X
        * (s.mCandTr (s.mOrder cand) i).getSigma2Y
        - (s.mCandTr (s.mOrder cand) i).getSigmaXY * (s.mCandTr (s.mOrder cand) i).getSigmaXY := by
      by_contra hn
      rw [herr (not_lt.mp hn)] at hset
      cases hset
    have hc := hok hdet
    rw [hset] at hc
    injection hc with hc
    subst hc
    exact covProduct_iff _ _ _ ZerrFactor hdet (by norm_num [ZerrFactor])
  · norm_num [FwdTrackCovI.set, correlatedCovState, trackAt, covI_1_1_09, ZerrFactor, defaultFitter]
  · decide!

/-- The covariance `cxx = cyy = 1`, `cxy = 9/10` of `correlatedCovState` is valid,
and the product is the identity only if `cxy` were 0. -/
theorem getTrackCovMatrix_not_inverse_witness :
    covI_1_1_09.set (correlatedCovState.mCandTr (correlatedCovState.mOrder 0) 0) ZerrFactor
        = .ok covI_1_1_09
    ∧ (augmentedInvCov covI_1_1_09 * (getTrackCovMatrix correlatedCovState 0 0).toStd = 1
        ↔ (correlatedCovState.mCandTr (correlatedCovState.mOrder 0) 0).getSigmaXY = 0) :=
  ⟨getTrackCovMatrix_not_inverse.2.2.1,
    getTrackCovMatrix_not_inverse.2.1 2 correlatedCovState 0 0 covI_1_1_09 covI_1_1_09
      getTrackCovMatrix_not_inverse.2.2.1⟩

end CovarianceModel

/-! ### Zero residuals -/

section ZeroResiduals

open FwdDCAFitterN

variable {N : Nat}

/-- The data of the current fit that the derivative steps of a pass read and do
not write: slot, residuals, positions, coefficient matrices and inverse
covariances. -/
theorem passDerivatives_data (ext : External N) (abs : Bool) (s : FwdDCAFitterN N) :
    (passDerivatives ext abs s).mCurHyp = s.mCurHyp
    ∧ (passDerivatives ext abs s).mTrRes = s.mTrRes
    ∧ (passDerivatives ext abs s).mTrPos = s.mTrPos
    ∧ (passDerivatives ext abs s).mTrCFVT = s.mTrCFVT
    ∧ (passDerivatives ext abs s).mTrcEInv = s.mTrcEInv := by
  let dat : FwdDCAFitterN N → Nat × (Nat → Nat → Vec3D) × (Nat → Nat → Vec3D)
      × (Nat → Nat → MatStd3D) × (Nat → Nat → FwdTrackCovI) :=
    fun t => (t.mCurHyp, t.mTrRes, t.mTrPos, t.mTrCFVT, t.mTrcEInv)
  have h0 : dat (calcTrackDerivatives ext s) = dat s := by
    unfold calcTrackDerivatives
    refine forDown_preserves dat _ (fun i t => ?_) _ _
    rfl
  have h1 : ∀ t : FwdDCAFitterN N, dat (FwdcalcResidDerivatives t) = dat t := by
    intro t
    unfold FwdcalcResidDerivatives
    refine forDown_preserves dat _ (fun i t => ?_) _ _
    refine forDown_preserves dat _ (fun j u => ?_) _ _
    rfl
  have h1' : ∀ t : FwdDCAFitterN N, dat (FwdcalcResidDerivativesNoErr t) = dat t := by
    intro t
    unfold FwdcalcResidDerivativesNoErr
    refine forDown_preserves dat _ (fun i t => ?_) _ _
    refine (forDown_preserves dat _ (fun j u => ?_) _ _).trans ?_
    · rfl
    · rfl
  have h2 : ∀ t : FwdDCAFitterN N, dat (FwdcalcChi2Derivatives t) = dat t := by
    intro t
    have ha : dat (FwdcalcChi2Derivatives1 t).1 = dat t := by
      unfold FwdcalcChi2Derivatives1
      refine forDown_preserves (fun p : FwdDCAFitterN N × (Nat → Nat → Vec3D) => dat p.1) _
        (fun i t => ?_) _ _
      refine (forDown_preserves (fun p : FwdDCAFitterN N × (Nat → Nat → Vec3D) => dat p.1) _
        (fun j u => ?_) _ _).trans ?_
      · rfl
      · rfl
    unfold FwdcalcChi2Derivatives
    refine (forDown_preserves dat _ (fun i t => ?_) _ _).trans ha
    refine forDown_preserves dat _ (fun j u => ?_) _ _
    refine (forDown_preserves dat _ (fun k v => ?_) _ _).trans ?_
    · rfl
    · rfl
  have h2' : ∀ t : FwdDCAFitterN N, dat (FwdcalcChi2DerivativesNoErr t) = dat t := by
    intro t
    unfold FwdcalcChi2DerivativesNoErr
    refine forDown_preserves dat _ (fun i t => ?_) _ _
    refine (forDown_preserves dat _ (fun j u => ?_) _ _).trans ?_
    · dsimp only
      split
      · refine (forDown_preserves dat _ (fun k v => ?_) _ _).trans ?_
        · rfl
        · rfl
      · rfl
    · rfl
  have h : dat (passDerivatives ext abs s) = dat s := by
    cases abs
    · show dat (FwdcalcChi2Derivatives (FwdcalcResidDerivatives (calcTrackDerivatives ext s))) = _
      rw [h2, h1, h0]
    · show dat (FwdcalcChi2DerivativesNoErr (FwdcalcResidDerivativesNoErr
        (calcTrackDerivatives ext s))) = _
      rw [h2', h1', h0]
  simp only [dat, Prod.mk.injEq] at h
  exact h

/-- With zero residuals the gradient of the chi2 that a pass computes is zero,
in both modes. -/
theorem passDerivatives_gradient_zero (ext : External N) (abs : Bool) (s : FwdDCAFitterN N)
    (hres : ∀ j < N, s.mTrRes s.mCurHyp j = 0) :
    ∀ i < N, (passDerivatives ext abs s).mDChi2Dz i = 0 := by
  intro i hi
  have hdot : ∀ v : Vec3D, Dot 0 v = 0 := fun v => by simp [Dot]
  cases abs
  · have hd := passDerivatives_data ext false s
    obtain ⟨g1, g2, _, g4⟩ := FwdcalcChi2Derivatives_gradient
      (FwdcalcResidDerivatives (calcTrackDerivatives ext s))
    have e : (passDerivatives ext false s).mDChi2Dz i = _ := g4 i hi
    rw [e]
    refine Finset.sum_eq_zero (fun j hj => ?_)
    have hr : (FwdcalcResidDerivatives (calcTrackDerivatives ext s)).mTrRes
        (FwdcalcResidDerivatives (calcTrackDerivatives ext s)).mCurHyp j = 0 := by
      have a1 : (passDerivatives ext false s).mTrRes
          = (FwdcalcResidDerivatives (calcTrackDerivatives ext s)).mTrRes := g2
      have a2 : (passDerivatives ext false s).mCurHyp
          = (FwdcalcResidDerivatives (calcTrackDerivatives ext s)).mCurHyp := g1
      rw [← a1, ← a2, hd.1, hd.2.1]
      exact hres j (Finset.mem_range.mp hj)
    rw [hr, hdot]
  · have hd := passDerivatives_data ext true s
    obtain ⟨g1, g2, _, g4⟩ := FwdcalcChi2DerivativesNoErr_gradient
      (FwdcalcResidDerivativesNoErr (calcTrackDerivatives ext s))
    have e : (passDerivatives ext true s).mDChi2Dz i = _ := g4 i hi
    rw [e]
    refine Finset.sum_eq_zero (fun j hj => ?_)
    have hr : (FwdcalcResidDerivativesNoErr (calcTrackDerivatives ext s)).mTrRes
        (FwdcalcResidDerivativesNoErr (calcTrackDerivatives ext s)).mCurHyp j = 0 := by
      have a1 : (passDerivatives ext true s).mTrRes
          = (FwdcalcResidDerivativesNoErr (calcTrackDerivatives ext s)).mTrRes := g2
      have a2 : (passDerivatives ext true s).mCurHyp
          = (FwdcalcResidDerivativesNoErr (calcTrackDerivatives ext s)).mCurHyp := g1
      rw [← a1, ← a2, hd.1, hd.2.1]
      exact hres j (Finset.mem_range.mp hj)
    rw [hr, hdot]

/-- With a zero gradient the Newton step is the zero correction: it leaves the
positions, and the other data of the fit, as they were. -/
theorem newtonStep_zero_gradient (s3 s5 : FwdDCAFitterN N) (dz : Nat → ℚ)
    (hg : ∀ i < N, s3.mDChi2Dz i = 0) (h : newtonStep s3 = some (dz, s5)) :
    (∀ i, dz i = 0) ∧ s5.mCurHyp = s3.mCurHyp
    ∧ (∀ i, s5.mTrPos s3.mCurHyp i = s3.mTrPos s3.mCurHyp i)
    ∧ s5.mTrCFVT = s3.mTrCFVT ∧ s5.mTrcEInv = s3.mTrcEInv := by
  unfold newtonStep at h
  split at h
  · cases h
  · rename_i m hm
    simp only [Option.some.injEq, Prod.mk.injEq] at h
    obtain ⟨h1, h2⟩ := h
    have hz : ∀ i, dz i = 0 := by
      intro i
      rw [← h1]
      unfold MatSymND.mulVec
      refine Finset.sum_eq_zero (fun j hj => ?_)
      dsimp only
      rw [hg j (Finset.mem_range.mp hj), mul_zero]
    refine ⟨hz, ?_, ?_, ?_, ?_⟩
    · rw [← h2]
      exact (FwdcorrectTracks_entries _ _).1
    · intro i
      rw [← h2, h1]
      exact (FwdcorrectTracks_expansion dz
        ({ s3 with mD2Chi2Dz2 := m } : FwdDCAFitterN N)).2.2.2.1 (fun i _ => hz i) i
    · rw [← h2]
      unfold FwdcorrectTracks
      refine forDown_preserves (fun t : FwdDCAFitterN N => t.mTrCFVT) _ (fun i t => ?_) _ _
      rfl
    · rw [← h2]
      unfold FwdcorrectTracks
      refine forDown_preserves (fun t : FwdDCAFitterN N => t.mTrcEInv) _ (fun i t => ?_) _ _
      rfl

/-- A pass entered with zero residuals whose Hessian can be inverted, when the
vertex is not closer to an alternative seed and `mMinParamChange` is positive:
the loop stops in this pass, with the chi2 of the recomputed residuals, and the
iteration counters are as before. -/
theorem minimizeLoop_zero_residuals (ext : External N) (abs : Bool) (s s5 : FwdDCAFitterN N)
    (dz : Nat → ℚ) (hres : ∀ j < N, s.mTrRes s.mCurHyp j = 0)
    (h : newtonStep (passDerivatives ext abs s) = some (dz, s5))
    (halt : prefersAlternative (passPCA ext abs s5) = false) (hmin : 0 < s.mMinParamChange)
    (chi2 : ℚ) (fuel : Nat) :
    minimizeLoop ext abs (fuel + 1) chi2 s
      = (some (passChi2 abs (FwdcalcTrackResiduals (passPCA ext abs s5))),
          FwdcalcTrackResiduals (passPCA ext abs s5))
    ∧ (FwdcalcTrackResiduals (passPCA ext abs s5)).mNIters = s.mNIters := by
  obtain ⟨hz, _⟩ := newtonStep_zero_gradient _ s5 dz
    (passDerivatives_gradient_zero ext abs s hres) h
  obtain ⟨_, hc, _⟩ := cfg_passVertex ext abs s s5 dz h
  obtain ⟨_, e2, _, e4, _⟩ := cfg_fields hc
  have hpass := minimizePass_of_step_some ext abs chi2 s s5 dz h
  rw [halt] at hpass
  simp only [Bool.false_eq_true, if_false] at hpass
  rw [if_pos (Or.inl (lt_of_le_of_lt (getAbsMax_zero N dz (fun i _ => hz i))
    (by rw [e4]; exact hmin)))] at hpass
  exact ⟨by rw [minimizeLoop_succ, hpass], e2⟩

/-- In the weighted mode, a zero correction from positions that all coincide
with the vertex computed from them gives zero residuals again and the chi2 0. -/
theorem passChi2_zero_residuals (s s5 : FwdDCAFitterN N) (h1 : s5.mCurHyp = s.mCurHyp)
    (h2 : ∀ i, s5.mTrPos s.mCurHyp i = s.mTrPos s.mCurHyp i) (h3 : s5.mTrCFVT = s.mTrCFVT)
    (hcons : ∀ i < N, s.mTrPos s.mCurHyp i = (FwdcalcPCA s).mPCA s.mCurHyp) :
    (∀ i < N, (FwdcalcTrackResiduals (FwdcalcPCA s5)).mTrRes s.mCurHyp i = 0)
    ∧ FwdcalcChi2 (FwdcalcTrackResiduals (FwdcalcPCA s5)) = 0 := by
  have p1 : ((FwdcalcPCA s5).mCurHyp, (FwdcalcPCA s5).mTrPos) = (s5.mCurHyp, s5.mTrPos) :=
    FwdcalcPCA_frame (fun t => (t.mCurHyp, t.mTrPos)) (fun _ _ => rfl) _
  simp only [Prod.mk.injEq] at p1
  obtain ⟨p1a, p1b⟩ := p1
  have r1 : (FwdcalcTrackResiduals (FwdcalcPCA s5)).mCurHyp = (FwdcalcPCA s5).mCurHyp :=
    FwdcalcTrackResiduals_frame (fun t => t.mCurHyp) (fun _ _ => rfl) _
  have hres : ∀ i < N, (FwdcalcTrackResiduals (FwdcalcPCA s5)).mTrRes s.mCurHyp i = 0 := by
    intro i hi
    have hN : 0 < N := by omega
    have e := FwdcalcTrackResiduals_spec (FwdcalcPCA s5) i hi
    rw [p1a, h1, p1b, h2 i] at e
    have v5 := FwdcalcPCA_spec hN s5
    have v := FwdcalcPCA_spec hN s
    rw [h1, h3] at v5
    have hsum : ∑ i in Finset.range N, Matrix.mulVec (s.mTrCFVT s.mCurHyp i) (s5.mTrPos s.mCurHyp i)
        = ∑ i in Finset.range N, Matrix.mulVec (s.mTrCFVT s.mCurHyp i) (s.mTrPos s.mCurHyp i) :=
      Finset.sum_congr rfl (fun j _ => by rw [h2 j])
    rw [e, v5, hsum, ← v, hcons i hi, sub_self]
  refine ⟨hres, ?_⟩
  rw [FwdcalcChi2_eq_sum, r1, p1a, h1]
  refine Finset.sum_eq_zero (fun i hi => ?_)
  rw [hres i (Finset.mem_range.mp hi)]
  simp

set_option maxRecDepth 100000 in
/-- C40 fails on the code in the absolute-distance mode. What holds: in both
modes, with zero residuals every component of the gradient `mDChi2Dz` is 0;
hence, if the Hessian can be inverted, the correction `dz` is zero and
`FwdcorrectTracks` leaves all positions as they were; and, unless the vertex is
closer to an alternative seed, the loop stops in this pass (for a positive
`mMinParamChange`) without counting an iteration. In the weighted mode, where
the residuals are those of the vertex computed from the positions, the chi2 of
the pass is 0. In the absolute-distance mode it need not be: `FwdcalcPCANoErr`
does not recompute the mean of the positions. For the seed `(0, 2)` and the
tracks `twoSeedTracks`, both at `(0, 1, 0)`, the loop is entered with the vertex
`(0, 1, 0)` and zero residuals; the pass moves the vertex to `(0, 1/2, 0)` and
ends the loop with the chi2 `1/2`, and `process` reports the chi2 `1/4` with the
iteration count 0. -/
theorem zero_residuals_pass :
    (∀ (N : Nat) (ext : External N) (abs : Bool) (s : FwdDCAFitterN N),
      (∀ j < N, s.mTrRes s.mCurHyp j = 0) →
      (∀ i < N, (passDerivatives ext abs s).mDChi2Dz i = 0)
      ∧ ∀ (dz : Nat → ℚ) (s5 : FwdDCAFitterN N),
        newtonStep (passDerivatives ext abs s) = some (dz, s5) →
        (∀ i, dz i = 0) ∧ (∀ i, s5.mTrPos s.mCurHyp i = s.mTrPos s.mCurHyp i)
        ∧ (prefersAlternative (passPCA ext abs s5) = false → 0 < s.mMinParamChange →
          ∀ (chi2 : ℚ) (fuel : Nat),
            minimizeLoop ext abs (fuel + 1) chi2 s
              = (some (passChi2 abs (FwdcalcTrackResiduals (passPCA ext abs s5))),
                  FwdcalcTrackResiduals (passPCA ext abs s5))
            ∧ (FwdcalcTrackResiduals (passPCA ext abs s5)).mNIters = s.mNIters)
        ∧ (abs = false →
          (∀ i < N, s.mTrPos s.mCurHyp i = (FwdcalcPCA s).mPCA s.mCurHyp) →
          passChi2 false (FwdcalcTrackResiduals (passPCA ext false s5)) = 0))
    ∧ loopEntry (linearExt 2) true
        (seedCrossing (linearExt 2) 0 (processEntry twoSeedTracks zeroResidualFitter))
      = .ok (true, zeroResidualEntryState)
    ∧ (∀ j < 2, zeroResidualEntryState.mTrRes zeroResidualEntryState.mCurHyp j = 0)
    ∧ zeroResidualEntryState.mPCA zeroResidualEntryState.mCurHyp = ![0, 1, 0]
    ∧ (newtonStep (passDerivatives (linearExt 2) true zeroResidualEntryState)).isSome = true
    ∧ (minimizeLoop (linearExt 2) true (loopFuel zeroResidualEntryState)
        (passChi2 true zeroResidualEntryState) zeroResidualEntryState).1 = some (1 / 2)
    ∧ (minimizeLoop (linearExt 2) true (loopFuel zeroResidualEntryState)
        (passChi2 true zeroResidualEntryState) zeroResidualEntryState).2.mPCA 0 = ![0, 1 / 2, 0]
    ∧ processOutcome (process (linearExt 2) twoSeedTracks zeroResidualFitter)
        = some (1, 0, 0, 1 / 4, 1 / 4)
    ∧ getNIterations
        (stateAfter (process (linearExt 2) twoSeedTracks zeroResidualFitter) zeroResidualFitter) 0
      = 0 := by
  refine ⟨fun N ext abs s hres => ⟨passDerivatives_gradient_zero ext abs s hres,
    fun dz s5 h => ?_⟩, ?_, by decide!, by decide!, by decide!, by decide!, by decide!,
    by decide!, by decide!⟩
  · obtain ⟨hz, g1, g2, g3, _⟩ := newtonStep_zero_gradient _ s5 dz
      (passDerivatives_gradient_zero ext abs s hres) h
    obtain ⟨d1, _, d3, d4, _⟩ := passDerivatives_data ext abs s
    have hpos : ∀ i, s5.mTrPos s.mCurHyp i = s.mTrPos s.mCurHyp i := by
      intro i
      have e := g2 i
      rw [d1, d3] at e
      exact e
    refine ⟨hz, hpos, fun halt hmin chi2 fuel =>
      minimizeLoop_zero_residuals ext abs s s5 dz hres h halt hmin chi2 fuel, fun ha hcons => ?_⟩
    exact (passChi2_zero_residuals s s5 (g1.trans d1) hpos (g3.trans d4) hcons).2
  · simp only [loopEntry, if_true]
    rw [if_neg (by decide!)]
    rfl

set_option maxRecDepth 100000 in
/-- Witness for C40: the zero residuals of `zeroResidualEntryState` give a zero
gradient. -/
theorem zero_residuals_pass_witness :
    (∀ j < 2, zeroResidualEntryState.mTrRes zeroResidualEntryState.mCurHyp j = 0)
    ∧ ∀ i < 2, (passDerivatives (linearExt 2) true zeroResidualEntryState).mDChi2Dz i = 0 :=
  ⟨by decide!,
    (zero_residuals_pass.1 2 (linearExt 2) true zeroResidualEntryState (by decide!)).1⟩

end ZeroResiduals


/-! ### The states a fitter can be in, and `process` on them -/

section ReachableStates

open FwdDCAFitterN

variable {N : Nat}

end ReachableStates

/-! ### Rounding to a binary floating-point number -/

/-- The function `pow2` is the power of 2. -/
theorem pow2_eq (e : Int) : pow2 e = (2 : ℚ) ^ e := by
  unfold pow2
  split_ifs with h
  · obtain ⟨n, rfl⟩ := Int.eq_ofNat_of_zero_le h
    simp
  · have he : e = -(((-e).toNat : Nat) : Int) := by omega
    rw [he]
    simp only [Int.neg_neg, Int.toNat_ofNat, zpow_neg, zpow_natCast]
    simp

/-- A power of 2 is positive. -/
theorem pow2_pos (e : Int) : 0 < pow2 e := by
  rw [pow2_eq]
  positivity

/-- The powers of 2 grow with the exponent. -/
theorem pow2_le {e e' : Int} (h : e ≤ e') : pow2 e ≤ pow2 e' := by
  rw [pow2_eq, pow2_eq]
  exact zpow_le_zpow_right₀ (by norm_num) h

/-- The sum of two exponents. -/
theorem pow2_add (e e' : Int) : pow2 (e + e') = pow2 e * pow2 e' := by
  rw [pow2_eq, pow2_eq, pow2_eq]
  exact zpow_add₀ (by norm_num) e e'

/-- The halvings of `log2Fuel` bracket a positive number between two powers
of 2 when the fuel suffices. -/
theorem log2Fuel_spec : ∀ (fuel n : Nat), n ≤ fuel → 1 ≤ n →
    2 ^ log2Fuel fuel n ≤ n ∧ n < 2 ^ (log2Fuel fuel n + 1) := by
  intro fuel
  induction fuel with
  | zero => intro n h1 h2; omega
  | succ k ih =>
    intro n h1 h2
    rw [log2Fuel]
    split_ifs with h
    · have hk := ih (n / 2) (by omega) (by omega)
      rw [pow_succ, pow_succ]
      constructor
      · omega
      · have := hk.2
        rw [pow_succ] at this
        omega
    · simp
      omega

/-- The binary logarithm brackets a positive number between two powers of 2. -/
theorem natLog2_spec (n : Nat) (h : 1 ≤ n) : 2 ^ natLog2 n ≤ n ∧ n < 2 ^ (natLog2 n + 1) :=
  log2Fuel_spec n n (le_refl n) h

/-- A quotient of two numbers, each bracketed by a power of 2 and its double. -/
theorem quotient_bracket (a n d A B : ℚ) (had : a = n / d) (hd : 0 < d) (hA : 0 < A) (hB : 0 < B)
    (q1 : A ≤ n) (q2 : n < A * 2) (q3 : B ≤ d) (q4 : d < B * 2) :
    A / B * (1 / 2) ≤ a ∧ a < A / B * 2 := by
  subst had
  constructor
  · have h : A / B * (1 / 2) = A / (B * 2) := by
      field_simp
    rw [h, div_le_div_iff₀ (by positivity) hd]
    nlinarith
  · have h : A / B * 2 = (A * 2) / B := by
      field_simp
    rw [h, div_lt_div_iff₀ hd hB]
    nlinarith

/-- The binary exponent `e` of a positive rational `a` has
`2^e ≤ a < 2^(e+1)`. -/
theorem binExponent_spec (a : ℚ) (ha : 0 < a) :
    pow2 (binExponent a) ≤ a ∧ a < pow2 (binExponent a + 1) := by
  have hn : 0 < a.num := Rat.num_pos.mpr ha
  have hd : 0 < a.den := a.den_pos
  obtain ⟨n1, n2⟩ := natLog2_spec a.num.natAbs (by omega)
  obtain ⟨d1, d2⟩ := natLog2_spec a.den (by omega)
  have hnum : ((a.num.natAbs : Nat) : ℚ) = (a.num : ℚ) := by
    rw [← Int.cast_natCast, Int.natAbs_of_nonneg hn.le]
  have ha' : a = (a.num.natAbs : ℚ) / (a.den : ℚ) := by
    rw [hnum]
    exact (Rat.num_div_den a).symm
  have hdq : (0 : ℚ) < (a.den : ℚ) := by exact_mod_cast hd
  have q1 : ((2 : ℚ) ^ natLog2 a.num.natAbs) ≤ (a.num.natAbs : ℚ) := by exact_mod_cast n1
  have q2 : (a.num.natAbs : ℚ) < (2 : ℚ) ^ natLog2 a.num.natAbs * 2 := by
    rw [← pow_succ]
    exact_mod_cast n2
  have q3 : ((2 : ℚ) ^ natLog2 a.den) ≤ (a.den : ℚ) := by exact_mod_cast d1
  have q4 : (a.den : ℚ) < (2 : ℚ) ^ natLog2 a.den * 2 := by
    rw [← pow_succ]
    exact_mod_cast d2
  have hA : (0 : ℚ) < (2 : ℚ) ^ natLog2 a.num.natAbs := by positivity
  have hB : (0 : ℚ) < (2 : ℚ) ^ natLog2 a.den := by positivity
  have e0 : pow2 ((natLog2 a.num.natAbs : Int) - (natLog2 a.den : Int))
      = (2 : ℚ) ^ natLog2 a.num.natAbs / (2 : ℚ) ^ natLog2 a.den := by
    rw [pow2_eq, zpow_sub₀ (by norm_num), zpow_natCast, zpow_natCast]
  obtain ⟨b1, b2⟩ := quotient_bracket a _ _ _ _ ha' hdq hA hB q1 q2 q3 q4
  have up : a < pow2 ((natLog2 a.num.natAbs : Int) - (natLog2 a.den : Int) + 1) := by
    have h1 : pow2 1 = 2 := by rw [pow2_eq]; norm_num
    rw [pow2_add, e0, h1]
    exact b2
  have lo : pow2 ((natLog2 a.num.natAbs : Int) - (natLog2 a.den : Int) - 1) ≤ a := by
    have h1 : pow2 (-1) = 1 / 2 := by rw [pow2_eq]; norm_num
    rw [sub_eq_add_neg _ (1 : Int), pow2_add, e0, h1]
    exact b1
  unfold binExponent
  dsimp only
  split_ifs with h
  · exact ⟨h, up⟩
  · refine ⟨lo, ?_⟩
    rw [Int.sub_add_cancel]
    exact not_le.mp h

/-- The binary exponent does not decrease with the number. -/
theorem binExponent_mono (a b : ℚ) (ha : 0 < a) (hab : a ≤ b) :
    binExponent a ≤ binExponent b := by
  by_contra hlt
  have h1 : binExponent b + 1 ≤ binExponent a := by omega
  obtain ⟨a1, _⟩ := binExponent_spec a ha
  obtain ⟨_, b2⟩ := binExponent_spec b (lt_of_lt_of_le ha hab)
  have := pow2_le h1
  linarith

/-- Rounding half to even gives the integer below or the integer above. -/
theorem roundHalfEven_bounds (m : ℚ) :
    (⌊m⌋ : Int) ≤ roundHalfEven m ∧ roundHalfEven m ≤ ⌊m⌋ + 1 := by
  unfold roundHalfEven
  dsimp only
  split_ifs <;> constructor <;> omega

/-- Rounding half to even does not decrease with the number. -/
theorem roundHalfEven_mono (m n : ℚ) (h : m ≤ n) : roundHalfEven m ≤ roundHalfEven n := by
  have hf : (⌊m⌋ : Int) ≤ ⌊n⌋ := Int.floor_mono h
  rcases lt_or_eq_of_le hf with hlt | heq
  · have h1 := (roundHalfEven_bounds m).2
    have h2 := (roundHalfEven_bounds n).1
    omega
  · have hd : m - (⌊m⌋ : Int) ≤ n - (⌊n⌋ : Int) := by
      rw [heq]
      linarith
    unfold roundHalfEven
    dsimp only
    rw [heq] at hd ⊢
    split_ifs <;> (first | omega | (exfalso; linarith))

/-- Rounding half to even of a number that is at least the integer `k` is at
least `k`. -/
theorem roundHalfEven_ge (m : ℚ) (k : Int) (h : (k : ℚ) ≤ m) : k ≤ roundHalfEven m :=
  le_trans (Int.le_floor.mpr h) (roundHalfEven_bounds m).1

/-- Rounding half to even of a number below the integer `k` is at most `k`. -/
theorem roundHalfEven_le (m : ℚ) (k : Int) (h : m < (k : ℚ)) : roundHalfEven m ≤ k := by
  have h1 : (⌊m⌋ : Int) < k := Int.floor_lt.mpr h
  have h2 := (roundHalfEven_bounds m).2
  omega

/-- Rounding of a positive number: the significand `q / u` rounded to an
integer, times the unit `u` of the last place. -/
theorem roundBin_of_pos (p : Nat) (emin : Int) (q : ℚ) (h : 0 < q) :
    roundBin p emin q
      = (roundHalfEven (q / pow2 (max (binExponent q) emin - (p : Int) + 1)) : ℚ)
        * pow2 (max (binExponent q) emin - (p : Int) + 1) := by
  unfold roundBin
  rw [if_neg (ne_of_gt h)]
  dsimp only
  rw [if_neg (not_lt.mpr h.le), abs_of_pos h]

/-- Rounding of 0. -/
theorem roundBin_zero (p : Nat) (emin : Int) : roundBin p emin 0 = 0 := by
  unfold roundBin
  rw [if_pos rfl]

/-- Rounding commutes with the change of sign. -/
theorem roundBin_neg (p : Nat) (emin : Int) (q : ℚ) :
    roundBin p emin (-q) = -roundBin p emin q := by
  rcases lt_trichotomy q 0 with h | h | h
  · have h1 : ¬ (-q = 0) := fun h' => by linarith
    have h2 : ¬ (-q < 0) := by linarith
    have h3 : ¬ (q = 0) := ne_of_lt h
    simp only [roundBin, h1, h2, h3, h, if_false, if_true, abs_neg, neg_neg]
  · rw [h, neg_zero, roundBin_zero, neg_zero]
  · have h1 : ¬ (-q = 0) := fun h' => by linarith
    have h2 : -q < 0 := by linarith
    have h3 : ¬ (q = 0) := ne_of_gt h
    have h4 : ¬ (q < 0) := by linarith
    simp only [roundBin, h1, h2, h3, h4, if_false, if_true, abs_neg]

/-- A power of 2 with a natural exponent, as an integer. -/
theorem pow2_natCast (n : Nat) : pow2 (n : Int) = (((2 : Int) ^ n : Int) : ℚ) := by
  rw [pow2_eq]
  push_cast
  rw [zpow_natCast]

/-- The significand of a positive number is below `2^p`. -/
theorem significand_lt (p : Nat) (emin : Int) (q : ℚ) (h : 0 < q) :
    q / pow2 (max (binExponent q) emin - (p : Int) + 1) < (((2 : Int) ^ p : Int) : ℚ) := by
  obtain ⟨_, b2⟩ := binExponent_spec q h
  have hu := pow2_pos (max (binExponent q) emin - (p : Int) + 1)
  have e2 : pow2 (max (binExponent q) emin + 1) = (((2 : Int) ^ p : Int) : ℚ)
      * pow2 (max (binExponent q) emin - (p : Int) + 1) := by
    rw [← pow2_natCast, ← pow2_add]
    congr 1
    omega
  rw [div_lt_iff₀ hu, ← e2]
  exact lt_of_lt_of_le b2 (pow2_le (by omega))

/-- The significand of a positive number that is not below `2^emin` is at least
`2^(p-1)`. -/
theorem significand_ge (p : Nat) (hp : 1 ≤ p) (emin : Int) (q : ℚ) (h : 0 < q)
    (he : emin ≤ binExponent q) :
    (((2 : Int) ^ (p - 1) : Int) : ℚ) ≤ q / pow2 (max (binExponent q) emin - (p : Int) + 1) := by
  obtain ⟨b1, _⟩ := binExponent_spec q h
  have hu := pow2_pos (max (binExponent q) emin - (p : Int) + 1)
  have e1 : pow2 (binExponent q) = (((2 : Int) ^ (p - 1) : Int) : ℚ)
      * pow2 (max (binExponent q) emin - (p : Int) + 1) := by
    rw [← pow2_natCast, ← pow2_add]
    congr 1
    omega
  rw [le_div_iff₀ hu, ← e1]
  exact b1

/-- Rounding of a positive number is not negative and not above the power of 2
that bounds the numbers of its exponent. -/
theorem roundBin_upper (p : Nat) (emin : Int) (q : ℚ) (h : 0 < q) :
    0 ≤ roundBin p emin q ∧ roundBin p emin q ≤ pow2 (max (binExponent q) emin + 1) := by
  have s2 := significand_lt p emin q h
  have hu := pow2_pos (max (binExponent q) emin - (p : Int) + 1)
  have e2 : pow2 (max (binExponent q) emin + 1) = (((2 : Int) ^ p : Int) : ℚ)
      * pow2 (max (binExponent q) emin - (p : Int) + 1) := by
    rw [← pow2_natCast, ← pow2_add]
    congr 1
    omega
  have s0 : ((0 : Int) : ℚ) ≤ q / pow2 (max (binExponent q) emin - (p : Int) + 1) := by
    rw [Int.cast_zero]
    exact div_nonneg h.le hu.le
  rw [roundBin_of_pos p emin q h, e2]
  constructor
  · apply mul_nonneg _ hu.le
    exact_mod_cast roundHalfEven_ge _ _ s0
  · apply mul_le_mul_of_nonneg_right _ hu.le
    exact_mod_cast roundHalfEven_le _ _ s2

/-- Rounding of a positive number that is not below `2^emin` is at least the
power of 2 of its exponent. -/
theorem roundBin_lower (p : Nat) (hp : 1 ≤ p) (emin : Int) (q : ℚ) (h : 0 < q)
    (he : emin ≤ binExponent q) : pow2 (binExponent q) ≤ roundBin p emin q := by
  have s1 := significand_ge p hp emin q h he
  have hu := pow2_pos (max (binExponent q) emin - (p : Int) + 1)
  have e1 : pow2 (binExponent q) = (((2 : Int) ^ (p - 1) : Int) : ℚ)
      * pow2 (max (binExponent q) emin - (p : Int) + 1) := by
    rw [← pow2_natCast, ← pow2_add]
    congr 1
    omega
  rw [roundBin_of_pos p emin q h, e1]
  apply mul_le_mul_of_nonneg_right _ hu.le
  exact_mod_cast roundHalfEven_ge _ _ s1

/-- Rounding does not decrease with the number, for positive numbers. -/
theorem roundBin_mono_pos (p : Nat) (hp : 1 ≤ p) (emin : Int) (a b : ℚ) (ha : 0 < a)
    (hab : a ≤ b) : roundBin p emin a ≤ roundBin p emin b := by
  have hb : 0 < b := lt_of_lt_of_le ha hab
  have hm := binExponent_mono a b ha hab
  rcases lt_or_eq_of_le (max_le_max_right emin hm) with hlt | heq
  · have hbe : emin < binExponent b := by
      by_contra hn
      rw [max_eq_right (not_lt.mp hn)] at hlt
      exact absurd (le_max_right (binExponent a) emin) (not_le.mpr hlt)
    have hbm : max (binExponent b) emin = binExponent b := max_eq_left hbe.le
    rw [hbm] at hlt
    have h1 := (roundBin_upper p emin a ha).2
    have h2 := roundBin_lower p hp emin b hb hbe.le
    have h3 : pow2 (max (binExponent a) emin + 1) ≤ pow2 (binExponent b) := pow2_le (by omega)
    linarith
  · rw [roundBin_of_pos p emin a ha, roundBin_of_pos p emin b hb, heq]
    have hu := pow2_pos (max (binExponent b) emin - (p : Int) + 1)
    apply mul_le_mul_of_nonneg_right _ hu.le
    have hd : a / pow2 (max (binExponent b) emin - (p : Int) + 1)
        ≤ b / pow2 (max (binExponent b) emin - (p : Int) + 1) :=
      div_le_div_of_nonneg_right hab hu.le
    exact_mod_cast roundHalfEven_mono _ _ hd

/-- Rounding to the nearest floating-point number does not decrease with the
number. -/
theorem roundBin_mono (p : Nat) (hp : 1 ≤ p) (emin : Int) (a b : ℚ) (hab : a ≤ b) :
    roundBin p emin a ≤ roundBin p emin b := by
  rcases lt_trichotomy a 0 with ha | ha | ha
  · rcases lt_trichotomy b 0 with hb | hb | hb
    · have h := roundBin_mono_pos p hp emin (-b) (-a) (by linarith) (by linarith)
      rw [roundBin_neg, roundBin_neg] at h
      linarith
    · have h := (roundBin_upper p emin (-a) (by linarith)).1
      rw [roundBin_neg] at h
      rw [hb, roundBin_zero]
      linarith
    · have h := (roundBin_upper p emin (-a) (by linarith)).1
      rw [roundBin_neg] at h
      have h2 := (roundBin_upper p emin b hb).1
      linarith
  · rw [ha, roundBin_zero]
    rcases lt_or_eq_of_le (ha ▸ hab) with hb | hb
    · exact (roundBin_upper p emin b hb).1
    · rw [← hb, roundBin_zero]
  · exact roundBin_mono_pos p hp emin a b ha hab

/-- A rounded number is positive only if the number is. -/
theorem pos_of_roundBin_pos (p : Nat) (hp : 1 ≤ p) (emin : Int) (q : ℚ)
    (h : 0 < roundBin p emin q) : 0 < q := by
  by_contra hn
  have h2 := roundBin_mono p hp emin q 0 (not_lt.mp hn)
  rw [roundBin_zero] at h2
  linarith

/-- A number that is at least the least positive floating-point number
`2^(emin - p + 1)` rounds to at least that number. -/
theorem roundBin_ge_unit (p : Nat) (hp : 1 ≤ p) (emin : Int) (q : ℚ)
    (h : pow2 (emin - (p : Int) + 1) ≤ q) : pow2 (emin - (p : Int) + 1) ≤ roundBin p emin q := by
  have hq : 0 < q := lt_of_lt_of_le (pow2_pos _) h
  have hu := pow2_pos (max (binExponent q) emin - (p : Int) + 1)
  have hle : pow2 (emin - (p : Int) + 1) ≤ pow2 (max (binExponent q) emin - (p : Int) + 1) :=
    pow2_le (by omega)
  have h1 : ((1 : Int) : ℚ) ≤ q / pow2 (max (binExponent q) emin - (p : Int) + 1) := by
    rcases le_or_lt emin (binExponent q) with he | he
    · have s1 := significand_ge p hp emin q hq he
      have : ((1 : Int) : ℚ) ≤ (((2 : Int) ^ (p - 1) : Int) : ℚ) := by
        exact_mod_cast one_le_pow₀ (by norm_num : (1 : Int) ≤ 2)
      exact le_trans this s1
    · rw [max_eq_right he.le, Int.cast_one, le_div_iff₀ (pow2_pos _), one_mul]
      exact h
  have h2 : (1 : ℚ) ≤ (roundHalfEven (q / pow2 (max (binExponent q) emin - (p : Int) + 1)) : ℚ) := by
    exact_mod_cast roundHalfEven_ge _ _ h1
  rw [roundBin_of_pos p emin q hq]
  calc pow2 (emin - (p : Int) + 1) ≤ pow2 (max (binExponent q) emin - (p : Int) + 1) := hle
    _ = 1 * pow2 (max (binExponent q) emin - (p : Int) + 1) := (one_mul _).symm
    _ ≤ _ := mul_le_mul_of_nonneg_right h2 hu.le

/-- A rounded number is an integer multiple of the least positive
floating-point number `2^(emin - p + 1)`. -/
theorem roundBin_multiple (p : Nat) (emin : Int) (q : ℚ) :
    ∃ k : Int, roundBin p emin q = (k : ℚ) * pow2 (emin - (p : Int) + 1) := by
  have hpos : ∀ x : ℚ, 0 < x →
      ∃ k : Int, roundBin p emin x = (k : ℚ) * pow2 (emin - (p : Int) + 1) := by
    intro x hx
    obtain ⟨n, hn⟩ : ∃ n : Nat, max (binExponent x) emin - emin = (n : Int) :=
      ⟨(max (binExponent x) emin - emin).toNat, by omega⟩
    have hu : pow2 (max (binExponent x) emin - (p : Int) + 1)
        = (((2 : Int) ^ n : Int) : ℚ) * pow2 (emin - (p : Int) + 1) := by
      rw [← pow2_natCast, ← pow2_add]
      congr 1
      omega
    refine ⟨roundHalfEven (x / pow2 (max (binExponent x) emin - (p : Int) + 1)) * 2 ^ n, ?_⟩
    rw [roundBin_of_pos p emin x hx, hu]
    push_cast
    ring
  rcases lt_trichotomy q 0 with h | h | h
  · obtain ⟨k, hk⟩ := hpos (-q) (by linarith)
    refine ⟨-k, ?_⟩
    rw [roundBin_neg] at hk
    push_cast
    linarith
  · exact ⟨0, by rw [h, roundBin_zero]; simp⟩
  · exact hpos q h

/-- The rounded difference of two rounded numbers is positive exactly when the
first is the larger: their difference is a multiple of the least positive
floating-point number, so it does not round to 0 unless it is 0. -/
theorem roundBin_sub_pos_iff (p : Nat) (hp : 1 ≤ p) (emin : Int) (x y : ℚ)
    (hx : roundBin p emin x = x) (hy : roundBin p emin y = y) :
    0 < roundBin p emin (x - y) ↔ y < x := by
  constructor
  · intro h
    have := pos_of_roundBin_pos p hp emin _ h
    linarith
  · intro h
    obtain ⟨k1, h1⟩ := roundBin_multiple p emin x
    obtain ⟨k2, h2⟩ := roundBin_multiple p emin y
    rw [hx] at h1
    rw [hy] at h2
    have hu := pow2_pos (emin - (p : Int) + 1)
    have hk : k2 < k1 := by
      by_contra hn
      have : (k1 : ℚ) ≤ (k2 : ℚ) := by exact_mod_cast not_lt.mp hn
      have := mul_le_mul_of_nonneg_right this hu.le
      linarith
    have hk1 : ((1 : Int) : ℚ) ≤ ((k1 - k2 : Int) : ℚ) := by exact_mod_cast (by omega : 1 ≤ k1 - k2)
    have hge : pow2 (emin - (p : Int) + 1) ≤ x - y := by
      rw [h1, h2, ← sub_mul]
      calc pow2 (emin - (p : Int) + 1) = 1 * pow2 (emin - (p : Int) + 1) := (one_mul _).symm
        _ ≤ ((k1 : ℚ) - (k2 : ℚ)) * pow2 (emin - (p : Int) + 1) := by
          apply mul_le_mul_of_nonneg_right _ hu.le
          push_cast at hk1
          exact hk1
    exact lt_of_lt_of_le hu (roundBin_ge_unit p hp emin _ hge)

/-! ### `FwdTrackCovI::set` in single precision -/

/-- The two outcomes of a conversion to `float`. -/
theorem narrow32_cases (q : ℚ) :
    (|toFloat q| < pow2 128 ∧ narrow32 q = .fin (toFloat q))
    ∨ (pow2 128 ≤ |toFloat q| ∧ narrow32 q = .inf (decide (q < 0))) := by
  unfold narrow32
  split_ifs with h
  · exact Or.inr ⟨h, rfl⟩
  · exact Or.inl ⟨not_le.mp h, rfl⟩

/-- A number that converts to itself is a `float`. -/
theorem toFloat_of_narrow32 (q : ℚ) (h : narrow32 q = .fin q) : toFloat q = q := by
  rcases narrow32_cases q with ⟨_, h1⟩ | ⟨_, h1⟩
  · rw [h1] at h
    injection h
  · rw [h1] at h
    cases h

/-- The single-precision difference of two products is positive only if the
first product is the larger one. -/
theorem F32_sub_isPos (A B : ℚ) (hB : 0 ≤ B)
    (h : (F32.sub (narrow32 A) (narrow32 B)).isPos = true) : B < A := by
  have hmono : toFloat B < toFloat A → B < A := by
    intro hlt
    by_contra hn
    exact absurd (roundBin_mono 24 (by decide) (-126) A B (not_lt.mp hn)) (not_le.mpr hlt)
  have hB0 : 0 ≤ toFloat B := by
    have := roundBin_mono 24 (by decide) (-126) 0 B hB
    rwa [roundBin_zero] at this
  have hBn : decide (B < 0) = false := decide_eq_false (not_lt.mpr hB)
  rcases narrow32_cases A with ⟨a1, a2⟩ | ⟨a1, a2⟩
  · rcases narrow32_cases B with ⟨b1, b2⟩ | ⟨b1, b2⟩
    · rw [a2, b2] at h
      apply hmono
      have hd : (narrow32 (toFloat A - toFloat B)).isPos = true := h
      rcases narrow32_cases (toFloat A - toFloat B) with ⟨_, d2⟩ | ⟨d1, d2⟩
      · rw [d2] at hd
        have hp : 0 < toFloat (toFloat A - toFloat B) := of_decide_eq_true hd
        have := pos_of_roundBin_pos 24 (by decide) (-126) _ hp
        linarith
      · rw [d2] at hd
        have hnn : ¬ (toFloat A - toFloat B < 0) := by
          intro hneg
          simp [F32.isPos, hneg] at hd
        rcases lt_or_eq_of_le (not_lt.mp hnn) with hpos | hzero
        · linarith
        · rw [← hzero] at d1
          have hz : toFloat 0 = 0 := roundBin_zero 24 (-126)
          rw [hz, abs_zero] at d1
          exact absurd (pow2_pos 128) (not_lt.mpr d1)
    · rw [a2, b2, hBn] at h
      simp [F32.sub, F32.isPos] at h
  · rcases narrow32_cases B with ⟨b1, b2⟩ | ⟨b1, b2⟩
    · rw [a2, b2] at h
      have hA : ¬ (A < 0) := by
        intro hneg
        simp [F32.sub, F32.isPos, hneg] at h
      have hA0 : 0 ≤ toFloat A := by
        have := roundBin_mono 24 (by decide) (-126) 0 A (not_lt.mp hA)
        rwa [roundBin_zero] at this
      rw [abs_of_nonneg hA0] at a1
      rw [abs_of_nonneg hB0] at b1
      exact hmono (lt_of_lt_of_le b1 a1)
    · rw [a2, b2, hBn] at h
      cases hd : decide (A < 0) <;> rw [hd] at h <;> simp [F32.sub, F32.isPos] at h

/-- When the two products are `float`s, the single-precision difference is
positive exactly when the first product is the larger one. -/
theorem F32_sub_isPos_of_exact (A B : ℚ) (hA : narrow32 A = .fin A) (hB : narrow32 B = .fin B) :
    (F32.sub (narrow32 A) (narrow32 B)).isPos = true ↔ B < A := by
  have eA := toFloat_of_narrow32 A hA
  have eB := toFloat_of_narrow32 B hB
  rw [hA, hB]
  show (narrow32 (A - B)).isPos = true ↔ B < A
  have hiff := roundBin_sub_pos_iff 24 (by decide) (-126) A B eA eB
  rcases narrow32_cases (A - B) with ⟨_, d2⟩ | ⟨d1, d2⟩
  · rw [d2]
    show decide (0 < toFloat (A - B)) = true ↔ B < A
    rw [decide_eq_true_iff]
    exact hiff
  · rw [d2]
    constructor
    · intro h
      have hnn : ¬ (A - B < 0) := by
        intro hneg
        simp [F32.isPos, hneg] at h
      rcases lt_or_eq_of_le (not_lt.mp hnn) with hpos | hzero
      · linarith
      · rw [← hzero] at d1
        have hz : toFloat 0 = 0 := roundBin_zero 24 (-126)
        rw [hz, abs_zero] at d1
        exact absurd (pow2_pos 128) (not_lt.mpr d1)
    · intro h
      have hnn : ¬ (A - B < 0) := by linarith
      simp [F32.isPos, hnn]

/-- The two outcomes of `FwdTrackCovI::set`, by the comparison `detXY > 0.` of its
single-precision determinant. -/
theorem FwdTrackCovI_setFloat_cases (self : FwdTrackCovI) (trc : Track) (zf : ℚ) :
    ((floatDetXY trc).isPos = true →
      self.setFloat trc zf = .ok
        { sxx := toFloat (toDouble ((narrow32 trc.getSigma2Y).val
            * toDouble (1 / (floatDetXY trc).val)))
          syy := toFloat (toDouble ((narrow32 trc.getSigma2X).val
            * toDouble (1 / (floatDetXY trc).val)))
          sxy := toFloat (toDouble (-(narrow32 trc.getSigmaXY).val
            * toDouble (1 / (floatDetXY trc).val)))
          szz := toFloat (toDouble (1 / (F32.mul (narrow32 trc.getSigma2Y) (narrow32 zf)).val)) })
    ∧ ((floatDetXY trc).isPos = false →
      self.setFloat trc zf = .error "invalid track covariance") := by
  constructor
  · intro h
    have h' : (F32.sub (F32.mul (narrow32 trc.getSigma2X) (narrow32 trc.getSigma2Y))
        (F32.mul (narrow32 trc.getSigmaXY) (narrow32 trc.getSigmaXY))).isPos = true := h
    simp [FwdTrackCovI.setFloat, floatDetXY, h']
  · intro h
    have h' : (F32.sub (F32.mul (narrow32 trc.getSigma2X) (narrow32 trc.getSigma2Y))
        (F32.mul (narrow32 trc.getSigmaXY) (narrow32 trc.getSigmaXY))).isPos = false := h
    simp [FwdTrackCovI.setFloat, h']

/-- The function `FwdTrackCovI::set` throws exactly when the comparison
`detXY > 0.` fails. -/
theorem FwdTrackCovI_setFloat_error_iff (self : FwdTrackCovI) (trc : Track) (zf : ℚ) :
    self.setFloat trc zf = .error "invalid track covariance" ↔ (floatDetXY trc).isPos = false := by
  obtain ⟨hok, herr⟩ := FwdTrackCovI_setFloat_cases self trc zf
  refine ⟨fun h => ?_, herr⟩
  cases hp : (floatDetXY trc).isPos with
  | false => rfl
  | true =>
    rw [hok hp] at h
    cases h

/-- A covariance that `FwdTrackCovI::set` accepts and whose narrowed terms are
finite: the narrowed terms have a positive determinant. -/
theorem floatDetXY_pos_narrowed (trc : Track) (a b c : ℚ)
    (ha : narrow32 trc.getSigma2X = .fin a) (hb : narrow32 trc.getSigmaXY = .fin b)
    (hc : narrow32 trc.getSigma2Y = .fin c) (h : (floatDetXY trc).isPos = true) :
    0 < a * c - b * b := by
  have h' : (F32.sub (narrow32 (a * c)) (narrow32 (b * b))).isPos = true := by
    unfold floatDetXY at h
    dsimp only at h
    rw [ha, hb, hc] at h
    exact h
  have := F32_sub_isPos (a * c) (b * b) (mul_self_nonneg b) h'
  linarith

/-- When the narrowed terms are finite and their two products are `float`s,
the covariance is accepted exactly when the narrowed terms have a positive
determinant. -/
theorem floatDetXY_pos_of_exact (trc : Track) (a b c : ℚ)
    (ha : narrow32 trc.getSigma2X = .fin a) (hb : narrow32 trc.getSigmaXY = .fin b)
    (hc : narrow32 trc.getSigma2Y = .fin c)
    (h1 : narrow32 (a * c) = .fin (a * c)) (h2 : narrow32 (b * b) = .fin (b * b)) :
    (floatDetXY trc).isPos = true ↔ 0 < a * c - b * b := by
  have h' : floatDetXY trc = F32.sub (narrow32 (a * c)) (narrow32 (b * b)) := by
    unfold floatDetXY
    dsimp only
    rw [ha, hb, hc]
    rfl
  rw [h', F32_sub_isPos_of_exact (a * c) (b * b) h1 h2]
  exact sub_pos.symm

/-- C7, as the code has it: `FwdTrackCovI::set` throws "invalid track covariance"
exactly when the comparison `detXY > 0.` fails for the determinant that it
computes in single precision from the covariance terms narrowed to `float`;
when the comparison holds it succeeds and assigns all four fields (none keeps
its previous value). For narrowed terms that are finite it throws whenever
their determinant is `<= 0`, and exactly then when their two products are
`float`s. -/
theorem FwdTrackCovI_setFloat_fails_iff (self : FwdTrackCovI) (trc : Track) (zf : ℚ) :
    (self.setFloat trc zf = .error "invalid track covariance"
      ↔ (floatDetXY trc).isPos = false)
    ∧ ((∃ c, self.setFloat trc zf = .ok c) ↔ (floatDetXY trc).isPos = true)
    ∧ ((floatDetXY trc).isPos = true →
        self.setFloat trc zf = .ok
          { sxx := toFloat (toDouble ((narrow32 trc.getSigma2Y).val
              * toDouble (1 / (floatDetXY trc).val)))
            syy := toFloat (toDouble ((narrow32 trc.getSigma2X).val
              * toDouble (1 / (floatDetXY trc).val)))
            sxy := toFloat (toDouble (-(narrow32 trc.getSigmaXY).val
              * toDouble (1 / (floatDetXY trc).val)))
            szz := toFloat (toDouble
              (1 / (F32.mul (narrow32 trc.getSigma2Y) (narrow32 zf)).val)) })
    ∧ (∀ a b c : ℚ, narrow32 trc.getSigma2X = .fin a → narrow32 trc.getSigmaXY = .fin b →
        narrow32 trc.getSigma2Y = .fin c →
        (a * c - b * b ≤ 0 → self.setFloat trc zf = .error "invalid track covariance")
        ∧ (narrow32 (a * c) = .fin (a * c) → narrow32 (b * b) = .fin (b * b) →
          (self.setFloat trc zf = .error "invalid track covariance" ↔ a * c - b * b ≤ 0))) := by
  obtain ⟨hok, herr⟩ := FwdTrackCovI_setFloat_cases self trc zf
  have h1 := FwdTrackCovI_setFloat_error_iff self trc zf
  refine ⟨h1, ⟨fun h => ?_, fun h => ⟨_, hok h⟩⟩, hok, fun a b c ha hb hc => ⟨fun h => ?_,
    fun e1 e2 => ?_⟩⟩
  · cases hp : (floatDetXY trc).isPos with
    | true => rfl
    | false =>
      obtain ⟨c, hc⟩ := h
      rw [herr hp] at hc
      cases hc
  · apply herr
    cases hp : (floatDetXY trc).isPos with
    | false => rfl
    | true => exact absurd (floatDetXY_pos_narrowed trc a b c ha hb hc hp) (not_lt.mpr h)
  · rw [h1, ← not_lt, ← floatDetXY_pos_of_exact trc a b c ha hb hc e1 e2]
    cases (floatDetXY trc).isPos <;> simp

set_option maxRecDepth 100000 in
/-- Witness for C7: the covariance `cxx = 2`, `cyy = 4`, `cxy = 2` has the
single-precision determinant 4, and `set` with the z-error factor 4 assigns the
four fields `1`, `1/2`, `-1/2` and `1/16`. -/
theorem FwdTrackCovI_setFloat_fails_iff_witness :
    floatDetXY (trackAt 0 0 0 2 4 2) = .fin 4
    ∧ covI_1_1_09.setFloat (trackAt 0 0 0 2 4 2) 4
      = .ok { sxx := 1, syy := 1 / 2, sxy := -(1 / 2), szz := 1 / 16 } :=
  ⟨by decide!,
    ((FwdTrackCovI_setFloat_fails_iff covI_1_1_09 (trackAt 0 0 0 2 4 2) 4).2.2.1
      (by decide!)).trans (congrArg Except.ok (by decide!))⟩

set_option maxRecDepth 100000 in
/-- Counterexample to C7 as stated: the sign of the determinant of the
covariance does not decide whether `FwdTrackCovI::set` throws. The covariance
`nearSingularTrack` has a positive determinant, and `set` throws: the narrowing
of `cxy = 0.99999999` to `float` gives 1. The terms of `roundedProductTrack`
are `float`s and its determinant is positive, and `set` throws: the product
`cxx * cyy` rounds to 1. The covariance `narrowedDefiniteTrack` has a negative
determinant, and `set` succeeds. The covariances `underflowTrack` and
`overflowTrack` are positive definite, and `set` throws: the product
`cxx * cyy` rounds to 0 for the one, and both products are infinite for the
other. (The object is `covI_1_1_09` and the z-error factor 5; neither enters
the test.) -/
theorem FwdTrackCovI_set_boundary_not_determinant :
    (0 < nearSingularTrack.getSigma2X * nearSingularTrack.getSigma2Y
        - nearSingularTrack.getSigmaXY * nearSingularTrack.getSigmaXY
      ∧ narrow32 nearSingularTrack.getSigmaXY = .fin 1
      ∧ covI_1_1_09.setFloat nearSingularTrack 5 = .error "invalid track covariance")
    ∧ (narrow32 roundedProductTrack.getSigma2X = .fin roundedProductTrack.getSigma2X
      ∧ narrow32 roundedProductTrack.getSigma2Y = .fin roundedProductTrack.getSigma2Y
      ∧ narrow32 roundedProductTrack.getSigmaXY = .fin roundedProductTrack.getSigmaXY
      ∧ 0 < roundedProductTrack.getSigma2X * roundedProductTrack.getSigma2Y
        - roundedProductTrack.getSigmaXY * roundedProductTrack.getSigmaXY
      ∧ narrow32 (roundedProductTrack.getSigma2X * roundedProductTrack.getSigma2Y) = .fin 1
      ∧ covI_1_1_09.setFloat roundedProductTrack 5 = .error "invalid track covariance")
    ∧ (narrowedDefiniteTrack.getSigma2X * narrowedDefiniteTrack.getSigma2Y
        - narrowedDefiniteTrack.getSigmaXY * narrowedDefiniteTrack.getSigmaXY < 0
      ∧ narrow32 narrowedDefiniteTrack.getSigmaXY = .fin 1
      ∧ ∃ c, covI_1_1_09.setFloat narrowedDefiniteTrack 5 = .ok c)
    ∧ (0 < underflowTrack.getSigma2X
      ∧ 0 < underflowTrack.getSigma2X * underflowTrack.getSigma2Y
        - underflowTrack.getSigmaXY * underflowTrack.getSigmaXY
      ∧ narrow32 (underflowTrack.getSigma2X * underflowTrack.getSigma2Y) = .fin 0
      ∧ covI_1_1_09.setFloat underflowTrack 5 = .error "invalid track covariance")
    ∧ (0 < overflowTrack.getSigma2X
      ∧ 0 < overflowTrack.getSigma2X * overflowTrack.getSigma2Y
        - overflowTrack.getSigmaXY * overflowTrack.getSigmaXY
      ∧ floatDetXY overflowTrack = .nan
      ∧ covI_1_1_09.setFloat overflowTrack 5 = .error "invalid track covariance") :=
  ⟨⟨by decide!, by decide!,
      (FwdTrackCovI_setFloat_cases covI_1_1_09 nearSingularTrack 5).2 (by decide!)⟩,
    ⟨by decide!, by decide!, by decide!, by decide!, by decide!,
      (FwdTrackCovI_setFloat_cases covI_1_1_09 roundedProductTrack 5).2 (by decide!)⟩,
    ⟨by decide!, by decide!,
      ⟨_, (FwdTrackCovI_setFloat_cases covI_1_1_09 narrowedDefiniteTrack 5).1 (by decide!)⟩⟩,
    ⟨by decide!, by decide!, by decide!,
      (FwdTrackCovI_setFloat_cases covI_1_1_09 underflowTrack 5).2 (by decide!)⟩,
    ⟨by decide!, by decide!, by decide!,
      (FwdTrackCovI_setFloat_cases covI_1_1_09 overflowTrack 5).2 (by decide!)⟩⟩

set_option maxRecDepth 100000 in
/-- C8 as stated fails: the covariance `cxx = cyy = -1`, `cxy = 0` is not
positive definite, yet `FwdTrackCovI::set` accepts it and produces an inverse
covariance, in exact arithmetic and in single precision alike. -/
theorem FwdTrackCovI_set_accepts_negative_definite :
    ¬ PosDef2 (-1) 0 (-1)
    ∧ covI_1_1_09.set (trackAt 0 0 0 (-1) (-1) 0) 5
        = .ok { sxx := -1, syy := -1, sxy := 0, szz := -(1 / 5) }
    ∧ covI_1_1_09.setFloat (trackAt 0 0 0 (-1) (-1) 0) 5
        = .ok { sxx := -1, syy := -1, sxy := 0, szz := -(13421773 / 67108864) } := by
  refine ⟨?_, ?_, ?_⟩
  · rw [posDef2_iff]
    norm_num
  · norm_num [FwdTrackCovI.set, trackAt]
  · exact ((FwdTrackCovI_setFloat_cases covI_1_1_09 (trackAt 0 0 0 (-1) (-1) 0) 5).1
      (by decide!)).trans (congrArg Except.ok (by decide!))

set_option maxRecDepth 100000 in
/-- C8, as the code has it: `FwdTrackCovI::set` examines the covariance terms
narrowed to `float`. For finite narrowed terms that are not positive definite,
`set` raises the invalid-covariance failure unless the narrowed `cxx` is negative
and the comparison `detXY > 0.` of the single-precision determinant holds; it
raises whenever the narrowed terms have a determinant `<= 0`, so whatever it
accepts is, once narrowed, positive definite or negative definite. Of the
covariance itself this decides nothing near the singular ones: the negative
definite `negativeDefiniteTrack` is rejected, and `narrowedDefiniteTrack`, which
is neither positive nor negative definite, is accepted. -/
theorem FwdTrackCovI_setFloat_rejects_nonPosDef (self : FwdTrackCovI) (trc : Track) (zf : ℚ) :
    (∀ a b c : ℚ, narrow32 trc.getSigma2X = .fin a → narrow32 trc.getSigmaXY = .fin b →
        narrow32 trc.getSigma2Y = .fin c →
        (¬ PosDef2 a b c →
          (self.setFloat trc zf = .error "invalid track covariance"
            ↔ ¬ (a < 0 ∧ (floatDetXY trc).isPos = true)))
        ∧ (a * c - b * b ≤ 0 → self.setFloat trc zf = .error "invalid track covariance")
        ∧ ((∃ r, self.setFloat trc zf = .ok r) → 0 < a * c - b * b))
    ∧ (negativeDefiniteTrack.getSigma2X < 0
      ∧ 0 < negativeDefiniteTrack.getSigma2X * negativeDefiniteTrack.getSigma2Y
        - negativeDefiniteTrack.getSigmaXY * negativeDefiniteTrack.getSigmaXY
      ∧ self.setFloat negativeDefiniteTrack zf = .error "invalid track covariance")
    ∧ (0 < narrowedDefiniteTrack.getSigma2X
      ∧ narrowedDefiniteTrack.getSigma2X * narrowedDefiniteTrack.getSigma2Y
        - narrowedDefiniteTrack.getSigmaXY * narrowedDefiniteTrack.getSigmaXY < 0
      ∧ ¬ PosDef2 narrowedDefiniteTrack.getSigma2X narrowedDefiniteTrack.getSigmaXY
        narrowedDefiniteTrack.getSigma2Y
      ∧ ∃ r, self.setFloat narrowedDefiniteTrack zf = .ok r) := by
  obtain ⟨hok, herr⟩ := FwdTrackCovI_setFloat_cases self trc zf
  refine ⟨fun a b c ha hb hc => ?_,
    ⟨by decide!, by decide!,
      (FwdTrackCovI_setFloat_cases self negativeDefiniteTrack zf).2 (by decide!)⟩,
    ⟨by decide!, by decide!, ?_,
      ⟨_, (FwdTrackCovI_setFloat_cases self narrowedDefiniteTrack zf).1 (by decide!)⟩⟩⟩
  · have hrej : a * c - b * b ≤ 0 → self.setFloat trc zf = .error "invalid track covariance" := by
      intro h
      apply herr
      cases hp : (floatDetXY trc).isPos with
      | false => rfl
      | true => exact absurd (floatDetXY_pos_narrowed trc a b c ha hb hc hp) (not_lt.mpr h)
    refine ⟨fun h => ⟨?_, fun hn => ?_⟩, hrej, fun h => ?_⟩
    · rintro hd ⟨_, hpos⟩
      rw [hok hpos] at hd
      cases hd
    · apply herr
      cases hp : (floatDetXY trc).isPos with
      | false => rfl
      | true =>
        exfalso
        have hdet := floatDetXY_pos_narrowed trc a b c ha hb hc hp
        rw [posDef2_iff] at h
        have hx : ¬ 0 < a := fun hx => h ⟨hx, hdet⟩
        have hx0 : ¬ a < 0 := fun hx0 => hn ⟨hx0, hp⟩
        have hz : a = 0 := le_antisymm (not_lt.mp hx) (not_lt.mp hx0)
        rw [hz] at hdet
        nlinarith [mul_self_nonneg b]
    · by_contra hn
      obtain ⟨r, hr⟩ := h
      rw [hrej (not_lt.mp hn)] at hr
      cases hr
  · rw [posDef2_iff]
    intro h
    exact absurd h.2 (by decide!)

set_option maxRecDepth 100000 in
/-- Witness for C8: the covariance `cxx = cyy = 1`, `cxy = 2`, whose terms are
`float`s, is indefinite and is rejected. -/
theorem FwdTrackCovI_setFloat_rejects_nonPosDef_witness :
    narrow32 (trackAt 0 0 0 1 1 2).getSigma2X = .fin 1
    ∧ narrow32 (trackAt 0 0 0 1 1 2).getSigmaXY = .fin 2
    ∧ narrow32 (trackAt 0 0 0 1 1 2).getSigma2Y = .fin 1
    ∧ ¬ PosDef2 1 2 1
    ∧ ¬ ((1 : ℚ) < 0 ∧ (floatDetXY (trackAt 0 0 0 1 1 2)).isPos = true)
    ∧ covI_1_1_09.setFloat (trackAt 0 0 0 1 1 2) 5 = .error "invalid track covariance" :=
  have h1 : narrow32 (trackAt 0 0 0 1 1 2).getSigma2X = .fin 1 := by decide!
  have h2 : narrow32 (trackAt 0 0 0 1 1 2).getSigmaXY = .fin 2 := by decide!
  have h3 : narrow32 (trackAt 0 0 0 1 1 2).getSigma2Y = .fin 1 := by decide!
  have h4 : ¬ PosDef2 1 2 1 := by
    rw [posDef2_iff]
    norm_num
  have h5 : ¬ ((1 : ℚ) < 0 ∧ (floatDetXY (trackAt 0 0 0 1 1 2)).isPos = true) := by
    intro h
    exact absurd h.1 (by norm_num)
  ⟨h1, h2, h3, h4, h5,
    ((FwdTrackCovI_setFloat_rejects_nonPosDef covI_1_1_09 (trackAt 0 0 0 1 1 2) 5).1 1 2 1
      h1 h2 h3).1 h4 |>.mpr h5⟩

/-! ### What raises a failure, with `FwdTrackCovI::set` in single precision -/

section EscalationFloat

open FwdDCAFitterN

variable {N : Nat}

/-- The prong loop that opens `minimizeChi2` throws exactly when the
comparison `detXY > 0.` of the single-precision determinant fails for the
planar covariance of some prong at the vertex z, and throws nothing but
"invalid track covariance". -/
theorem minimizeChi2PrepareFloat_error_iff (ext : External N) (s : FwdDCAFitterN N) :
    (minimizeChi2PrepareFloat ext s = .error "invalid track covariance"
      ↔ ∃ i < N, (floatDetAtVertex ext s i).isPos = false)
    ∧ (∀ e, minimizeChi2PrepareFloat ext s = .error e → e = "invalid track covariance") := by
  unfold minimizeChi2PrepareFloat
  refine forDownM_error_iff "invalid track covariance" _
    (fun i t => (floatDetAtVertex ext t i).isPos = false)
    (fun i t => ?_) (fun i t t' j hok => ?_) N s
  · dsimp only
    have hc := FwdTrackCovI_setFloat_cases (t.mTrcEInv t.mCurHyp i)
      (ext.propagateToZlinear (t.mOrigTrPtr i) (t.mPCA t.mCurHyp 2)) ZerrFactor
    have htr : upd2 (upd2 t.mCandTr t.mCurHyp i (t.mOrigTrPtr i)) t.mCurHyp i
        (ext.propagateToZlinear (upd2 t.mCandTr t.mCurHyp i (t.mOrigTrPtr i) t.mCurHyp i)
          (t.mPCA t.mCurHyp 2)) t.mCurHyp i
        = ext.propagateToZlinear (t.mOrigTrPtr i) (t.mPCA t.mCurHyp 2) := by
      simp [upd2]
    rw [htr]
    by_cases hd : (floatDetAtVertex ext t i).isPos = false
    · rw [hc.2 hd]
      exact ⟨⟨fun _ => hd, fun _ => rfl⟩, fun e h => by cases h; rfl⟩
    · rw [hc.1 ((Bool.not_eq_false _).mp hd)]
      exact ⟨⟨fun h => Except.noConfusion h, fun h => absurd h hd⟩,
        fun e h => Except.noConfusion h⟩
  · dsimp only at hok
    split at hok
    · injection hok with hok
      rw [← hok]
      exact Iff.rfl
    · cases hok

/-- The weighted minimiser throws exactly when its first loop does. -/
theorem minimizeChi2Float_error_iff (ext : External N) (s : FwdDCAFitterN N) (e : String) :
    minimizeChi2Float ext s = .error e ↔ minimizeChi2PrepareFloat ext s = .error e := by
  unfold minimizeChi2Float
  cases minimizeChi2PrepareFloat ext s with
  | error e' => simp
  | ok s1 =>
    dsimp only
    split_ifs
    · simp
    · simp
    · generalize minimizeChi2Loop ext (loopFuel (FwdcalcTrackResiduals (FwdcalcPCA
        (FwdcalcPCACoefs s1).2))) (FwdcalcChi2 (FwdcalcTrackResiduals (FwdcalcPCA
        (FwdcalcPCACoefs s1).2))) (FwdcalcTrackResiduals (FwdcalcPCA (FwdcalcPCACoefs s1).2)) = r
      obtain ⟨o, s4⟩ := r
      cases o <;> simp

/-- In the absolute-distance mode, where `FwdTrackCovI::set` is not called, the
treatment of a seed is the one of the exact model. -/
theorem processCrossingFloat_abs (ext : External N) (ic : Nat) (s : FwdDCAFitterN N)
    (hu : s.mUseAbsDCA = true) : processCrossingFloat ext ic s = processCrossing ext ic s := by
  have hs : (seedCrossing ext ic s).mUseAbsDCA = true := hu
  unfold processCrossingFloat processCrossing
  split
  · rfl
  · dsimp only
    rw [if_pos hs, if_pos hs]

/-- The first loop of `minimizeChi2` writes no member of `cfg`. -/
theorem cfg_minimizeChi2PrepareFloat (ext : External N) (s s' : FwdDCAFitterN N)
    (h : minimizeChi2PrepareFloat ext s = .ok s') : cfg s' = cfg s := by
  unfold minimizeChi2PrepareFloat at h
  refine forDownM_preserves cfg _ (fun i t t' ht => ?_) _ _ _ h
  dsimp only at ht
  split at ht
  · injection ht with ht
    rw [← ht]
    rfl
  · cases ht

/-- A returning call of the weighted minimiser writes no member of `ctl`. -/
theorem ctl_minimizeChi2Float (ext : External N) (s : FwdDCAFitterN N)
    (r : Bool × FwdDCAFitterN N) (h : minimizeChi2Float ext s = .ok r) : ctl r.2 = ctl s := by
  unfold minimizeChi2Float at h
  split at h
  · cases h
  · rename_i s1 hp
    have h1 := ctl_of_cfg (cfg_minimizeChi2PrepareFloat ext s s1 hp)
    dsimp only at h
    split at h
    · injection h with h
      rw [← h]
      exact h1
    · have h2 : ctl (FwdcalcPCACoefs s1).2 = ctl s := (ctl_of_cfg (cfg_FwdcalcPCACoefs s1)).trans h1
      split at h
      · injection h with h
        rw [← h]
        exact h2
      · have h3 : ctl (FwdcalcTrackResiduals (FwdcalcPCA (FwdcalcPCACoefs s1).2)) = ctl s := by
          rw [ctl_of_cfg (cfg_FwdcalcTrackResiduals _), ctl_of_cfg (cfg_FwdcalcPCA _)]; exact h2
        have h4 := ctl_minimizeChi2Loop ext
          (loopFuel (FwdcalcTrackResiduals (FwdcalcPCA (FwdcalcPCACoefs s1).2)))
          (FwdcalcChi2 (FwdcalcTrackResiduals (FwdcalcPCA (FwdcalcPCACoefs s1).2)))
          (FwdcalcTrackResiduals (FwdcalcPCA (FwdcalcPCACoefs s1).2))
        split at h
        · rename_i s4 hl
          rw [hl] at h4
          injection h with h
          rw [← h]
          exact h4.trans h3
        · rename_i c s4 hl
          rw [hl] at h4
          injection h with h
          rw [← h, ← h3, ← h4]
          simp only [ctl, Prod.mk.injEq, true_and]
          funext k
          by_cases hk : k = s4.mCurHyp <;> simp [upd, hk]

/-- A returning pass of the crossing loop leaves the crossing set, the radius
and the two mode switches alone. -/
theorem processCrossingFloat_step (ext : External N) (ic : Nat) (s s' : FwdDCAFitterN N)
    (h : processCrossingFloat ext ic s = .ok s') :
    s'.mCrossings = s.mCrossings ∧ s'.mMaxR2 = s.mMaxR2 ∧ s'.mUseAbsDCA = s.mUseAbsDCA
    ∧ s'.mPropagateToPCA = s.mPropagateToPCA := by
  cases hu : s.mUseAbsDCA with
  | true =>
    rw [processCrossingFloat_abs ext ic s hu] at h
    obtain ⟨q1, q2, q3, q4, _⟩ := processCrossing_step ext ic s s' h
    exact ⟨q1, q2, q3.trans hu, q4⟩
  | false =>
    unfold processCrossingFloat at h
    split at h
    · injection h with h
      subst h
      exact ⟨rfl, rfl, hu, rfl⟩
    · obtain ⟨_, _, a3, a4, a5, a6, _⟩ := ctl_eq_parts (ctl_seedCrossing ext ic s)
      have hs : (seedCrossing ext ic s).mUseAbsDCA = false := a5.trans hu
      dsimp only at h
      rw [hs] at h
      simp only [Bool.false_eq_true, if_false] at h
      split at h
      · rename_i r hr
        injection h with h
        obtain ⟨_, _, b3, b4, b5, b6, _⟩ := ctl_eq_parts (ctl_minimizeChi2Float ext _ r hr)
        have key : (acceptCrossing ext r).mCrossings = r.2.mCrossings
            ∧ (acceptCrossing ext r).mMaxR2 = r.2.mMaxR2
            ∧ (acceptCrossing ext r).mUseAbsDCA = r.2.mUseAbsDCA
            ∧ (acceptCrossing ext r).mPropagateToPCA = r.2.mPropagateToPCA := by
          cases hb : r.1 with
          | false =>
            rw [acceptCrossing_false ext r hb]
            exact ⟨rfl, rfl, rfl, rfl⟩
          | true =>
            obtain ⟨_, _, c3, c4, c5, c6, _⟩ := acceptCrossing_true ext r hb
            exact ⟨c3, c4, c5, c6⟩
        rw [h] at key
        exact ⟨key.1.trans (b3.trans a3), key.2.1.trans (b4.trans a4),
          (key.2.2.1.trans (b5.trans a5)).trans hu, key.2.2.2.trans (b6.trans a6)⟩
      · cases h

/-- The fuel of the crossing loop is never exhausted: any number of passes that
covers the seeds still to visit gives the same result. -/
theorem crossingLoopFloat_fuel (ext : External N) :
    ∀ (fuel fuel' ic : Nat) (s : FwdDCAFitterN N),
      s.mCrossings.nDCA.toNat - ic ≤ fuel → s.mCrossings.nDCA.toNat - ic ≤ fuel' →
      crossingLoopFloat ext fuel ic s = crossingLoopFloat ext fuel' ic s := by
  have stop : ∀ (m ic : Nat) (s : FwdDCAFitterN N), s.mCrossings.nDCA.toNat - ic ≤ 0 →
      crossingLoopFloat ext m ic s = .ok s := by
    intro m ic s h
    cases m with
    | zero => rfl
    | succ m =>
      rw [crossingLoopFloat, if_neg (by omega)]
  intro fuel
  induction fuel with
  | zero =>
    intro fuel' ic s h _
    rw [stop 0 ic s h, stop fuel' ic s h]
  | succ n ih =>
    intro fuel' ic s h h'
    cases fuel' with
    | zero => rw [stop (n + 1) ic s h', stop 0 ic s h']
    | succ m =>
      rw [crossingLoopFloat, crossingLoopFloat]
      split
      · cases hp : processCrossingFloat ext ic s with
        | error e => rfl
        | ok s1 =>
          have hc := (processCrossingFloat_step ext ic s s1 hp).1
          dsimp only
          exact ih m (ic + 1) s1 (by rw [hc]; omega) (by rw [hc]; omega)
      · rfl

/-- In the absolute-distance mode the crossing loop is the one of the exact
model. -/
theorem crossingLoopFloat_abs (ext : External N) :
    ∀ (fuel ic : Nat) (s : FwdDCAFitterN N), s.mUseAbsDCA = true →
      crossingLoopFloat ext fuel ic s = crossingLoop ext fuel ic s := by
  intro fuel
  induction fuel with
  | zero => intro ic s _; rfl
  | succ n ih =>
    intro ic s hu
    rw [crossingLoopFloat, crossingLoop, processCrossingFloat_abs ext ic s hu]
    split
    · cases hp : processCrossing ext ic s with
      | error e => rfl
      | ok s1 =>
        dsimp only
        exact ih (ic + 1) s1 ((processCrossing_step ext ic s s1 hp).2.2.1.trans hu)
    · rfl

/-- The call `process(args...)`, by its parts. -/
theorem processFloat_eq (ext : External N) (args : Nat → Track) (s : FwdDCAFitterN N) :
    processFloat ext args s =
      match crossingLoopFloat ext (processEntry args s).mCrossings.nDCA.toNat 0
        (processEntry args s) with
      | .error e => .error e
      | .ok s4 => .ok ((orderCandidates s4).mCurHyp, orderCandidates s4) := rfl

/-- In the absolute-distance mode `process` is the one of the exact model. -/
theorem processFloat_abs (ext : External N) (args : Nat → Track) (s : FwdDCAFitterN N)
    (hu : s.mUseAbsDCA = true) : processFloat ext args s = process ext args s := by
  rw [processFloat_eq,
    crossingLoopFloat_abs ext _ 0 _ ((processEntry_spec args s).2.2.2.1.trans hu)]
  exact (process_eq ext args s).symm

/-- C26, as the code has it: in the weighted mode, the treatment of a seed
within the radius raises "invalid track covariance" exactly when, for some
prong propagated to the z of the seed, the comparison `detXY > 0.` fails for
the determinant that `FwdTrackCovI::set` computes in single precision from the
narrowed covariance terms; a raised failure ends the crossing loop of `process`
with this failure (in particular when the first seed is within the radius and
some prong has such a covariance there, `process` raises instead of returning
a count); nothing else raises: a failure of `process` is always "invalid track
covariance" and comes from the weighted mode, and in the absolute-distance
mode, where the covariances are not examined, `process` always returns a
count. -/
theorem invalid_covariance_escalated_float (ext : External N) :
    (∀ (ic : Nat) (s : FwdDCAFitterN N), s.mUseAbsDCA = false →
      s.mCrossings.xDCA ic * s.mCrossings.xDCA ic
        + s.mCrossings.yDCA ic * s.mCrossings.yDCA ic ≤ s.mMaxR2 →
      (processCrossingFloat ext ic s = .error "invalid track covariance"
        ↔ ∃ i < N, (floatDetAtVertex ext (seedCrossing ext ic s) i).isPos = false))
    ∧ (∀ (ic : Nat) (s : FwdDCAFitterN N) (e : String), processCrossingFloat ext ic s = .error e →
      e = "invalid track covariance" ∧ s.mUseAbsDCA = false
      ∧ ∃ i < N, (floatDetAtVertex ext (seedCrossing ext ic s) i).isPos = false)
    ∧ (∀ (fuel ic : Nat) (s : FwdDCAFitterN N) (e : String), (ic : Int) < s.mCrossings.nDCA →
      processCrossingFloat ext ic s = .error e →
      crossingLoopFloat ext (fuel + 1) ic s = .error e)
    ∧ (∀ (args : Nat → Track) (s : FwdDCAFitterN N), s.mUseAbsDCA = false →
      0 < (mergeSeeds s).mCrossings.nDCA →
      (mergeSeeds s).mCrossings.xDCA 0 * (mergeSeeds s).mCrossings.xDCA 0
        + (mergeSeeds s).mCrossings.yDCA 0 * (mergeSeeds s).mCrossings.yDCA 0 ≤ s.mMaxR2 →
      (∃ i < N,
        (floatDetAtVertex ext (seedCrossing ext 0 (processEntry args s)) i).isPos = false) →
      processFloat ext args s = .error "invalid track covariance")
    ∧ (∀ (args : Nat → Track) (s : FwdDCAFitterN N) (e : String),
      processFloat ext args s = .error e → e = "invalid track covariance" ∧ s.mUseAbsDCA = false)
    ∧ (∀ (args : Nat → Track) (s : FwdDCAFitterN N), s.mUseAbsDCA = true →
      ∃ c s', processFloat ext args s = .ok (c, s')) := by
  have h2 : ∀ (ic : Nat) (s : FwdDCAFitterN N) (e : String),
      processCrossingFloat ext ic s = .error e →
      e = "invalid track covariance" ∧ s.mUseAbsDCA = false
      ∧ ¬ (s.mCrossings.xDCA ic * s.mCrossings.xDCA ic
        + s.mCrossings.yDCA ic * s.mCrossings.yDCA ic > s.mMaxR2)
      ∧ ∃ i < N, (floatDetAtVertex ext (seedCrossing ext ic s) i).isPos = false := by
    intro ic s e h
    have hs : (seedCrossing ext ic s).mUseAbsDCA = s.mUseAbsDCA := rfl
    unfold processCrossingFloat at h
    split at h
    · cases h
    · rename_i hr
      dsimp only at h
      rw [hs] at h
      cases hu : s.mUseAbsDCA with
      | true =>
        rw [hu] at h
        simp at h
      | false =>
        rw [hu] at h
        simp only [Bool.false_eq_true, if_false] at h
        cases hm : minimizeChi2Float ext (seedCrossing ext ic s) with
        | ok r => rw [hm] at h; cases h
        | error e' =>
          rw [hm] at h
          simp only [Except.error.injEq] at h
          subst h
          have hp := (minimizeChi2Float_error_iff ext _ _).mp hm
          obtain ⟨p1, p2⟩ := minimizeChi2PrepareFloat_error_iff ext (seedCrossing ext ic s)
          have he := p2 _ hp
          subst he
          exact ⟨rfl, rfl, hr, p1.mp hp⟩
  have h1 : ∀ (ic : Nat) (s : FwdDCAFitterN N), s.mUseAbsDCA = false →
      s.mCrossings.xDCA ic * s.mCrossings.xDCA ic
        + s.mCrossings.yDCA ic * s.mCrossings.yDCA ic ≤ s.mMaxR2 →
      (processCrossingFloat ext ic s = .error "invalid track covariance"
        ↔ ∃ i < N, (floatDetAtVertex ext (seedCrossing ext ic s) i).isPos = false) := by
    intro ic s hw hr
    refine ⟨fun h => (h2 ic s _ h).2.2.2, fun h => ?_⟩
    have hs : (seedCrossing ext ic s).mUseAbsDCA = false := hw
    have hp := (minimizeChi2Float_error_iff ext (seedCrossing ext ic s) _).mpr
      ((minimizeChi2PrepareFloat_error_iff ext (seedCrossing ext ic s)).1.mpr h)
    unfold processCrossingFloat
    rw [if_neg (not_lt.mpr hr)]
    dsimp only
    rw [hs, hp]
    rfl
  have h3 : ∀ (fuel ic : Nat) (s : FwdDCAFitterN N) (e : String), (ic : Int) < s.mCrossings.nDCA →
      processCrossingFloat ext ic s = .error e →
      crossingLoopFloat ext (fuel + 1) ic s = .error e := by
    intro fuel ic s e hlt h
    rw [crossingLoopFloat, if_pos hlt, h]
  have h5 : ∀ (fuel ic : Nat) (s : FwdDCAFitterN N) (e : String),
      crossingLoopFloat ext fuel ic s = .error e → e = "invalid track covariance" := by
    intro fuel
    induction fuel with
    | zero => intro ic s e h; simp [crossingLoopFloat] at h
    | succ n ih =>
      intro ic s e h
      rw [crossingLoopFloat] at h
      split at h
      · cases hp : processCrossingFloat ext ic s with
        | error e' =>
          rw [hp] at h
          simp only [Except.error.injEq] at h
          subst h
          exact (h2 ic s _ hp).1
        | ok s1 =>
          rw [hp] at h
          exact ih (ic + 1) s1 e h
      · cases h
  have h6 : ∀ (args : Nat → Track) (s : FwdDCAFitterN N), s.mUseAbsDCA = true →
      ∃ c s', processFloat ext args s = .ok (c, s') := by
    intro args s hu
    rw [processFloat_abs ext args s hu]
    exact process_abs_returns ext args s hu
  refine ⟨h1, fun ic s e h => ⟨(h2 ic s e h).1, (h2 ic s e h).2.1, (h2 ic s e h).2.2.2⟩, h3,
    fun args s hw hn hr hbad => ?_, fun args s e h => ⟨?_, ?_⟩, h6⟩
  · obtain ⟨_, _, _, e4, _, e6⟩ := processEntry_spec args s
    have e7 : (processEntry args s).mMaxR2 = s.mMaxR2 := (process_entry args s _ rfl).2.2.1
    have hpcr : processCrossingFloat ext 0 (processEntry args s)
        = .error "invalid track covariance" :=
      (h1 0 _ (e4.trans hw) (by rw [e6, e7]; exact hr)).mpr hbad
    rw [processFloat_eq]
    obtain ⟨m, hm⟩ : ∃ m, (processEntry args s).mCrossings.nDCA.toNat = m + 1 := by
      rw [e6]
      exact ⟨(mergeSeeds s).mCrossings.nDCA.toNat - 1, by omega⟩
    rw [hm, h3 m 0 _ _ (by rw [e6]; exact_mod_cast hn) hpcr]
  · rw [processFloat_eq] at h
    cases hl : crossingLoopFloat ext (processEntry args s).mCrossings.nDCA.toNat 0
      (processEntry args s) with
    | error e' =>
      rw [hl] at h
      simp only [Except.error.injEq] at h
      subst h
      exact h5 _ _ _ _ hl
    | ok s4 => rw [hl] at h; cases h
  · cases hu : s.mUseAbsDCA with
    | false => rfl
    | true =>
      obtain ⟨c, s', hc⟩ := h6 args s hu
      rw [hc] at h
      cases h

set_option maxRecDepth 100000 in
/-- Witness for C26: the weighted fitter `twoSeedWeightedFitter` with the tracks
`nearSingularTracks` has its first seed within the radius; the planar
covariance of the first prong there has the positive determinant
`1 - 0.99999999^2` and the single-precision determinant 0, and `process` raises
"invalid track covariance". -/
theorem invalid_covariance_escalated_float_witness :
    twoSeedWeightedFitter.mUseAbsDCA = false
    ∧ 0 < (mergeSeeds twoSeedWeightedFitter).mCrossings.nDCA
    ∧ (mergeSeeds twoSeedWeightedFitter).mCrossings.xDCA 0
          * (mergeSeeds twoSeedWeightedFitter).mCrossings.xDCA 0
        + (mergeSeeds twoSeedWeightedFitter).mCrossings.yDCA 0
          * (mergeSeeds twoSeedWeightedFitter).mCrossings.yDCA 0
        ≤ twoSeedWeightedFitter.mMaxR2
    ∧ 0 < covDetAtVertex (linearExt 2)
        (seedCrossing (linearExt 2) 0 (processEntry nearSingularTracks twoSeedWeightedFitter)) 0
    ∧ floatDetAtVertex (linearExt 2)
        (seedCrossing (linearExt 2) 0 (processEntry nearSingularTracks twoSeedWeightedFitter)) 0
        = .fin 0
    ∧ processFloat (linearExt 2) nearSingularTracks twoSeedWeightedFitter
        = .error "invalid track covariance" :=
  ⟨rfl, by decide!, by decide!, by decide!, by decide!,
    (invalid_covariance_escalated_float (linearExt 2)).2.2.2.1 nearSingularTracks
      twoSeedWeightedFitter rfl (by decide!) (by decide!) ⟨0, by decide, by decide!⟩⟩

end EscalationFloat
end o2.vertexing
